import Mathlib

/-!
# Render-coverage bitmap of `Engine/Image.cpp`

A shallow embedding of the `Bitmap` queries of Natron's image cache
(`minimalNonMarkedBbox_internal`, `minimalNonMarkedRects_internal`, their public
wrappers, and the bulk writes `markForRendered` / `markForRendering` / `clear`),
followed by theorems about them.

Conventions of the embedding

* `int` coordinates are `Int`; map bytes (`char`) are `Nat`.
* `const char* mapStart` is the byte buffer, a `List Nat`; a pointer into it is the
  signed offset from `mapStart`, so `BM_GET(i, j)` is an `Int`.
* The template parameter `<int trimap>` is a `Bool` argument.
* The out-parameter `bool* isBeingRenderedElsewhere` is threaded as a `Bool`: the
  functions take the value the caller stored in it and return the value it holds on
  return. The non-trimap instantiations receive `NULL` and never write through it.
* Every C++ loop is a structurally recursive function on a fuel that is the number
  of iterations the loop can make at most; the loop test is kept in the body.
* `assert`s are not executed (release build); they appear as hypotheses of theorems.
-/

namespace Natron

/-- Modelled from the spec: the integer rectangle `RectI` (its header `Engine/RectI.h`
is not among the sources). A rectangle is half-open on both axes, `[x1,x2) × [y1,y2)`;
the default-constructed rectangle is `(0,0,0,0)`. -/
structure RectI where
  x1 : Int
  y1 : Int
  x2 : Int
  y2 : Int
deriving DecidableEq, Repr

namespace RectI

/-- Modelled from the spec: the default constructor `RectI()`, the empty rectangle at the
origin. -/
def zero : RectI := ⟨0, 0, 0, 0⟩

/-- Modelled from the spec: `left()` is `x1`. -/
def left (r : RectI) : Int := r.x1

/-- Modelled from the spec: `bottom()` is `y1`. -/
def bottom (r : RectI) : Int := r.y1

/-- Modelled from the spec: `right()` is `x2`. -/
def right (r : RectI) : Int := r.x2

/-- Modelled from the spec: `top()` is `y2`. -/
def top (r : RectI) : Int := r.y2

/-- Modelled from the spec: width = x2 − x1. -/
def width (r : RectI) : Int := r.x2 - r.x1

/-- Modelled from the spec: height = y2 − y1. -/
def height (r : RectI) : Int := r.y2 - r.y1

/-- Modelled from the spec: `isNull()`, the rectangle is empty (no width or no height). -/
def isNull (r : RectI) : Bool := decide (r.x2 ≤ r.x1) || decide (r.y2 ≤ r.y1)

/-- Modelled from the spec: `r.contains(other)`, coordinate-wise containment of `other`
in `r`. -/
def contains (r other : RectI) : Bool :=
  decide (r.x1 ≤ other.x1) && decide (r.y1 ≤ other.y1) &&
  decide (other.x2 ≤ r.x2) && decide (other.y2 ≤ r.y2)

/-- Modelled from the spec: `r.intersects(other)`, the two rectangles share a pixel. -/
def intersects (r other : RectI) : Bool :=
  !(r.isNull || other.isNull) &&
  !(decide (other.x2 ≤ r.x1) || decide (r.x2 ≤ other.x1) ||
    decide (other.y2 ≤ r.y1) || decide (r.y2 ≤ other.y1))

/-- Modelled from the spec: `r.intersect(other, &out)`. `none` is the return value `false`
(the output rectangle is then left untouched), `some i` is `true` with the
intersection `i` written to the output. -/
def intersect (r other : RectI) : Option RectI :=
  if r.intersects other then
    some ⟨max r.x1 other.x1, max r.y1 other.y1, min r.x2 other.x2, min r.y2 other.y2⟩
  else none

/-- Modelled from the spec: `set_top(v)` writes `y2`. -/
def set_top (r : RectI) (v : Int) : RectI := { r with y2 := v }

/-- Modelled from the spec: `set_bottom(v)` writes `y1`. -/
def set_bottom (r : RectI) (v : Int) : RectI := { r with y1 := v }

/-- Modelled from the spec: `set_left(v)` writes `x1`. -/
def set_left (r : RectI) (v : Int) : RectI := { r with x1 := v }

/-- Modelled from the spec: `set_right(v)` writes `x2`. -/
def set_right (r : RectI) (v : Int) : RectI := { r with x2 := v }

/-- The pixel `(x, y)` lies in the half-open rectangle `r`. -/
def hasPixel (r : RectI) (x y : Int) : Prop :=
  r.x1 ≤ x ∧ x < r.x2 ∧ r.y1 ≤ y ∧ y < r.y2

instance (r : RectI) (x y : Int) : Decidable (r.hasPixel x y) := by
  unfold hasPixel; infer_instance

end RectI

/-- `#define PIXEL_UNAVAILABLE 2`. -/
def PIXEL_UNAVAILABLE : Nat := 2

/-- Dereference `*(mapStart + off)`. A read outside the buffer is undefined in C++;
here it yields 0. -/
def peek (mapStart : List Nat) (off : Int) : Nat :=
  if 0 ≤ off then mapStart.getD off.toNat 0 else 0

/-- The macro `BM_GET(i, j)`, as an offset from `mapStart`: row `i`, column `j`. -/
def BM_GET (_bounds : RectI) (i j : Int) : Int :=
  (i - _bounds.bottom) * _bounds.width + (j - _bounds.left)

/-- The byte of pixel `(x, y)` as the queries read it. -/
def pixelAt (_bounds : RectI) (mapStart : List Nat) (x y : Int) : Nat :=
  peek mapStart (BM_GET _bounds y x)

/-! ## The row and column scans of `minimalNonMarkedBbox_internal`

Each scan returns `(ok, met)`: `ok` is false when the scan pointer was set to 0
(the scan broke), `met` is `metUnavailablePixel`. -/

/-- The trimap row scan (lines 62-72): `n` bytes from `buf`; breaks on a zero byte. -/
def rowScanTrimap (mapStart : List Nat) : Nat → Int → Bool → Bool × Bool
  | 0, _, met => (true, met)
  | n + 1, buf, met =>
    if peek mapStart buf = 0 then (false, met)
    else if peek mapStart buf = PIXEL_UNAVAILABLE then rowScanTrimap mapStart n (buf + 1) true
    else rowScanTrimap mapStart n (buf + 1) met

/-- The non-trimap row scan (lines 82-89): breaks on a zero byte or on `PIXEL_UNAVAILABLE`. -/
def rowScanPlain (mapStart : List Nat) : Nat → Int → Bool
  | 0, _ => true
  | n + 1, buf =>
    if peek mapStart buf = 0 ∨ peek mapStart buf = PIXEL_UNAVAILABLE then false
    else rowScanPlain mapStart n (buf + 1)

/-- One row test of the bottom and top passes (lines 59-95): the row `i` of `bbox`. -/
def rowScan (trimap : Bool) (_bounds : RectI) (mapStart : List Nat) (bbox : RectI) (i : Int) :
    Bool × Bool :=
  if trimap then rowScanTrimap mapStart bbox.width.toNat (BM_GET _bounds i bbox.left) false
  else (rowScanPlain mapStart bbox.width.toNat (BM_GET _bounds i bbox.left), false)

/-- The column scan of the left and right passes (lines 149-161): `n` bytes from `pix`,
`stride` apart. -/
def colScan (trimap : Bool) (mapStart : List Nat) (stride : Int) : Nat → Int → Bool → Bool × Bool
  | 0, _, met => (true, met)
  | n + 1, pix, met =>
    if peek mapStart pix = 0 then (false, met)
    else if peek mapStart pix = PIXEL_UNAVAILABLE then
      if trimap then colScan trimap mapStart stride n (pix + stride) true
      else (false, met)
    else colScan trimap mapStart stride n (pix + stride) met

/-- One column test of the left and right passes: the column `j` of `bbox`. -/
def colTest (trimap : Bool) (_bounds : RectI) (mapStart : List Nat) (bbox : RectI) (j : Int) :
    Bool × Bool :=
  colScan trimap mapStart _bounds.width (bbox.top - bbox.bottom).toNat
    (BM_GET _bounds bbox.bottom j) false

/-! ## The four passes of `minimalNonMarkedBbox_internal` -/

/-- The loop "find bottom" (lines 58-96), from loop variable `i`. -/
def findBottom (trimap : Bool) (_bounds : RectI) (mapStart : List Nat) :
    Nat → Int → RectI → Bool → RectI × Bool
  | 0, _, bbox, flag => (bbox, flag)
  | fuel + 1, i, bbox, flag =>
    if i < bbox.top then
      match rowScan trimap _bounds mapStart bbox i with
      | (false, _) => (bbox, flag)
      | (true, met) =>
        findBottom trimap _bounds mapStart fuel (i + 1) { bbox with y1 := bbox.y1 + 1 }
          (if trimap && met then true else flag)
    else (bbox, flag)

/-- The loop "find top" (lines 99-137), from loop variable `i`. -/
def findTop (trimap : Bool) (_bounds : RectI) (mapStart : List Nat) :
    Nat → Int → RectI → Bool → RectI × Bool
  | 0, _, bbox, flag => (bbox, flag)
  | fuel + 1, i, bbox, flag =>
    if i ≥ bbox.bottom then
      match rowScan trimap _bounds mapStart bbox i with
      | (false, _) => (bbox, flag)
      | (true, met) =>
        findTop trimap _bounds mapStart fuel (i - 1) { bbox with y2 := bbox.y2 - 1 }
          (if trimap && met then true else flag)
    else (bbox, flag)

/-- The loop "find left" (lines 145-170), from loop variable `j`. -/
def findLeft (trimap : Bool) (_bounds : RectI) (mapStart : List Nat) :
    Nat → Int → RectI → Bool → RectI × Bool
  | 0, _, bbox, flag => (bbox, flag)
  | fuel + 1, j, bbox, flag =>
    if j < bbox.right then
      match colTest trimap _bounds mapStart bbox j with
      | (false, _) => (bbox, flag)
      | (true, met) =>
        findLeft trimap _bounds mapStart fuel (j + 1) { bbox with x1 := bbox.x1 + 1 }
          (if trimap && met then true else flag)
    else (bbox, flag)

/-- The loop "find right" (lines 173-198), from loop variable `j`. -/
def findRight (trimap : Bool) (_bounds : RectI) (mapStart : List Nat) :
    Nat → Int → RectI → Bool → RectI × Bool
  | 0, _, bbox, flag => (bbox, flag)
  | fuel + 1, j, bbox, flag =>
    if j ≥ bbox.left then
      match colTest trimap _bounds mapStart bbox j with
      | (false, _) => (bbox, flag)
      | (true, met) =>
        findRight trimap _bounds mapStart fuel (j - 1) { bbox with x2 := bbox.x2 - 1 }
          (if trimap && met then true else flag)
    else (bbox, flag)

/-- The function `minimalNonMarkedBbox_internal<trimap>` (lines 45-201). Returns the
bounding box and the final value of `*isBeingRenderedElsewhere`. -/
def minimalNonMarkedBbox_internal (trimap : Bool) (roi _bounds : RectI) (mapStart : List Nat)
    (isBeingRenderedElsewhere : Bool) : RectI × Bool :=
  let bbox := roi
  let (bbox, flag) := findBottom trimap _bounds mapStart (bbox.top - bbox.bottom).toNat
    bbox.bottom bbox isBeingRenderedElsewhere
  let (bbox, flag) := findTop trimap _bounds mapStart (bbox.top - bbox.bottom).toNat
    (bbox.top - 1) bbox flag
  if bbox.isNull then (bbox, flag)
  else
    let (bbox, flag) := findLeft trimap _bounds mapStart (bbox.right - bbox.left).toNat
      bbox.left bbox flag
    let (bbox, flag) := findRight trimap _bounds mapStart (bbox.right - bbox.left).toNat
      (bbox.right - 1) bbox flag
    (bbox, flag)

/-! ## The border strips of `minimalNonMarkedRects_internal`

The scans below return `(ok, met)` as above: `ok` is false when the scan pointer
was set to 0, `met` is `metUnavailablePixel`. -/

/-- The trimap row scan of the strips A and B (lines 286-298): breaks on a byte 1 and on
`PIXEL_UNAVAILABLE`. -/
def stripRowTrimap (mapStart : List Nat) : Nat → Int → Bool × Bool
  | 0, _ => (true, false)
  | n + 1, buf =>
    if peek mapStart buf = 1 then (false, false)
    else if peek mapStart buf = PIXEL_UNAVAILABLE then (false, true)
    else stripRowTrimap mapStart n (buf + 1)

/-- The libc function `memchr(buf, c, n)`: the offset of the first byte equal to `c`
among the `n` bytes from `buf`, or `none` (NULL). -/
def memchr (mapStart : List Nat) (c : Nat) : Nat → Int → Option Int
  | 0, _ => none
  | n + 1, buf =>
    if peek mapStart buf = c then some buf else memchr mapStart c n (buf + 1)

/-- One row test of the strips A and B (lines 284-315): the row `i` of `bboxX`. -/
def stripRow (trimap : Bool) (_bounds : RectI) (mapStart : List Nat) (bboxX : RectI) (i : Int) :
    Bool × Bool :=
  if trimap then stripRowTrimap mapStart bboxX.width.toNat (BM_GET _bounds i bboxX.left)
  else ((memchr mapStart 1 bboxX.width.toNat (BM_GET _bounds i bboxX.left)).isNone, false)

/-- The column scan of the strips C and D (lines 372-381). -/
def stripColScan (trimap : Bool) (mapStart : List Nat) (stride : Int) : Nat → Int → Bool × Bool
  | 0, _ => (true, false)
  | n + 1, pix =>
    if peek mapStart pix = 1 then (false, false)
    else if trimap && decide (peek mapStart pix = PIXEL_UNAVAILABLE) then (false, true)
    else stripColScan trimap mapStart stride n (pix + stride)

/-- One column test of the strips C and D: the column `j` of `bboxX`. -/
def stripCol (trimap : Bool) (_bounds : RectI) (mapStart : List Nat) (bboxX : RectI) (j : Int) :
    Bool × Bool :=
  stripColScan trimap mapStart _bounds.width (bboxX.top - bboxX.bottom).toNat
    (BM_GET _bounds bboxX.bottom j)

/-- The loop that grows the strip A (lines 283-316). State: `bboxX`, `bboxA`, the flag. -/
def findA (trimap : Bool) (_bounds : RectI) (mapStart : List Nat) :
    Nat → Int → RectI → RectI → Bool → RectI × RectI × Bool
  | 0, _, bboxX, bboxA, flag => (bboxX, bboxA, flag)
  | fuel + 1, i, bboxX, bboxA, flag =>
    if i < bboxX.top then
      match stripRow trimap _bounds mapStart bboxX i with
      | (true, _) =>
        findA trimap _bounds mapStart fuel (i + 1) { bboxX with y1 := bboxX.y1 + 1 }
          { bboxA with y2 := bboxX.y1 + 1 } flag
      | (false, met) => (bboxX, bboxA, if met then true else flag)
    else (bboxX, bboxA, flag)

/-- The loop that grows the strip B (lines 325-359). -/
def findB (trimap : Bool) (_bounds : RectI) (mapStart : List Nat) :
    Nat → Int → RectI → RectI → Bool → RectI × RectI × Bool
  | 0, _, bboxX, bboxB, flag => (bboxX, bboxB, flag)
  | fuel + 1, i, bboxX, bboxB, flag =>
    if i ≥ bboxX.bottom then
      match stripRow trimap _bounds mapStart bboxX i with
      | (true, _) =>
        findB trimap _bounds mapStart fuel (i - 1) { bboxX with y2 := bboxX.y2 - 1 }
          { bboxB with y1 := bboxX.y2 - 1 } flag
      | (false, met) => (bboxX, bboxB, if met then true else flag)
    else (bboxX, bboxB, flag)

/-- The loop that grows the strip C (lines 368-391). -/
def findC (trimap : Bool) (_bounds : RectI) (mapStart : List Nat) :
    Nat → Int → RectI → RectI → Bool → RectI × RectI × Bool
  | 0, _, bboxX, bboxC, flag => (bboxX, bboxC, flag)
  | fuel + 1, j, bboxX, bboxC, flag =>
    if j < bboxX.right then
      match stripCol trimap _bounds mapStart bboxX j with
      | (true, _) =>
        findC trimap _bounds mapStart fuel (j + 1) { bboxX with x1 := bboxX.x1 + 1 }
          { bboxC with x2 := bboxX.x1 + 1 } flag
      | (false, met) => (bboxX, bboxC, if met then true else flag)
    else (bboxX, bboxC, flag)

/-- The loop that grows the strip D (lines 401-424). -/
def findD (trimap : Bool) (_bounds : RectI) (mapStart : List Nat) :
    Nat → Int → RectI → RectI → Bool → RectI × RectI × Bool
  | 0, _, bboxX, bboxD, flag => (bboxX, bboxD, flag)
  | fuel + 1, j, bboxX, bboxD, flag =>
    if j ≥ bboxX.left then
      match stripCol trimap _bounds mapStart bboxX j with
      | (true, _) =>
        findD trimap _bounds mapStart fuel (j - 1) { bboxX with x2 := bboxX.x2 - 1 }
          { bboxD with x1 := bboxX.x2 - 1 } flag
      | (false, met) => (bboxX, bboxD, if met then true else flag)
    else (bboxX, bboxD, flag)

/-- The rectangles and the flag after the peeling of lines 280-428. -/
structure Peeled where
  bboxA : RectI
  bboxB : RectI
  bboxC : RectI
  bboxD : RectI
  bboxX : RectI
  flag : Bool
deriving DecidableEq, Repr

/-- Lines 280-428 of `minimalNonMarkedRects_internal`: from `bboxM`, the strips A, B, C, D
and the interior `bboxX` before its final shrink. -/
def peel (trimap : Bool) (_bounds : RectI) (mapStart : List Nat) (bboxM : RectI)
    (isBeingRenderedElsewhere : Bool) : Peeled :=
  let bboxX := bboxM
  let bboxA := bboxX.set_top bboxX.bottom
  let (bboxX, bboxA, flag) := findA trimap _bounds mapStart (bboxX.top - bboxX.bottom).toNat
    bboxX.bottom bboxX bboxA isBeingRenderedElsewhere
  let bboxB := bboxX.set_bottom bboxX.top
  let (bboxX, bboxB, flag) := findB trimap _bounds mapStart (bboxX.top - bboxX.bottom).toNat
    (bboxX.top - 1) bboxX bboxB flag
  let bboxC := bboxX.set_right bboxX.left
  let (bboxX, bboxC, flag) :=
    if bboxX.bottom < bboxX.top then
      findC trimap _bounds mapStart (bboxX.right - bboxX.left).toNat bboxX.left bboxX bboxC flag
    else (bboxX, bboxC, flag)
  let bboxD := bboxX.set_left bboxX.right
  let (bboxX, bboxD, flag) :=
    if bboxX.bottom < bboxX.top then
      findD trimap _bounds mapStart (bboxX.right - bboxX.left).toNat (bboxX.right - 1) bboxX
        bboxD flag
    else (bboxX, bboxD, flag)
  ⟨bboxA, bboxB, bboxC, bboxD, bboxX, flag⟩

/-- The statement `if ( !r.isNull() ) ret.push_back(r);`. -/
def pushNonNull (ret : List RectI) (r : RectI) : List RectI :=
  if !r.isNull then ret ++ [r] else ret

/-- Lines 215-238 of `minimalNonMarkedRects_internal`: the out-of-bounds rectangles
left, btm, right, top pushed to `ret`. -/
def pushOutOfBounds (roi _bounds intersection : RectI) (ret : List RectI) : List RectI :=
  if roi ≠ intersection then
    let ret := if _bounds.x1 > roi.x1 ∧ _bounds.y2 > _bounds.y1 then
      ret ++ [⟨roi.x1, _bounds.y1, _bounds.x1, _bounds.y2⟩] else ret
    let ret := if roi.x2 > roi.x1 ∧ _bounds.y1 > roi.y1 then
      ret ++ [⟨roi.x1, roi.y1, roi.x2, _bounds.y1⟩] else ret
    let ret := if roi.x2 > _bounds.x2 ∧ _bounds.y2 > _bounds.y1 then
      ret ++ [⟨_bounds.x2, _bounds.y1, roi.x2, _bounds.y2⟩] else ret
    let ret := if roi.x2 > roi.x1 ∧ roi.y2 > _bounds.y2 then
      ret ++ [⟨roi.x1, _bounds.y2, roi.x2, roi.y2⟩] else ret
    ret
  else ret

/-- Lines 253-455, the branch compiled when `NATRON_BITMAP_DISABLE_OPTIMIZATION` is not
defined (the `#define` is commented out at line 247): what is pushed once `bboxM` is
known. -/
def pushInBounds (trimap : Bool) (_bounds : RectI) (mapStart : List Nat) (bboxM : RectI)
    (ret : List RectI) (flag : Bool) : List RectI × Bool :=
  if bboxM.isNull then (ret, flag)
  else
    let p := peel trimap _bounds mapStart bboxM flag
    let ret := pushNonNull ret p.bboxA
    let ret := pushNonNull ret p.bboxB
    let ret := pushNonNull ret p.bboxC
    let ret := pushNonNull ret p.bboxD
    let (bboxX, flag) := minimalNonMarkedBbox_internal trimap p.bboxX _bounds mapStart p.flag
    (pushNonNull ret bboxX, flag)

/-- The function `minimalNonMarkedRects_internal<trimap>` (lines 203-458). `ret` is the
list on entry; the result is the list and the flag on return. -/
def minimalNonMarkedRects_internal (trimap : Bool) (roi _bounds : RectI) (mapStart : List Nat)
    (ret : List RectI) (isBeingRenderedElsewhere : Bool) : List RectI × Bool :=
  let intersection := (roi.intersect _bounds).getD RectI.zero
  let ret := pushOutOfBounds roi _bounds intersection ret
  if intersection.isNull then (ret, isBeingRenderedElsewhere)
  else
    let (bboxM, flag) :=
      minimalNonMarkedBbox_internal trimap intersection _bounds mapStart isBeingRenderedElsewhere
    pushInBounds trimap _bounds mapStart bboxM ret flag

/-! ## The class `Bitmap` -/

/-- Modelled from the spec: the members of `Bitmap` (declared in `Engine/Image.h`, which
is not among the sources): the bounds, the byte buffer, and the optional restriction
rectangle ("dirty zone"). -/
structure Bitmap where
  _bounds : RectI
  _map : List Nat
  _dirtyZone : RectI
  _dirtyZoneSet : Bool
deriving DecidableEq, Repr

namespace Bitmap

/-- The method `Bitmap::minimalNonMarkedBbox` (lines 460-473). -/
def minimalNonMarkedBbox (bm : Bitmap) (roi : RectI) : RectI :=
  if bm._dirtyZoneSet then
    match roi.intersect bm._dirtyZone with
    | none => RectI.zero
    | some realRoi => (minimalNonMarkedBbox_internal false realRoi bm._bounds bm._map false).1
  else (minimalNonMarkedBbox_internal false roi bm._bounds bm._map false).1

/-- The method `Bitmap::minimalNonMarkedRects` (lines 475-488). -/
def minimalNonMarkedRects (bm : Bitmap) (roi : RectI) (ret : List RectI) : List RectI :=
  if bm._dirtyZoneSet then
    match roi.intersect bm._dirtyZone with
    | none => ret
    | some realRoi =>
      (minimalNonMarkedRects_internal false realRoi bm._bounds bm._map ret false).1
  else (minimalNonMarkedRects_internal false roi bm._bounds bm._map ret false).1

/-- The method `Bitmap::minimalNonMarkedBbox_trimap` (lines 491-507). -/
def minimalNonMarkedBbox_trimap (bm : Bitmap) (roi : RectI) (isBeingRenderedElsewhere : Bool) :
    RectI × Bool :=
  if bm._dirtyZoneSet then
    match roi.intersect bm._dirtyZone with
    | none => (RectI.zero, false)
    | some realRoi =>
      minimalNonMarkedBbox_internal true realRoi bm._bounds bm._map isBeingRenderedElsewhere
  else minimalNonMarkedBbox_internal true roi bm._bounds bm._map isBeingRenderedElsewhere

/-- The method `Bitmap::minimalNonMarkedRects_trimap` (lines 509-525). -/
def minimalNonMarkedRects_trimap (bm : Bitmap) (roi : RectI) (ret : List RectI)
    (isBeingRenderedElsewhere : Bool) : List RectI × Bool :=
  if bm._dirtyZoneSet then
    match roi.intersect bm._dirtyZone with
    | none => (ret, false)
    | some realRoi =>
      minimalNonMarkedRects_internal true realRoi bm._bounds bm._map ret isBeingRenderedElsewhere
  else minimalNonMarkedRects_internal true roi bm._bounds bm._map ret isBeingRenderedElsewhere

end Bitmap

/-- The libc call `memset(mapStart + buf, v, n)` seen from byte `k` on: the bytes at
offsets `buf ≤ k < buf + n` become `v`. A write outside the buffer is undefined in C++;
here it is dropped. -/
def memsetFrom (buf : Int) (v : Nat) (n : Int) : Int → List Nat → List Nat
  | _, [] => []
  | k, b :: bs => (if buf ≤ k ∧ k < buf + n then v else b) :: memsetFrom buf v n (k + 1) bs

/-- The libc call `memset(mapStart + buf, v, n)` on the whole buffer. -/
def memset (mapStart : List Nat) (buf : Int) (v : Nat) (n : Int) : List Nat :=
  memsetFrom buf v n 0 mapStart

/-- The row loop shared by `markForRendered`, `markForRendering` and `clear`
(lines 537-539, 552-554, 568-570): `rows` times `memset(buf, v, roiw)`, `buf += w`. -/
def fillRows (v : Nat) (w roiw : Int) : Nat → Int → List Nat → List Nat
  | 0, _, mapStart => mapStart
  | rows + 1, buf, mapStart => fillRows v w roiw rows (buf + w) (memset mapStart buf v roiw)

namespace Bitmap

/-- The body shared by the three bulk writes, with the byte written as a parameter. -/
def fill (bm : Bitmap) (roi : RectI) (v : Nat) : Bitmap :=
  ⟨bm._bounds,
   fillRows v bm._bounds.width roi.width (roi.y2 - roi.y1).toNat
     (BM_GET bm._bounds roi.bottom roi.left) bm._map,
   bm._dirtyZone, bm._dirtyZoneSet⟩

/-- The method `Bitmap::markForRendered` (lines 529-540). -/
def markForRendered (bm : Bitmap) (roi : RectI) : Bitmap := bm.fill roi 1

/-- The method `Bitmap::markForRendering` (lines 543-555). -/
def markForRendering (bm : Bitmap) (roi : RectI) : Bitmap := bm.fill roi PIXEL_UNAVAILABLE

/-- The method `Bitmap::clear` (lines 559-571). -/
def clear (bm : Bitmap) (roi : RectI) : Bitmap := bm.fill roi 0

end Bitmap

/-! ## Point reads, region copies and `swap` -/

/-- The store `*(mapStart + off) = v`. A write outside the buffer is undefined in C++; here
it is dropped. -/
def poke (mapStart : List Nat) (off : Int) (v : Nat) : List Nat :=
  memset mapStart off v 1

/-- The byte loop of `copyRowPortion` (lines 2296-2300) and of `copyBitmapPortion`
(lines 2326-2332): `n` times `*dst = *src; ++dst; ++src`, the source bytes read in
`srcMap`, the destination bytes written in `dstMap`. -/
def copyBytes (srcMap : List Nat) : Nat → Int → Int → List Nat → List Nat
  | 0, _, _, dstMap => dstMap
  | n + 1, srcCur, dstCur, dstMap =>
    copyBytes srcMap n (srcCur + 1) (dstCur + 1) (poke dstMap dstCur (peek srcMap srcCur))

/-- The row loop of `copyBitmapPortion` (lines 2322-2333): `rows` times the byte loop over
`roiw` bytes, then `srcBitmap += srcRowSize`, `dstBitmap += dstRowSize`. -/
def copyRows (srcMap : List Nat) (srcRowSize dstRowSize roiw : Int) :
    Nat → Int → Int → List Nat → List Nat
  | 0, _, _, dstMap => dstMap
  | rows + 1, srcBitmap, dstBitmap, dstMap =>
    copyRows srcMap srcRowSize dstRowSize roiw rows (srcBitmap + srcRowSize)
      (dstBitmap + dstRowSize) (copyBytes srcMap roiw.toNat srcBitmap dstBitmap dstMap)

namespace RectI

/-- Modelled from the spec: `clear()`, the rectangle becomes the empty rectangle at the
origin. -/
def clear (_r : RectI) : RectI := RectI.zero

end RectI

namespace Bitmap

/-- The method `Bitmap::getBitmapAt` (lines 582-604): the offset of the byte of `(x, y)`, or
`none` for the NULL pointer. -/
def getBitmapAt (bm : Bitmap) (x y : Int) : Option Int :=
  if x ≥ bm._bounds.left ∧ x < bm._bounds.right ∧ y ≥ bm._bounds.bottom ∧ y < bm._bounds.top then
    some (BM_GET bm._bounds y x)
  else none

/-- The method `Bitmap::copyRowPortion` (lines 2286-2301), called on `self`. The result is
`none` when the loop dereferences a NULL pointer. -/
def copyRowPortion (self : Bitmap) (x1 x2 y : Int) (other : Bitmap) : Option Bitmap :=
  match other.getBitmapAt x1 y, self.getBitmapAt x1 y with
  | some srcBitmap, some dstBitmap =>
    some ⟨self._bounds, copyBytes other._map (x2 - x1).toNat srcBitmap dstBitmap self._map,
      self._dirtyZone, self._dirtyZoneSet⟩
  | _, _ => if x2 - x1 ≤ 0 then some self else none

/-- The method `Bitmap::copyBitmapPortion` (lines 2310-2334), called on `self`. The result
is `none` when the loops dereference a NULL pointer. -/
def copyBitmapPortion (self : Bitmap) (roi : RectI) (other : Bitmap) : Option Bitmap :=
  match other.getBitmapAt roi.x1 roi.y1, self.getBitmapAt roi.x1 roi.y1 with
  | some srcBitmap, some dstBitmap =>
    some ⟨self._bounds,
      copyRows other._map other._bounds.width self._bounds.width roi.width
        (roi.y2 - roi.y1).toNat srcBitmap dstBitmap self._map,
      self._dirtyZone, self._dirtyZoneSet⟩
  | _, _ => if roi.isNull then some self else none

/-- The method `Bitmap::swap` (lines 573-580), called on `self`: the pair of `self` and
`other` after the call. -/
def swap (self other : Bitmap) : Bitmap × Bitmap :=
  (⟨other._bounds, other._map, self._dirtyZone.clear, false⟩,
   ⟨other._bounds, self._map, other._dirtyZone, other._dirtyZoneSet⟩)

end Bitmap

/-! ## The bytes dereferenced by the queries

For each scan and each loop of the two queries, the offsets from `mapStart` that it
dereferences, in the order of the reads. The control flow is that of the scan or loop
itself. -/

/-- The reads of the trimap row scan (lines 64-72): `*buf` at each iteration, up to the
break on a zero byte. -/
def rowScanTrimapReads (mapStart : List Nat) : Nat → Int → List Int
  | 0, _ => []
  | n + 1, buf =>
    buf :: (if peek mapStart buf = 0 then [] else rowScanTrimapReads mapStart n (buf + 1))

/-- The reads of the non-trimap row scan (lines 83-89). -/
def rowScanPlainReads (mapStart : List Nat) : Nat → Int → List Int
  | 0, _ => []
  | n + 1, buf =>
    buf :: (if peek mapStart buf = 0 ∨ peek mapStart buf = PIXEL_UNAVAILABLE then []
      else rowScanPlainReads mapStart n (buf + 1))

/-- The reads of one row test of the bottom and top passes (lines 59-95). -/
def rowScanReads (trimap : Bool) (_bounds : RectI) (mapStart : List Nat) (bbox : RectI)
    (i : Int) : List Int :=
  if trimap then rowScanTrimapReads mapStart bbox.width.toNat (BM_GET _bounds i bbox.left)
  else rowScanPlainReads mapStart bbox.width.toNat (BM_GET _bounds i bbox.left)

/-- The reads of the column scan of the left and right passes (lines 149-161). -/
def colScanReads (trimap : Bool) (mapStart : List Nat) (stride : Int) : Nat → Int → List Int
  | 0, _ => []
  | n + 1, pix =>
    pix :: (if peek mapStart pix = 0 then []
      else if peek mapStart pix = PIXEL_UNAVAILABLE then
        if trimap then colScanReads trimap mapStart stride n (pix + stride) else []
      else colScanReads trimap mapStart stride n (pix + stride))

/-- The reads of one column test of the left and right passes. -/
def colTestReads (trimap : Bool) (_bounds : RectI) (mapStart : List Nat) (bbox : RectI)
    (j : Int) : List Int :=
  colScanReads trimap mapStart _bounds.width (bbox.top - bbox.bottom).toNat
    (BM_GET _bounds bbox.bottom j)

/-- The reads of the loop "find bottom" (lines 58-96). -/
def findBottomReads (trimap : Bool) (_bounds : RectI) (mapStart : List Nat) :
    Nat → Int → RectI → List Int
  | 0, _, _ => []
  | fuel + 1, i, bbox =>
    if i < bbox.top then
      rowScanReads trimap _bounds mapStart bbox i ++
        (match rowScan trimap _bounds mapStart bbox i with
        | (false, _) => []
        | (true, _) =>
          findBottomReads trimap _bounds mapStart fuel (i + 1) { bbox with y1 := bbox.y1 + 1 })
    else []

/-- The reads of the loop "find top" (lines 99-137). -/
def findTopReads (trimap : Bool) (_bounds : RectI) (mapStart : List Nat) :
    Nat → Int → RectI → List Int
  | 0, _, _ => []
  | fuel + 1, i, bbox =>
    if i ≥ bbox.bottom then
      rowScanReads trimap _bounds mapStart bbox i ++
        (match rowScan trimap _bounds mapStart bbox i with
        | (false, _) => []
        | (true, _) =>
          findTopReads trimap _bounds mapStart fuel (i - 1) { bbox with y2 := bbox.y2 - 1 })
    else []

/-- The reads of the loop "find left" (lines 145-170). -/
def findLeftReads (trimap : Bool) (_bounds : RectI) (mapStart : List Nat) :
    Nat → Int → RectI → List Int
  | 0, _, _ => []
  | fuel + 1, j, bbox =>
    if j < bbox.right then
      colTestReads trimap _bounds mapStart bbox j ++
        (match colTest trimap _bounds mapStart bbox j with
        | (false, _) => []
        | (true, _) =>
          findLeftReads trimap _bounds mapStart fuel (j + 1) { bbox with x1 := bbox.x1 + 1 })
    else []

/-- The reads of the loop "find right" (lines 173-198). -/
def findRightReads (trimap : Bool) (_bounds : RectI) (mapStart : List Nat) :
    Nat → Int → RectI → List Int
  | 0, _, _ => []
  | fuel + 1, j, bbox =>
    if j ≥ bbox.left then
      colTestReads trimap _bounds mapStart bbox j ++
        (match colTest trimap _bounds mapStart bbox j with
        | (false, _) => []
        | (true, _) =>
          findRightReads trimap _bounds mapStart fuel (j - 1) { bbox with x2 := bbox.x2 - 1 })
    else []

/-- The reads of `minimalNonMarkedBbox_internal<trimap>` (lines 45-201): those of the four
passes, each on the box left by the passes before it. -/
def minimalNonMarkedBbox_reads (trimap : Bool) (roi _bounds : RectI) (mapStart : List Nat)
    (isBeingRenderedElsewhere : Bool) : List Int :=
  let bbox := roi
  let reads := findBottomReads trimap _bounds mapStart (bbox.top - bbox.bottom).toNat
    bbox.bottom bbox
  let (bbox, flag) := findBottom trimap _bounds mapStart (bbox.top - bbox.bottom).toNat
    bbox.bottom bbox isBeingRenderedElsewhere
  let reads := reads ++ findTopReads trimap _bounds mapStart (bbox.top - bbox.bottom).toNat
    (bbox.top - 1) bbox
  let (bbox, flag) := findTop trimap _bounds mapStart (bbox.top - bbox.bottom).toNat
    (bbox.top - 1) bbox flag
  if bbox.isNull then reads
  else
    let reads := reads ++ findLeftReads trimap _bounds mapStart (bbox.right - bbox.left).toNat
      bbox.left bbox
    let (bbox, _) := findLeft trimap _bounds mapStart (bbox.right - bbox.left).toNat
      bbox.left bbox flag
    reads ++ findRightReads trimap _bounds mapStart (bbox.right - bbox.left).toNat
      (bbox.right - 1) bbox

/-- The reads of the trimap row scan of the strips A and B (lines 288-298). -/
def stripRowTrimapReads (mapStart : List Nat) : Nat → Int → List Int
  | 0, _ => []
  | n + 1, buf =>
    buf :: (if peek mapStart buf = 1 then []
      else if peek mapStart buf = PIXEL_UNAVAILABLE then []
      else stripRowTrimapReads mapStart n (buf + 1))

/-- The reads of `memchr(buf, c, n)`: the bytes up to the first one equal to `c`. -/
def memchrReads (mapStart : List Nat) (c : Nat) : Nat → Int → List Int
  | 0, _ => []
  | n + 1, buf =>
    buf :: (if peek mapStart buf = c then [] else memchrReads mapStart c n (buf + 1))

/-- The reads of one row test of the strips A and B (lines 284-315). -/
def stripRowReads (trimap : Bool) (_bounds : RectI) (mapStart : List Nat) (bboxX : RectI)
    (i : Int) : List Int :=
  if trimap then stripRowTrimapReads mapStart bboxX.width.toNat (BM_GET _bounds i bboxX.left)
  else memchrReads mapStart 1 bboxX.width.toNat (BM_GET _bounds i bboxX.left)

/-- The reads of the column scan of the strips C and D (lines 372-381). -/
def stripColScanReads (trimap : Bool) (mapStart : List Nat) (stride : Int) :
    Nat → Int → List Int
  | 0, _ => []
  | n + 1, pix =>
    pix :: (if peek mapStart pix = 1 then []
      else if trimap && decide (peek mapStart pix = PIXEL_UNAVAILABLE) then []
      else stripColScanReads trimap mapStart stride n (pix + stride))

/-- The reads of one column test of the strips C and D. -/
def stripColReads (trimap : Bool) (_bounds : RectI) (mapStart : List Nat) (bboxX : RectI)
    (j : Int) : List Int :=
  stripColScanReads trimap mapStart _bounds.width (bboxX.top - bboxX.bottom).toNat
    (BM_GET _bounds bboxX.bottom j)

/-- The reads of the loop that grows the strip A (lines 283-316). -/
def findAReads (trimap : Bool) (_bounds : RectI) (mapStart : List Nat) :
    Nat → Int → RectI → List Int
  | 0, _, _ => []
  | fuel + 1, i, bboxX =>
    if i < bboxX.top then
      stripRowReads trimap _bounds mapStart bboxX i ++
        (match stripRow trimap _bounds mapStart bboxX i with
        | (true, _) =>
          findAReads trimap _bounds mapStart fuel (i + 1) { bboxX with y1 := bboxX.y1 + 1 }
        | (false, _) => [])
    else []

/-- The reads of the loop that grows the strip B (lines 325-359). -/
def findBReads (trimap : Bool) (_bounds : RectI) (mapStart : List Nat) :
    Nat → Int → RectI → List Int
  | 0, _, _ => []
  | fuel + 1, i, bboxX =>
    if i ≥ bboxX.bottom then
      stripRowReads trimap _bounds mapStart bboxX i ++
        (match stripRow trimap _bounds mapStart bboxX i with
        | (true, _) =>
          findBReads trimap _bounds mapStart fuel (i - 1) { bboxX with y2 := bboxX.y2 - 1 }
        | (false, _) => [])
    else []

/-- The reads of the loop that grows the strip C (lines 368-391). -/
def findCReads (trimap : Bool) (_bounds : RectI) (mapStart : List Nat) :
    Nat → Int → RectI → List Int
  | 0, _, _ => []
  | fuel + 1, j, bboxX =>
    if j < bboxX.right then
      stripColReads trimap _bounds mapStart bboxX j ++
        (match stripCol trimap _bounds mapStart bboxX j with
        | (true, _) =>
          findCReads trimap _bounds mapStart fuel (j + 1) { bboxX with x1 := bboxX.x1 + 1 }
        | (false, _) => [])
    else []

/-- The reads of the loop that grows the strip D (lines 401-424). -/
def findDReads (trimap : Bool) (_bounds : RectI) (mapStart : List Nat) :
    Nat → Int → RectI → List Int
  | 0, _, _ => []
  | fuel + 1, j, bboxX =>
    if j ≥ bboxX.left then
      stripColReads trimap _bounds mapStart bboxX j ++
        (match stripCol trimap _bounds mapStart bboxX j with
        | (true, _) =>
          findDReads trimap _bounds mapStart fuel (j - 1) { bboxX with x2 := bboxX.x2 - 1 }
        | (false, _) => [])
    else []

/-- The reads of the peeling of lines 280-428: those of the four strip loops, each on the
interior left by the loops before it. -/
def peelReads (trimap : Bool) (_bounds : RectI) (mapStart : List Nat) (bboxM : RectI)
    (isBeingRenderedElsewhere : Bool) : List Int :=
  let bboxX := bboxM
  let bboxA := bboxX.set_top bboxX.bottom
  let reads := findAReads trimap _bounds mapStart (bboxX.top - bboxX.bottom).toNat
    bboxX.bottom bboxX
  let (bboxX, _, flag) := findA trimap _bounds mapStart (bboxX.top - bboxX.bottom).toNat
    bboxX.bottom bboxX bboxA isBeingRenderedElsewhere
  let bboxB := bboxX.set_bottom bboxX.top
  let reads := reads ++ findBReads trimap _bounds mapStart (bboxX.top - bboxX.bottom).toNat
    (bboxX.top - 1) bboxX
  let (bboxX, _, flag) := findB trimap _bounds mapStart (bboxX.top - bboxX.bottom).toNat
    (bboxX.top - 1) bboxX bboxB flag
  let bboxC := bboxX.set_right bboxX.left
  let reads := reads ++
    (if bboxX.bottom < bboxX.top then
      findCReads trimap _bounds mapStart (bboxX.right - bboxX.left).toNat bboxX.left bboxX
    else [])
  let (bboxX, _, _) :=
    if bboxX.bottom < bboxX.top then
      findC trimap _bounds mapStart (bboxX.right - bboxX.left).toNat bboxX.left bboxX bboxC flag
    else (bboxX, bboxC, flag)
  reads ++
    (if bboxX.bottom < bboxX.top then
      findDReads trimap _bounds mapStart (bboxX.right - bboxX.left).toNat (bboxX.right - 1)
        bboxX
    else [])

/-- The reads of `minimalNonMarkedRects_internal<trimap>` (lines 203-458): those of the call
of line 244, of the peeling, and of the call of line 451. -/
def minimalNonMarkedRects_reads (trimap : Bool) (roi _bounds : RectI) (mapStart : List Nat)
    (isBeingRenderedElsewhere : Bool) : List Int :=
  let intersection := (roi.intersect _bounds).getD RectI.zero
  if intersection.isNull then []
  else
    let reads := minimalNonMarkedBbox_reads trimap intersection _bounds mapStart
      isBeingRenderedElsewhere
    let (bboxM, flag) :=
      minimalNonMarkedBbox_internal trimap intersection _bounds mapStart isBeingRenderedElsewhere
    if bboxM.isNull then reads
    else
      let p := peel trimap _bounds mapStart bboxM flag
      reads ++ peelReads trimap _bounds mapStart bboxM flag ++
        minimalNonMarkedBbox_reads trimap p.bboxX _bounds mapStart p.flag

/-! ## Halving a region: `Image::halveRoIForDepth` and `Image::halve1DImageForDepth` -/

/-- The bitmap byte stored for the destination pixel `(x, y)` by one iteration of the loops of
`halveRoIForDepth` (lines 1835-1838, 1849-1865 and 1881-1912): `srcBmPixStart` points at
the source byte of `(2x, 2y)`. Modelled from the spec: the trimap extension is compiled
in (`NATRON_ENABLE_TRIMAP`, lines 1889-1906). The sum is an `int`; the store into a
`char` keeps its low byte. -/
def halveBitmapByte (srcBounds : RectI) (srcBmMap : List Nat) (srcBmRowSize : Int)
    (srcBmPixStart : Int) (x y : Int) : Nat :=
  let srcy := y * 2
  let pickThisRow := decide (srcBounds.y1 ≤ srcy + 0) && decide (srcy + 0 < srcBounds.y2)
  let pickNextRow := decide (srcBounds.y1 ≤ srcy + 1) && decide (srcy + 1 < srcBounds.y2)
  let sumH : Nat := (if pickNextRow then 1 else 0) + (if pickThisRow then 1 else 0)
  let srcx := x * 2
  let pickThisCol := decide (srcBounds.x1 ≤ srcx + 0) && decide (srcx + 0 < srcBounds.x2)
  let pickNextCol := decide (srcBounds.x1 ≤ srcx + 1) && decide (srcx + 1 < srcBounds.x2)
  let sumW : Nat := (if pickThisCol then 1 else 0) + (if pickNextCol then 1 else 0)
  let sum := sumW * sumH
  if sum = 0 then 0
  else
    let a := if pickThisCol && pickThisRow then peek srcBmMap srcBmPixStart else 0
    let b := if pickNextCol && pickThisRow then peek srcBmMap (srcBmPixStart + 1) else 0
    let c := if pickThisCol && pickNextRow then peek srcBmMap (srcBmPixStart + srcBmRowSize)
      else 0
    let d := if pickNextCol && pickNextRow then
      peek srcBmMap (srcBmPixStart + srcBmRowSize + 1) else 0
    let a := if a = PIXEL_UNAVAILABLE then 0 else a
    let b := if b = PIXEL_UNAVAILABLE then 0 else b
    let c := if c = PIXEL_UNAVAILABLE then 0 else c
    let d := if d = PIXEL_UNAVAILABLE then 0 else d
    (a + b + c + d) / sum % 256

/-- The loop over `x` of `halveRoIForDepth` (lines 1841-1914), bitmap writes only, from loop
variable `x`. -/
def halveColumns (srcBounds : RectI) (srcBmMap : List Nat) (srcBmRowSize : Int)
    (srcBmLineStart dstBmLineStart : Int) (y : Int) (dstRoI : RectI) :
    Nat → Int → List Nat → List Nat
  | 0, _, dstBmMap => dstBmMap
  | fuel + 1, x, dstBmMap =>
    if x < dstRoI.x2 then
      let srcBmPixStart := srcBmLineStart + x * 2
      let dstBmPixStart := dstBmLineStart + x
      halveColumns srcBounds srcBmMap srcBmRowSize srcBmLineStart dstBmLineStart y dstRoI fuel
        (x + 1)
        (poke dstBmMap dstBmPixStart
          (halveBitmapByte srcBounds srcBmMap srcBmRowSize srcBmPixStart x y))
    else dstBmMap

/-- The loop over `y` of `halveRoIForDepth` (lines 1827-1915), bitmap writes only, from loop
variable `y`. -/
def halveRows (srcBounds : RectI) (srcBmMap : List Nat) (srcBmRowSize dstBmRowSize : Int)
    (srcBmData dstBmData : Int) (dstRoI : RectI) : Nat → Int → List Nat → List Nat
  | 0, _, dstBmMap => dstBmMap
  | fuel + 1, y, dstBmMap =>
    if y < dstRoI.y2 then
      let srcBmLineStart := srcBmData + y * 2 * srcBmRowSize
      let dstBmLineStart := dstBmData + y * dstBmRowSize
      halveRows srcBounds srcBmMap srcBmRowSize dstBmRowSize srcBmData dstBmData dstRoI fuel
        (y + 1)
        (halveColumns srcBounds srcBmMap srcBmRowSize srcBmLineStart dstBmLineStart y dstRoI
          (dstRoI.x2 - dstRoI.x1).toNat dstRoI.x1 dstBmMap)
    else dstBmMap

/-- The rectangle `dstRoI` of lines 1802-1809: `roi` intersected with the source bounds
(left as it is when they do not intersect), then `floor` of the lower and `ceil` of the
upper coordinates halved. -/
def halvedRoI (roi srcBounds : RectI) : RectI :=
  let srcRoI := (roi.intersect srcBounds).getD roi
  ⟨srcRoI.x1 / 2, srcRoI.y1 / 2, -(-srcRoI.x2 / 2), -(-srcRoI.y2 / 2)⟩

/-- The effect of `Image::halveRoIForDepth` (lines 1764-1916) on the bitmap of `output`:
`srcBounds` and `srcBm` are the bounds and the bitmap of the source image, `dstBm` the
bitmap of `output`. The pixel values (lines 1867-1879) go to another buffer and are not
modelled. A region one pixel wide or high is handed to `halve1DImage`, which leaves the
bitmap alone. The result is `none` when a NULL pointer is dereferenced. -/
def halveRoIForDepth (srcBounds : RectI) (srcBm : Bitmap) (roi : RectI) (copyBitMap : Bool)
    (dstBm : Bitmap) : Option Bitmap :=
  if roi.width = 1 ∨ roi.height = 1 then some dstBm
  else
    let srcBmBounds := srcBm._bounds
    let dstBmBounds := dstBm._bounds
    let dstRoI := halvedRoI roi srcBounds
    if copyBitMap then
      match srcBm.getBitmapAt srcBmBounds.x1 srcBmBounds.y1,
        dstBm.getBitmapAt dstBmBounds.x1 dstBmBounds.y1 with
      | some srcBmPixels, some dstBmPixels =>
        let srcBmRowSize := srcBmBounds.width
        let dstBmRowSize := dstBmBounds.width
        let srcBmData := srcBmPixels - (srcBmBounds.x1 + srcBmRowSize * srcBmBounds.y1)
        let dstBmData := dstBmPixels - (dstBmBounds.x1 + dstBmRowSize * dstBmBounds.y1)
        some ⟨dstBm._bounds,
          halveRows srcBounds srcBm._map srcBmRowSize dstBmRowSize srcBmData dstBmData dstRoI
            (dstRoI.y2 - dstRoI.y1).toNat dstRoI.y1 dstBm._map,
          dstBm._dirtyZone, dstBm._dirtyZoneSet⟩
      | _, _ => if dstRoI.isNull then some dstBm else none
    else some dstBm

/-- Modelled from the spec: the members of `Image` read by `halve1DImageForDepth` (declared
in `Engine/Image.h`, which is not among the sources), for the byte depth: the bounds, the
number of components per pixel, and the pixel buffer, one byte per component. -/
structure Image where
  _bounds : RectI
  _nbComponents : Int
  _data : List Nat
deriving DecidableEq, Repr

/-- The conversion `PIX( (float)( sum ) / 2. )` for `PIX = unsigned char`: the half of `sum`,
truncated. A value that does not fit a byte makes the conversion undefined in C++; here
its low byte is kept. -/
def halfToPIX (sum : Int) : Nat :=
  (Int.tdiv sum 2).toNat % 256

/-- The loop over `k` of the one-row case (lines 1974-1977): the state is `src`, `dst` and the
buffer of `output`. -/
def halveRowComponents (srcData : List Nat) (_nbComponents : Int) :
    Nat → Int → Int → List Nat → Int × Int × List Nat
  | 0, src, dst, dstData => (src, dst, dstData)
  | k + 1, src, dst, dstData =>
    halveRowComponents srcData _nbComponents k (src + 1) (dst + 1)
      (poke dstData dst
        (halfToPIX ((peek srcData src : Int) + (peek srcData (src + _nbComponents) : Int))))

/-- The loop over `x` of the one-row case (lines 1973-1979). -/
def halveRowPixels (srcData : List Nat) (_nbComponents : Int) :
    Nat → Int → Int → List Nat → Int × Int × List Nat
  | 0, src, dst, dstData => (src, dst, dstData)
  | x + 1, src, dst, dstData =>
    let (src, dst, dstData) :=
      halveRowComponents srcData _nbComponents _nbComponents.toNat src dst dstData
    halveRowPixels srcData _nbComponents x (src + _nbComponents) dst dstData

/-- The loop over `k` of the one-column case (lines 1986-1989). Line 1987 reads
`*src + (*src + rowSize)`. -/
def halveColumnComponents (srcData : List Nat) (rowSize : Int) :
    Nat → Int → Int → List Nat → Int × Int × List Nat
  | 0, src, dst, dstData => (src, dst, dstData)
  | k + 1, src, dst, dstData =>
    halveColumnComponents srcData rowSize k (src + 1) (dst + 1)
      (poke dstData dst
        (halfToPIX ((peek srcData src : Int) + ((peek srcData src : Int) + rowSize))))

/-- The loop over `y` of the one-column case (lines 1985-1991). -/
def halveColumnPixels (srcData : List Nat) (_nbComponents rowSize : Int) :
    Nat → Int → Int → List Nat → Int × Int × List Nat
  | 0, src, dst, dstData => (src, dst, dstData)
  | y + 1, src, dst, dstData =>
    let (src, dst, dstData) :=
      halveColumnComponents srcData rowSize _nbComponents.toNat src dst dstData
    halveColumnPixels srcData _nbComponents rowSize y (src + rowSize) dst dstData

namespace Image

/-- The method `Image::pixelAt` (lines 1616-1631) for the byte depth (`_depthBytesSize` is
1): the offset of the first component of `(x, y)` in the pixel buffer, or `none` for the
NULL pointer. -/
def pixelAt (img : Image) (x y : Int) : Option Int :=
  if x < img._bounds.x1 ∨ x ≥ img._bounds.x2 ∨ y < img._bounds.y1 ∨ y ≥ img._bounds.y2 then none
  else
    let compDataSize := 1 * img._nbComponents
    some ((y - img._bounds.y1) * compDataSize * img._bounds.width +
      (x - img._bounds.x1) * compDataSize)

/-- The method `Image::halve1DImageForDepth<unsigned char, 255>` (lines 1943-1993), called on
`self`: the image `output` after the call, or `none` when a NULL pointer is
dereferenced. -/
def halve1DImageForDepth (self : Image) (roi : RectI) (output : Image) : Option Image :=
  let width := roi.width
  let height := roi.height
  let srcBounds := self._bounds
  let dstBounds := output._bounds
  let halfWidth := Int.tdiv width 2
  let halfHeight := Int.tdiv height 2
  if height = 1 then
    match self.pixelAt roi.x1 roi.y1, output.pixelAt dstBounds.x1 dstBounds.y1 with
    | some src, some dst =>
      some ⟨output._bounds, output._nbComponents,
        (halveRowPixels self._data self._nbComponents halfWidth.toNat src dst output._data).2.2⟩
    | _, _ => if halfWidth ≤ 0 ∨ self._nbComponents ≤ 0 then some output else none
  else if width = 1 then
    let rowSize := srcBounds.width * self._nbComponents
    match self.pixelAt roi.x1 roi.y1, output.pixelAt dstBounds.x1 dstBounds.y1 with
    | some src, some dst =>
      some ⟨output._bounds, output._nbComponents,
        (halveColumnPixels self._data self._nbComponents rowSize halfHeight.toNat src dst
          output._data).2.2⟩
    | _, _ => if halfHeight ≤ 0 ∨ self._nbComponents ≤ 0 then some output else none
  else some output

end Image

/-! ## Pixel states -/

/-- A byte that makes a row or column scan of `minimalNonMarkedBbox_internal<trimap>` break:
0 in trimap mode, 0 or `PIXEL_UNAVAILABLE` in non-trimap mode. -/
def unavailable (trimap : Bool) (v : Nat) : Prop :=
  v = 0 ∨ (trimap = false ∧ v = PIXEL_UNAVAILABLE)

instance (trimap : Bool) (v : Nat) : Decidable (unavailable trimap v) := by
  unfold unavailable; infer_instance

/-- Every pixel of row `y` between the columns `xa` (included) and `xb` (excluded) is
available. -/
def rowOK (trimap : Bool) (_bounds : RectI) (mapStart : List Nat) (xa xb y : Int) : Prop :=
  ∀ x, xa ≤ x → x < xb → ¬ unavailable trimap (pixelAt _bounds mapStart x y)

/-- Every pixel of column `x` between the rows `ya` (included) and `yb` (excluded) is
available. -/
def colOK (trimap : Bool) (_bounds : RectI) (mapStart : List Nat) (ya yb x : Int) : Prop :=
  ∀ y, ya ≤ y → y < yb → ¬ unavailable trimap (pixelAt _bounds mapStart x y)

/-- Some pixel of `[xa,xb) × [ya,yb)` holds `PIXEL_UNAVAILABLE`. -/
def hasReserved (_bounds : RectI) (mapStart : List Nat) (xa xb ya yb : Int) : Prop :=
  ∃ x y, xa ≤ x ∧ x < xb ∧ ya ≤ y ∧ y < yb ∧ pixelAt _bounds mapStart x y = PIXEL_UNAVAILABLE

/-! ## Predicates used in the statements -/

/-- Each edge row and edge column of `r` holds an unavailable pixel. -/
def tightEdges (trimap : Bool) (_bounds : RectI) (mapStart : List Nat) (r : RectI) : Prop :=
  (∃ x, r.x1 ≤ x ∧ x < r.x2 ∧ unavailable trimap (pixelAt _bounds mapStart x r.y1)) ∧
  (∃ x, r.x1 ≤ x ∧ x < r.x2 ∧ unavailable trimap (pixelAt _bounds mapStart x (r.y2 - 1))) ∧
  (∃ y, r.y1 ≤ y ∧ y < r.y2 ∧ unavailable trimap (pixelAt _bounds mapStart r.x1 y)) ∧
  (∃ y, r.y1 ≤ y ∧ y < r.y2 ∧ unavailable trimap (pixelAt _bounds mapStart (r.x2 - 1) y))

/-- A byte over which the strip scans of `minimalNonMarkedRects_internal<trimap>` go on:
not 1, and in trimap mode not `PIXEL_UNAVAILABLE` either. -/
def blank (trimap : Bool) (v : Nat) : Prop :=
  v ≠ 1 ∧ (trimap = true → v ≠ PIXEL_UNAVAILABLE)

instance (trimap : Bool) (v : Nat) : Decidable (blank trimap v) := by
  unfold blank; infer_instance

/-- Every pixel of row `y` between the columns `xa` and `xb` is blank. -/
def rowBlank (trimap : Bool) (_bounds : RectI) (mapStart : List Nat) (xa xb y : Int) : Prop :=
  ∀ x, xa ≤ x → x < xb → blank trimap (pixelAt _bounds mapStart x y)

/-- Every pixel of column `x` between the rows `ya` and `yb` is blank. -/
def colBlank (trimap : Bool) (_bounds : RectI) (mapStart : List Nat) (ya yb x : Int) : Prop :=
  ∀ y, ya ≤ y → y < yb → blank trimap (pixelAt _bounds mapStart x y)

/-- The rectangle `left` of line 217. -/
def sliverLeft (roi _bounds : RectI) : RectI := ⟨roi.x1, _bounds.y1, _bounds.x1, _bounds.y2⟩

/-- The rectangle `btm` of line 223. -/
def sliverBtm (roi _bounds : RectI) : RectI := ⟨roi.x1, roi.y1, roi.x2, _bounds.y1⟩

/-- The rectangle `right` of line 229. -/
def sliverRight (roi _bounds : RectI) : RectI := ⟨_bounds.x2, _bounds.y1, roi.x2, _bounds.y2⟩

/-- The rectangle `top` of line 235. -/
def sliverTop (roi _bounds : RectI) : RectI := ⟨roi.x1, _bounds.y2, roi.x2, roi.y2⟩

/-- The buffer of a bitmap has one byte per pixel of its bounds, and the bounds are not
inverted. -/
def Bitmap.sized (bm : Bitmap) : Prop :=
  bm._bounds.x1 ≤ bm._bounds.x2 ∧ bm._bounds.y1 ≤ bm._bounds.y2 ∧
  (bm._map.length : Int) = bm._bounds.width * bm._bounds.height

instance (bm : Bitmap) : Decidable bm.sized := by
  unfold Bitmap.sized; infer_instance

/-- Modelled from the spec: the area of a rectangle, width × height. -/
def RectI.area (r : RectI) : Int := r.width * r.height

/-- The rectangles `r` and `s` share no pixel. -/
def RectI.disjoint (r s : RectI) : Prop :=
  ∀ x y, ¬ (r.hasPixel x y ∧ s.hasPixel x y)

/-- Every one of the four source pixels `(2x, 2y)`, `(2x+1, 2y)`, `(2x, 2y+1)`,
`(2x+1, 2y+1)` of the destination pixel `(x, y)` that lies inside the source bounds has
the value 1. -/
def sourcesRendered (srcBounds : RectI) (srcBmMap : List Nat) (x y : Int) : Prop :=
  ∀ sx sy, (sx = 2 * x ∨ sx = 2 * x + 1) → (sy = 2 * y ∨ sy = 2 * y + 1) →
    srcBounds.hasPixel sx sy → pixelAt srcBounds srcBmMap sx sy = 1

/-- One of the four source pixels of the destination pixel `(x, y)` lies inside the source
bounds. -/
def sourceInside (srcBounds : RectI) (x y : Int) : Prop :=
  ∃ sx sy, (sx = 2 * x ∨ sx = 2 * x + 1) ∧ (sy = 2 * y ∨ sy = 2 * y + 1) ∧
    srcBounds.hasPixel sx sy

/-! ## The scans, characterised -/

theorem rowScanTrimap_fst (mapStart : List Nat) : ∀ (n : Nat) (buf : Int) (met : Bool),
    (rowScanTrimap mapStart n buf met).1 = true ↔
      ∀ k : Nat, k < n → peek mapStart (buf + k) ≠ 0 := by
  intro n
  induction n with
  | zero => intro buf met; simp [rowScanTrimap]
  | succ n ih =>
    intro buf met
    rw [rowScanTrimap]
    by_cases h0 : peek mapStart buf = 0
    · simp only [h0, if_true]
      constructor
      · intro h; cases h
      · intro h; exact absurd (by simpa using h0) (h 0 (Nat.succ_pos n))
    · have key : (∀ k : Nat, k < n + 1 → peek mapStart (buf + k) ≠ 0) ↔
          ∀ k : Nat, k < n → peek mapStart (buf + 1 + k) ≠ 0 := by
        constructor
        · intro h k hk
          have := h (k + 1) (by omega)
          rwa [show buf + ((k + 1 : Nat) : Int) = buf + 1 + k by push_cast; ring] at this
        · intro h k hk
          rcases Nat.eq_zero_or_pos k with rfl | hpos
          · simpa using h0
          · have := h (k - 1) (by omega)
            rwa [show buf + 1 + ((k - 1 : Nat) : Int) = buf + k by omega] at this
      simp only [h0, if_false]
      split <;> rw [ih, key]

theorem rowScanTrimap_snd (mapStart : List Nat) : ∀ (n : Nat) (buf : Int) (met : Bool),
    (rowScanTrimap mapStart n buf met).1 = true →
      ((rowScanTrimap mapStart n buf met).2 = true ↔
        met = true ∨ ∃ k : Nat, k < n ∧ peek mapStart (buf + k) = PIXEL_UNAVAILABLE) := by
  intro n
  induction n with
  | zero => intro buf met _; simp [rowScanTrimap]
  | succ n ih =>
    intro buf met
    rw [rowScanTrimap]
    by_cases h0 : peek mapStart buf = 0
    · simp [h0]
    · have key : (∃ k : Nat, k < n + 1 ∧ peek mapStart (buf + k) = PIXEL_UNAVAILABLE) ↔
          peek mapStart buf = PIXEL_UNAVAILABLE ∨
            ∃ k : Nat, k < n ∧ peek mapStart (buf + 1 + k) = PIXEL_UNAVAILABLE := by
        constructor
        · rintro ⟨k, hk, hv⟩
          rcases Nat.eq_zero_or_pos k with rfl | hpos
          · left; simpa using hv
          · right
            refine ⟨k - 1, by omega, ?_⟩
            rwa [show buf + 1 + ((k - 1 : Nat) : Int) = buf + k by omega]
        · rintro (hv | ⟨k, hk, hv⟩)
          · exact ⟨0, Nat.succ_pos n, by simpa using hv⟩
          · refine ⟨k + 1, by omega, ?_⟩
            rwa [show buf + ((k + 1 : Nat) : Int) = buf + 1 + k by push_cast; ring]
      simp only [h0, if_false]
      by_cases h2 : peek mapStart buf = PIXEL_UNAVAILABLE
      · simp only [h2, if_true]
        intro hok
        rw [ih _ _ hok, key]
        simp [h2]
      · simp only [h2, if_false]
        intro hok
        rw [ih _ _ hok, key]
        simp [h2]

theorem rowScanPlain_iff (mapStart : List Nat) : ∀ (n : Nat) (buf : Int),
    rowScanPlain mapStart n buf = true ↔
      ∀ k : Nat, k < n → ¬ (peek mapStart (buf + k) = 0 ∨
        peek mapStart (buf + k) = PIXEL_UNAVAILABLE) := by
  intro n
  induction n with
  | zero => intro buf; simp [rowScanPlain]
  | succ n ih =>
    intro buf
    rw [rowScanPlain]
    by_cases h0 : peek mapStart buf = 0 ∨ peek mapStart buf = PIXEL_UNAVAILABLE
    · simp only [h0, if_true]
      constructor
      · intro h; cases h
      · intro h; exact absurd (by simpa using h0) (h 0 (Nat.succ_pos n))
    · simp only [h0, if_false]
      rw [ih]
      constructor
      · intro h k hk
        rcases Nat.eq_zero_or_pos k with rfl | hpos
        · simpa using h0
        · have := h (k - 1) (by omega)
          rwa [show buf + 1 + ((k - 1 : Nat) : Int) = buf + k by omega] at this
      · intro h k hk
        have := h (k + 1) (by omega)
        rwa [show buf + ((k + 1 : Nat) : Int) = buf + 1 + k by push_cast; ring] at this

theorem colScan_fst (trimap : Bool) (mapStart : List Nat) (stride : Int) :
    ∀ (n : Nat) (pix : Int) (met : Bool),
    (colScan trimap mapStart stride n pix met).1 = true ↔
      ∀ k : Nat, k < n → ¬ unavailable trimap (peek mapStart (pix + k * stride)) := by
  intro n
  induction n with
  | zero => intro pix met; simp [colScan]
  | succ n ih =>
    intro pix met
    have key : (∀ k : Nat, k < n + 1 →
          ¬ unavailable trimap (peek mapStart (pix + k * stride))) ↔
        (¬ unavailable trimap (peek mapStart pix) ∧ ∀ k : Nat, k < n →
          ¬ unavailable trimap (peek mapStart (pix + stride + k * stride))) := by
      constructor
      · intro h
        refine ⟨by simpa using h 0 (Nat.succ_pos n), fun k hk => ?_⟩
        have := h (k + 1) (by omega)
        rwa [show pix + ((k + 1 : Nat) : Int) * stride = pix + stride + k * stride by
          push_cast; ring] at this
      · rintro ⟨h0, h⟩ k hk
        rcases Nat.eq_zero_or_pos k with rfl | hpos
        · simpa using h0
        · have := h (k - 1) (by omega)
          rwa [show pix + stride + ((k - 1 : Nat) : Int) * stride = pix + k * stride by
            rw [Nat.cast_sub (by omega)]; push_cast; ring] at this
    rw [colScan, key]
    by_cases h0 : peek mapStart pix = 0
    · simp [h0, unavailable]
    · by_cases h2 : peek mapStart pix = PIXEL_UNAVAILABLE
      · rw [if_neg h0, if_pos h2]
        cases trimap
        · simp [h2, unavailable]
        · rw [if_pos rfl, ih]
          simp [unavailable, h0]
      · rw [if_neg h0, if_neg h2, ih]
        simp [unavailable, h0, h2]

theorem colScan_snd (trimap : Bool) (mapStart : List Nat) (stride : Int) :
    ∀ (n : Nat) (pix : Int) (met : Bool),
    (colScan trimap mapStart stride n pix met).1 = true →
      ((colScan trimap mapStart stride n pix met).2 = true ↔
        met = true ∨ (trimap = true ∧
          ∃ k : Nat, k < n ∧ peek mapStart (pix + k * stride) = PIXEL_UNAVAILABLE)) := by
  intro n
  induction n with
  | zero => intro pix met _; simp [colScan]
  | succ n ih =>
    intro pix met
    have key : (∃ k : Nat, k < n + 1 ∧
          peek mapStart (pix + k * stride) = PIXEL_UNAVAILABLE) ↔
        (peek mapStart pix = PIXEL_UNAVAILABLE ∨ ∃ k : Nat, k < n ∧
          peek mapStart (pix + stride + k * stride) = PIXEL_UNAVAILABLE) := by
      constructor
      · rintro ⟨k, hk, hv⟩
        rcases Nat.eq_zero_or_pos k with rfl | hpos
        · left; simpa using hv
        · right
          refine ⟨k - 1, by omega, ?_⟩
          rwa [show pix + stride + ((k - 1 : Nat) : Int) * stride = pix + k * stride by
            rw [Nat.cast_sub (by omega)]; push_cast; ring]
      · rintro (hv | ⟨k, hk, hv⟩)
        · exact ⟨0, Nat.succ_pos n, by simpa using hv⟩
        · refine ⟨k + 1, by omega, ?_⟩
          rwa [show pix + ((k + 1 : Nat) : Int) * stride = pix + stride + k * stride by
            push_cast; ring]
    rw [colScan, key]
    by_cases h0 : peek mapStart pix = 0
    · simp [h0]
    · by_cases h2 : peek mapStart pix = PIXEL_UNAVAILABLE
      · rw [if_neg h0, if_pos h2]
        cases trimap
        · simp
        · rw [if_pos rfl]
          intro hok
          rw [ih _ _ hok]
          simp [h2]
      · rw [if_neg h0, if_neg h2]
        intro hok
        rw [ih _ _ hok]
        simp [h2]

/-! ### In pixel coordinates -/

theorem BM_GET_add_col (_bounds : RectI) (i j k : Int) :
    BM_GET _bounds i j + k = BM_GET _bounds i (j + k) := by
  unfold BM_GET; ring

theorem BM_GET_add_row (_bounds : RectI) (i j k : Int) :
    BM_GET _bounds i j + k * _bounds.width = BM_GET _bounds (i + k) j := by
  unfold BM_GET; ring

/-- A statement about the `n` first naturals, read on the integers of `[a, b)`. -/
theorem forall_range_iff (P : Int → Prop) (a b : Int) :
    (∀ k : Nat, k < (b - a).toNat → P (a + k)) ↔ ∀ x, a ≤ x → x < b → P x := by
  constructor
  · intro h x hax hxb
    have := h (x - a).toNat (by omega)
    rwa [show a + ((x - a).toNat : Int) = x by omega] at this
  · intro h k hk
    exact h _ (by omega) (by omega)

theorem exists_range_iff (P : Int → Prop) (a b : Int) :
    (∃ k : Nat, k < (b - a).toNat ∧ P (a + k)) ↔ ∃ x, a ≤ x ∧ x < b ∧ P x := by
  constructor
  · rintro ⟨k, hk, hp⟩
    exact ⟨_, by omega, by omega, hp⟩
  · rintro ⟨x, hax, hxb, hp⟩
    refine ⟨(x - a).toNat, by omega, ?_⟩
    rwa [show a + ((x - a).toNat : Int) = x by omega]

theorem rowScan_fst (trimap : Bool) (_bounds : RectI) (mapStart : List Nat) (bbox : RectI)
    (i : Int) :
    (rowScan trimap _bounds mapStart bbox i).1 = true ↔
      rowOK trimap _bounds mapStart bbox.x1 bbox.x2 i := by
  unfold rowOK rowScan RectI.width RectI.left pixelAt
  rw [← forall_range_iff]
  cases trimap
  · simp only [Bool.false_eq_true, if_false, rowScanPlain_iff, BM_GET_add_col, unavailable,
      true_and]
  · simp only [if_true, rowScanTrimap_fst, BM_GET_add_col, unavailable, Bool.true_eq_false,
      false_and, or_false, ne_eq]

theorem rowScan_snd (trimap : Bool) (_bounds : RectI) (mapStart : List Nat) (bbox : RectI)
    (i : Int) (hok : (rowScan trimap _bounds mapStart bbox i).1 = true) :
    (rowScan trimap _bounds mapStart bbox i).2 = true ↔
      (trimap = true ∧ ∃ x, bbox.x1 ≤ x ∧ x < bbox.x2 ∧
        pixelAt _bounds mapStart x i = PIXEL_UNAVAILABLE) := by
  unfold rowScan RectI.width RectI.left pixelAt at *
  rw [← exists_range_iff (fun x => peek mapStart (BM_GET _bounds i x) = PIXEL_UNAVAILABLE)]
  cases trimap
  · simp
  · simp only [if_true] at hok ⊢
    rw [rowScanTrimap_snd _ _ _ _ hok]
    simp [BM_GET_add_col]

theorem colTest_fst (trimap : Bool) (_bounds : RectI) (mapStart : List Nat) (bbox : RectI)
    (j : Int) :
    (colTest trimap _bounds mapStart bbox j).1 = true ↔
      colOK trimap _bounds mapStart bbox.y1 bbox.y2 j := by
  unfold colOK colTest RectI.top RectI.bottom pixelAt
  rw [← forall_range_iff (fun y => ¬ unavailable trimap (peek mapStart (BM_GET _bounds y j)))]
  simp only [colScan_fst, BM_GET_add_row]

theorem colTest_snd (trimap : Bool) (_bounds : RectI) (mapStart : List Nat) (bbox : RectI)
    (j : Int) (hok : (colTest trimap _bounds mapStart bbox j).1 = true) :
    (colTest trimap _bounds mapStart bbox j).2 = true ↔
      (trimap = true ∧ ∃ y, bbox.y1 ≤ y ∧ y < bbox.y2 ∧
        pixelAt _bounds mapStart j y = PIXEL_UNAVAILABLE) := by
  unfold colTest RectI.top RectI.bottom pixelAt at *
  rw [← exists_range_iff (fun y => peek mapStart (BM_GET _bounds y j) = PIXEL_UNAVAILABLE)]
  rw [colScan_snd _ _ _ _ _ _ hok]
  simp [BM_GET_add_row]

/-! ## The four passes, characterised -/

theorem hasReserved_rows_empty (_bounds : RectI) (mapStart : List Nat) (xa xb ya yb : Int)
    (h : yb ≤ ya) : ¬ hasReserved _bounds mapStart xa xb ya yb := by
  rintro ⟨x, y, _, _, h1, h2, _⟩
  omega

theorem hasReserved_cols_empty (_bounds : RectI) (mapStart : List Nat) (xa xb ya yb : Int)
    (h : xb ≤ xa) : ¬ hasReserved _bounds mapStart xa xb ya yb := by
  rintro ⟨x, y, h1, h2, _, _, _⟩
  omega

theorem hasReserved_first_row (_bounds : RectI) (mapStart : List Nat) (xa xb ya yb : Int)
    (h : ya < yb) :
    hasReserved _bounds mapStart xa xb ya yb ↔
      (∃ x, xa ≤ x ∧ x < xb ∧ pixelAt _bounds mapStart x ya = PIXEL_UNAVAILABLE) ∨
        hasReserved _bounds mapStart xa xb (ya + 1) yb := by
  constructor
  · rintro ⟨x, y, h1, h2, h3, h4, hv⟩
    by_cases hy : y = ya
    · subst hy; exact Or.inl ⟨x, h1, h2, hv⟩
    · exact Or.inr ⟨x, y, h1, h2, by omega, h4, hv⟩
  · rintro (⟨x, h1, h2, hv⟩ | ⟨x, y, h1, h2, h3, h4, hv⟩)
    · exact ⟨x, ya, h1, h2, le_refl _, h, hv⟩
    · exact ⟨x, y, h1, h2, by omega, h4, hv⟩

theorem hasReserved_last_row (_bounds : RectI) (mapStart : List Nat) (xa xb ya yb : Int)
    (h : ya < yb) :
    hasReserved _bounds mapStart xa xb ya yb ↔
      (∃ x, xa ≤ x ∧ x < xb ∧ pixelAt _bounds mapStart x (yb - 1) = PIXEL_UNAVAILABLE) ∨
        hasReserved _bounds mapStart xa xb ya (yb - 1) := by
  constructor
  · rintro ⟨x, y, h1, h2, h3, h4, hv⟩
    by_cases hy : y = yb - 1
    · subst hy; exact Or.inl ⟨x, h1, h2, hv⟩
    · exact Or.inr ⟨x, y, h1, h2, h3, by omega, hv⟩
  · rintro (⟨x, h1, h2, hv⟩ | ⟨x, y, h1, h2, h3, h4, hv⟩)
    · exact ⟨x, yb - 1, h1, h2, by omega, by omega, hv⟩
    · exact ⟨x, y, h1, h2, h3, by omega, hv⟩

theorem hasReserved_first_col (_bounds : RectI) (mapStart : List Nat) (xa xb ya yb : Int)
    (h : xa < xb) :
    hasReserved _bounds mapStart xa xb ya yb ↔
      (∃ y, ya ≤ y ∧ y < yb ∧ pixelAt _bounds mapStart xa y = PIXEL_UNAVAILABLE) ∨
        hasReserved _bounds mapStart (xa + 1) xb ya yb := by
  constructor
  · rintro ⟨x, y, h1, h2, h3, h4, hv⟩
    by_cases hx : x = xa
    · subst hx; exact Or.inl ⟨y, h3, h4, hv⟩
    · exact Or.inr ⟨x, y, by omega, h2, h3, h4, hv⟩
  · rintro (⟨y, h3, h4, hv⟩ | ⟨x, y, h1, h2, h3, h4, hv⟩)
    · exact ⟨xa, y, le_refl _, h, h3, h4, hv⟩
    · exact ⟨x, y, by omega, h2, h3, h4, hv⟩

theorem hasReserved_last_col (_bounds : RectI) (mapStart : List Nat) (xa xb ya yb : Int)
    (h : xa < xb) :
    hasReserved _bounds mapStart xa xb ya yb ↔
      (∃ y, ya ≤ y ∧ y < yb ∧ pixelAt _bounds mapStart (xb - 1) y = PIXEL_UNAVAILABLE) ∨
        hasReserved _bounds mapStart xa (xb - 1) ya yb := by
  constructor
  · rintro ⟨x, y, h1, h2, h3, h4, hv⟩
    by_cases hx : x = xb - 1
    · subst hx; exact Or.inl ⟨y, h3, h4, hv⟩
    · exact Or.inr ⟨x, y, h1, by omega, h3, h4, hv⟩
  · rintro (⟨y, h3, h4, hv⟩ | ⟨x, y, h1, h2, h3, h4, hv⟩)
    · exact ⟨xb - 1, y, by omega, by omega, h3, h4, hv⟩
    · exact ⟨x, y, h1, by omega, h3, h4, hv⟩

/-- The flag after one satisfied row or column. -/
theorem flag_step (trimap met flag : Bool) :
    (if (trimap && met) = true then true else flag) = true ↔
      flag = true ∨ (trimap = true ∧ met = true) := by
  cases trimap <;> cases met <;> cases flag <;> simp

theorem flag_combine {F T M P R : Prop} (hmet : M ↔ (T ∧ P)) :
    ((F ∨ (T ∧ M)) ∨ (T ∧ R)) ↔ (F ∨ (T ∧ (P ∨ R))) := by
  constructor
  · rintro ((h | ⟨ht, hm⟩) | ⟨ht, hr⟩)
    · exact Or.inl h
    · exact Or.inr ⟨ht, Or.inl (hmet.mp hm).2⟩
    · exact Or.inr ⟨ht, Or.inr hr⟩
  · rintro (h | ⟨ht, (hx | hr)⟩)
    · exact Or.inl (Or.inl h)
    · exact Or.inl (Or.inr ⟨ht, hmet.mpr ⟨ht, hx⟩⟩)
    · exact Or.inr ⟨ht, hr⟩

/-- The loop "find bottom" moves `y1` up to the first row that is not satisfied (or to
`y2`), and sets the flag exactly when a skipped row holds a reserved pixel. -/
theorem findBottom_spec (trimap : Bool) (_bounds : RectI) (mapStart : List Nat) :
    ∀ (fuel : Nat) (i : Int) (bbox : RectI) (flag : Bool),
    i = bbox.y1 → (bbox.y2 - bbox.y1).toNat ≤ fuel →
    ∃ (y : Int) (f : Bool),
      findBottom trimap _bounds mapStart fuel i bbox flag = (⟨bbox.x1, y, bbox.x2, bbox.y2⟩, f) ∧
      bbox.y1 ≤ y ∧ (y = bbox.y1 ∨ y ≤ bbox.y2) ∧
      (∀ r, bbox.y1 ≤ r → r < y → rowOK trimap _bounds mapStart bbox.x1 bbox.x2 r) ∧
      (y < bbox.y2 → ¬ rowOK trimap _bounds mapStart bbox.x1 bbox.x2 y) ∧
      (f = true ↔ flag = true ∨
        (trimap = true ∧ hasReserved _bounds mapStart bbox.x1 bbox.x2 bbox.y1 y)) := by
  intro fuel
  induction fuel with
  | zero =>
    intro i bbox flag _ hf
    refine ⟨bbox.y1, flag, rfl, le_refl _, Or.inl rfl, fun r h1 h2 => by omega,
      fun h => by omega, ?_⟩
    have := hasReserved_rows_empty _bounds mapStart bbox.x1 bbox.x2 bbox.y1 bbox.y1 (le_refl _)
    simp [this]
  | succ fuel ih =>
    intro i bbox flag hi hf
    subst hi
    rw [findBottom]
    have hnone := hasReserved_rows_empty _bounds mapStart bbox.x1 bbox.x2 bbox.y1 bbox.y1
      (le_refl _)
    by_cases hlt : bbox.y1 < bbox.top
    · rw [if_pos hlt]
      have hfst := rowScan_fst trimap _bounds mapStart bbox bbox.y1
      have hsnd := rowScan_snd trimap _bounds mapStart bbox bbox.y1
      rcases hrs : rowScan trimap _bounds mapStart bbox bbox.y1 with ⟨ok, met⟩
      rw [hrs] at hfst hsnd
      cases ok
      · refine ⟨bbox.y1, flag, rfl, le_refl _, Or.inl rfl, fun r h1 h2 => by omega,
          fun _ hok => ?_, by simp [hnone]⟩
        exact absurd (hfst.mpr hok) (by simp)
      · have hrow := hfst.mp rfl
        have hmet := hsnd rfl
        obtain ⟨y, f, heq, ha, hb, hc, hd, he⟩ :=
          ih (bbox.y1 + 1) ⟨bbox.x1, bbox.y1 + 1, bbox.x2, bbox.y2⟩
            (if (trimap && met) = true then true else flag) rfl
            (by simp only [RectI.top] at hlt; simp only; omega)
        simp only [RectI.top] at hlt
        simp only at heq ha hb hc hd he
        refine ⟨y, f, heq, by omega, Or.inr (by omega), fun r h1 h2 => ?_, hd, ?_⟩
        · by_cases hr : r = bbox.y1
          · subst hr; exact hrow
          · exact hc r (by omega) h2
        · rw [he, flag_step, hasReserved_first_row _ _ _ _ _ _ (show bbox.y1 < y by omega)]
          exact flag_combine hmet
    · rw [if_neg hlt]
      simp only [RectI.top] at hlt
      refine ⟨bbox.y1, flag, rfl, le_refl _, Or.inl rfl, fun r h1 h2 => by omega,
        fun h => by omega, by simp [hnone]⟩

/-- The loop "find top" moves `y2` down to just above the last row that is not satisfied
(or to `y1`). -/
theorem findTop_spec (trimap : Bool) (_bounds : RectI) (mapStart : List Nat) :
    ∀ (fuel : Nat) (i : Int) (bbox : RectI) (flag : Bool),
    i = bbox.y2 - 1 → (bbox.y2 - bbox.y1).toNat ≤ fuel →
    ∃ (y : Int) (f : Bool),
      findTop trimap _bounds mapStart fuel i bbox flag = (⟨bbox.x1, bbox.y1, bbox.x2, y⟩, f) ∧
      y ≤ bbox.y2 ∧ (y = bbox.y2 ∨ bbox.y1 ≤ y) ∧
      (∀ r, y ≤ r → r < bbox.y2 → rowOK trimap _bounds mapStart bbox.x1 bbox.x2 r) ∧
      (bbox.y1 < y → ¬ rowOK trimap _bounds mapStart bbox.x1 bbox.x2 (y - 1)) ∧
      (f = true ↔ flag = true ∨
        (trimap = true ∧ hasReserved _bounds mapStart bbox.x1 bbox.x2 y bbox.y2)) := by
  intro fuel
  induction fuel with
  | zero =>
    intro i bbox flag _ hf
    refine ⟨bbox.y2, flag, rfl, le_refl _, Or.inl rfl, fun r h1 h2 => by omega,
      fun h => by omega, ?_⟩
    have := hasReserved_rows_empty _bounds mapStart bbox.x1 bbox.x2 bbox.y2 bbox.y2 (le_refl _)
    simp [this]
  | succ fuel ih =>
    intro i bbox flag hi hf
    subst hi
    rw [findTop]
    have hnone := hasReserved_rows_empty _bounds mapStart bbox.x1 bbox.x2 bbox.y2 bbox.y2
      (le_refl _)
    by_cases hlt : bbox.y2 - 1 ≥ bbox.bottom
    · rw [if_pos hlt]
      have hfst := rowScan_fst trimap _bounds mapStart bbox (bbox.y2 - 1)
      have hsnd := rowScan_snd trimap _bounds mapStart bbox (bbox.y2 - 1)
      rcases hrs : rowScan trimap _bounds mapStart bbox (bbox.y2 - 1) with ⟨ok, met⟩
      rw [hrs] at hfst hsnd
      simp only [RectI.bottom] at hlt
      cases ok
      · refine ⟨bbox.y2, flag, rfl, le_refl _, Or.inl rfl, fun r h1 h2 => by omega,
          fun _ hok => ?_, by simp [hnone]⟩
        exact absurd (hfst.mpr hok) (by simp)
      · have hrow := hfst.mp rfl
        have hmet := hsnd rfl
        obtain ⟨y, f, heq, ha, hb, hc, hd, he⟩ :=
          ih (bbox.y2 - 1 - 1) ⟨bbox.x1, bbox.y1, bbox.x2, bbox.y2 - 1⟩
            (if (trimap && met) = true then true else flag) rfl
            (by simp only; omega)
        simp only at heq ha hb hc hd he
        refine ⟨y, f, heq, by omega, Or.inr (by omega), fun r h1 h2 => ?_, hd, ?_⟩
        · by_cases hr : r = bbox.y2 - 1
          · subst hr; exact hrow
          · exact hc r h1 (by omega)
        · rw [he, flag_step, hasReserved_last_row _ _ _ _ _ _ (show y < bbox.y2 by omega)]
          exact flag_combine hmet
    · rw [if_neg hlt]
      simp only [RectI.bottom] at hlt
      refine ⟨bbox.y2, flag, rfl, le_refl _, Or.inl rfl, fun r h1 h2 => by omega,
        fun h => by omega, by simp [hnone]⟩

/-- The loop "find left" moves `x1` right to the first column that is not satisfied (or
to `x2`). -/
theorem findLeft_spec (trimap : Bool) (_bounds : RectI) (mapStart : List Nat) :
    ∀ (fuel : Nat) (j : Int) (bbox : RectI) (flag : Bool),
    j = bbox.x1 → (bbox.x2 - bbox.x1).toNat ≤ fuel →
    ∃ (x : Int) (f : Bool),
      findLeft trimap _bounds mapStart fuel j bbox flag = (⟨x, bbox.y1, bbox.x2, bbox.y2⟩, f) ∧
      bbox.x1 ≤ x ∧ (x = bbox.x1 ∨ x ≤ bbox.x2) ∧
      (∀ c, bbox.x1 ≤ c → c < x → colOK trimap _bounds mapStart bbox.y1 bbox.y2 c) ∧
      (x < bbox.x2 → ¬ colOK trimap _bounds mapStart bbox.y1 bbox.y2 x) ∧
      (f = true ↔ flag = true ∨
        (trimap = true ∧ hasReserved _bounds mapStart bbox.x1 x bbox.y1 bbox.y2)) := by
  intro fuel
  induction fuel with
  | zero =>
    intro j bbox flag _ hf
    refine ⟨bbox.x1, flag, rfl, le_refl _, Or.inl rfl, fun r h1 h2 => by omega,
      fun h => by omega, ?_⟩
    have := hasReserved_cols_empty _bounds mapStart bbox.x1 bbox.x1 bbox.y1 bbox.y2 (le_refl _)
    simp [this]
  | succ fuel ih =>
    intro j bbox flag hj hf
    subst hj
    rw [findLeft]
    have hnone := hasReserved_cols_empty _bounds mapStart bbox.x1 bbox.x1 bbox.y1 bbox.y2
      (le_refl _)
    by_cases hlt : bbox.x1 < bbox.right
    · rw [if_pos hlt]
      have hfst := colTest_fst trimap _bounds mapStart bbox bbox.x1
      have hsnd := colTest_snd trimap _bounds mapStart bbox bbox.x1
      rcases hrs : colTest trimap _bounds mapStart bbox bbox.x1 with ⟨ok, met⟩
      rw [hrs] at hfst hsnd
      simp only [RectI.right] at hlt
      cases ok
      · refine ⟨bbox.x1, flag, rfl, le_refl _, Or.inl rfl, fun r h1 h2 => by omega,
          fun _ hok => ?_, by simp [hnone]⟩
        exact absurd (hfst.mpr hok) (by simp)
      · have hcol := hfst.mp rfl
        have hmet := hsnd rfl
        obtain ⟨x, f, heq, ha, hb, hc, hd, he⟩ :=
          ih (bbox.x1 + 1) ⟨bbox.x1 + 1, bbox.y1, bbox.x2, bbox.y2⟩
            (if (trimap && met) = true then true else flag) rfl
            (by simp only; omega)
        simp only at heq ha hb hc hd he
        refine ⟨x, f, heq, by omega, Or.inr (by omega), fun c h1 h2 => ?_, hd, ?_⟩
        · by_cases hr : c = bbox.x1
          · subst hr; exact hcol
          · exact hc c (by omega) h2
        · rw [he, flag_step, hasReserved_first_col _ _ _ _ _ _ (show bbox.x1 < x by omega)]
          exact flag_combine hmet
    · rw [if_neg hlt]
      simp only [RectI.right] at hlt
      refine ⟨bbox.x1, flag, rfl, le_refl _, Or.inl rfl, fun r h1 h2 => by omega,
        fun h => by omega, by simp [hnone]⟩

/-- The loop "find right" moves `x2` left to just after the last column that is not
satisfied (or to `x1`). -/
theorem findRight_spec (trimap : Bool) (_bounds : RectI) (mapStart : List Nat) :
    ∀ (fuel : Nat) (j : Int) (bbox : RectI) (flag : Bool),
    j = bbox.x2 - 1 → (bbox.x2 - bbox.x1).toNat ≤ fuel →
    ∃ (x : Int) (f : Bool),
      findRight trimap _bounds mapStart fuel j bbox flag = (⟨bbox.x1, bbox.y1, x, bbox.y2⟩, f) ∧
      x ≤ bbox.x2 ∧ (x = bbox.x2 ∨ bbox.x1 ≤ x) ∧
      (∀ c, x ≤ c → c < bbox.x2 → colOK trimap _bounds mapStart bbox.y1 bbox.y2 c) ∧
      (bbox.x1 < x → ¬ colOK trimap _bounds mapStart bbox.y1 bbox.y2 (x - 1)) ∧
      (f = true ↔ flag = true ∨
        (trimap = true ∧ hasReserved _bounds mapStart x bbox.x2 bbox.y1 bbox.y2)) := by
  intro fuel
  induction fuel with
  | zero =>
    intro j bbox flag _ hf
    refine ⟨bbox.x2, flag, rfl, le_refl _, Or.inl rfl, fun r h1 h2 => by omega,
      fun h => by omega, ?_⟩
    have := hasReserved_cols_empty _bounds mapStart bbox.x2 bbox.x2 bbox.y1 bbox.y2 (le_refl _)
    simp [this]
  | succ fuel ih =>
    intro j bbox flag hj hf
    subst hj
    rw [findRight]
    have hnone := hasReserved_cols_empty _bounds mapStart bbox.x2 bbox.x2 bbox.y1 bbox.y2
      (le_refl _)
    by_cases hlt : bbox.x2 - 1 ≥ bbox.left
    · rw [if_pos hlt]
      have hfst := colTest_fst trimap _bounds mapStart bbox (bbox.x2 - 1)
      have hsnd := colTest_snd trimap _bounds mapStart bbox (bbox.x2 - 1)
      rcases hrs : colTest trimap _bounds mapStart bbox (bbox.x2 - 1) with ⟨ok, met⟩
      rw [hrs] at hfst hsnd
      simp only [RectI.left] at hlt
      cases ok
      · refine ⟨bbox.x2, flag, rfl, le_refl _, Or.inl rfl, fun r h1 h2 => by omega,
          fun _ hok => ?_, by simp [hnone]⟩
        exact absurd (hfst.mpr hok) (by simp)
      · have hcol := hfst.mp rfl
        have hmet := hsnd rfl
        obtain ⟨x, f, heq, ha, hb, hc, hd, he⟩ :=
          ih (bbox.x2 - 1 - 1) ⟨bbox.x1, bbox.y1, bbox.x2 - 1, bbox.y2⟩
            (if (trimap && met) = true then true else flag) rfl
            (by simp only; omega)
        simp only at heq ha hb hc hd he
        refine ⟨x, f, heq, by omega, Or.inr (by omega), fun c h1 h2 => ?_, hd, ?_⟩
        · by_cases hr : c = bbox.x2 - 1
          · subst hr; exact hcol
          · exact hc c h1 (by omega)
        · rw [he, flag_step, hasReserved_last_col _ _ _ _ _ _ (show x < bbox.x2 by omega)]
          exact flag_combine hmet
    · rw [if_neg hlt]
      simp only [RectI.left] at hlt
      refine ⟨bbox.x2, flag, rfl, le_refl _, Or.inl rfl, fun r h1 h2 => by omega,
        fun h => by omega, by simp [hnone]⟩

/-! ## The bounding box, characterised -/

theorem RectI.isNull_false_iff (r : RectI) : r.isNull = false ↔ r.x1 < r.x2 ∧ r.y1 < r.y2 := by
  unfold RectI.isNull
  simp only [Bool.or_eq_false_iff, decide_eq_false_iff_not, not_le]

theorem RectI.isNull_true_iff (r : RectI) : r.isNull = true ↔ r.x2 ≤ r.x1 ∨ r.y2 ≤ r.y1 := by
  unfold RectI.isNull
  simp only [Bool.or_eq_true, decide_eq_true_eq]

theorem RectI.isNull_iff_no_pixel (r : RectI) : r.isNull = true ↔ ∀ x y, ¬ r.hasPixel x y := by
  rw [RectI.isNull_true_iff]
  unfold RectI.hasPixel
  constructor
  · rintro h x y ⟨h1, h2, h3, h4⟩
    omega
  · intro h
    by_contra hc
    exact h r.x1 r.y1 ⟨le_refl _, by omega, le_refl _, by omega⟩

theorem not_rowOK_iff (trimap : Bool) (_bounds : RectI) (mapStart : List Nat) (xa xb y : Int) :
    ¬ rowOK trimap _bounds mapStart xa xb y ↔
      ∃ x, xa ≤ x ∧ x < xb ∧ unavailable trimap (pixelAt _bounds mapStart x y) := by
  unfold rowOK
  push_neg
  rfl

theorem not_colOK_iff (trimap : Bool) (_bounds : RectI) (mapStart : List Nat) (ya yb x : Int) :
    ¬ colOK trimap _bounds mapStart ya yb x ↔
      ∃ y, ya ≤ y ∧ y < yb ∧ unavailable trimap (pixelAt _bounds mapStart x y) := by
  unfold colOK
  push_neg
  rfl

/-- What `minimalNonMarkedBbox_internal` computes: a rectangle inside `roi` out of which
every pixel of `roi` is available, with an unavailable pixel on each of its edges when
it is not empty; the flag is raised exactly when a pixel of `roi` left out of the
rectangle is reserved (trimap mode only). -/
theorem bbox_spec (trimap : Bool) (roi _bounds : RectI) (mapStart : List Nat) (flag : Bool) :
    ∃ (r : RectI) (f : Bool),
      minimalNonMarkedBbox_internal trimap roi _bounds mapStart flag = (r, f) ∧
      (roi.x1 ≤ r.x1 ∧ r.x2 ≤ roi.x2 ∧ roi.y1 ≤ r.y1 ∧ r.y2 ≤ roi.y2) ∧
      (roi.x1 ≤ roi.x2 → roi.y1 ≤ roi.y2 → r.x1 ≤ r.x2 ∧ r.y1 ≤ r.y2) ∧
      (∀ x y, roi.hasPixel x y → ¬ r.hasPixel x y →
        ¬ unavailable trimap (pixelAt _bounds mapStart x y)) ∧
      (r.isNull = false → tightEdges trimap _bounds mapStart r) ∧
      (f = true ↔ flag = true ∨ (trimap = true ∧ ∃ x y, roi.hasPixel x y ∧ ¬ r.hasPixel x y ∧
        pixelAt _bounds mapStart x y = PIXEL_UNAVAILABLE)) := by
  obtain ⟨ya, f1, e1, a1, b1, c1, d1, g1⟩ :=
    findBottom_spec trimap _bounds mapStart (roi.y2 - roi.y1).toNat roi.y1 roi flag rfl
      (le_refl _)
  obtain ⟨yb, f2, e2, a2, b2, c2, d2, g2⟩ :=
    findTop_spec trimap _bounds mapStart (roi.y2 - ya).toNat (roi.y2 - 1)
      ⟨roi.x1, ya, roi.x2, roi.y2⟩ f1 rfl (le_refl _)
  simp only at e2 a2 b2 c2 d2 g2
  by_cases hnull : (RectI.mk roi.x1 ya roi.x2 yb).isNull = true
  · refine ⟨⟨roi.x1, ya, roi.x2, yb⟩, f2, ?_, ⟨le_refl _, le_refl _, a1, a2⟩,
      fun h1 h2 => ⟨h1, by simp only; omega⟩, ?_, ?_, ?_⟩
    · simp only [minimalNonMarkedBbox_internal, RectI.top, RectI.bottom, e1, e2, hnull,
        if_true]
    · rintro x y ⟨h1, h2, h3, h4⟩ -
      rw [RectI.isNull_true_iff] at hnull
      simp only at hnull
      by_cases hy : y < ya
      · exact c1 y h3 hy x h1 h2
      · exact c2 y (by omega) h4 x h1 h2
    · intro h; rw [h] at hnull; cases hnull
    · rw [g2, g1]
      rw [RectI.isNull_true_iff] at hnull
      simp only at hnull
      constructor
      · rintro ((h | ⟨ht, x, y, h1, h2, h3, h4, hv⟩) | ⟨ht, x, y, h1, h2, h3, h4, hv⟩)
        · exact Or.inl h
        · exact Or.inr ⟨ht, x, y, ⟨h1, h2, h3, by omega⟩,
            fun hp => by simp only [RectI.hasPixel] at hp; omega, hv⟩
        · exact Or.inr ⟨ht, x, y, ⟨h1, h2, by omega, h4⟩,
            fun hp => by simp only [RectI.hasPixel] at hp; omega, hv⟩
      · rintro (h | ⟨ht, x, y, ⟨h1, h2, h3, h4⟩, -, hv⟩)
        · exact Or.inl (Or.inl h)
        · by_cases hy : y < ya
          · exact Or.inl (Or.inr ⟨ht, x, y, h1, h2, h3, hy, hv⟩)
          · exact Or.inr ⟨ht, x, y, h1, h2, by omega, h4, hv⟩
  · have hnn : (RectI.mk roi.x1 ya roi.x2 yb).isNull = false := by simpa using hnull
    obtain ⟨hxx, hyy⟩ := (RectI.isNull_false_iff _).mp hnn
    simp only at hxx hyy
    obtain ⟨xa, f3, e3, a3, b3, c3, d3, g3⟩ :=
      findLeft_spec trimap _bounds mapStart (roi.x2 - roi.x1).toNat roi.x1
        ⟨roi.x1, ya, roi.x2, yb⟩ f2 rfl (le_refl _)
    simp only at e3 a3 b3 c3 d3 g3
    obtain ⟨xb, f4, e4, a4, b4, c4, d4, g4⟩ :=
      findRight_spec trimap _bounds mapStart (roi.x2 - xa).toNat (roi.x2 - 1)
        ⟨xa, ya, roi.x2, yb⟩ f3 rfl (le_refl _)
    simp only at e4 a4 b4 c4 d4 g4
    -- the first and the last row kept hold an unavailable pixel
    obtain ⟨cb, hcb1, hcb2, hcbv⟩ := (not_rowOK_iff _ _ _ _ _ _).mp (d1 (by omega))
    obtain ⟨ct, hct1, hct2, hctv⟩ := (not_rowOK_iff _ _ _ _ _ _).mp (d2 (by omega))
    have hcb3 : xa ≤ cb := by
      by_contra hc
      exact c3 cb hcb1 (by omega) ya (le_refl _) hyy hcbv
    have hxa : xa < roi.x2 := by omega
    have hcb4 : cb < xb := by
      by_contra hc
      exact c4 cb (by omega) hcb2 ya (le_refl _) hyy hcbv
    have hct3 : xa ≤ ct := by
      by_contra hc
      exact c3 ct hct1 (by omega) (yb - 1) (by omega) (by omega) hctv
    have hct4 : ct < xb := by
      by_contra hc
      exact c4 ct (by omega) hct2 (yb - 1) (by omega) (by omega) hctv
    refine ⟨⟨xa, ya, xb, yb⟩, f4, ?_, ⟨a3, a4, a1, a2⟩, fun _ _ => ⟨by simp only; omega, by simp only; omega⟩,
      ?_, ?_, ?_⟩
    · simp only [minimalNonMarkedBbox_internal, RectI.top, RectI.bottom, RectI.left,
        RectI.right, e1, e2, hnn, e3, e4, Bool.false_eq_true, if_false]
    · rintro x y ⟨h1, h2, h3, h4⟩ hout
      simp only [RectI.hasPixel] at hout
      by_cases hy : y < ya
      · exact c1 y h3 hy x h1 h2
      · by_cases hy2 : yb ≤ y
        · exact c2 y hy2 h4 x h1 h2
        · by_cases hx : x < xa
          · exact c3 x h1 hx y (by omega) (by omega)
          · exact c4 x (by omega) h2 y (by omega) (by omega)
    · intro _
      refine ⟨⟨cb, hcb3, hcb4, hcbv⟩, ⟨ct, hct3, hct4, hctv⟩,
        (not_colOK_iff _ _ _ _ _ _).mp (d3 hxa), (not_colOK_iff _ _ _ _ _ _).mp (d4 (by omega))⟩
    · rw [g4, g3, g2, g1]
      constructor
      · rintro ((((h | ⟨ht, x, y, h1, h2, h3, h4, hv⟩) | ⟨ht, x, y, h1, h2, h3, h4, hv⟩) |
          ⟨ht, x, y, h1, h2, h3, h4, hv⟩) | ⟨ht, x, y, h1, h2, h3, h4, hv⟩)
        · exact Or.inl h
        · exact Or.inr ⟨ht, x, y, ⟨h1, h2, h3, by omega⟩,
            fun hp => by simp only [RectI.hasPixel] at hp; omega, hv⟩
        · exact Or.inr ⟨ht, x, y, ⟨h1, h2, by omega, h4⟩,
            fun hp => by simp only [RectI.hasPixel] at hp; omega, hv⟩
        · exact Or.inr ⟨ht, x, y, ⟨h1, by omega, by omega, by omega⟩,
            fun hp => by simp only [RectI.hasPixel] at hp; omega, hv⟩
        · exact Or.inr ⟨ht, x, y, ⟨by omega, h2, by omega, by omega⟩,
            fun hp => by simp only [RectI.hasPixel] at hp; omega, hv⟩
      · rintro (h | ⟨ht, x, y, ⟨h1, h2, h3, h4⟩, hout, hv⟩)
        · exact Or.inl (Or.inl (Or.inl (Or.inl h)))
        · simp only [RectI.hasPixel] at hout
          by_cases hy : y < ya
          · exact Or.inl (Or.inl (Or.inl (Or.inr ⟨ht, x, y, h1, h2, h3, hy, hv⟩)))
          · by_cases hy2 : yb ≤ y
            · exact Or.inl (Or.inl (Or.inr ⟨ht, x, y, h1, h2, hy2, h4, hv⟩))
            · by_cases hx : x < xa
              · exact Or.inl (Or.inr ⟨ht, x, y, h1, hx, by omega, by omega, hv⟩)
              · exact Or.inr ⟨ht, x, y, by omega, h2, by omega, by omega, hv⟩

/-! ## The strip scans, characterised -/

theorem stripRowTrimap_fst (mapStart : List Nat) : ∀ (n : Nat) (buf : Int),
    (stripRowTrimap mapStart n buf).1 = true ↔
      ∀ k : Nat, k < n → blank true (peek mapStart (buf + k)) := by
  intro n
  induction n with
  | zero => intro buf; simp [stripRowTrimap]
  | succ n ih =>
    intro buf
    have key : (∀ k : Nat, k < n + 1 → blank true (peek mapStart (buf + k))) ↔
        (blank true (peek mapStart buf) ∧
          ∀ k : Nat, k < n → blank true (peek mapStart (buf + 1 + k))) := by
      constructor
      · intro h
        refine ⟨by simpa using h 0 (Nat.succ_pos n), fun k hk => ?_⟩
        have := h (k + 1) (by omega)
        rwa [show buf + ((k + 1 : Nat) : Int) = buf + 1 + k by push_cast; ring] at this
      · rintro ⟨h0, h⟩ k hk
        rcases Nat.eq_zero_or_pos k with rfl | hpos
        · simpa using h0
        · have := h (k - 1) (by omega)
          rwa [show buf + 1 + ((k - 1 : Nat) : Int) = buf + k by omega] at this
    rw [stripRowTrimap, key]
    by_cases h1 : peek mapStart buf = 1
    · rw [if_pos h1]; simp [blank, h1]
    · rw [if_neg h1]
      by_cases h2 : peek mapStart buf = PIXEL_UNAVAILABLE
      · rw [if_pos h2]; simp [blank, h2]
      · rw [if_neg h2, ih]; simp [blank, h1, h2]

theorem stripRowTrimap_snd (mapStart : List Nat) : ∀ (n : Nat) (buf : Int),
    (stripRowTrimap mapStart n buf).2 = true →
      ∃ k : Nat, k < n ∧ peek mapStart (buf + k) = PIXEL_UNAVAILABLE := by
  intro n
  induction n with
  | zero => intro buf; simp [stripRowTrimap]
  | succ n ih =>
    intro buf
    rw [stripRowTrimap]
    by_cases h1 : peek mapStart buf = 1
    · rw [if_pos h1]; simp
    · rw [if_neg h1]
      by_cases h2 : peek mapStart buf = PIXEL_UNAVAILABLE
      · rw [if_pos h2]
        intro _
        exact ⟨0, Nat.succ_pos n, by simpa using h2⟩
      · rw [if_neg h2]
        intro h
        obtain ⟨k, hk, hv⟩ := ih _ h
        refine ⟨k + 1, by omega, ?_⟩
        rwa [show buf + ((k + 1 : Nat) : Int) = buf + 1 + k by push_cast; ring]

theorem memchr_isNone (mapStart : List Nat) (c : Nat) : ∀ (n : Nat) (buf : Int),
    (memchr mapStart c n buf).isNone = true ↔
      ∀ k : Nat, k < n → peek mapStart (buf + k) ≠ c := by
  intro n
  induction n with
  | zero => intro buf; simp [memchr]
  | succ n ih =>
    intro buf
    rw [memchr]
    by_cases h1 : peek mapStart buf = c
    · rw [if_pos h1]
      simp only [Option.isNone_some, Bool.false_eq_true, false_iff, not_forall]
      exact ⟨0, Nat.succ_pos n, by simpa using h1⟩
    · rw [if_neg h1, ih]
      constructor
      · intro h k hk
        rcases Nat.eq_zero_or_pos k with rfl | hpos
        · simpa using h1
        · have := h (k - 1) (by omega)
          rwa [show buf + 1 + ((k - 1 : Nat) : Int) = buf + k by omega] at this
      · intro h k hk
        have := h (k + 1) (by omega)
        rwa [show buf + ((k + 1 : Nat) : Int) = buf + 1 + k by push_cast; ring] at this

theorem stripColScan_fst (trimap : Bool) (mapStart : List Nat) (stride : Int) :
    ∀ (n : Nat) (pix : Int),
    (stripColScan trimap mapStart stride n pix).1 = true ↔
      ∀ k : Nat, k < n → blank trimap (peek mapStart (pix + k * stride)) := by
  intro n
  induction n with
  | zero => intro pix; simp [stripColScan]
  | succ n ih =>
    intro pix
    have key : (∀ k : Nat, k < n + 1 → blank trimap (peek mapStart (pix + k * stride))) ↔
        (blank trimap (peek mapStart pix) ∧ ∀ k : Nat, k < n →
          blank trimap (peek mapStart (pix + stride + k * stride))) := by
      constructor
      · intro h
        refine ⟨by simpa using h 0 (Nat.succ_pos n), fun k hk => ?_⟩
        have := h (k + 1) (by omega)
        rwa [show pix + ((k + 1 : Nat) : Int) * stride = pix + stride + k * stride by
          push_cast; ring] at this
      · rintro ⟨h0, h⟩ k hk
        rcases Nat.eq_zero_or_pos k with rfl | hpos
        · simpa using h0
        · have := h (k - 1) (by omega)
          rwa [show pix + stride + ((k - 1 : Nat) : Int) * stride = pix + k * stride by
            rw [Nat.cast_sub (by omega)]; push_cast; ring] at this
    rw [stripColScan, key]
    by_cases h1 : peek mapStart pix = 1
    · rw [if_pos h1]; simp [blank, h1]
    · rw [if_neg h1]
      by_cases h2 : (trimap && decide (peek mapStart pix = PIXEL_UNAVAILABLE)) = true
      · rw [if_pos h2]
        simp only [Bool.and_eq_true, decide_eq_true_eq] at h2
        simp [blank, h2.1, h2.2]
      · rw [if_neg h2, ih]
        simp only [Bool.and_eq_true, decide_eq_true_eq, not_and] at h2
        simp only [blank, ne_eq, h1, not_false_eq_true, true_and, iff_and_self]
        exact fun _ => h2

theorem stripColScan_snd (trimap : Bool) (mapStart : List Nat) (stride : Int) :
    ∀ (n : Nat) (pix : Int),
    (stripColScan trimap mapStart stride n pix).2 = true →
      trimap = true ∧
        ∃ k : Nat, k < n ∧ peek mapStart (pix + k * stride) = PIXEL_UNAVAILABLE := by
  intro n
  induction n with
  | zero => intro pix; simp [stripColScan]
  | succ n ih =>
    intro pix
    rw [stripColScan]
    by_cases h1 : peek mapStart pix = 1
    · rw [if_pos h1]; simp
    · rw [if_neg h1]
      by_cases h2 : (trimap && decide (peek mapStart pix = PIXEL_UNAVAILABLE)) = true
      · rw [if_pos h2]
        simp only [Bool.and_eq_true, decide_eq_true_eq] at h2
        intro _
        exact ⟨h2.1, 0, Nat.succ_pos n, by simpa using h2.2⟩
      · rw [if_neg h2]
        intro h
        obtain ⟨ht, k, hk, hv⟩ := ih _ h
        refine ⟨ht, k + 1, by omega, ?_⟩
        rwa [show pix + ((k + 1 : Nat) : Int) * stride = pix + stride + k * stride by
          push_cast; ring]

theorem stripRow_fst (trimap : Bool) (_bounds : RectI) (mapStart : List Nat) (bboxX : RectI)
    (i : Int) :
    (stripRow trimap _bounds mapStart bboxX i).1 = true ↔
      rowBlank trimap _bounds mapStart bboxX.x1 bboxX.x2 i := by
  unfold rowBlank stripRow RectI.width RectI.left pixelAt
  rw [← forall_range_iff (fun x => blank trimap (peek mapStart (BM_GET _bounds i x)))]
  cases trimap
  · simp only [Bool.false_eq_true, if_false, memchr_isNone, BM_GET_add_col, blank,
      false_implies, and_true]
  · simp only [if_true, stripRowTrimap_fst, BM_GET_add_col]

theorem stripRow_snd (trimap : Bool) (_bounds : RectI) (mapStart : List Nat) (bboxX : RectI)
    (i : Int) (h : (stripRow trimap _bounds mapStart bboxX i).2 = true) :
    trimap = true ∧ ∃ x, bboxX.x1 ≤ x ∧ x < bboxX.x2 ∧
      pixelAt _bounds mapStart x i = PIXEL_UNAVAILABLE := by
  unfold stripRow RectI.width RectI.left at h
  unfold pixelAt
  rw [← exists_range_iff (fun x => peek mapStart (BM_GET _bounds i x) = PIXEL_UNAVAILABLE)]
  cases trimap
  · simp at h
  · simp only [if_true] at h
    obtain ⟨k, hk, hv⟩ := stripRowTrimap_snd _ _ _ h
    exact ⟨rfl, k, hk, by rwa [BM_GET_add_col] at hv⟩

theorem stripCol_fst (trimap : Bool) (_bounds : RectI) (mapStart : List Nat) (bboxX : RectI)
    (j : Int) :
    (stripCol trimap _bounds mapStart bboxX j).1 = true ↔
      colBlank trimap _bounds mapStart bboxX.y1 bboxX.y2 j := by
  unfold colBlank stripCol RectI.top RectI.bottom pixelAt
  rw [← forall_range_iff (fun y => blank trimap (peek mapStart (BM_GET _bounds y j)))]
  simp only [stripColScan_fst, BM_GET_add_row]

theorem stripCol_snd (trimap : Bool) (_bounds : RectI) (mapStart : List Nat) (bboxX : RectI)
    (j : Int) (h : (stripCol trimap _bounds mapStart bboxX j).2 = true) :
    trimap = true ∧ ∃ y, bboxX.y1 ≤ y ∧ y < bboxX.y2 ∧
      pixelAt _bounds mapStart j y = PIXEL_UNAVAILABLE := by
  unfold stripCol RectI.top RectI.bottom at h
  unfold pixelAt
  rw [← exists_range_iff (fun y => peek mapStart (BM_GET _bounds y j) = PIXEL_UNAVAILABLE)]
  obtain ⟨ht, k, hk, hv⟩ := stripColScan_snd _ _ _ _ _ h
  exact ⟨ht, k, hk, by rwa [BM_GET_add_row] at hv⟩

/-! ## The strip loops, characterised -/

theorem flag_keep (met flag : Bool) (h : flag = true) :
    (if met = true then true else flag) = true := by
  cases met <;> simp [h]

theorem flag_from (met flag : Bool) (h : (if met = true then true else flag) = true) :
    flag = true ∨ met = true := by
  cases met <;> simp_all

/-- The loop of strip A moves the bottom of `bboxX` up over the blank rows, the top of
`bboxA` following it. -/
theorem findA_spec (trimap : Bool) (_bounds : RectI) (mapStart : List Nat) :
    ∀ (fuel : Nat) (i : Int) (X A : RectI) (flag : Bool),
    i = X.y1 → A.y2 = X.y1 → (X.y2 - X.y1).toNat ≤ fuel →
    ∃ (y : Int) (f : Bool),
      findA trimap _bounds mapStart fuel i X A flag =
        (⟨X.x1, y, X.x2, X.y2⟩, ⟨A.x1, A.y1, A.x2, y⟩, f) ∧
      X.y1 ≤ y ∧ (y = X.y1 ∨ y ≤ X.y2) ∧
      (∀ r, X.y1 ≤ r → r < y → rowBlank trimap _bounds mapStart X.x1 X.x2 r) ∧
      (y < X.y2 → ¬ rowBlank trimap _bounds mapStart X.x1 X.x2 y) ∧
      (flag = true → f = true) ∧
      (f = true → flag = true ∨ (trimap = true ∧ y < X.y2 ∧
        ∃ x, X.x1 ≤ x ∧ x < X.x2 ∧ pixelAt _bounds mapStart x y = PIXEL_UNAVAILABLE)) := by
  intro fuel
  induction fuel with
  | zero =>
    intro i X A flag _ hA hf
    refine ⟨X.y1, flag, ?_, le_refl _, Or.inl rfl, fun r h1 h2 => by omega,
      fun h => by omega, fun h => h, fun h => Or.inl h⟩
    rw [findA]; cases A; cases X; simp only at hA; subst hA; rfl
  | succ fuel ih =>
    intro i X A flag hi hA hf
    subst hi
    rw [findA]
    by_cases hlt : X.y1 < X.top
    · rw [if_pos hlt]
      have hfst := stripRow_fst trimap _bounds mapStart X X.y1
      have hsnd := stripRow_snd trimap _bounds mapStart X X.y1
      rcases hrs : stripRow trimap _bounds mapStart X X.y1 with ⟨ok, met⟩
      rw [hrs] at hfst hsnd
      simp only [RectI.top] at hlt
      cases ok
      · refine ⟨X.y1, if met = true then true else flag, ?_, le_refl _, Or.inl rfl,
          fun r h1 h2 => by omega, fun _ hok => ?_, flag_keep met flag, fun h => ?_⟩
        · cases A; cases X; simp only at hA; subst hA; rfl
        · exact absurd (hfst.mpr hok) (by simp)
        · rcases flag_from met flag h with h | h
          · exact Or.inl h
          · obtain ⟨ht, hx⟩ := hsnd h
            exact Or.inr ⟨ht, hlt, hx⟩
      · have hrow := hfst.mp rfl
        obtain ⟨y, f, heq, ha, hb, hc, hd, hk, he⟩ :=
          ih (X.y1 + 1) ⟨X.x1, X.y1 + 1, X.x2, X.y2⟩ ⟨A.x1, A.y1, A.x2, X.y1 + 1⟩ flag rfl rfl
            (by simp only; omega)
        simp only at heq ha hb hc hd he
        refine ⟨y, f, heq, by omega, Or.inr (by omega), fun r h1 h2 => ?_, hd, hk, he⟩
        by_cases hr : r = X.y1
        · subst hr; exact hrow
        · exact hc r (by omega) h2
    · rw [if_neg hlt]
      simp only [RectI.top] at hlt
      refine ⟨X.y1, flag, ?_, le_refl _, Or.inl rfl, fun r h1 h2 => by omega,
        fun h => by omega, fun h => h, fun h => Or.inl h⟩
      cases A; cases X; simp only at hA; subst hA; rfl

/-- The loop of strip B moves the top of `bboxX` down over the blank rows. -/
theorem findB_spec (trimap : Bool) (_bounds : RectI) (mapStart : List Nat) :
    ∀ (fuel : Nat) (i : Int) (X B : RectI) (flag : Bool),
    i = X.y2 - 1 → B.y1 = X.y2 → (X.y2 - X.y1).toNat ≤ fuel →
    ∃ (y : Int) (f : Bool),
      findB trimap _bounds mapStart fuel i X B flag =
        (⟨X.x1, X.y1, X.x2, y⟩, ⟨B.x1, y, B.x2, B.y2⟩, f) ∧
      y ≤ X.y2 ∧ (y = X.y2 ∨ X.y1 ≤ y) ∧
      (∀ r, y ≤ r → r < X.y2 → rowBlank trimap _bounds mapStart X.x1 X.x2 r) ∧
      (X.y1 < y → ¬ rowBlank trimap _bounds mapStart X.x1 X.x2 (y - 1)) ∧
      (flag = true → f = true) ∧
      (f = true → flag = true ∨ (trimap = true ∧ X.y1 < y ∧
        ∃ x, X.x1 ≤ x ∧ x < X.x2 ∧ pixelAt _bounds mapStart x (y - 1) = PIXEL_UNAVAILABLE)) := by
  intro fuel
  induction fuel with
  | zero =>
    intro i X B flag _ hB hf
    refine ⟨X.y2, flag, ?_, le_refl _, Or.inl rfl, fun r h1 h2 => by omega,
      fun h => by omega, fun h => h, fun h => Or.inl h⟩
    rw [findB]; cases B; cases X; simp only at hB; subst hB; rfl
  | succ fuel ih =>
    intro i X B flag hi hB hf
    subst hi
    rw [findB]
    by_cases hlt : X.y2 - 1 ≥ X.bottom
    · rw [if_pos hlt]
      have hfst := stripRow_fst trimap _bounds mapStart X (X.y2 - 1)
      have hsnd := stripRow_snd trimap _bounds mapStart X (X.y2 - 1)
      rcases hrs : stripRow trimap _bounds mapStart X (X.y2 - 1) with ⟨ok, met⟩
      rw [hrs] at hfst hsnd
      simp only [RectI.bottom] at hlt
      cases ok
      · refine ⟨X.y2, if met = true then true else flag, ?_, le_refl _, Or.inl rfl,
          fun r h1 h2 => by omega, fun _ hok => ?_, flag_keep met flag, fun h => ?_⟩
        · cases B; cases X; simp only at hB; subst hB; rfl
        · exact absurd (hfst.mpr hok) (by simp)
        · rcases flag_from met flag h with h | h
          · exact Or.inl h
          · obtain ⟨ht, hx⟩ := hsnd h
            exact Or.inr ⟨ht, by omega, hx⟩
      · have hrow := hfst.mp rfl
        obtain ⟨y, f, heq, ha, hb, hc, hd, hk, he⟩ :=
          ih (X.y2 - 1 - 1) ⟨X.x1, X.y1, X.x2, X.y2 - 1⟩ ⟨B.x1, X.y2 - 1, B.x2, B.y2⟩ flag
            rfl rfl (by simp only; omega)
        simp only at heq ha hb hc hd he
        refine ⟨y, f, heq, by omega, Or.inr (by omega), fun r h1 h2 => ?_, hd, hk, he⟩
        by_cases hr : r = X.y2 - 1
        · subst hr; exact hrow
        · exact hc r h1 (by omega)
    · rw [if_neg hlt]
      simp only [RectI.bottom] at hlt
      refine ⟨X.y2, flag, ?_, le_refl _, Or.inl rfl, fun r h1 h2 => by omega,
        fun h => by omega, fun h => h, fun h => Or.inl h⟩
      cases B; cases X; simp only at hB; subst hB; rfl

/-- The loop of strip C moves the left of `bboxX` right over the blank columns. -/
theorem findC_spec (trimap : Bool) (_bounds : RectI) (mapStart : List Nat) :
    ∀ (fuel : Nat) (j : Int) (X C : RectI) (flag : Bool),
    j = X.x1 → C.x2 = X.x1 → (X.x2 - X.x1).toNat ≤ fuel →
    ∃ (x : Int) (f : Bool),
      findC trimap _bounds mapStart fuel j X C flag =
        (⟨x, X.y1, X.x2, X.y2⟩, ⟨C.x1, C.y1, x, C.y2⟩, f) ∧
      X.x1 ≤ x ∧ (x = X.x1 ∨ x ≤ X.x2) ∧
      (∀ c, X.x1 ≤ c → c < x → colBlank trimap _bounds mapStart X.y1 X.y2 c) ∧
      (x < X.x2 → ¬ colBlank trimap _bounds mapStart X.y1 X.y2 x) ∧
      (flag = true → f = true) ∧
      (f = true → flag = true ∨ (trimap = true ∧ x < X.x2 ∧
        ∃ y, X.y1 ≤ y ∧ y < X.y2 ∧ pixelAt _bounds mapStart x y = PIXEL_UNAVAILABLE)) := by
  intro fuel
  induction fuel with
  | zero =>
    intro j X C flag _ hC hf
    refine ⟨X.x1, flag, ?_, le_refl _, Or.inl rfl, fun r h1 h2 => by omega,
      fun h => by omega, fun h => h, fun h => Or.inl h⟩
    rw [findC]; cases C; cases X; simp only at hC; subst hC; rfl
  | succ fuel ih =>
    intro j X C flag hj hC hf
    subst hj
    rw [findC]
    by_cases hlt : X.x1 < X.right
    · rw [if_pos hlt]
      have hfst := stripCol_fst trimap _bounds mapStart X X.x1
      have hsnd := stripCol_snd trimap _bounds mapStart X X.x1
      rcases hrs : stripCol trimap _bounds mapStart X X.x1 with ⟨ok, met⟩
      rw [hrs] at hfst hsnd
      simp only [RectI.right] at hlt
      cases ok
      · refine ⟨X.x1, if met = true then true else flag, ?_, le_refl _, Or.inl rfl,
          fun r h1 h2 => by omega, fun _ hok => ?_, flag_keep met flag, fun h => ?_⟩
        · cases C; cases X; simp only at hC; subst hC; rfl
        · exact absurd (hfst.mpr hok) (by simp)
        · rcases flag_from met flag h with h | h
          · exact Or.inl h
          · obtain ⟨ht, hx⟩ := hsnd h
            exact Or.inr ⟨ht, hlt, hx⟩
      · have hcol := hfst.mp rfl
        obtain ⟨x, f, heq, ha, hb, hc, hd, hk, he⟩ :=
          ih (X.x1 + 1) ⟨X.x1 + 1, X.y1, X.x2, X.y2⟩ ⟨C.x1, C.y1, X.x1 + 1, C.y2⟩ flag rfl rfl
            (by simp only; omega)
        simp only at heq ha hb hc hd he
        refine ⟨x, f, heq, by omega, Or.inr (by omega), fun c h1 h2 => ?_, hd, hk, he⟩
        by_cases hr : c = X.x1
        · subst hr; exact hcol
        · exact hc c (by omega) h2
    · rw [if_neg hlt]
      simp only [RectI.right] at hlt
      refine ⟨X.x1, flag, ?_, le_refl _, Or.inl rfl, fun r h1 h2 => by omega,
        fun h => by omega, fun h => h, fun h => Or.inl h⟩
      cases C; cases X; simp only at hC; subst hC; rfl

/-- The loop of strip D moves the right of `bboxX` left over the blank columns. -/
theorem findD_spec (trimap : Bool) (_bounds : RectI) (mapStart : List Nat) :
    ∀ (fuel : Nat) (j : Int) (X D : RectI) (flag : Bool),
    j = X.x2 - 1 → D.x1 = X.x2 → (X.x2 - X.x1).toNat ≤ fuel →
    ∃ (x : Int) (f : Bool),
      findD trimap _bounds mapStart fuel j X D flag =
        (⟨X.x1, X.y1, x, X.y2⟩, ⟨x, D.y1, D.x2, D.y2⟩, f) ∧
      x ≤ X.x2 ∧ (x = X.x2 ∨ X.x1 ≤ x) ∧
      (∀ c, x ≤ c → c < X.x2 → colBlank trimap _bounds mapStart X.y1 X.y2 c) ∧
      (X.x1 < x → ¬ colBlank trimap _bounds mapStart X.y1 X.y2 (x - 1)) ∧
      (flag = true → f = true) ∧
      (f = true → flag = true ∨ (trimap = true ∧ X.x1 < x ∧
        ∃ y, X.y1 ≤ y ∧ y < X.y2 ∧ pixelAt _bounds mapStart (x - 1) y = PIXEL_UNAVAILABLE)) := by
  intro fuel
  induction fuel with
  | zero =>
    intro j X D flag _ hD hf
    refine ⟨X.x2, flag, ?_, le_refl _, Or.inl rfl, fun r h1 h2 => by omega,
      fun h => by omega, fun h => h, fun h => Or.inl h⟩
    rw [findD]; cases D; cases X; simp only at hD; subst hD; rfl
  | succ fuel ih =>
    intro j X D flag hj hD hf
    subst hj
    rw [findD]
    by_cases hlt : X.x2 - 1 ≥ X.left
    · rw [if_pos hlt]
      have hfst := stripCol_fst trimap _bounds mapStart X (X.x2 - 1)
      have hsnd := stripCol_snd trimap _bounds mapStart X (X.x2 - 1)
      rcases hrs : stripCol trimap _bounds mapStart X (X.x2 - 1) with ⟨ok, met⟩
      rw [hrs] at hfst hsnd
      simp only [RectI.left] at hlt
      cases ok
      · refine ⟨X.x2, if met = true then true else flag, ?_, le_refl _, Or.inl rfl,
          fun r h1 h2 => by omega, fun _ hok => ?_, flag_keep met flag, fun h => ?_⟩
        · cases D; cases X; simp only at hD; subst hD; rfl
        · exact absurd (hfst.mpr hok) (by simp)
        · rcases flag_from met flag h with h | h
          · exact Or.inl h
          · obtain ⟨ht, hx⟩ := hsnd h
            exact Or.inr ⟨ht, by omega, hx⟩
      · have hcol := hfst.mp rfl
        obtain ⟨x, f, heq, ha, hb, hc, hd, hk, he⟩ :=
          ih (X.x2 - 1 - 1) ⟨X.x1, X.y1, X.x2 - 1, X.y2⟩ ⟨X.x2 - 1, D.y1, D.x2, D.y2⟩ flag
            rfl rfl (by simp only; omega)
        simp only at heq ha hb hc hd he
        refine ⟨x, f, heq, by omega, Or.inr (by omega), fun c h1 h2 => ?_, hd, hk, he⟩
        by_cases hr : c = X.x2 - 1
        · subst hr; exact hcol
        · exact hc c h1 (by omega)
    · rw [if_neg hlt]
      simp only [RectI.left] at hlt
      refine ⟨X.x2, flag, ?_, le_refl _, Or.inl rfl, fun r h1 h2 => by omega,
        fun h => by omega, fun h => h, fun h => Or.inl h⟩
      cases D; cases X; simp only at hD; subst hD; rfl

/-- What the peeling computes from a well-formed `bboxM`: four cuts `ya ≤ yb`, `xa ≤ xb`
inside `bboxM` giving A (rows below `ya`), B (rows from `yb`), C (columns left of `xa`
between the two), D (columns from `xb`) and the interior X; the strips are blank; the
flag is only ever raised, and only on meeting a reserved pixel of `bboxM`. -/
theorem peel_spec (trimap : Bool) (_bounds : RectI) (mapStart : List Nat) (M : RectI)
    (flag : Bool) (hx : M.x1 ≤ M.x2) (hy : M.y1 ≤ M.y2) :
    ∃ (ya yb xa xb : Int) (f : Bool),
      peel trimap _bounds mapStart M flag =
        ⟨⟨M.x1, M.y1, M.x2, ya⟩, ⟨M.x1, yb, M.x2, M.y2⟩, ⟨M.x1, ya, xa, yb⟩,
          ⟨xb, ya, M.x2, yb⟩, ⟨xa, ya, xb, yb⟩, f⟩ ∧
      (M.y1 ≤ ya ∧ ya ≤ yb ∧ yb ≤ M.y2 ∧ M.x1 ≤ xa ∧ xa ≤ xb ∧ xb ≤ M.x2) ∧
      (flag = true → f = true) ∧
      (f = true → flag = true ∨
        (trimap = true ∧ hasReserved _bounds mapStart M.x1 M.x2 M.y1 M.y2)) ∧
      ((∀ r, M.y1 ≤ r → r < ya → rowBlank trimap _bounds mapStart M.x1 M.x2 r) ∧
        (∀ r, yb ≤ r → r < M.y2 → rowBlank trimap _bounds mapStart M.x1 M.x2 r) ∧
        (∀ c, M.x1 ≤ c → c < xa → colBlank trimap _bounds mapStart ya yb c) ∧
        (∀ c, xb ≤ c → c < M.x2 → colBlank trimap _bounds mapStart ya yb c)) ∧
      ((ya < M.y2 → ¬ rowBlank trimap _bounds mapStart M.x1 M.x2 ya) ∧
        (ya < yb → ¬ rowBlank trimap _bounds mapStart M.x1 M.x2 (yb - 1)) ∧
        (ya < yb → xa < M.x2 → ¬ colBlank trimap _bounds mapStart ya yb xa) ∧
        (ya < yb → xa < xb → ¬ colBlank trimap _bounds mapStart ya yb (xb - 1))) := by
  obtain ⟨ya, f1, e1, a1, b1, c1, d1, k1, g1⟩ :=
    findA_spec trimap _bounds mapStart (M.y2 - M.y1).toNat M.y1 M ⟨M.x1, M.y1, M.x2, M.y1⟩
      flag rfl rfl (le_refl _)
  simp only at e1
  obtain ⟨yb, f2, e2, a2, b2, c2, d2, k2, g2⟩ :=
    findB_spec trimap _bounds mapStart (M.y2 - ya).toNat (M.y2 - 1) ⟨M.x1, ya, M.x2, M.y2⟩
      ⟨M.x1, M.y2, M.x2, M.y2⟩ f1 rfl rfl (le_refl _)
  simp only at e2 a2 b2 c2 d2 g2
  have hya : ya ≤ M.y2 := by omega
  have hyb : ya ≤ yb := by omega
  have g12 : f2 = true → flag = true ∨
      (trimap = true ∧ hasReserved _bounds mapStart M.x1 M.x2 M.y1 M.y2) := by
    intro h
    rcases g2 h with h | ⟨ht, hlt, x, h1, h2, hv⟩
    · rcases g1 h with h | ⟨ht, hlt, x, h1, h2, hv⟩
      · exact Or.inl h
      · exact Or.inr ⟨ht, x, ya, h1, h2, a1, hlt, hv⟩
    · exact Or.inr ⟨ht, x, yb - 1, h1, h2, by omega, by omega, hv⟩
  by_cases hrows : ya < yb
  · obtain ⟨xa, f3, e3, a3, b3, c3, d3, k3, g3⟩ :=
      findC_spec trimap _bounds mapStart (M.x2 - M.x1).toNat M.x1 ⟨M.x1, ya, M.x2, yb⟩
        ⟨M.x1, ya, M.x1, yb⟩ f2 rfl rfl (le_refl _)
    simp only at e3 a3 b3 c3 d3 g3
    obtain ⟨xb, f4, e4, a4, b4, c4, d4, k4, g4⟩ :=
      findD_spec trimap _bounds mapStart (M.x2 - xa).toNat (M.x2 - 1) ⟨xa, ya, M.x2, yb⟩
        ⟨M.x2, ya, M.x2, yb⟩ f3 rfl rfl (le_refl _)
    simp only at e4 a4 b4 c4 d4 g4
    refine ⟨ya, yb, xa, xb, f4, ?_, ⟨a1, hyb, a2, a3, by omega, a4⟩,
      fun h => k4 (k3 (k2 (k1 h))), fun h => ?_, ⟨c1, c2, c3, c4⟩,
      ⟨d1, d2, fun _ => d3, fun _ => d4⟩⟩
    · simp only [peel, RectI.top, RectI.bottom, RectI.left, RectI.right, RectI.set_top,
        RectI.set_bottom, RectI.set_left, RectI.set_right, e1, e2, hrows, if_true, e3, e4]
    · rcases g4 h with h | ⟨ht, hlt, y, h1, h2, hv⟩
      · rcases g3 h with h | ⟨ht, hlt, y, h1, h2, hv⟩
        · exact g12 h
        · exact Or.inr ⟨ht, xa, y, a3, hlt, by omega, by omega, hv⟩
      · exact Or.inr ⟨ht, xb - 1, y, by omega, by omega, by omega, by omega, hv⟩
  · have hyy : yb = ya := by omega
    refine ⟨ya, yb, M.x1, M.x2, f2, ?_, ⟨a1, hyb, a2, le_refl _, hx, le_refl _⟩,
      fun h => k2 (k1 h), g12, ⟨c1, c2, fun c h1 h2 => by omega, fun c h1 h2 => by omega⟩,
      ⟨d1, d2, fun h => absurd h hrows, fun h => absurd h hrows⟩⟩
    simp only [peel, RectI.top, RectI.bottom, RectI.left, RectI.right, RectI.set_top,
      RectI.set_bottom, RectI.set_left, RectI.set_right, e1, e2, hrows, if_false]

/-! ## Intersections and the members of the returned list -/

theorem RectI.intersect_some_iff (r o i : RectI) (h : r.intersect o = some i) (x y : Int) :
    i.hasPixel x y ↔ r.hasPixel x y ∧ o.hasPixel x y := by
  unfold RectI.intersect at h
  split at h
  · cases h
    simp only [RectI.hasPixel, max_le_iff, lt_min_iff]
    tauto
  · cases h

theorem RectI.intersect_some_notNull (r o i : RectI) (h : r.intersect o = some i) :
    i.isNull = false := by
  unfold RectI.intersect at h
  split at h
  · rename_i hi
    cases h
    simp only [RectI.intersects, RectI.isNull, Bool.and_eq_true, Bool.not_eq_true',
      Bool.or_eq_false_iff, decide_eq_false_iff_not, not_le] at hi
    rw [RectI.isNull_false_iff]
    simp only [max_lt_iff, lt_min_iff]
    omega
  · cases h

theorem RectI.intersect_none (r o : RectI) (h : r.intersect o = none) (x y : Int)
    (hr : r.hasPixel x y) : ¬ o.hasPixel x y := by
  unfold RectI.intersect at h
  split at h
  · cases h
  · rename_i hi
    simp only [RectI.intersects, RectI.isNull, Bool.and_eq_true, Bool.not_eq_true',
      Bool.or_eq_false_iff, decide_eq_false_iff_not, not_le, not_and] at hi
    unfold RectI.hasPixel at *
    intro ho
    omega

theorem RectI.intersect_self_of_contains (r o : RectI) (hc : o.contains r = true)
    (hn : r.isNull = false) : r.intersect o = some r := by
  simp only [RectI.contains, Bool.and_eq_true, decide_eq_true_eq] at hc
  rw [RectI.isNull_false_iff] at hn
  have hi : r.intersects o = true := by
    simp only [RectI.intersects, RectI.isNull, Bool.and_eq_true, Bool.not_eq_true',
      Bool.or_eq_false_iff, decide_eq_false_iff_not, not_le]
    omega
  unfold RectI.intersect
  rw [if_pos hi]
  congr 1
  cases r
  simp only at hc hn
  simp only [RectI.mk.injEq]
  refine ⟨max_eq_left (by omega), max_eq_left (by omega), min_eq_left (by omega),
    min_eq_left (by omega)⟩

theorem pushNonNull_mem (ret : List RectI) (q r : RectI) :
    r ∈ pushNonNull ret q ↔ r ∈ ret ∨ (q.isNull = false ∧ r = q) := by
  unfold pushNonNull
  cases h : q.isNull <;> simp

theorem mem_pushIf (c : Prop) [Decidable c] (l : List RectI) (q r : RectI) :
    r ∈ (if c then l ++ [q] else l) ↔ r ∈ l ∨ (c ∧ r = q) := by
  by_cases h : c <;> simp [h]

theorem pushOutOfBounds_mem (roi _bounds i : RectI) (ret : List RectI) (r : RectI) :
    r ∈ pushOutOfBounds roi _bounds i ret ↔ r ∈ ret ∨ (roi ≠ i ∧
      ((_bounds.x1 > roi.x1 ∧ _bounds.y2 > _bounds.y1 ∧ r = sliverLeft roi _bounds) ∨
       (roi.x2 > roi.x1 ∧ _bounds.y1 > roi.y1 ∧ r = sliverBtm roi _bounds) ∨
       (roi.x2 > _bounds.x2 ∧ _bounds.y2 > _bounds.y1 ∧ r = sliverRight roi _bounds) ∨
       (roi.x2 > roi.x1 ∧ roi.y2 > _bounds.y2 ∧ r = sliverTop roi _bounds))) := by
  unfold pushOutOfBounds sliverLeft sliverBtm sliverRight sliverTop
  by_cases hne : roi = i
  · simp [hne]
  · simp only [ne_eq, hne, not_false_eq_true, if_true, true_and]
    simp only [mem_pushIf, or_assoc, and_assoc]

theorem pushInBounds_mem (trimap : Bool) (_bounds : RectI) (mapStart : List Nat) (M : RectI)
    (ret : List RectI) (flag : Bool) (r : RectI) :
    r ∈ (pushInBounds trimap _bounds mapStart M ret flag).1 ↔ r ∈ ret ∨ (M.isNull = false ∧
      ((peel trimap _bounds mapStart M flag).bboxA.isNull = false ∧
          r = (peel trimap _bounds mapStart M flag).bboxA ∨
       (peel trimap _bounds mapStart M flag).bboxB.isNull = false ∧
          r = (peel trimap _bounds mapStart M flag).bboxB ∨
       (peel trimap _bounds mapStart M flag).bboxC.isNull = false ∧
          r = (peel trimap _bounds mapStart M flag).bboxC ∨
       (peel trimap _bounds mapStart M flag).bboxD.isNull = false ∧
          r = (peel trimap _bounds mapStart M flag).bboxD ∨
       (minimalNonMarkedBbox_internal trimap (peel trimap _bounds mapStart M flag).bboxX
          _bounds mapStart (peel trimap _bounds mapStart M flag).flag).1.isNull = false ∧
          r = (minimalNonMarkedBbox_internal trimap (peel trimap _bounds mapStart M flag).bboxX
            _bounds mapStart (peel trimap _bounds mapStart M flag).flag).1)) := by
  unfold pushInBounds
  cases hM : M.isNull
  · simp only [Bool.false_eq_true, if_false, pushNonNull_mem, true_and, or_assoc]
  · simp

theorem pushInBounds_flag (trimap : Bool) (_bounds : RectI) (mapStart : List Nat) (M : RectI)
    (ret : List RectI) (flag : Bool) :
    (pushInBounds trimap _bounds mapStart M ret flag).2 =
      if M.isNull then flag
      else (minimalNonMarkedBbox_internal trimap (peel trimap _bounds mapStart M flag).bboxX
        _bounds mapStart (peel trimap _bounds mapStart M flag).flag).2 := by
  unfold pushInBounds
  cases hM : M.isNull <;> simp

theorem RectI.notNull_of_hasPixel (r : RectI) (x y : Int) (h : r.hasPixel x y) :
    r.isNull = false := by
  rw [RectI.isNull_false_iff]
  unfold RectI.hasPixel at h
  omega

theorem RectI.zero_no_pixel (x y : Int) : ¬ RectI.zero.hasPixel x y := by
  unfold RectI.hasPixel RectI.zero
  simp only
  omega

/-- The function `minimalNonMarkedRects_internal`, by cases on the intersection of `roi`
with the bounds. -/
theorem rects_unfold (trimap : Bool) (roi _bounds : RectI) (mapStart : List Nat)
    (ret : List RectI) (flag : Bool) :
    minimalNonMarkedRects_internal trimap roi _bounds mapStart ret flag =
      match roi.intersect _bounds with
      | none => (pushOutOfBounds roi _bounds RectI.zero ret, flag)
      | some i =>
        pushInBounds trimap _bounds mapStart
          (minimalNonMarkedBbox_internal trimap i _bounds mapStart flag).1
          (pushOutOfBounds roi _bounds i ret)
          (minimalNonMarkedBbox_internal trimap i _bounds mapStart flag).2 := by
  unfold minimalNonMarkedRects_internal
  cases hi : roi.intersect _bounds with
  | none =>
    have : RectI.zero.isNull = true := by decide
    simp [this]
  | some i =>
    have := RectI.intersect_some_notNull _ _ _ hi
    simp [this]

/-- Every pixel of `roi` outside the bounds lies in one of the out-of-bounds rectangles. -/
theorem sliver_cover (roi _bounds i : RectI) (ret : List RectI) (x y : Int)
    (hroi : roi.hasPixel x y) (hout : ¬ _bounds.hasPixel x y) (hne : roi ≠ i) :
    ∃ r ∈ pushOutOfBounds roi _bounds i ret, r.hasPixel x y := by
  simp only [pushOutOfBounds_mem]
  unfold RectI.hasPixel at hroi hout
  by_cases h1 : y < _bounds.y1
  · exact ⟨sliverBtm roi _bounds, Or.inr ⟨hne, Or.inr (Or.inl ⟨by omega, by omega, rfl⟩)⟩,
      by simp only [RectI.hasPixel, sliverBtm]; omega⟩
  · by_cases h2 : _bounds.y2 ≤ y
    · exact ⟨sliverTop roi _bounds,
        Or.inr ⟨hne, Or.inr (Or.inr (Or.inr ⟨by omega, by omega, rfl⟩))⟩,
        by simp only [RectI.hasPixel, sliverTop]; omega⟩
    · by_cases h3 : x < _bounds.x1
      · exact ⟨sliverLeft roi _bounds, Or.inr ⟨hne, Or.inl ⟨by omega, by omega, rfl⟩⟩,
          by simp only [RectI.hasPixel, sliverLeft]; omega⟩
      · exact ⟨sliverRight roi _bounds,
          Or.inr ⟨hne, Or.inr (Or.inr (Or.inl ⟨by omega, by omega, rfl⟩))⟩,
          by simp only [RectI.hasPixel, sliverRight]; omega⟩

/-- Every unavailable pixel of a non-empty `bboxM` lies in a pushed rectangle. -/
theorem inBounds_cover (trimap : Bool) (_bounds : RectI) (mapStart : List Nat) (M : RectI)
    (ret : List RectI) (flag : Bool) (x y : Int) (hM : M.hasPixel x y)
    (hun : unavailable trimap (pixelAt _bounds mapStart x y)) :
    ∃ r ∈ (pushInBounds trimap _bounds mapStart M ret flag).1, r.hasPixel x y := by
  have hMn := RectI.notNull_of_hasPixel _ _ _ hM
  obtain ⟨hMx, hMy⟩ := (RectI.isNull_false_iff _).mp hMn
  obtain ⟨ya, yb, xa, xb, f, hp, ⟨g1, g2, g3, g4, g5, g6⟩, -, -, -, -⟩ :=
    peel_spec trimap _bounds mapStart M flag (le_of_lt hMx) (le_of_lt hMy)
  simp only [pushInBounds_mem, hp, hMn, true_and]
  unfold RectI.hasPixel at hM
  by_cases h1 : y < ya
  · have hin : (RectI.mk M.x1 M.y1 M.x2 ya).hasPixel x y := by
      simp only [RectI.hasPixel]; omega
    exact ⟨_, Or.inr (Or.inl ⟨RectI.notNull_of_hasPixel _ _ _ hin, rfl⟩), hin⟩
  · by_cases h2 : yb ≤ y
    · have hin : (RectI.mk M.x1 yb M.x2 M.y2).hasPixel x y := by
        simp only [RectI.hasPixel]; omega
      exact ⟨_, Or.inr (Or.inr (Or.inl ⟨RectI.notNull_of_hasPixel _ _ _ hin, rfl⟩)), hin⟩
    · by_cases h3 : x < xa
      · have hin : (RectI.mk M.x1 ya xa yb).hasPixel x y := by
          simp only [RectI.hasPixel]; omega
        exact ⟨_, Or.inr (Or.inr (Or.inr (Or.inl ⟨RectI.notNull_of_hasPixel _ _ _ hin, rfl⟩))),
          hin⟩
      · by_cases h4 : xb ≤ x
        · have hin : (RectI.mk xb ya M.x2 yb).hasPixel x y := by
            simp only [RectI.hasPixel]; omega
          exact ⟨_, Or.inr (Or.inr (Or.inr (Or.inr (Or.inl
            ⟨RectI.notNull_of_hasPixel _ _ _ hin, rfl⟩)))), hin⟩
        · have hX : (RectI.mk xa ya xb yb).hasPixel x y := by
            simp only [RectI.hasPixel]; omega
          obtain ⟨r, f2, hr, -, -, hsound, -, -⟩ :=
            bbox_spec trimap ⟨xa, ya, xb, yb⟩ _bounds mapStart f
          have hin : r.hasPixel x y := by
            by_contra hc
            exact hsound x y hX hc hun
          rw [hr]
          exact ⟨r, Or.inr (Or.inr (Or.inr (Or.inr (Or.inr
            ⟨RectI.notNull_of_hasPixel _ _ _ hin, rfl⟩)))), hin⟩

/-- Every pixel of `roi` that is out of the bounds, or in the bounds and unavailable, lies in
a rectangle of the list returned by `minimalNonMarkedRects_internal`. -/
theorem rects_cover (trimap : Bool) (roi _bounds : RectI) (mapStart : List Nat)
    (ret : List RectI) (flag : Bool) (x y : Int) (hroi : roi.hasPixel x y)
    (h : ¬ _bounds.hasPixel x y ∨ unavailable trimap (pixelAt _bounds mapStart x y)) :
    ∃ r ∈ (minimalNonMarkedRects_internal trimap roi _bounds mapStart ret flag).1,
      r.hasPixel x y := by
  rw [rects_unfold]
  cases hi : roi.intersect _bounds with
  | none =>
    simp only
    have hout := RectI.intersect_none _ _ hi x y hroi
    refine sliver_cover roi _bounds RectI.zero ret x y hroi hout ?_
    intro he
    rw [he] at hroi
    exact RectI.zero_no_pixel x y hroi
  | some i =>
    simp only
    by_cases hb : _bounds.hasPixel x y
    · have hun : unavailable trimap (pixelAt _bounds mapStart x y) := by
        rcases h with h | h
        · exact absurd hb h
        · exact h
      have hi_in : i.hasPixel x y := (RectI.intersect_some_iff _ _ _ hi x y).mpr ⟨hroi, hb⟩
      obtain ⟨M, f, hM, -, -, hsound, -, -⟩ := bbox_spec trimap i _bounds mapStart flag
      have hin : M.hasPixel x y := by
        by_contra hc
        exact hsound x y hi_in hc hun
      rw [hM]
      exact inBounds_cover trimap _bounds mapStart M _ f x y hin hun
    · have hne : roi ≠ i := by
        intro he
        rw [he] at hroi
        exact hb ((RectI.intersect_some_iff _ _ _ hi x y).mp hroi).2
      obtain ⟨r, hr, hp⟩ := sliver_cover roi _bounds i ret x y hroi hb hne
      exact ⟨r, (pushInBounds_mem _ _ _ _ _ _ _).mpr (Or.inl hr), hp⟩

/-! ## Containment and map bytes -/

theorem peek_mem_or_zero (mapStart : List Nat) (off : Int) :
    peek mapStart off ∈ mapStart ∨ peek mapStart off = 0 := by
  unfold peek
  split
  · by_cases h : off.toNat < mapStart.length
    · left
      rw [List.getD_eq_getElem _ _ h]
      exact List.getElem_mem h
    · right
      exact List.getD_eq_default _ _ (by omega)
  · right; rfl

theorem RectI.hasPixel_of_contains (r o : RectI) (h : r.contains o = true) (x y : Int)
    (ho : o.hasPixel x y) : r.hasPixel x y := by
  simp only [RectI.contains, Bool.and_eq_true, decide_eq_true_eq] at h
  unfold RectI.hasPixel at *
  omega

theorem RectI.contains_trans (a b c : RectI) (h1 : a.contains b = true)
    (h2 : b.contains c = true) : a.contains c = true := by
  simp only [RectI.contains, Bool.and_eq_true, decide_eq_true_eq] at *
  omega

theorem RectI.contains_of_intersect (r o i : RectI) (h : r.intersect o = some i) :
    r.contains i = true ∧ o.contains i = true := by
  unfold RectI.intersect at h
  split at h
  · cases h
    simp only [RectI.contains, Bool.and_eq_true, decide_eq_true_eq, le_max_iff, min_le_iff,
      le_refl, true_or, or_true, and_self]
  · cases h

/-- The bounding box lies in `roi`, coordinate by coordinate. -/
theorem bbox_contained (trimap : Bool) (roi _bounds : RectI) (mapStart : List Nat)
    (flag : Bool) :
    roi.contains (minimalNonMarkedBbox_internal trimap roi _bounds mapStart flag).1 = true := by
  obtain ⟨r, f, hr, ⟨h1, h2, h3, h4⟩, -, -, -, -⟩ := bbox_spec trimap roi _bounds mapStart flag
  rw [hr]
  simp only [RectI.contains, Bool.and_eq_true, decide_eq_true_eq]
  exact ⟨⟨⟨h1, h3⟩, h2⟩, h4⟩

/-! ## Claims about the queries -/

/-- The region a public query works on holds the pixel `(x, y)`: the pixel is in `roi` and,
when a dirty zone is set, in the dirty zone as well. -/
theorem queried_region (bm : Bitmap) (roi : RectI) (x y : Int) (hroi : roi.hasPixel x y)
    (hdz : bm._dirtyZoneSet = true → bm._dirtyZone.hasPixel x y) :
    (bm._dirtyZoneSet = false) ∨
      (bm._dirtyZoneSet = true ∧ ∃ realRoi, roi.intersect bm._dirtyZone = some realRoi ∧
        realRoi.hasPixel x y) := by
  cases hs : bm._dirtyZoneSet
  · exact Or.inl rfl
  · right
    refine ⟨rfl, ?_⟩
    cases hi : roi.intersect bm._dirtyZone with
    | none => exact absurd (hdz hs) (RectI.intersect_none _ _ hi x y hroi)
    | some i => exact ⟨i, rfl, (RectI.intersect_some_iff _ _ _ hi x y).mpr ⟨hroi, hdz hs⟩⟩

/-- C1. The rectangle list never leaves out a pixel that still needs computing: every pixel
of `roi` (inside the dirty zone when one is set) that is outside the bounds, or inside
the bounds and not available (0 or 2 for `minimalNonMarkedRects`, 0 for
`minimalNonMarkedRects_trimap`), lies in a rectangle of the returned list. The bytes of
the map need not be in {0,1,2} for this. -/
theorem rects_never_leave_out_a_pixel (bm : Bitmap) (roi : RectI) (ret : List RectI)
    (flag : Bool) (x y : Int) (hroi : roi.hasPixel x y)
    (hdz : bm._dirtyZoneSet = true → bm._dirtyZone.hasPixel x y) :
    ((¬ bm._bounds.hasPixel x y ∨ pixelAt bm._bounds bm._map x y = 0 ∨
        pixelAt bm._bounds bm._map x y = 2) →
      ∃ r ∈ bm.minimalNonMarkedRects roi ret, r.hasPixel x y) ∧
    ((¬ bm._bounds.hasPixel x y ∨ pixelAt bm._bounds bm._map x y = 0) →
      ∃ r ∈ (bm.minimalNonMarkedRects_trimap roi ret flag).1, r.hasPixel x y) := by
  constructor
  · intro h
    have h' : ¬ bm._bounds.hasPixel x y ∨
        unavailable false (pixelAt bm._bounds bm._map x y) := by
      rcases h with h | h | h
      · exact Or.inl h
      · exact Or.inr (Or.inl h)
      · exact Or.inr (Or.inr ⟨rfl, h⟩)
    unfold Bitmap.minimalNonMarkedRects
    rcases queried_region bm roi x y hroi hdz with hs | ⟨hs, i, hi, hpix⟩
    · simp only [hs, Bool.false_eq_true, if_false]
      exact rects_cover false roi _ _ ret false x y hroi h'
    · simp only [hs, if_true, hi]
      exact rects_cover false i _ _ ret false x y hpix h'
  · intro h
    have h' : ¬ bm._bounds.hasPixel x y ∨
        unavailable true (pixelAt bm._bounds bm._map x y) := by
      rcases h with h | h
      · exact Or.inl h
      · exact Or.inr (Or.inl h)
    unfold Bitmap.minimalNonMarkedRects_trimap
    rcases queried_region bm roi x y hroi hdz with hs | ⟨hs, i, hi, hpix⟩
    · simp only [hs, Bool.false_eq_true, if_false]
      exact rects_cover true roi _ _ ret flag x y hroi h'
    · simp only [hs, if_true, hi]
      exact rects_cover true i _ _ ret flag x y hpix h'

/-- C1, at a concrete input: the 2×2 map `1 0 / 2 1` queried on `[-1,2) × [0,2)`; the
pixel `(1, 0)` is 0. -/
theorem rects_never_leave_out_a_pixel_witness :
    (RectI.mk (-1) 0 2 2).hasPixel 1 0 ∧
    ((Bitmap.mk ⟨0, 0, 2, 2⟩ [1, 0, 2, 1] RectI.zero false)._dirtyZoneSet = true →
      RectI.zero.hasPixel 1 0) ∧
    ((∃ r ∈ (Bitmap.mk ⟨0, 0, 2, 2⟩ [1, 0, 2, 1] RectI.zero false).minimalNonMarkedRects
        ⟨-1, 0, 2, 2⟩ [], r.hasPixel 1 0) ∧
     (∃ r ∈ ((Bitmap.mk ⟨0, 0, 2, 2⟩ [1, 0, 2, 1] RectI.zero false).minimalNonMarkedRects_trimap
        ⟨-1, 0, 2, 2⟩ [] false).1, r.hasPixel 1 0)) :=
  ⟨by decide, by decide,
    (rects_never_leave_out_a_pixel (Bitmap.mk ⟨0, 0, 2, 2⟩ [1, 0, 2, 1] RectI.zero false)
        ⟨-1, 0, 2, 2⟩ [] false 1 0 (by decide) (by decide)).1 (Or.inr (Or.inl (by decide))),
    (rects_never_leave_out_a_pixel (Bitmap.mk ⟨0, 0, 2, 2⟩ [1, 0, 2, 1] RectI.zero false)
        ⟨-1, 0, 2, 2⟩ [] false 1 0 (by decide) (by decide)).2 (Or.inr (by decide))⟩

/-- C2. Soundness of the bounding box: with map bytes in {0,1,2} and `roi` contained in the
bounds, a pixel of `roi` outside the rectangle returned by
`minimalNonMarkedBbox_internal` is non-zero in trimap mode and is 1 in non-trimap
mode. -/
theorem bbox_sound (roi _bounds : RectI) (mapStart : List Nat) (flag : Bool) (x y : Int)
    (hbytes : ∀ b ∈ mapStart, b = 0 ∨ b = 1 ∨ b = 2)
    (_hroi : _bounds.contains roi = true) (hin : roi.hasPixel x y) :
    (¬ (minimalNonMarkedBbox_internal true roi _bounds mapStart flag).1.hasPixel x y →
      pixelAt _bounds mapStart x y ≠ 0) ∧
    (¬ (minimalNonMarkedBbox_internal false roi _bounds mapStart flag).1.hasPixel x y →
      pixelAt _bounds mapStart x y = 1) := by
  constructor
  · intro hout h0
    obtain ⟨r, f, hr, -, -, hsound, -, -⟩ := bbox_spec true roi _bounds mapStart flag
    rw [hr] at hout
    exact hsound x y hin hout (Or.inl h0)
  · intro hout
    obtain ⟨r, f, hr, -, -, hsound, -, -⟩ := bbox_spec false roi _bounds mapStart flag
    rw [hr] at hout
    have hav := hsound x y hin hout
    simp only [unavailable, true_and, not_or] at hav
    have hv : pixelAt _bounds mapStart x y = 0 ∨ pixelAt _bounds mapStart x y = 1 ∨
        pixelAt _bounds mapStart x y = 2 := by
      rcases peek_mem_or_zero mapStart (BM_GET _bounds y x) with h | h
      · exact hbytes _ h
      · exact Or.inl h
    rcases hv with h | h | h
    · exact absurd h hav.1
    · exact h
    · exact absurd h hav.2

/-- C2, at a concrete input: the 2×2 map `1 1 / 0 2` queried on its bounds; the pixel
`(0, 0)` is out of the rectangle returned in either mode. -/
theorem bbox_sound_witness :
    (∀ b ∈ [1, 1, 0, 2], b = 0 ∨ b = 1 ∨ b = 2) ∧
    (RectI.mk 0 0 2 2).contains ⟨0, 0, 2, 2⟩ = true ∧
    (RectI.mk 0 0 2 2).hasPixel 0 0 ∧
    ((¬ (minimalNonMarkedBbox_internal true ⟨0, 0, 2, 2⟩ ⟨0, 0, 2, 2⟩ [1, 1, 0, 2]
          false).1.hasPixel 0 0 →
        pixelAt ⟨0, 0, 2, 2⟩ [1, 1, 0, 2] 0 0 ≠ 0) ∧
     (¬ (minimalNonMarkedBbox_internal false ⟨0, 0, 2, 2⟩ ⟨0, 0, 2, 2⟩ [1, 1, 0, 2]
          false).1.hasPixel 0 0 →
        pixelAt ⟨0, 0, 2, 2⟩ [1, 1, 0, 2] 0 0 = 1)) :=
  ⟨by decide, by decide, by decide,
    bbox_sound ⟨0, 0, 2, 2⟩ ⟨0, 0, 2, 2⟩ [1, 1, 0, 2] false 0 0 (by decide) (by decide)
      (by decide)⟩

/-- C3, as stated, fails: `Bitmap::minimalNonMarkedBbox` does not intersect `roi` with the
bounds. On the 2×2 map `1 1 / 0 0` with bounds `[0,2) × [0,2)`, the query on
`[0,3) × [0,1)` reads the three bytes 1, 1, 0 of the buffer from `BM_GET(0, 0)` on and
returns `[2,3) × [0,1)`, whose pixel `(2, 0)` is outside the bounds. -/
theorem bbox_not_clipped_to_bounds :
    (Bitmap.mk ⟨0, 0, 2, 2⟩ [1, 1, 0, 0] RectI.zero false).minimalNonMarkedBbox ⟨0, 0, 3, 1⟩ =
      ⟨2, 0, 3, 1⟩ ∧
    (RectI.mk 2 0 3 1).hasPixel 2 0 ∧ ¬ (RectI.mk 0 0 2 2).hasPixel 2 0 := by
  decide

/-- C3, amended. For every `roi` contained in the bounds (what `minimalNonMarkedBbox_internal`
asserts), with or without a dirty zone, the rectangle returned by
`Bitmap::minimalNonMarkedBbox` lies in `roi ∩ bounds`: each of its pixels is a pixel of
`roi` and of the bounds, and when it is not empty its coordinates are within those of
`roi` and of the bounds. -/
theorem bbox_contained_in_roi (bm : Bitmap) (roi : RectI)
    (hroi : bm._bounds.contains roi = true) :
    (∀ x y, (bm.minimalNonMarkedBbox roi).hasPixel x y →
      roi.hasPixel x y ∧ bm._bounds.hasPixel x y) ∧
    ((bm.minimalNonMarkedBbox roi).isNull = false →
      roi.contains (bm.minimalNonMarkedBbox roi) = true ∧
      bm._bounds.contains (bm.minimalNonMarkedBbox roi) = true) := by
  have key : (bm.minimalNonMarkedBbox roi).isNull = true ∨
      roi.contains (bm.minimalNonMarkedBbox roi) = true := by
    unfold Bitmap.minimalNonMarkedBbox
    cases hs : bm._dirtyZoneSet
    · simp only [Bool.false_eq_true, if_false]
      exact Or.inr (bbox_contained false roi _ _ false)
    · simp only [if_true]
      cases hi : roi.intersect bm._dirtyZone with
      | none => left; rfl
      | some i =>
        right
        exact RectI.contains_trans _ _ _ (RectI.contains_of_intersect _ _ _ hi).1
          (bbox_contained false i _ _ false)
  constructor
  · intro x y hp
    rcases key with h | h
    · exact absurd hp ((RectI.isNull_iff_no_pixel _).mp h x y)
    · have := RectI.hasPixel_of_contains _ _ h x y hp
      exact ⟨this, RectI.hasPixel_of_contains _ _ hroi x y this⟩
  · intro hn
    rcases key with h | h
    · rw [h] at hn; cases hn
    · exact ⟨h, RectI.contains_trans _ _ _ hroi h⟩

/-- C3 amended, at a concrete input: the 2×2 map `1 1 / 0 0` queried on the row
`[0,2) × [1,2)`. -/
theorem bbox_contained_in_roi_witness :
    (RectI.mk 0 0 2 2).contains ⟨0, 1, 2, 2⟩ = true ∧
    ((∀ x y, ((Bitmap.mk ⟨0, 0, 2, 2⟩ [1, 1, 0, 0] RectI.zero false).minimalNonMarkedBbox
        ⟨0, 1, 2, 2⟩).hasPixel x y →
      (RectI.mk 0 1 2 2).hasPixel x y ∧ (RectI.mk 0 0 2 2).hasPixel x y) ∧
    (((Bitmap.mk ⟨0, 0, 2, 2⟩ [1, 1, 0, 0] RectI.zero false).minimalNonMarkedBbox
        ⟨0, 1, 2, 2⟩).isNull = false →
      (RectI.mk 0 1 2 2).contains
        ((Bitmap.mk ⟨0, 0, 2, 2⟩ [1, 1, 0, 0] RectI.zero false).minimalNonMarkedBbox
          ⟨0, 1, 2, 2⟩) = true ∧
      (RectI.mk 0 0 2 2).contains
        ((Bitmap.mk ⟨0, 0, 2, 2⟩ [1, 1, 0, 0] RectI.zero false).minimalNonMarkedBbox
          ⟨0, 1, 2, 2⟩) = true)) :=
  ⟨by decide,
    bbox_contained_in_roi (Bitmap.mk ⟨0, 0, 2, 2⟩ [1, 1, 0, 0] RectI.zero false) ⟨0, 1, 2, 2⟩
      (by decide)⟩

/-- C4. Minimality of the bounding box: for `roi` contained in the bounds and holding an
unavailable pixel (0 in trimap mode; 0 or 2 in non-trimap mode), the rectangle returned
by `minimalNonMarkedBbox_internal` is not empty, lies in `roi`, holds every unavailable
pixel of `roi`, has an unavailable pixel on each of its four edge rows and columns, and
is contained in every rectangle that holds the unavailable pixels of `roi`. On the
all-zero 10×10 map, after `markForRendered([0,10) × [0,5))`, the query on the whole map
returns `[0,10) × [5,10)`. -/
theorem bbox_minimal (trimap : Bool) (roi _bounds : RectI) (mapStart : List Nat) (flag : Bool)
    (_hroi : _bounds.contains roi = true)
    (hex : ∃ x y, roi.hasPixel x y ∧ unavailable trimap (pixelAt _bounds mapStart x y)) :
    (minimalNonMarkedBbox_internal trimap roi _bounds mapStart flag).1.isNull = false ∧
    roi.contains (minimalNonMarkedBbox_internal trimap roi _bounds mapStart flag).1 = true ∧
    (∀ x y, roi.hasPixel x y → unavailable trimap (pixelAt _bounds mapStart x y) →
      (minimalNonMarkedBbox_internal trimap roi _bounds mapStart flag).1.hasPixel x y) ∧
    tightEdges trimap _bounds mapStart
      (minimalNonMarkedBbox_internal trimap roi _bounds mapStart flag).1 ∧
    (∀ s : RectI,
      (∀ x y, roi.hasPixel x y → unavailable trimap (pixelAt _bounds mapStart x y) →
        s.hasPixel x y) →
      s.contains (minimalNonMarkedBbox_internal trimap roi _bounds mapStart flag).1 = true) ∧
    ((Bitmap.mk ⟨0, 0, 10, 10⟩ (List.replicate 100 0) RectI.zero false).markForRendered
      ⟨0, 0, 10, 5⟩).minimalNonMarkedBbox ⟨0, 0, 10, 10⟩ = ⟨0, 5, 10, 10⟩ := by
  have hcont := bbox_contained trimap roi _bounds mapStart flag
  obtain ⟨r, f, hr, -, -, hsound, htight, -⟩ := bbox_spec trimap roi _bounds mapStart flag
  rw [hr] at hcont ⊢
  simp only
  have hcover : ∀ x y, roi.hasPixel x y → unavailable trimap (pixelAt _bounds mapStart x y) →
      r.hasPixel x y := by
    intro x y h1 h2
    by_contra hc
    exact hsound x y h1 hc h2
  obtain ⟨x0, y0, h0, hu0⟩ := hex
  have hnn := RectI.notNull_of_hasPixel _ _ _ (hcover x0 y0 h0 hu0)
  have ht := htight hnn
  refine ⟨hnn, hcont, hcover, ht, fun s hs => ?_, by decide⟩
  obtain ⟨⟨xb, hb1, hb2, hbv⟩, ⟨xt, ht1, ht2, htv⟩, ⟨yl, hl1, hl2, hlv⟩, ⟨yr, hr1, hr2, hrv⟩⟩ := ht
  obtain ⟨hx, hy⟩ := (RectI.isNull_false_iff _).mp hnn
  have inroi : ∀ x y, r.hasPixel x y → roi.hasPixel x y :=
    fun x y h => RectI.hasPixel_of_contains _ _ hcont x y h
  have eb := hs xb r.y1 (inroi _ _ ⟨hb1, hb2, le_refl _, hy⟩) hbv
  have et := hs xt (r.y2 - 1) (inroi _ _ ⟨ht1, ht2, by omega, by omega⟩) htv
  have el := hs r.x1 yl (inroi _ _ ⟨le_refl _, hx, hl1, hl2⟩) hlv
  have er := hs (r.x2 - 1) yr (inroi _ _ ⟨by omega, by omega, hr1, hr2⟩) hrv
  unfold RectI.hasPixel at eb et el er
  simp only [RectI.contains, Bool.and_eq_true, decide_eq_true_eq]
  omega

/-- C4, at a concrete input: the 2×2 map `1 1 / 0 1` queried on its bounds in non-trimap
mode; the pixel `(0, 1)` is 0. -/
theorem bbox_minimal_witness :
    (RectI.mk 0 0 2 2).contains ⟨0, 0, 2, 2⟩ = true ∧
    (∃ x y, (RectI.mk 0 0 2 2).hasPixel x y ∧
      unavailable false (pixelAt ⟨0, 0, 2, 2⟩ [1, 1, 0, 1] x y)) ∧
    (minimalNonMarkedBbox_internal false ⟨0, 0, 2, 2⟩ ⟨0, 0, 2, 2⟩ [1, 1, 0, 1] false).1 =
      ⟨0, 1, 1, 2⟩ ∧
    tightEdges false ⟨0, 0, 2, 2⟩ [1, 1, 0, 1]
      (minimalNonMarkedBbox_internal false ⟨0, 0, 2, 2⟩ ⟨0, 0, 2, 2⟩ [1, 1, 0, 1] false).1 :=
  ⟨by decide, ⟨0, 1, by decide, by decide⟩, by decide,
    (bbox_minimal false ⟨0, 0, 2, 2⟩ ⟨0, 0, 2, 2⟩ [1, 1, 0, 1] false (by decide)
      ⟨0, 1, by decide, by decide⟩).2.2.2.1⟩

/-! ## The bulk writes -/

theorem memsetFrom_length (buf : Int) (v : Nat) (n : Int) :
    ∀ (l : List Nat) (k : Int), (memsetFrom buf v n k l).length = l.length := by
  intro l
  induction l with
  | nil => intro k; rfl
  | cons b bs ih => intro k; simp [memsetFrom, ih]

theorem memsetFrom_getD (buf : Int) (v : Nat) (n : Int) :
    ∀ (l : List Nat) (k : Int) (j : Nat),
    (memsetFrom buf v n k l).getD j 0 =
      if j < l.length ∧ buf ≤ k + j ∧ k + j < buf + n then v else l.getD j 0 := by
  intro l
  induction l with
  | nil => intro k j; simp [memsetFrom]
  | cons b bs ih =>
    intro k j
    cases j with
    | zero => simp [memsetFrom]
    | succ j =>
      simp only [memsetFrom, List.getD_cons_succ, ih, List.length_cons, Nat.cast_add,
        Nat.cast_one, Nat.add_lt_add_iff_right]
      rw [show k + 1 + (j : Int) = k + ((j : Int) + 1) by ring]

theorem memset_length (mapStart : List Nat) (buf : Int) (v : Nat) (n : Int) :
    (memset mapStart buf v n).length = mapStart.length :=
  memsetFrom_length buf v n mapStart 0

/-- After `memset`, a byte of the buffer in the written range holds `v`; any other byte is
as before. -/
theorem peek_memset (mapStart : List Nat) (buf : Int) (v : Nat) (n : Int) (off : Int) :
    peek (memset mapStart buf v n) off =
      if 0 ≤ off ∧ off < mapStart.length ∧ buf ≤ off ∧ off < buf + n then v
      else peek mapStart off := by
  unfold peek memset
  by_cases h0 : 0 ≤ off
  · rw [if_pos h0, if_pos h0, memsetFrom_getD]
    have e : (0 : Int) + ((off.toNat : Nat) : Int) = off := by omega
    rw [e]
    have : (off.toNat < mapStart.length) ↔ off < (mapStart.length : Int) := by omega
    simp only [this, h0, true_and]
  · rw [if_neg h0, if_neg h0]
    simp [h0]

theorem fillRows_length (v : Nat) (w roiw : Int) :
    ∀ (rows : Nat) (buf : Int) (mapStart : List Nat),
    (fillRows v w roiw rows buf mapStart).length = mapStart.length := by
  intro rows
  induction rows with
  | zero => intro buf mapStart; rfl
  | succ rows ih => intro buf mapStart; rw [fillRows, ih, memset_length]

/-- After the row loop, a byte of the buffer in one of the written runs holds `v`; any
other byte is as before. -/
theorem peek_fillRows (v : Nat) (w roiw : Int) :
    ∀ (rows : Nat) (buf : Int) (mapStart : List Nat) (off : Int),
    peek (fillRows v w roiw rows buf mapStart) off =
      if 0 ≤ off ∧ off < mapStart.length ∧
          ∃ k : Nat, k < rows ∧ buf + k * w ≤ off ∧ off < buf + k * w + roiw then v
      else peek mapStart off := by
  intro rows
  induction rows with
  | zero => intro buf mapStart off; simp [fillRows]
  | succ rows ih =>
    intro buf mapStart off
    rw [fillRows, ih, memset_length, peek_memset]
    have key : (∃ k : Nat, k < rows + 1 ∧ buf + k * w ≤ off ∧ off < buf + k * w + roiw) ↔
        ((buf ≤ off ∧ off < buf + roiw) ∨
          ∃ k : Nat, k < rows ∧ buf + w + k * w ≤ off ∧ off < buf + w + k * w + roiw) := by
      constructor
      · rintro ⟨k, hk, h1, h2⟩
        rcases Nat.eq_zero_or_pos k with rfl | hpos
        · left
          simp only [Nat.cast_zero, zero_mul, add_zero] at h1 h2
          exact ⟨h1, h2⟩
        · right
          refine ⟨k - 1, by omega, ?_⟩
          have e : buf + w + ((k - 1 : Nat) : Int) * w = buf + k * w := by
            rw [Nat.cast_sub (by omega)]; push_cast; ring
          rw [e]; exact ⟨h1, h2⟩
      · rintro (⟨h1, h2⟩ | ⟨k, hk, h1, h2⟩)
        · exact ⟨0, Nat.succ_pos rows, by simpa using h1, by simpa using h2⟩
        · refine ⟨k + 1, by omega, ?_⟩
          have e : buf + ((k + 1 : Nat) : Int) * w = buf + w + k * w := by push_cast; ring
          rw [e]; exact ⟨h1, h2⟩
    by_cases hb : 0 ≤ off ∧ off < (mapStart.length : Int)
    · by_cases h2 : ∃ k : Nat, k < rows ∧ buf + w + k * w ≤ off ∧ off < buf + w + k * w + roiw
      · rw [if_pos ⟨hb.1, hb.2, h2⟩, if_pos ⟨hb.1, hb.2, key.mpr (Or.inr h2)⟩]
      · rw [if_neg (fun h => h2 h.2.2)]
        by_cases h1 : buf ≤ off ∧ off < buf + roiw
        · rw [if_pos ⟨hb.1, hb.2, h1.1, h1.2⟩, if_pos ⟨hb.1, hb.2, key.mpr (Or.inl h1)⟩]
        · rw [if_neg (fun h => h1 ⟨h.2.2.1, h.2.2.2⟩), if_neg]
          rintro ⟨-, -, h⟩
          rcases key.mp h with h | h
          · exact h1 h
          · exact h2 h
    · rw [if_neg (fun h => hb ⟨h.1, h.2.1⟩), if_neg (fun h => hb ⟨h.1, h.2.1⟩),
        if_neg (fun h => hb ⟨h.1, h.2.1⟩)]

/-- The offset of a pixel of the bounds is inside a buffer of width × height bytes. -/
theorem BM_GET_in_buffer (_bounds : RectI) (x y : Int) (h : _bounds.hasPixel x y) :
    0 ≤ BM_GET _bounds y x ∧ BM_GET _bounds y x < _bounds.width * _bounds.height := by
  unfold RectI.hasPixel at h
  unfold BM_GET RectI.width RectI.height RectI.bottom RectI.left
  obtain ⟨h1, h2, h3, h4⟩ := h
  have hw : 0 < _bounds.x2 - _bounds.x1 := by omega
  have hy : 0 ≤ y - _bounds.y1 := by omega
  constructor
  · have := mul_nonneg hy (le_of_lt hw)
    omega
  · have h5 : (y - _bounds.y1 + 1) * (_bounds.x2 - _bounds.x1) ≤
        (_bounds.y2 - _bounds.y1) * (_bounds.x2 - _bounds.x1) :=
      mul_le_mul_of_nonneg_right (by omega) (le_of_lt hw)
    have h6 : (y - _bounds.y1 + 1) * (_bounds.x2 - _bounds.x1) =
        (y - _bounds.y1) * (_bounds.x2 - _bounds.x1) + (_bounds.x2 - _bounds.x1) := by ring
    have h7 : (_bounds.y2 - _bounds.y1) * (_bounds.x2 - _bounds.x1) =
        (_bounds.x2 - _bounds.x1) * (_bounds.y2 - _bounds.y1) := by ring
    omega

/-- A bulk write keeps the bounds, the dirty zone and the size of the buffer. -/
theorem Bitmap.fill_sized (bm : Bitmap) (roi : RectI) (v : Nat) (h : bm.sized) :
    (bm.fill roi v).sized := by
  unfold Bitmap.sized Bitmap.fill at *
  simp only [fillRows_length]
  exact h

/-- After a bulk write of `v` on `roi`, every pixel of `roi` that is in the bounds reads
`v`. -/
theorem Bitmap.fill_inside (bm : Bitmap) (roi : RectI) (v : Nat) (h : bm.sized) (x y : Int)
    (hroi : roi.hasPixel x y) (hb : bm._bounds.hasPixel x y) :
    pixelAt (bm.fill roi v)._bounds (bm.fill roi v)._map x y = v := by
  unfold Bitmap.fill pixelAt
  simp only
  rw [peek_fillRows]
  obtain ⟨h1, h2⟩ := BM_GET_in_buffer _ x y hb
  rw [if_pos]
  refine ⟨h1, by rw [h.2.2]; exact h2, (y - roi.y1).toNat, ?_, ?_⟩
  · unfold RectI.hasPixel at hroi; omega
  · unfold RectI.hasPixel at hroi
    have e : (((y - roi.y1).toNat : Nat) : Int) = y - roi.y1 := by omega
    rw [e]
    have e2 : BM_GET bm._bounds roi.bottom roi.left + (y - roi.y1) * bm._bounds.width =
        BM_GET bm._bounds y x - (x - roi.x1) := by
      unfold BM_GET RectI.bottom RectI.left; ring
    rw [e2]
    unfold RectI.width
    omega

/-- When every pixel of `roi` is available the bounding box is empty. -/
theorem bbox_null_of_all_available (trimap : Bool) (roi _bounds : RectI) (mapStart : List Nat)
    (flag : Bool)
    (h : ∀ x y, roi.hasPixel x y → ¬ unavailable trimap (pixelAt _bounds mapStart x y)) :
    (minimalNonMarkedBbox_internal trimap roi _bounds mapStart flag).1.isNull = true := by
  have hcont := bbox_contained trimap roi _bounds mapStart flag
  obtain ⟨r, f, hr, -, -, -, htight, -⟩ := bbox_spec trimap roi _bounds mapStart flag
  rw [hr] at hcont ⊢
  simp only at hcont ⊢
  by_contra hc
  have hnn : r.isNull = false := by simpa using hc
  obtain ⟨⟨xb, hb1, hb2, hbv⟩, -, -, -⟩ := htight hnn
  obtain ⟨hx, hy⟩ := (RectI.isNull_false_iff _).mp hnn
  exact h xb r.y1 (RectI.hasPixel_of_contains _ _ hcont _ _ ⟨hb1, hb2, le_refl _, hy⟩) hbv

/-- The same for the public query, with or without a dirty zone. -/
theorem Bitmap.query_null_of_all_available (bm : Bitmap) (roi : RectI)
    (h : ∀ x y, roi.hasPixel x y → ¬ unavailable false (pixelAt bm._bounds bm._map x y)) :
    (bm.minimalNonMarkedBbox roi).isNull = true := by
  unfold Bitmap.minimalNonMarkedBbox
  cases hs : bm._dirtyZoneSet
  · simp only [Bool.false_eq_true, if_false]
    exact Natron.bbox_null_of_all_available false roi _ _ false h
  · simp only [if_true]
    cases hi : roi.intersect bm._dirtyZone with
    | none => rfl
    | some i =>
      exact Natron.bbox_null_of_all_available false i _ _ false
        (fun x y hp => h x y ((RectI.intersect_some_iff _ _ _ hi x y).mp hp).1)

/-- C5, as stated, fails when `roi` is not contained in the bounds. On the 3×2 map
`1 1 1 / 0 1 1` with bounds `[0,3) × [0,2)`, every pixel of `roi ∩ bounds` for
`roi = [0,4) × [0,1)` is 1, yet `minimalNonMarkedBbox` reads the four bytes 1, 1, 1, 0
of the buffer from `BM_GET(0, 0)` on and returns the non-empty `[3,4) × [0,1)`. -/
theorem bbox_not_empty_beyond_bounds :
    (∀ x y, (RectI.mk 0 0 4 1).hasPixel x y → (RectI.mk 0 0 3 2).hasPixel x y →
      pixelAt ⟨0, 0, 3, 2⟩ [1, 1, 1, 0, 1, 1] x y = 1) ∧
    (Bitmap.mk ⟨0, 0, 3, 2⟩ [1, 1, 1, 0, 1, 1] RectI.zero false).minimalNonMarkedBbox
      ⟨0, 0, 4, 1⟩ = ⟨3, 0, 4, 1⟩ ∧
    (RectI.mk 3 0 4 1).isNull = false := by
  refine ⟨?_, by decide, by decide⟩
  rintro x y ⟨h1, h2, h3, h4⟩ ⟨h5, h6, h7, h8⟩
  simp only at h1 h2 h3 h4 h5 h6 h7 h8
  obtain rfl : y = 0 := by omega
  interval_cases x <;> decide

/-- C5, amended. If `roi` is contained in the bounds and every pixel of `roi` is 1,
`Bitmap::minimalNonMarkedBbox` returns an empty rectangle; in particular, on a map whose
buffer has width × height bytes, after `markForRendered(bounds)` the query returns an
empty rectangle for every `roi` contained in the bounds. -/
theorem bbox_empty_when_all_available (bm : Bitmap) (roi : RectI)
    (hroi : bm._bounds.contains roi = true) :
    ((∀ x y, roi.hasPixel x y → pixelAt bm._bounds bm._map x y = 1) →
      (bm.minimalNonMarkedBbox roi).isNull = true) ∧
    (bm.sized → ((bm.markForRendered bm._bounds).minimalNonMarkedBbox roi).isNull = true) := by
  constructor
  · intro h
    apply Bitmap.query_null_of_all_available
    intro x y hp hu
    rw [h x y hp] at hu
    simp [unavailable, PIXEL_UNAVAILABLE] at hu
  · intro hs
    apply Bitmap.query_null_of_all_available
    intro x y hp hu
    have hb := RectI.hasPixel_of_contains _ _ hroi x y hp
    have := Bitmap.fill_inside bm bm._bounds 1 hs x y hb hb
    unfold Bitmap.markForRendered at hu
    rw [this] at hu
    simp [unavailable, PIXEL_UNAVAILABLE] at hu

/-- C5 amended, at a concrete input: the all-zero 3×2 map, marked rendered on its bounds and
queried on `[1,3) × [0,2)`. -/
theorem bbox_empty_when_all_available_witness :
    (RectI.mk 0 0 3 2).contains ⟨1, 0, 3, 2⟩ = true ∧
    (Bitmap.mk ⟨0, 0, 3, 2⟩ [0, 0, 0, 0, 0, 0] RectI.zero false).sized ∧
    (((Bitmap.mk ⟨0, 0, 3, 2⟩ [0, 0, 0, 0, 0, 0] RectI.zero false).markForRendered
      ⟨0, 0, 3, 2⟩).minimalNonMarkedBbox ⟨1, 0, 3, 2⟩).isNull = true :=
  ⟨by decide, by decide,
    (bbox_empty_when_all_available (Bitmap.mk ⟨0, 0, 3, 2⟩ [0, 0, 0, 0, 0, 0] RectI.zero false)
      ⟨1, 0, 3, 2⟩ (by decide)).2 (by decide)⟩

/-! ## The trimap flag -/

theorem bbox_flag_mono (trimap : Bool) (roi _bounds : RectI) (mapStart : List Nat)
    (flag : Bool) (h : flag = true) :
    (minimalNonMarkedBbox_internal trimap roi _bounds mapStart flag).2 = true := by
  obtain ⟨r, f, hr, -, -, -, -, hf⟩ := bbox_spec trimap roi _bounds mapStart flag
  rw [hr]
  exact hf.mpr (Or.inl h)

theorem bbox_flag_of_reserved (roi _bounds : RectI) (mapStart : List Nat) (flag : Bool)
    (x y : Int) (hroi : roi.hasPixel x y)
    (hout : ¬ (minimalNonMarkedBbox_internal true roi _bounds mapStart flag).1.hasPixel x y)
    (hv : pixelAt _bounds mapStart x y = PIXEL_UNAVAILABLE) :
    (minimalNonMarkedBbox_internal true roi _bounds mapStart flag).2 = true := by
  obtain ⟨r, f, hr, -, -, -, -, hf⟩ := bbox_spec true roi _bounds mapStart flag
  rw [hr] at hout ⊢
  exact hf.mpr (Or.inr ⟨rfl, x, y, hroi, hout, hv⟩)

theorem bbox_flag_upper (trimap : Bool) (roi _bounds : RectI) (mapStart : List Nat)
    (flag : Bool)
    (h : (minimalNonMarkedBbox_internal trimap roi _bounds mapStart flag).2 = true) :
    flag = true ∨ (trimap = true ∧
      ∃ x y, roi.hasPixel x y ∧ pixelAt _bounds mapStart x y = PIXEL_UNAVAILABLE) := by
  obtain ⟨r, f, hr, -, -, -, -, hf⟩ := bbox_spec trimap roi _bounds mapStart flag
  rw [hr] at h
  rcases hf.mp h with h | ⟨ht, x, y, h1, -, hv⟩
  · exact Or.inl h
  · exact Or.inr ⟨ht, x, y, h1, hv⟩

/-- A reserved pixel of `roi ∩ bounds` that is in no rectangle of the returned list raises
the flag of `minimalNonMarkedRects_internal<1>`. -/
theorem rects_flag_of_reserved (roi _bounds : RectI) (mapStart : List Nat)
    (ret : List RectI) (flag : Bool) (x y : Int) (hroi : roi.hasPixel x y)
    (hb : _bounds.hasPixel x y) (hv : pixelAt _bounds mapStart x y = PIXEL_UNAVAILABLE)
    (hnot : ∀ r ∈ (minimalNonMarkedRects_internal true roi _bounds mapStart ret flag).1,
      ¬ r.hasPixel x y) :
    (minimalNonMarkedRects_internal true roi _bounds mapStart ret flag).2 = true := by
  rw [rects_unfold] at hnot ⊢
  cases hi : roi.intersect _bounds with
  | none => exact absurd hb (RectI.intersect_none _ _ hi x y hroi)
  | some i =>
    rw [hi] at hnot
    simp only at hnot ⊢
    have hin : i.hasPixel x y := (RectI.intersect_some_iff _ _ _ hi x y).mpr ⟨hroi, hb⟩
    have hlow := bbox_flag_of_reserved i _bounds mapStart flag x y hin
    generalize minimalNonMarkedBbox_internal true i _bounds mapStart flag = res at hnot hlow ⊢
    obtain ⟨M, f1⟩ := res
    simp only at hnot hlow ⊢
    rw [pushInBounds_flag]
    cases hM : M.isNull
    · simp only [Bool.false_eq_true, if_false]
      obtain ⟨hMx, hMy⟩ := (RectI.isNull_false_iff _).mp hM
      obtain ⟨ya, yb, xa, xb, f, hp, ⟨g1, g2, g3, g4, g5, g6⟩, hmono, -, -, -⟩ :=
        peel_spec true _bounds mapStart M f1 (le_of_lt hMx) (le_of_lt hMy)
      simp only [pushInBounds_mem, hM, true_and, hp] at hnot
      rw [hp]
      simp only
      by_cases hpM : M.hasPixel x y
      · unfold RectI.hasPixel at hpM
        have nA : ¬ (RectI.mk M.x1 M.y1 M.x2 ya).hasPixel x y := fun hc =>
          hnot _ (Or.inr (Or.inl ⟨RectI.notNull_of_hasPixel _ _ _ hc, rfl⟩)) hc
        have nB : ¬ (RectI.mk M.x1 yb M.x2 M.y2).hasPixel x y := fun hc =>
          hnot _ (Or.inr (Or.inr (Or.inl ⟨RectI.notNull_of_hasPixel _ _ _ hc, rfl⟩))) hc
        have nC : ¬ (RectI.mk M.x1 ya xa yb).hasPixel x y := fun hc =>
          hnot _ (Or.inr (Or.inr (Or.inr (Or.inl ⟨RectI.notNull_of_hasPixel _ _ _ hc, rfl⟩))))
            hc
        have nD : ¬ (RectI.mk xb ya M.x2 yb).hasPixel x y := fun hc =>
          hnot _ (Or.inr (Or.inr (Or.inr (Or.inr (Or.inl
            ⟨RectI.notNull_of_hasPixel _ _ _ hc, rfl⟩))))) hc
        have nX : ¬ (minimalNonMarkedBbox_internal true ⟨xa, ya, xb, yb⟩ _bounds mapStart
            f).1.hasPixel x y := fun hc =>
          hnot _ (Or.inr (Or.inr (Or.inr (Or.inr (Or.inr
            ⟨RectI.notNull_of_hasPixel _ _ _ hc, rfl⟩))))) hc
        simp only [RectI.hasPixel] at nA nB nC nD
        exact bbox_flag_of_reserved ⟨xa, ya, xb, yb⟩ _bounds mapStart f x y
          (by simp only [RectI.hasPixel]; omega) nX hv
      · exact bbox_flag_mono _ _ _ _ _ (hmono (hlow hpM hv))
    · simp only [if_true]
      exact hlow ((RectI.isNull_iff_no_pixel _).mp hM x y) hv

/-- The flag of `minimalNonMarkedRects_internal` is raised only if it was raised on entry or
a pixel of `roi ∩ bounds` is reserved (trimap mode). -/
theorem rects_flag_upper (trimap : Bool) (roi _bounds : RectI) (mapStart : List Nat)
    (ret : List RectI) (flag : Bool)
    (h : (minimalNonMarkedRects_internal trimap roi _bounds mapStart ret flag).2 = true) :
    flag = true ∨ (trimap = true ∧ ∃ x y, roi.hasPixel x y ∧ _bounds.hasPixel x y ∧
      pixelAt _bounds mapStart x y = PIXEL_UNAVAILABLE) := by
  rw [rects_unfold] at h
  cases hi : roi.intersect _bounds with
  | none => rw [hi] at h; exact Or.inl h
  | some i =>
    rw [hi] at h
    simp only at h
    have hup := bbox_flag_upper trimap i _bounds mapStart flag
    have hcont := bbox_contained trimap i _bounds mapStart flag
    generalize minimalNonMarkedBbox_internal trimap i _bounds mapStart flag = res at h hup hcont
    obtain ⟨M, f1⟩ := res
    simp only at h hup hcont
    have ofI : ∀ x y, i.hasPixel x y → pixelAt _bounds mapStart x y = PIXEL_UNAVAILABLE →
        ∃ x y, roi.hasPixel x y ∧ _bounds.hasPixel x y ∧
          pixelAt _bounds mapStart x y = PIXEL_UNAVAILABLE := fun x y hp hv =>
      ⟨x, y, ((RectI.intersect_some_iff _ _ _ hi x y).mp hp).1,
        ((RectI.intersect_some_iff _ _ _ hi x y).mp hp).2, hv⟩
    have of1 : f1 = true → flag = true ∨ (trimap = true ∧ ∃ x y, roi.hasPixel x y ∧
        _bounds.hasPixel x y ∧ pixelAt _bounds mapStart x y = PIXEL_UNAVAILABLE) := by
      intro h1
      rcases hup h1 with h | ⟨ht, x, y, hp, hv⟩
      · exact Or.inl h
      · exact Or.inr ⟨ht, ofI x y hp hv⟩
    rw [pushInBounds_flag] at h
    cases hM : M.isNull
    · rw [hM] at h
      simp only [Bool.false_eq_true, if_false] at h
      obtain ⟨hMx, hMy⟩ := (RectI.isNull_false_iff _).mp hM
      obtain ⟨ya, yb, xa, xb, f, hp, ⟨g1, g2, g3, g4, g5, g6⟩, -, hpf, -, -⟩ :=
        peel_spec trimap _bounds mapStart M f1 (le_of_lt hMx) (le_of_lt hMy)
      rw [hp] at h
      simp only at h
      have ofM : ∀ x y, M.hasPixel x y → i.hasPixel x y :=
        fun x y hq => RectI.hasPixel_of_contains _ _ hcont x y hq
      rcases bbox_flag_upper trimap _ _bounds mapStart f h with h | ⟨ht, x, y, hq, hv⟩
      · rcases hpf h with h | ⟨ht, x, y, q1, q2, q3, q4, hv⟩
        · exact of1 h
        · exact Or.inr ⟨ht, ofI x y (ofM x y ⟨q1, q2, q3, q4⟩) hv⟩
      · simp only [RectI.hasPixel] at hq
        exact Or.inr ⟨ht, ofI x y (ofM x y ⟨by omega, by omega, by omega, by omega⟩) hv⟩
    · rw [hM] at h
      simp only [if_true] at h
      exact of1 h

/-- C6. Trimap flag, positive direction: if a pixel of `roi ∩ bounds` (inside the dirty zone
when one is set) holds 2 and is not in the rectangle returned by
`minimalNonMarkedBbox_trimap`, the call reports `isBeingRenderedElsewhere = true`; and if
it is in no rectangle of the list returned by `minimalNonMarkedRects_trimap`, that call
reports `true` as well. -/
theorem trimap_flag_raised (bm : Bitmap) (roi : RectI) (ret : List RectI) (flag : Bool)
    (x y : Int) (hroi : roi.hasPixel x y) (hb : bm._bounds.hasPixel x y)
    (hdz : bm._dirtyZoneSet = true → bm._dirtyZone.hasPixel x y)
    (hv : pixelAt bm._bounds bm._map x y = 2) :
    (¬ (bm.minimalNonMarkedBbox_trimap roi flag).1.hasPixel x y →
      (bm.minimalNonMarkedBbox_trimap roi flag).2 = true) ∧
    ((∀ r ∈ (bm.minimalNonMarkedRects_trimap roi ret flag).1, ¬ r.hasPixel x y) →
      (bm.minimalNonMarkedRects_trimap roi ret flag).2 = true) := by
  unfold Bitmap.minimalNonMarkedBbox_trimap Bitmap.minimalNonMarkedRects_trimap
  rcases queried_region bm roi x y hroi hdz with hs | ⟨hs, i, hi, hpix⟩
  · simp only [hs, Bool.false_eq_true, if_false]
    exact ⟨fun hout => bbox_flag_of_reserved roi _ _ flag x y hroi hout hv,
      fun hnot => rects_flag_of_reserved roi _ _ ret flag x y hroi hb hv hnot⟩
  · simp only [hs, if_true, hi]
    exact ⟨fun hout => bbox_flag_of_reserved i _ _ flag x y hpix hout hv,
      fun hnot => rects_flag_of_reserved i _ _ ret flag x y hpix hb hv hnot⟩

/-- C6, at a concrete input: the 2×2 map `2 1 / 0 1`; the reserved pixel `(0, 0)` is left
out of `[0,1) × [1,2)`, the only rectangle returned. -/
theorem trimap_flag_raised_witness :
    (RectI.mk 0 0 2 2).hasPixel 0 0 ∧
    pixelAt ⟨0, 0, 2, 2⟩ [2, 1, 0, 1] 0 0 = 2 ∧
    (Bitmap.mk ⟨0, 0, 2, 2⟩ [2, 1, 0, 1] RectI.zero false).minimalNonMarkedBbox_trimap
      ⟨0, 0, 2, 2⟩ false = (⟨0, 1, 1, 2⟩, true) ∧
    (Bitmap.mk ⟨0, 0, 2, 2⟩ [2, 1, 0, 1] RectI.zero false).minimalNonMarkedRects_trimap
      ⟨0, 0, 2, 2⟩ [] false = ([⟨0, 1, 1, 2⟩], true) ∧
    ((∀ r ∈ ((Bitmap.mk ⟨0, 0, 2, 2⟩ [2, 1, 0, 1] RectI.zero false).minimalNonMarkedRects_trimap
        ⟨0, 0, 2, 2⟩ [] false).1, ¬ r.hasPixel 0 0) →
      ((Bitmap.mk ⟨0, 0, 2, 2⟩ [2, 1, 0, 1] RectI.zero false).minimalNonMarkedRects_trimap
        ⟨0, 0, 2, 2⟩ [] false).2 = true) :=
  ⟨by decide, by decide, by decide, by decide,
    (trimap_flag_raised (Bitmap.mk ⟨0, 0, 2, 2⟩ [2, 1, 0, 1] RectI.zero false) ⟨0, 0, 2, 2⟩ []
      false 0 0 (by decide) (by decide) (by decide) (by decide)).2⟩

/-- C7, as stated, fails for `minimalNonMarkedBbox_trimap` when `roi` is not contained in the
bounds. On the 2×2 map `1 1 / 2 1` with bounds `[0,2) × [0,2)` and
`roi = [0,3) × [0,1)`, no pixel of `roi ∩ bounds` holds 2, yet the scan of row 0 reads
the three bytes 1, 1, 2 of the buffer and the call, entered with the flag false,
reports `true`. -/
theorem trimap_flag_raised_beyond_bounds :
    (∀ x y, (RectI.mk 0 0 3 1).hasPixel x y → (RectI.mk 0 0 2 2).hasPixel x y →
      pixelAt ⟨0, 0, 2, 2⟩ [1, 1, 2, 1] x y ≠ 2) ∧
    ((Bitmap.mk ⟨0, 0, 2, 2⟩ [1, 1, 2, 1] RectI.zero false).minimalNonMarkedBbox_trimap
      ⟨0, 0, 3, 1⟩ false).2 = true := by
  refine ⟨?_, by decide⟩
  rintro x y ⟨h1, h2, h3, h4⟩ ⟨h5, h6, h7, h8⟩
  simp only at h1 h2 h3 h4 h5 h6 h7 h8
  obtain rfl : y = 0 := by omega
  interval_cases x <;> decide

/-- C7, amended. If no pixel of `roi ∩ bounds` holds 2 and the flag is false on entry (the
code only ever sets it), `minimalNonMarkedRects_trimap` reports
`isBeingRenderedElsewhere = false` for every `roi`, and `minimalNonMarkedBbox_trimap`
reports `false` for every `roi` contained in the bounds. -/
theorem trimap_flag_not_raised (bm : Bitmap) (roi : RectI) (ret : List RectI)
    (hno : ∀ x y, roi.hasPixel x y → bm._bounds.hasPixel x y →
      pixelAt bm._bounds bm._map x y ≠ 2) :
    (bm.minimalNonMarkedRects_trimap roi ret false).2 = false ∧
    (bm._bounds.contains roi = true → (bm.minimalNonMarkedBbox_trimap roi false).2 = false) := by
  constructor
  · unfold Bitmap.minimalNonMarkedRects_trimap
    cases hs : bm._dirtyZoneSet
    · simp only [Bool.false_eq_true, if_false]
      by_contra hc
      rcases rects_flag_upper true roi _ _ ret false (by simpa using hc) with h | ⟨-, x, y, h1, h2, hv⟩
      · cases h
      · exact hno x y h1 h2 hv
    · simp only [if_true]
      cases hi : roi.intersect bm._dirtyZone with
      | none => rfl
      | some i =>
        simp only
        by_contra hc
        rcases rects_flag_upper true i _ _ ret false (by simpa using hc) with
          h | ⟨-, x, y, h1, h2, hv⟩
        · cases h
        · exact hno x y ((RectI.intersect_some_iff _ _ _ hi x y).mp h1).1 h2 hv
  · intro hroi
    unfold Bitmap.minimalNonMarkedBbox_trimap
    cases hs : bm._dirtyZoneSet
    · simp only [Bool.false_eq_true, if_false]
      by_contra hc
      rcases bbox_flag_upper true roi _ _ false (by simpa using hc) with h | ⟨-, x, y, h1, hv⟩
      · cases h
      · exact hno x y h1 (RectI.hasPixel_of_contains _ _ hroi x y h1) hv
    · simp only [if_true]
      cases hi : roi.intersect bm._dirtyZone with
      | none => rfl
      | some i =>
        simp only
        by_contra hc
        rcases bbox_flag_upper true i _ _ false (by simpa using hc) with h | ⟨-, x, y, h1, hv⟩
        · cases h
        · have hr := ((RectI.intersect_some_iff _ _ _ hi x y).mp h1).1
          exact hno x y hr (RectI.hasPixel_of_contains _ _ hroi x y hr) hv

/-- C7 amended, at a concrete input: the 2×2 map `1 1 / 2 1` queried on its first row. -/
theorem trimap_flag_not_raised_witness :
    (∀ x y, (RectI.mk 0 0 2 1).hasPixel x y → (RectI.mk 0 0 2 2).hasPixel x y →
      pixelAt ⟨0, 0, 2, 2⟩ [1, 1, 2, 1] x y ≠ 2) ∧
    (RectI.mk 0 0 2 2).contains ⟨0, 0, 2, 1⟩ = true ∧
    ((Bitmap.mk ⟨0, 0, 2, 2⟩ [1, 1, 2, 1] RectI.zero false).minimalNonMarkedRects_trimap
      ⟨0, 0, 2, 1⟩ [] false).2 = false ∧
    ((Bitmap.mk ⟨0, 0, 2, 2⟩ [1, 1, 2, 1] RectI.zero false).minimalNonMarkedBbox_trimap
      ⟨0, 0, 2, 1⟩ false).2 = false :=
  have hno : ∀ x y, (RectI.mk 0 0 2 1).hasPixel x y → (RectI.mk 0 0 2 2).hasPixel x y →
      pixelAt ⟨0, 0, 2, 2⟩ [1, 1, 2, 1] x y ≠ 2 := by
    rintro x y ⟨h1, h2, h3, h4⟩ -
    simp only at h1 h2 h3 h4
    obtain rfl : y = 0 := by omega
    interval_cases x <;> decide
  ⟨hno, by decide,
    (trimap_flag_not_raised (Bitmap.mk ⟨0, 0, 2, 2⟩ [1, 1, 2, 1] RectI.zero false) ⟨0, 0, 2, 1⟩
      [] hno).1,
    (trimap_flag_not_raised (Bitmap.mk ⟨0, 0, 2, 2⟩ [1, 1, 2, 1] RectI.zero false) ⟨0, 0, 2, 1⟩
      [] hno).2 (by decide)⟩

/-- C8. Trimap wait: for a non-empty `roi` contained in the bounds all of whose pixels are
non-zero, `minimalNonMarkedBbox_trimap`, entered with the flag false, returns an empty
rectangle and reports `isBeingRenderedElsewhere = true` exactly when a pixel of `roi`
(inside the dirty zone when one is set) holds 2. On the 10×10 map that is 1 everywhere
except for `[3,7) × [3,7)` marked with `markForRendering`, the query on the whole map
returns an empty rectangle and `true`. -/
theorem trimap_wait (bm : Bitmap) (roi : RectI) (_hne : roi.isNull = false)
    (_hroi : bm._bounds.contains roi = true)
    (hnz : ∀ x y, roi.hasPixel x y → pixelAt bm._bounds bm._map x y ≠ 0) :
    (bm.minimalNonMarkedBbox_trimap roi false).1.isNull = true ∧
    ((bm.minimalNonMarkedBbox_trimap roi false).2 = true ↔
      ∃ x y, roi.hasPixel x y ∧ (bm._dirtyZoneSet = true → bm._dirtyZone.hasPixel x y) ∧
        pixelAt bm._bounds bm._map x y = 2) ∧
    ((((Bitmap.mk ⟨0, 0, 10, 10⟩ (List.replicate 100 0) RectI.zero false).markForRendered
        ⟨0, 0, 10, 10⟩).markForRendering ⟨3, 3, 7, 7⟩).minimalNonMarkedBbox_trimap
        ⟨0, 0, 10, 10⟩ false).1.isNull = true ∧
    ((((Bitmap.mk ⟨0, 0, 10, 10⟩ (List.replicate 100 0) RectI.zero false).markForRendered
        ⟨0, 0, 10, 10⟩).markForRendering ⟨3, 3, 7, 7⟩).minimalNonMarkedBbox_trimap
        ⟨0, 0, 10, 10⟩ false).2 = true := by
  have key : ∀ r : RectI, (∀ x y, r.hasPixel x y → roi.hasPixel x y) →
      (minimalNonMarkedBbox_internal true r bm._bounds bm._map false).1.isNull = true ∧
      ((minimalNonMarkedBbox_internal true r bm._bounds bm._map false).2 = true ↔
        ∃ x y, r.hasPixel x y ∧ pixelAt bm._bounds bm._map x y = 2) := by
    intro r hr
    have hnull := bbox_null_of_all_available true r bm._bounds bm._map false
      (fun x y hp hu => by
        rcases hu with hu | ⟨hu, -⟩
        · exact hnz x y (hr x y hp) hu
        · cases hu)
    obtain ⟨q, f, hq, -, -, -, -, hf⟩ := bbox_spec true r bm._bounds bm._map false
    rw [hq] at hnull ⊢
    simp only at hnull ⊢
    refine ⟨hnull, ?_⟩
    rw [hf]
    constructor
    · rintro (h | ⟨-, x, y, h1, -, hv⟩)
      · cases h
      · exact ⟨x, y, h1, hv⟩
    · rintro ⟨x, y, h1, hv⟩
      exact Or.inr ⟨rfl, x, y, h1, (RectI.isNull_iff_no_pixel _).mp hnull x y, hv⟩
  refine ⟨?_, ?_, by decide, by decide⟩
  · unfold Bitmap.minimalNonMarkedBbox_trimap
    cases hs : bm._dirtyZoneSet
    · simp only [Bool.false_eq_true, if_false]
      exact (key roi (fun _ _ h => h)).1
    · simp only [if_true]
      cases hi : roi.intersect bm._dirtyZone with
      | none => rfl
      | some i => exact (key i (fun x y h => ((RectI.intersect_some_iff _ _ _ hi x y).mp h).1)).1
  · unfold Bitmap.minimalNonMarkedBbox_trimap
    cases hs : bm._dirtyZoneSet
    · simp only [Bool.false_eq_true, if_false, false_implies, true_and]
      exact (key roi (fun _ _ h => h)).2
    · simp only [if_true, true_implies]
      cases hi : roi.intersect bm._dirtyZone with
      | none =>
        simp only [Bool.false_eq_true, false_iff, not_exists, not_and]
        intro x y h1 h2
        exact absurd h2 (RectI.intersect_none _ _ hi x y h1)
      | some i =>
        simp only
        rw [(key i (fun x y h => ((RectI.intersect_some_iff _ _ _ hi x y).mp h).1)).2]
        constructor
        · rintro ⟨x, y, h1, hv⟩
          have := (RectI.intersect_some_iff _ _ _ hi x y).mp h1
          exact ⟨x, y, this.1, this.2, hv⟩
        · rintro ⟨x, y, h1, h2, hv⟩
          exact ⟨x, y, (RectI.intersect_some_iff _ _ _ hi x y).mpr ⟨h1, h2⟩, hv⟩

/-- C8, at a concrete input: the 2×2 map `1 2 / 1 1` queried on its bounds. -/
theorem trimap_wait_witness :
    (RectI.mk 0 0 2 2).isNull = false ∧
    (RectI.mk 0 0 2 2).contains ⟨0, 0, 2, 2⟩ = true ∧
    (∀ x y, (RectI.mk 0 0 2 2).hasPixel x y → pixelAt ⟨0, 0, 2, 2⟩ [1, 2, 1, 1] x y ≠ 0) ∧
    (Bitmap.mk ⟨0, 0, 2, 2⟩ [1, 2, 1, 1] RectI.zero false).minimalNonMarkedBbox_trimap
      ⟨0, 0, 2, 2⟩ false = (⟨0, 2, 2, 2⟩, true) ∧
    ((Bitmap.mk ⟨0, 0, 2, 2⟩ [1, 2, 1, 1] RectI.zero false).minimalNonMarkedBbox_trimap
      ⟨0, 0, 2, 2⟩ false).1.isNull = true :=
  have hnz : ∀ x y, (RectI.mk 0 0 2 2).hasPixel x y →
      pixelAt ⟨0, 0, 2, 2⟩ [1, 2, 1, 1] x y ≠ 0 := by
    rintro x y ⟨h1, h2, h3, h4⟩
    simp only at h1 h2 h3 h4
    interval_cases x <;> interval_cases y <;> decide
  ⟨by decide, by decide, hnz, by decide,
    (trimap_wait (Bitmap.mk ⟨0, 0, 2, 2⟩ [1, 2, 1, 1] RectI.zero false) ⟨0, 0, 2, 2⟩
      (by decide) (by decide) hnz).1⟩

/-! ## The shape of the returned list -/

theorem pushNonNull_eq (ret : List RectI) (q : RectI) :
    pushNonNull ret q = ret ++ [q].filter (fun r => !r.isNull) := by
  unfold pushNonNull
  cases h : q.isNull <;> simp [h]

theorem pushInBounds_eq (trimap : Bool) (_bounds : RectI) (mapStart : List Nat) (M : RectI)
    (ret : List RectI) (flag : Bool) :
    (pushInBounds trimap _bounds mapStart M ret flag).1 =
      ret ++ (if M.isNull then []
        else [(peel trimap _bounds mapStart M flag).bboxA,
              (peel trimap _bounds mapStart M flag).bboxB,
              (peel trimap _bounds mapStart M flag).bboxC,
              (peel trimap _bounds mapStart M flag).bboxD,
              (minimalNonMarkedBbox_internal trimap (peel trimap _bounds mapStart M flag).bboxX
                _bounds mapStart (peel trimap _bounds mapStart M flag).flag).1].filter
            (fun r => !r.isNull)) := by
  unfold pushInBounds
  cases hM : M.isNull
  · simp only [Bool.false_eq_true, if_false, pushNonNull_eq, List.append_assoc]
    congr 1
    simp only [List.filter_cons, List.filter_nil]
    repeat' split
    all_goals simp
  · simp

/-- C9, as stated, fails: the strips A, B, C and D are pushed to the list. On the 10×10 map
that is 0 on a border of width 2 and 1 on `[2,8) × [2,8)`, the query on the whole map
returns four in-bounds rectangles, which are the strips A, B, C, D of the peeling of
`bboxM = [0,10) × [0,10)`; the interior X is `[2,8) × [2,8)`. -/
theorem strips_are_returned :
    ((Bitmap.mk ⟨0, 0, 10, 10⟩ (List.replicate 100 0) RectI.zero false).markForRendered
      ⟨2, 2, 8, 8⟩).minimalNonMarkedRects ⟨0, 0, 10, 10⟩ [] =
      [⟨0, 0, 10, 2⟩, ⟨0, 8, 10, 10⟩, ⟨0, 2, 2, 8⟩, ⟨8, 2, 10, 8⟩] ∧
    (minimalNonMarkedBbox_internal false ⟨0, 0, 10, 10⟩ ⟨0, 0, 10, 10⟩
      ((Bitmap.mk ⟨0, 0, 10, 10⟩ (List.replicate 100 0) RectI.zero false).markForRendered
        ⟨2, 2, 8, 8⟩)._map false).1 = ⟨0, 0, 10, 10⟩ ∧
    peel false ⟨0, 0, 10, 10⟩
      ((Bitmap.mk ⟨0, 0, 10, 10⟩ (List.replicate 100 0) RectI.zero false).markForRendered
        ⟨2, 2, 8, 8⟩)._map ⟨0, 0, 10, 10⟩ false =
      ⟨⟨0, 0, 10, 2⟩, ⟨0, 8, 10, 10⟩, ⟨0, 2, 2, 8⟩, ⟨8, 2, 10, 8⟩, ⟨2, 2, 8, 8⟩, false⟩ := by
  decide

/-- C9, amended. The list returned by `minimalNonMarkedRects_internal` is made of the
out-of-bounds rectangles of lines 215-238 followed by at most five in-bounds
rectangles, none of them empty: when `roi` meets the bounds and `bboxM` is not empty,
these are the non-empty ones among the strips A, B, C, D, in this order, and then the
final re-shrunk interior X; otherwise there is none. -/
theorem rects_list_shape (trimap : Bool) (roi _bounds : RectI) (mapStart : List Nat)
    (flag : Bool) :
    ∃ inBounds : List RectI,
      (minimalNonMarkedRects_internal trimap roi _bounds mapStart [] flag).1 =
        pushOutOfBounds roi _bounds ((roi.intersect _bounds).getD RectI.zero) [] ++ inBounds ∧
      inBounds.length ≤ 5 ∧
      (∀ r ∈ inBounds, r.isNull = false) ∧
      (roi.intersect _bounds = none → inBounds = []) ∧
      (∀ i, roi.intersect _bounds = some i →
        (minimalNonMarkedBbox_internal trimap i _bounds mapStart flag).1.isNull = true →
        inBounds = []) ∧
      (∀ i, roi.intersect _bounds = some i →
        (minimalNonMarkedBbox_internal trimap i _bounds mapStart flag).1.isNull = false →
        inBounds =
          [(peel trimap _bounds mapStart
              (minimalNonMarkedBbox_internal trimap i _bounds mapStart flag).1
              (minimalNonMarkedBbox_internal trimap i _bounds mapStart flag).2).bboxA,
           (peel trimap _bounds mapStart
              (minimalNonMarkedBbox_internal trimap i _bounds mapStart flag).1
              (minimalNonMarkedBbox_internal trimap i _bounds mapStart flag).2).bboxB,
           (peel trimap _bounds mapStart
              (minimalNonMarkedBbox_internal trimap i _bounds mapStart flag).1
              (minimalNonMarkedBbox_internal trimap i _bounds mapStart flag).2).bboxC,
           (peel trimap _bounds mapStart
              (minimalNonMarkedBbox_internal trimap i _bounds mapStart flag).1
              (minimalNonMarkedBbox_internal trimap i _bounds mapStart flag).2).bboxD,
           (minimalNonMarkedBbox_internal trimap
              (peel trimap _bounds mapStart
                (minimalNonMarkedBbox_internal trimap i _bounds mapStart flag).1
                (minimalNonMarkedBbox_internal trimap i _bounds mapStart flag).2).bboxX
              _bounds mapStart
              (peel trimap _bounds mapStart
                (minimalNonMarkedBbox_internal trimap i _bounds mapStart flag).1
                (minimalNonMarkedBbox_internal trimap i _bounds mapStart flag).2).flag).1].filter
            (fun r => !r.isNull)) := by
  rw [rects_unfold]
  cases hi : roi.intersect _bounds with
  | none =>
    refine ⟨[], by simp, by simp, by simp, fun _ => rfl, ?_, ?_⟩
    · intro i h; cases h
    · intro i h; cases h
  | some i =>
    simp only [Option.getD_some]
    rw [pushInBounds_eq]
    cases hM : (minimalNonMarkedBbox_internal trimap i _bounds mapStart flag).1.isNull
    · simp only [Bool.false_eq_true, if_false]
      refine ⟨_, rfl, ?_, ?_, ?_, ?_, ?_⟩
      · exact le_trans (List.length_filter_le _ _) (le_refl _)
      · intro r hr
        have := (List.mem_filter.mp hr).2
        simpa using this
      · intro h; cases h
      · intro j hj hn
        cases hj
        rw [hM] at hn
        cases hn
      · intro j hj _
        cases hj
        rfl
    · simp only [if_true]
      refine ⟨[], rfl, by simp, by simp, fun _ => rfl, fun _ _ _ => rfl, ?_⟩
      intro j hj hn
      cases hj
      rw [hM] at hn
      cases hn

/-- What holds of a pushed out-of-bounds rectangle: it is one of the four, it has no pixel
in the bounds, and it lies in `roi` when `roi` spans the rows of the bounds and reaches
their columns. -/
theorem sliver_props (roi _bounds r : RectI)
    (h : (_bounds.x1 > roi.x1 ∧ _bounds.y2 > _bounds.y1 ∧ r = sliverLeft roi _bounds) ∨
       (roi.x2 > roi.x1 ∧ _bounds.y1 > roi.y1 ∧ r = sliverBtm roi _bounds) ∨
       (roi.x2 > _bounds.x2 ∧ _bounds.y2 > _bounds.y1 ∧ r = sliverRight roi _bounds) ∨
       (roi.x2 > roi.x1 ∧ roi.y2 > _bounds.y2 ∧ r = sliverTop roi _bounds)) :
    (r = sliverLeft roi _bounds ∨ r = sliverBtm roi _bounds ∨ r = sliverRight roi _bounds ∨
      r = sliverTop roi _bounds) ∧
    (∀ x y, r.hasPixel x y → ¬ _bounds.hasPixel x y) ∧
    (roi.y1 ≤ _bounds.y1 → _bounds.y1 ≤ _bounds.y2 → _bounds.y2 ≤ roi.y2 →
      _bounds.x1 ≤ roi.x2 → roi.x1 ≤ _bounds.x2 → ∀ x y, r.hasPixel x y → roi.hasPixel x y) := by
  rcases h with ⟨-, -, rfl⟩ | ⟨-, -, rfl⟩ | ⟨-, -, rfl⟩ | ⟨-, -, rfl⟩
  · refine ⟨Or.inl rfl, fun x y hp hb => ?_, fun _ _ _ _ _ x y hp => ?_⟩ <;>
      simp only [RectI.hasPixel, sliverLeft] at * <;> omega
  · refine ⟨Or.inr (Or.inl rfl), fun x y hp hb => ?_, fun _ _ _ _ _ x y hp => ?_⟩ <;>
      simp only [RectI.hasPixel, sliverBtm] at * <;> omega
  · refine ⟨Or.inr (Or.inr (Or.inl rfl)), fun x y hp hb => ?_, fun _ _ _ _ _ x y hp => ?_⟩ <;>
      simp only [RectI.hasPixel, sliverRight] at * <;> omega
  · refine ⟨Or.inr (Or.inr (Or.inr rfl)), fun x y hp hb => ?_, fun _ _ _ _ _ x y hp => ?_⟩ <;>
      simp only [RectI.hasPixel, sliverTop] at * <;> omega

/-- Every in-bounds rectangle pushed lies in `bboxM`. -/
theorem inBounds_within (trimap : Bool) (_bounds : RectI) (mapStart : List Nat) (M : RectI)
    (flag : Bool) (r : RectI) (hM : M.isNull = false)
    (h : (peel trimap _bounds mapStart M flag).bboxA.isNull = false ∧
          r = (peel trimap _bounds mapStart M flag).bboxA ∨
       (peel trimap _bounds mapStart M flag).bboxB.isNull = false ∧
          r = (peel trimap _bounds mapStart M flag).bboxB ∨
       (peel trimap _bounds mapStart M flag).bboxC.isNull = false ∧
          r = (peel trimap _bounds mapStart M flag).bboxC ∨
       (peel trimap _bounds mapStart M flag).bboxD.isNull = false ∧
          r = (peel trimap _bounds mapStart M flag).bboxD ∨
       (minimalNonMarkedBbox_internal trimap (peel trimap _bounds mapStart M flag).bboxX
          _bounds mapStart (peel trimap _bounds mapStart M flag).flag).1.isNull = false ∧
          r = (minimalNonMarkedBbox_internal trimap (peel trimap _bounds mapStart M flag).bboxX
            _bounds mapStart (peel trimap _bounds mapStart M flag).flag).1) :
    ∀ x y, r.hasPixel x y → M.hasPixel x y := by
  obtain ⟨hMx, hMy⟩ := (RectI.isNull_false_iff _).mp hM
  obtain ⟨ya, yb, xa, xb, f, hp, ⟨g1, g2, g3, g4, g5, g6⟩, -, -, -, -⟩ :=
    peel_spec trimap _bounds mapStart M flag (le_of_lt hMx) (le_of_lt hMy)
  rw [hp] at h
  simp only at h
  intro x y hr
  rcases h with ⟨-, rfl⟩ | ⟨-, rfl⟩ | ⟨-, rfl⟩ | ⟨-, rfl⟩ | ⟨-, rfl⟩
  · simp only [RectI.hasPixel] at hr ⊢; omega
  · simp only [RectI.hasPixel] at hr ⊢; omega
  · simp only [RectI.hasPixel] at hr ⊢; omega
  · simp only [RectI.hasPixel] at hr ⊢; omega
  · have := RectI.hasPixel_of_contains _ _
      (bbox_contained trimap ⟨xa, ya, xb, yb⟩ _bounds mapStart f) x y hr
    simp only [RectI.hasPixel] at this ⊢; omega

/-- C10, as stated, fails: the left and right out-of-bounds rectangles span the rows of the
bounds, not those of `roi`. On the all-1 10×10 map, the query on `[-5,3) × [2,4)` returns
the single rectangle `[-5,0) × [0,10)`, whose pixel `(-5, 0)` is not in `roi`. -/
theorem sliver_not_within_roi :
    (Bitmap.mk ⟨0, 0, 10, 10⟩ (List.replicate 100 1) RectI.zero false).minimalNonMarkedRects
      ⟨-5, 2, 3, 4⟩ [] = [⟨-5, 0, 0, 10⟩] ∧
    (RectI.mk (-5) 0 0 10).hasPixel (-5) 0 ∧ ¬ (RectI.mk (-5) 2 3 4).hasPixel (-5) 0 := by
  decide

/-- C10, amended. Every rectangle pushed by `minimalNonMarkedRects_internal` is either one of
the four out-of-bounds rectangles (left, btm, right, top), which has no pixel in the
bounds and lies in `roi` when `roi` spans the rows of the bounds and reaches their
columns, or an in-bounds rectangle, all of whose pixels are in `roi ∩ bounds`. -/
theorem rects_members (trimap : Bool) (roi _bounds : RectI) (mapStart : List Nat)
    (flag : Bool) (r : RectI)
    (hr : r ∈ (minimalNonMarkedRects_internal trimap roi _bounds mapStart [] flag).1) :
    ((r = sliverLeft roi _bounds ∨ r = sliverBtm roi _bounds ∨ r = sliverRight roi _bounds ∨
        r = sliverTop roi _bounds) ∧
      (∀ x y, r.hasPixel x y → ¬ _bounds.hasPixel x y) ∧
      (roi.y1 ≤ _bounds.y1 → _bounds.y1 ≤ _bounds.y2 → _bounds.y2 ≤ roi.y2 →
        _bounds.x1 ≤ roi.x2 → roi.x1 ≤ _bounds.x2 →
        ∀ x y, r.hasPixel x y → roi.hasPixel x y)) ∨
    (∀ x y, r.hasPixel x y → roi.hasPixel x y ∧ _bounds.hasPixel x y) := by
  rw [rects_unfold] at hr
  cases hi : roi.intersect _bounds with
  | none =>
    rw [hi] at hr
    simp only [pushOutOfBounds_mem, List.not_mem_nil, false_or] at hr
    exact Or.inl (sliver_props roi _bounds r hr.2)
  | some i =>
    rw [hi] at hr
    simp only [pushInBounds_mem, pushOutOfBounds_mem, List.not_mem_nil, false_or] at hr
    rcases hr with hr | ⟨hM, hr⟩
    · exact Or.inl (sliver_props roi _bounds r hr.2)
    · right
      intro x y hp
      have h1 := inBounds_within trimap _bounds mapStart _ _ r hM hr x y hp
      have h2 := RectI.hasPixel_of_contains _ _
        (bbox_contained trimap i _bounds mapStart flag) x y h1
      exact (RectI.intersect_some_iff _ _ _ hi x y).mp h2

/-- C10 amended, at a concrete input: the all-1 2×2 map queried on `[-1,3) × [-1,3)`; the
left rectangle `[-1,0) × [0,2)` is in the list. -/
theorem rects_members_witness :
    (RectI.mk (-1) 0 0 2) ∈
      (minimalNonMarkedRects_internal false ⟨-1, -1, 3, 3⟩ ⟨0, 0, 2, 2⟩ [1, 1, 1, 1] [] false).1 ∧
    (∀ x y, (RectI.mk (-1) 0 0 2).hasPixel x y → ¬ (RectI.mk 0 0 2 2).hasPixel x y) ∧
    (∀ x y, (RectI.mk (-1) 0 0 2).hasPixel x y → (RectI.mk (-1) (-1) 3 3).hasPixel x y) :=
  have hmem : (RectI.mk (-1) 0 0 2) ∈
      (minimalNonMarkedRects_internal false ⟨-1, -1, 3, 3⟩ ⟨0, 0, 2, 2⟩ [1, 1, 1, 1] []
        false).1 := by decide
  have hpix : (RectI.mk (-1) 0 0 2).hasPixel (-1) 0 := by decide
  match rects_members false ⟨-1, -1, 3, 3⟩ ⟨0, 0, 2, 2⟩ [1, 1, 1, 1] false ⟨-1, 0, 0, 2⟩ hmem with
  | Or.inl h => ⟨hmem, h.2.1, h.2.2 (by decide) (by decide) (by decide) (by decide) (by decide)⟩
  | Or.inr h => absurd (h (-1) 0 hpix).2 (by decide)

/-! ## Scenarios of the rectangle list -/

theorem RectI.intersect_of_contains (r o : RectI) (hc : r.contains o = true)
    (hn : o.isNull = false) : r.intersect o = some o := by
  simp only [RectI.contains, Bool.and_eq_true, decide_eq_true_eq] at hc
  rw [RectI.isNull_false_iff] at hn
  have hi : r.intersects o = true := by
    simp only [RectI.intersects, RectI.isNull, Bool.and_eq_true, Bool.not_eq_true',
      Bool.or_eq_false_iff, decide_eq_false_iff_not, not_le]
    omega
  unfold RectI.intersect
  rw [if_pos hi]
  congr 1
  cases o
  simp only at hc hn
  simp only [RectI.mk.injEq]
  refine ⟨max_eq_right (by omega), max_eq_right (by omega), min_eq_right (by omega),
    min_eq_right (by omega)⟩

/-- When every pixel of `roi ∩ bounds` is available, only the out-of-bounds rectangles are
returned. -/
theorem rects_of_all_available (trimap : Bool) (roi _bounds : RectI) (mapStart : List Nat)
    (ret : List RectI) (flag : Bool)
    (h : ∀ x y, roi.hasPixel x y → _bounds.hasPixel x y →
      ¬ unavailable trimap (pixelAt _bounds mapStart x y)) :
    (minimalNonMarkedRects_internal trimap roi _bounds mapStart ret flag).1 =
      pushOutOfBounds roi _bounds ((roi.intersect _bounds).getD RectI.zero) ret := by
  rw [rects_unfold]
  cases hi : roi.intersect _bounds with
  | none => rfl
  | some i =>
    simp only [Option.getD_some]
    rw [pushInBounds_eq]
    have hnull := bbox_null_of_all_available trimap i _bounds mapStart flag
      (fun x y hp => h x y ((RectI.intersect_some_iff _ _ _ hi x y).mp hp).1
        ((RectI.intersect_some_iff _ _ _ hi x y).mp hp).2)
    rw [hnull]
    simp

/-- The four out-of-bounds rectangles of a `roi` that strictly extends beyond non-empty
bounds on all four sides. -/
theorem pushOutOfBounds_all_sides (roi _bounds : RectI) (hne : _bounds.isNull = false)
    (hext : roi.x1 < _bounds.x1 ∧ roi.y1 < _bounds.y1 ∧ _bounds.x2 < roi.x2 ∧
      _bounds.y2 < roi.y2) :
    pushOutOfBounds roi _bounds ((roi.intersect _bounds).getD RectI.zero) [] =
      [⟨roi.x1, _bounds.y1, _bounds.x1, _bounds.y2⟩, ⟨roi.x1, roi.y1, roi.x2, _bounds.y1⟩,
       ⟨_bounds.x2, _bounds.y1, roi.x2, _bounds.y2⟩, ⟨roi.x1, _bounds.y2, roi.x2, roi.y2⟩] := by
  obtain ⟨hx, hy⟩ := (RectI.isNull_false_iff _).mp hne
  have hc : roi.contains _bounds = true := by
    simp only [RectI.contains, Bool.and_eq_true, decide_eq_true_eq]; omega
  rw [RectI.intersect_of_contains roi _bounds hc hne]
  have hneq : roi ≠ _bounds := by
    intro he; rw [he] at hext; omega
  unfold pushOutOfBounds
  simp only [Option.getD_some, ne_eq, hneq, not_false_eq_true, if_true]
  rw [if_pos ⟨by omega, by omega⟩, if_pos ⟨by omega, by omega⟩, if_pos ⟨by omega, by omega⟩,
    if_pos ⟨by omega, by omega⟩]
  rfl

/-- C11. Out-of-bounds slivers: on a map with no dirty zone set whose bounds are not empty
and whose pixels are all 1, for every `roi` that strictly extends beyond the bounds on
all four sides, `minimalNonMarkedRects` (and its trimap variant) returns exactly the
four rectangles left, bottom, right, top; none is empty, and a pixel lies in one of
them exactly when it is in `roi` and not in the bounds. For the bounds `[0,5) × [0,5)`
and `roi = [-2,7) × [-2,7)` the list is evaluated. -/
theorem oob_slivers (bm : Bitmap) (roi : RectI) (flag : Bool)
    (hdz : bm._dirtyZoneSet = false) (hne : bm._bounds.isNull = false)
    (hall : ∀ x y, bm._bounds.hasPixel x y → pixelAt bm._bounds bm._map x y = 1)
    (hext : roi.x1 < bm._bounds.x1 ∧ roi.y1 < bm._bounds.y1 ∧ bm._bounds.x2 < roi.x2 ∧
      bm._bounds.y2 < roi.y2) :
    bm.minimalNonMarkedRects roi [] =
      [⟨roi.x1, bm._bounds.y1, bm._bounds.x1, bm._bounds.y2⟩,
       ⟨roi.x1, roi.y1, roi.x2, bm._bounds.y1⟩,
       ⟨bm._bounds.x2, bm._bounds.y1, roi.x2, bm._bounds.y2⟩,
       ⟨roi.x1, bm._bounds.y2, roi.x2, roi.y2⟩] ∧
    (bm.minimalNonMarkedRects_trimap roi [] flag).1 = bm.minimalNonMarkedRects roi [] ∧
    (∀ r ∈ bm.minimalNonMarkedRects roi [], r.isNull = false) ∧
    (∀ x y, (∃ r ∈ bm.minimalNonMarkedRects roi [], r.hasPixel x y) ↔
      (roi.hasPixel x y ∧ ¬ bm._bounds.hasPixel x y)) ∧
    (Bitmap.mk ⟨0, 0, 5, 5⟩ (List.replicate 25 1) RectI.zero false).minimalNonMarkedRects
      ⟨-2, -2, 7, 7⟩ [] = [⟨-2, 0, 0, 5⟩, ⟨-2, -2, 7, 0⟩, ⟨5, 0, 7, 5⟩, ⟨-2, 5, 7, 7⟩] := by
  have hav : ∀ trimap : Bool, ∀ x y, roi.hasPixel x y → bm._bounds.hasPixel x y →
      ¬ unavailable trimap (pixelAt bm._bounds bm._map x y) := by
    intro trimap x y _ hb hu
    rw [hall x y hb] at hu
    simp [unavailable, PIXEL_UNAVAILABLE] at hu
  have e0 : bm.minimalNonMarkedRects roi [] =
      [⟨roi.x1, bm._bounds.y1, bm._bounds.x1, bm._bounds.y2⟩,
       ⟨roi.x1, roi.y1, roi.x2, bm._bounds.y1⟩,
       ⟨bm._bounds.x2, bm._bounds.y1, roi.x2, bm._bounds.y2⟩,
       ⟨roi.x1, bm._bounds.y2, roi.x2, roi.y2⟩] := by
    unfold Bitmap.minimalNonMarkedRects
    simp only [hdz, Bool.false_eq_true, if_false]
    rw [rects_of_all_available false roi _ _ [] false (hav false),
      pushOutOfBounds_all_sides roi _ hne hext]
  have e1 : (bm.minimalNonMarkedRects_trimap roi [] flag).1 =
      [⟨roi.x1, bm._bounds.y1, bm._bounds.x1, bm._bounds.y2⟩,
       ⟨roi.x1, roi.y1, roi.x2, bm._bounds.y1⟩,
       ⟨bm._bounds.x2, bm._bounds.y1, roi.x2, bm._bounds.y2⟩,
       ⟨roi.x1, bm._bounds.y2, roi.x2, roi.y2⟩] := by
    unfold Bitmap.minimalNonMarkedRects_trimap
    simp only [hdz, Bool.false_eq_true, if_false]
    rw [rects_of_all_available true roi _ _ [] flag (hav true),
      pushOutOfBounds_all_sides roi _ hne hext]
  obtain ⟨hx, hy⟩ := (RectI.isNull_false_iff _).mp hne
  refine ⟨e0, by rw [e1, e0], ?_, ?_, by decide⟩
  · rw [e0]
    intro r hr
    simp only [List.mem_cons, List.mem_singleton, List.not_mem_nil, or_false] at hr
    rcases hr with rfl | rfl | rfl | rfl <;>
      (rw [RectI.isNull_false_iff]; simp only; omega)
  · rw [e0]
    intro x y
    simp only [List.mem_cons, List.mem_singleton, List.not_mem_nil, or_false,
      exists_eq_or_imp, exists_eq_left, RectI.hasPixel]
    omega

/-- C11, at a concrete input: the all-1 map on `[0,2) × [0,1)` queried on
`[-1,3) × [-1,2)`. -/
theorem oob_slivers_witness :
    (RectI.mk 0 0 2 1).isNull = false ∧
    (∀ x y, (RectI.mk 0 0 2 1).hasPixel x y → pixelAt ⟨0, 0, 2, 1⟩ [1, 1] x y = 1) ∧
    (Bitmap.mk ⟨0, 0, 2, 1⟩ [1, 1] RectI.zero false).minimalNonMarkedRects ⟨-1, -1, 3, 2⟩ [] =
      [⟨-1, 0, 0, 1⟩, ⟨-1, -1, 3, 0⟩, ⟨2, 0, 3, 1⟩, ⟨-1, 1, 3, 2⟩] :=
  have hall : ∀ x y, (RectI.mk 0 0 2 1).hasPixel x y →
      pixelAt ⟨0, 0, 2, 1⟩ [1, 1] x y = 1 := by
    rintro x y ⟨h1, h2, h3, h4⟩
    simp only at h1 h2 h3 h4
    obtain rfl : y = 0 := by omega
    interval_cases x
    all_goals decide
  ⟨by decide, hall,
    (oob_slivers (Bitmap.mk ⟨0, 0, 2, 1⟩ [1, 1] RectI.zero false) ⟨-1, -1, 3, 2⟩ false rfl
      (by decide) hall (by decide)).1⟩

/-- The bounding box of a region that is 1 everywhere but on a non-empty rectangle `R` of
zeros is `R`. -/
theorem bbox_of_hole (trimap : Bool) (roi _bounds : RectI) (mapStart : List Nat) (flag : Bool)
    (R : RectI) (hR : R.isNull = false) (hRin : roi.contains R = true)
    (hzero : ∀ x y, R.hasPixel x y → pixelAt _bounds mapStart x y = 0)
    (hone : ∀ x y, roi.hasPixel x y → ¬ R.hasPixel x y → pixelAt _bounds mapStart x y = 1) :
    (minimalNonMarkedBbox_internal trimap roi _bounds mapStart flag).1 = R := by
  have hcont := bbox_contained trimap roi _bounds mapStart flag
  obtain ⟨M, f, hM, -, -, hsound, htight, -⟩ := bbox_spec trimap roi _bounds mapStart flag
  rw [hM] at hcont ⊢
  simp only at hcont ⊢
  obtain ⟨hRx, hRy⟩ := (RectI.isNull_false_iff _).mp hR
  have hin : ∀ x y, R.hasPixel x y → M.hasPixel x y := by
    intro x y hp
    by_contra hc
    exact hsound x y (RectI.hasPixel_of_contains _ _ hRin x y hp) hc (Or.inl (hzero x y hp))
  have c1 := hin R.x1 R.y1 ⟨le_refl _, hRx, le_refl _, hRy⟩
  have c2 := hin (R.x2 - 1) (R.y2 - 1) ⟨by omega, by omega, by omega, by omega⟩
  have hMn := RectI.notNull_of_hasPixel _ _ _ c1
  obtain ⟨hMx, hMy⟩ := (RectI.isNull_false_iff _).mp hMn
  have back : ∀ x y, M.hasPixel x y → unavailable trimap (pixelAt _bounds mapStart x y) →
      R.hasPixel x y := by
    intro x y hp hu
    by_contra hc
    rw [hone x y (RectI.hasPixel_of_contains _ _ hcont x y hp) hc] at hu
    simp [unavailable, PIXEL_UNAVAILABLE] at hu
  obtain ⟨⟨xb, hb1, hb2, hbv⟩, ⟨xt, ht1, ht2, htv⟩, ⟨yl, hl1, hl2, hlv⟩, ⟨yr, hr1, hr2, hrv⟩⟩ :=
    htight hMn
  have eb := back xb M.y1 ⟨hb1, hb2, le_refl _, hMy⟩ hbv
  have et := back xt (M.y2 - 1) ⟨ht1, ht2, by omega, by omega⟩ htv
  have el := back M.x1 yl ⟨le_refl _, hMx, hl1, hl2⟩ hlv
  have er := back (M.x2 - 1) yr ⟨by omega, by omega, hr1, hr2⟩ hrv
  unfold RectI.hasPixel at c1 c2 eb et el er
  cases M
  cases R
  simp only at *
  simp only [RectI.mk.injEq]
  omega

/-- The peeling of a rectangle of zeros gives it whole to the strip A. -/
theorem pushInBounds_of_zeros (trimap : Bool) (_bounds : RectI) (mapStart : List Nat)
    (R : RectI) (ret : List RectI) (flag : Bool) (hR : R.isNull = false)
    (hzero : ∀ x y, R.hasPixel x y → pixelAt _bounds mapStart x y = 0) :
    (pushInBounds trimap _bounds mapStart R ret flag).1 = ret ++ [R] := by
  obtain ⟨hRx, hRy⟩ := (RectI.isNull_false_iff _).mp hR
  obtain ⟨ya, yb, xa, xb, f, hp, ⟨g1, g2, g3, g4, g5, g6⟩, -, -, -, ⟨m1, -, -, -⟩⟩ :=
    peel_spec trimap _bounds mapStart R flag (le_of_lt hRx) (le_of_lt hRy)
  have hya : ya = R.y2 := by
    by_contra hc
    refine m1 (by omega) (fun x h1 h2 => ?_)
    rw [hzero x ya ⟨h1, h2, g1, by omega⟩]
    simp [blank, PIXEL_UNAVAILABLE]
  have hyb : yb = R.y2 := by omega
  subst hya
  subst hyb
  have hX := bbox_contained trimap ⟨xa, R.y2, xb, R.y2⟩ _bounds mapStart f
  rw [pushInBounds_eq, hp, hR]
  simp only [Bool.false_eq_true, if_false]
  generalize (minimalNonMarkedBbox_internal trimap ⟨xa, R.y2, xb, R.y2⟩ _bounds mapStart f).1 = X
    at hX ⊢
  simp only [RectI.contains, Bool.and_eq_true, decide_eq_true_eq] at hX
  have nA : (RectI.mk R.x1 R.y1 R.x2 R.y2).isNull = false := hR
  have nB : (RectI.mk R.x1 R.y2 R.x2 R.y2).isNull = true := by
    rw [RectI.isNull_true_iff]; simp
  have nC : (RectI.mk R.x1 R.y2 xa R.y2).isNull = true := by
    rw [RectI.isNull_true_iff]; simp
  have nD : (RectI.mk xb R.y2 R.x2 R.y2).isNull = true := by
    rw [RectI.isNull_true_iff]; simp
  have nX : X.isNull = true := by
    rw [RectI.isNull_true_iff]; omega
  simp [List.filter_cons, nA, nB, nC, nD, nX]

/-- C12. Decomposition of a rectangular hole: on a map with no dirty zone set, for `roi`
contained in the bounds whose pixels are all 1 except for a non-empty rectangle `R` of
zeros, `minimalNonMarkedRects` (and its trimap variant) returns the list `[R]`. On the
10×10 map that is 1 everywhere except on `[3,7) × [3,7)`, the query on the whole map
returns `[[3,7) × [3,7)]`. -/
theorem hole_returned (bm : Bitmap) (roi R : RectI) (flag : Bool)
    (hdz : bm._dirtyZoneSet = false) (hroi : bm._bounds.contains roi = true)
    (hR : R.isNull = false) (hRin : roi.contains R = true)
    (hzero : ∀ x y, R.hasPixel x y → pixelAt bm._bounds bm._map x y = 0)
    (hone : ∀ x y, roi.hasPixel x y → ¬ R.hasPixel x y →
      pixelAt bm._bounds bm._map x y = 1) :
    bm.minimalNonMarkedRects roi [] = [R] ∧
    (bm.minimalNonMarkedRects_trimap roi [] flag).1 = [R] ∧
    (((Bitmap.mk ⟨0, 0, 10, 10⟩ (List.replicate 100 0) RectI.zero false).markForRendered
      ⟨0, 0, 10, 10⟩).clear ⟨3, 3, 7, 7⟩).minimalNonMarkedRects ⟨0, 0, 10, 10⟩ [] =
      [⟨3, 3, 7, 7⟩] := by
  obtain ⟨hRx, hRy⟩ := (RectI.isNull_false_iff _).mp hR
  have hroin : roi.isNull = false := by
    simp only [RectI.contains, Bool.and_eq_true, decide_eq_true_eq] at hRin
    rw [RectI.isNull_false_iff]; omega
  have hi := RectI.intersect_self_of_contains roi bm._bounds hroi hroin
  have key : ∀ (trimap : Bool) (f : Bool),
      (minimalNonMarkedRects_internal trimap roi bm._bounds bm._map [] f).1 = [R] := by
    intro trimap f
    rw [rects_unfold, hi]
    simp only
    rw [bbox_of_hole trimap roi _ _ f R hR hRin hzero hone,
      pushInBounds_of_zeros trimap _ _ R _ _ hR hzero]
    simp [pushOutOfBounds]
  refine ⟨?_, ?_, by decide⟩
  · unfold Bitmap.minimalNonMarkedRects
    simp only [hdz, Bool.false_eq_true, if_false]
    exact key false false
  · unfold Bitmap.minimalNonMarkedRects_trimap
    simp only [hdz, Bool.false_eq_true, if_false]
    exact key true flag

/-- C12, at a concrete input: the 3×3 map that is 1 everywhere except on `[1,2) × [1,3)`. -/
theorem hole_returned_witness :
    (RectI.mk 0 0 3 3).contains ⟨0, 0, 3, 3⟩ = true ∧
    (RectI.mk 1 1 2 3).isNull = false ∧
    (RectI.mk 0 0 3 3).contains ⟨1, 1, 2, 3⟩ = true ∧
    (Bitmap.mk ⟨0, 0, 3, 3⟩ [1, 1, 1, 1, 0, 1, 1, 0, 1] RectI.zero false).minimalNonMarkedRects
      ⟨0, 0, 3, 3⟩ [] = [⟨1, 1, 2, 3⟩] :=
  ⟨by decide, by decide, by decide,
    (hole_returned (Bitmap.mk ⟨0, 0, 3, 3⟩ [1, 1, 1, 1, 0, 1, 1, 0, 1] RectI.zero false)
      ⟨0, 0, 3, 3⟩ ⟨1, 1, 2, 3⟩ false rfl (by decide) (by decide) (by decide)
      (by
        rintro x y ⟨h1, h2, h3, h4⟩
        simp only at h1 h2 h3 h4
        obtain rfl : x = 1 := by omega
        interval_cases y <;> decide)
      (by
        rintro x y ⟨h1, h2, h3, h4⟩ hn
        simp only at h1 h2 h3 h4
        interval_cases x <;> interval_cases y <;> first | decide | exact absurd (by decide) hn)).1⟩

/-! ## Tiling -/

theorem RectI.area_nonneg_le (r s : RectI) (hr : r.x1 ≤ r.x2 ∧ r.y1 ≤ r.y2)
    (hc : s.contains r = true) : r.area ≤ s.area := by
  simp only [RectI.contains, Bool.and_eq_true, decide_eq_true_eq] at hc
  unfold RectI.area RectI.width RectI.height
  exact mul_le_mul (by omega) (by omega) (by omega) (by omega)

/-- C13, as stated, fails: the final shrink of the interior X leaves a gap. On the 3×3 map
`0 0 0 / 1 1 1 / 0 1 1` queried on its bounds, `bboxM` is the whole map, the strip A is
row 0, the interior X before its final shrink is `[0,3) × [1,3)`, and the list returned
is A and the re-shrunk X `[0,1) × [2,3)`: the areas sum to 4, not 9, and the pixel
`(1, 1)` of `bboxM` is in neither. -/
theorem reshrunk_interior_leaves_gap :
    (Bitmap.mk ⟨0, 0, 3, 3⟩ [0, 0, 0, 1, 1, 1, 0, 1, 1] RectI.zero false).minimalNonMarkedRects
      ⟨0, 0, 3, 3⟩ [] = [⟨0, 0, 3, 1⟩, ⟨0, 2, 1, 3⟩] ∧
    (minimalNonMarkedBbox_internal false ⟨0, 0, 3, 3⟩ ⟨0, 0, 3, 3⟩ [0, 0, 0, 1, 1, 1, 0, 1, 1]
      false).1 = ⟨0, 0, 3, 3⟩ ∧
    (peel false ⟨0, 0, 3, 3⟩ [0, 0, 0, 1, 1, 1, 0, 1, 1] ⟨0, 0, 3, 3⟩ false).bboxX =
      ⟨0, 1, 3, 3⟩ ∧
    (RectI.mk 0 0 3 1).area + (RectI.mk 0 2 1 3).area = 4 ∧ (RectI.mk 0 0 3 3).area = 9 ∧
    (RectI.mk 0 0 3 3).hasPixel 1 1 ∧ ¬ (RectI.mk 0 0 3 1).hasPixel 1 1 ∧
    ¬ (RectI.mk 0 2 1 3).hasPixel 1 1 := by
  decide

/-- C13, amended. For `roi` contained in the bounds with a non-empty `bboxM`, the strips A,
B, C, D together with the interior X before its final shrink tile `bboxM`: every pixel of
`bboxM` is in one of them, they are pairwise disjoint, and their areas sum to the area of
`bboxM`. The rectangles returned are the non-empty ones among A, B, C, D and the
re-shrunk X; A, B, C, D and the re-shrunk X are pairwise disjoint, the re-shrunk X lies
in X, and the five areas sum to at most the area of `bboxM`. -/
theorem strips_tile (trimap : Bool) (roi _bounds : RectI) (mapStart : List Nat) (flag : Bool)
    (hroi : _bounds.contains roi = true)
    (hM : (minimalNonMarkedBbox_internal trimap roi _bounds mapStart flag).1.isNull = false) :
    ∃ (M : RectI) (p : Peeled) (X : RectI),
      M = (minimalNonMarkedBbox_internal trimap roi _bounds mapStart flag).1 ∧
      p = peel trimap _bounds mapStart M
        (minimalNonMarkedBbox_internal trimap roi _bounds mapStart flag).2 ∧
      X = (minimalNonMarkedBbox_internal trimap p.bboxX _bounds mapStart p.flag).1 ∧
      (∀ x y, M.hasPixel x y ↔ (p.bboxA.hasPixel x y ∨ p.bboxB.hasPixel x y ∨
        p.bboxC.hasPixel x y ∨ p.bboxD.hasPixel x y ∨ p.bboxX.hasPixel x y)) ∧
      List.Pairwise RectI.disjoint [p.bboxA, p.bboxB, p.bboxC, p.bboxD, p.bboxX] ∧
      p.bboxA.area + p.bboxB.area + p.bboxC.area + p.bboxD.area + p.bboxX.area = M.area ∧
      (minimalNonMarkedRects_internal trimap roi _bounds mapStart [] flag).1 =
        [p.bboxA, p.bboxB, p.bboxC, p.bboxD, X].filter (fun r => !r.isNull) ∧
      List.Pairwise RectI.disjoint [p.bboxA, p.bboxB, p.bboxC, p.bboxD, X] ∧
      p.bboxX.contains X = true ∧
      p.bboxA.area + p.bboxB.area + p.bboxC.area + p.bboxD.area + X.area ≤ M.area := by
  have hMroi := bbox_contained trimap roi _bounds mapStart flag
  have hroin : roi.isNull = false := by
    obtain ⟨h1, h2⟩ := (RectI.isNull_false_iff _).mp hM
    simp only [RectI.contains, Bool.and_eq_true, decide_eq_true_eq] at hMroi
    rw [RectI.isNull_false_iff]; omega
  have hi := RectI.intersect_self_of_contains roi _bounds hroi hroin
  have hlist : (minimalNonMarkedRects_internal trimap roi _bounds mapStart [] flag).1 =
      [(peel trimap _bounds mapStart
          (minimalNonMarkedBbox_internal trimap roi _bounds mapStart flag).1
          (minimalNonMarkedBbox_internal trimap roi _bounds mapStart flag).2).bboxA,
        (peel trimap _bounds mapStart
          (minimalNonMarkedBbox_internal trimap roi _bounds mapStart flag).1
          (minimalNonMarkedBbox_internal trimap roi _bounds mapStart flag).2).bboxB,
        (peel trimap _bounds mapStart
          (minimalNonMarkedBbox_internal trimap roi _bounds mapStart flag).1
          (minimalNonMarkedBbox_internal trimap roi _bounds mapStart flag).2).bboxC,
        (peel trimap _bounds mapStart
          (minimalNonMarkedBbox_internal trimap roi _bounds mapStart flag).1
          (minimalNonMarkedBbox_internal trimap roi _bounds mapStart flag).2).bboxD,
        (minimalNonMarkedBbox_internal trimap
          (peel trimap _bounds mapStart
            (minimalNonMarkedBbox_internal trimap roi _bounds mapStart flag).1
            (minimalNonMarkedBbox_internal trimap roi _bounds mapStart flag).2).bboxX
          _bounds mapStart
          (peel trimap _bounds mapStart
            (minimalNonMarkedBbox_internal trimap roi _bounds mapStart flag).1
            (minimalNonMarkedBbox_internal trimap roi _bounds mapStart flag).2).flag).1].filter
        (fun r => !r.isNull) := by
    rw [rects_unfold, hi]
    simp only
    rw [pushInBounds_eq, hM]
    simp [pushOutOfBounds]
  refine ⟨_, _, _, rfl, rfl, rfl, ?_⟩
  generalize minimalNonMarkedBbox_internal trimap roi _bounds mapStart flag = res at hM hlist ⊢
  obtain ⟨M, f1⟩ := res
  simp only at hM hlist ⊢
  obtain ⟨hMx, hMy⟩ := (RectI.isNull_false_iff _).mp hM
  obtain ⟨ya, yb, xa, xb, f, hp, ⟨g1, g2, g3, g4, g5, g6⟩, -, -, -, -⟩ :=
    peel_spec trimap _bounds mapStart M f1 (le_of_lt hMx) (le_of_lt hMy)
  rw [hp] at hlist ⊢
  simp only at hlist ⊢
  have hXc := bbox_contained trimap ⟨xa, ya, xb, yb⟩ _bounds mapStart f
  obtain ⟨X, f2, hX, -, hwf, -, -, -⟩ := bbox_spec trimap ⟨xa, ya, xb, yb⟩ _bounds mapStart f
  rw [hX] at hXc hlist ⊢
  simp only at hXc hlist hwf ⊢
  have hXwf := hwf g5 g2
  have hXa := RectI.area_nonneg_le X ⟨xa, ya, xb, yb⟩ hXwf hXc
  have hsum : (RectI.mk M.x1 M.y1 M.x2 ya).area + (RectI.mk M.x1 yb M.x2 M.y2).area +
      (RectI.mk M.x1 ya xa yb).area + (RectI.mk xb ya M.x2 yb).area +
      (RectI.mk xa ya xb yb).area = M.area := by
    unfold RectI.area RectI.width RectI.height
    simp only
    ring
  have hXc' := hXc
  simp only [RectI.contains, Bool.and_eq_true, decide_eq_true_eq] at hXc'
  refine ⟨?_, ?_, hsum, hlist, ?_, hXc, by omega⟩
  · intro x y
    simp only [RectI.hasPixel]
    omega
  · simp only [List.pairwise_cons, List.mem_cons, List.mem_singleton, List.not_mem_nil,
      or_false, forall_eq_or_imp, forall_eq, List.Pairwise.nil, and_true, RectI.disjoint,
      RectI.hasPixel, IsEmpty.forall_iff, implies_true]
    refine ⟨⟨?_, ?_, ?_, ?_⟩, ⟨?_, ?_, ?_⟩, ⟨?_, ?_⟩, ?_⟩ <;> intro x y <;> omega
  · simp only [List.pairwise_cons, List.mem_cons, List.mem_singleton, List.not_mem_nil,
      or_false, forall_eq_or_imp, forall_eq, List.Pairwise.nil, and_true, RectI.disjoint,
      RectI.hasPixel, IsEmpty.forall_iff, implies_true]
    refine ⟨⟨?_, ?_, ?_, ?_⟩, ⟨?_, ?_, ?_⟩, ⟨?_, ?_⟩, ?_⟩ <;> intro x y <;> omega

/-- C13 amended, at a concrete input: the 3×3 map `0 0 0 / 1 1 1 / 0 1 1` queried on its
bounds; the list returned is the strip A and the re-shrunk X. -/
theorem strips_tile_witness :
    (RectI.mk 0 0 3 3).contains ⟨0, 0, 3, 3⟩ = true ∧
    (minimalNonMarkedBbox_internal false ⟨0, 0, 3, 3⟩ ⟨0, 0, 3, 3⟩ [0, 0, 0, 1, 1, 1, 0, 1, 1]
      false).1.isNull = false ∧
    ∃ (M : RectI) (p : Peeled) (X : RectI),
      M = ⟨0, 0, 3, 3⟩ ∧ p.bboxA = ⟨0, 0, 3, 1⟩ ∧ p.bboxX = ⟨0, 1, 3, 3⟩ ∧ X = ⟨0, 2, 1, 3⟩ ∧
      p.bboxA.area + p.bboxB.area + p.bboxC.area + p.bboxD.area + p.bboxX.area = M.area ∧
      p.bboxA.area + p.bboxB.area + p.bboxC.area + p.bboxD.area + X.area ≤ M.area :=
  ⟨by decide, by decide,
    match strips_tile false ⟨0, 0, 3, 3⟩ ⟨0, 0, 3, 3⟩ [0, 0, 0, 1, 1, 1, 0, 1, 1] false
      (by decide) (by decide) with
    | ⟨M, p, X, hM, hp, hX, _, _, hsum, _, _, _, hle⟩ =>
      ⟨M, p, X, by rw [hM]; decide, by rw [hp, hM]; decide, by rw [hp, hM]; decide,
        by rw [hX, hp, hM]; decide, hsum, hle⟩⟩

/-! ## Empty regions -/

theorem RectI.intersect_null_left (r o : RectI) (h : r.isNull = true) :
    r.intersect o = none := by
  unfold RectI.intersect RectI.intersects
  rw [h]
  rfl

theorem bbox_null_of_null (trimap : Bool) (roi _bounds : RectI) (mapStart : List Nat)
    (flag : Bool) (h : roi.isNull = true) :
    (minimalNonMarkedBbox_internal trimap roi _bounds mapStart flag).1.isNull = true := by
  have hc := bbox_contained trimap roi _bounds mapStart flag
  simp only [RectI.contains, Bool.and_eq_true, decide_eq_true_eq] at hc
  rw [RectI.isNull_true_iff] at h ⊢
  omega

/-- C14, as stated, fails for the rectangle list: an empty `roi` that is not inside the
bounds still gets out-of-bounds rectangles. On the all-1 10×10 map with no dirty zone
set, the empty `roi = [-5,-5) × [0,0)` returns the non-empty `[-5,0) × [0,10)`. -/
theorem empty_roi_gets_sliver :
    (RectI.mk (-5) 0 (-5) 0).isNull = true ∧
    (RectI.mk (-5) 0 (-5) 0).width = 0 ∧ (RectI.mk (-5) 0 (-5) 0).height = 0 ∧
    (Bitmap.mk ⟨0, 0, 10, 10⟩ (List.replicate 100 1) RectI.zero false).minimalNonMarkedRects
      ⟨-5, 0, -5, 0⟩ [] = [⟨-5, 0, 0, 10⟩] ∧
    (RectI.mk (-5) 0 0 10).isNull = false := by
  decide

/-- C14, amended. For every empty `roi`, `minimalNonMarkedBbox` returns an empty rectangle,
and `minimalNonMarkedRects` returns no rectangle holding a pixel of the bounds; it
returns an empty list when a dirty zone is set or when the empty `roi` lies within the
bounds. -/
theorem empty_roi (bm : Bitmap) (roi : RectI) (hnull : roi.isNull = true) :
    (bm.minimalNonMarkedBbox roi).isNull = true ∧
    (∀ r ∈ bm.minimalNonMarkedRects roi [], ∀ x y, r.hasPixel x y →
      ¬ bm._bounds.hasPixel x y) ∧
    (bm._dirtyZoneSet = true ∨ bm._bounds.contains roi = true →
      bm.minimalNonMarkedRects roi [] = []) := by
  have hi := RectI.intersect_null_left roi bm._dirtyZone hnull
  have hb := RectI.intersect_null_left roi bm._bounds hnull
  refine ⟨?_, ?_, ?_⟩
  · unfold Bitmap.minimalNonMarkedBbox
    cases hs : bm._dirtyZoneSet
    · simp only [Bool.false_eq_true, if_false]
      exact bbox_null_of_null false roi _ _ false hnull
    · simp only [if_true, hi]
      rfl
  · unfold Bitmap.minimalNonMarkedRects
    cases hs : bm._dirtyZoneSet
    · simp only [Bool.false_eq_true, if_false]
      intro r hr
      rw [rects_unfold, hb] at hr
      simp only [pushOutOfBounds_mem, List.not_mem_nil, false_or] at hr
      exact (sliver_props roi bm._bounds r hr.2).2.1
    · simp only [if_true, hi]
      intro r hr
      cases hr
  · intro h
    unfold Bitmap.minimalNonMarkedRects
    cases hs : bm._dirtyZoneSet
    · simp only [Bool.false_eq_true, if_false]
      rw [hs] at h
      rcases h with h | h
      · cases h
      · rw [rects_unfold, hb]
        simp only [RectI.contains, Bool.and_eq_true, decide_eq_true_eq] at h
        unfold pushOutOfBounds
        simp only
        split
        · rw [if_neg (by omega), if_neg (by omega), if_neg (by omega), if_neg (by omega)]
        · rfl
    · simp only [if_true, hi]

/-- C14 amended, at a concrete input: the empty `roi = [3,3) × [1,4)` inside the bounds of
the all-1 10×10 map. -/
theorem empty_roi_witness :
    (RectI.mk 3 1 3 4).isNull = true ∧
    (RectI.mk 0 0 10 10).contains ⟨3, 1, 3, 4⟩ = true ∧
    ((Bitmap.mk ⟨0, 0, 10, 10⟩ (List.replicate 100 1) RectI.zero false).minimalNonMarkedBbox
      ⟨3, 1, 3, 4⟩).isNull = true ∧
    (Bitmap.mk ⟨0, 0, 10, 10⟩ (List.replicate 100 1) RectI.zero false).minimalNonMarkedRects
      ⟨3, 1, 3, 4⟩ [] = [] :=
  ⟨by decide, by decide,
    (empty_roi (Bitmap.mk ⟨0, 0, 10, 10⟩ (List.replicate 100 1) RectI.zero false) ⟨3, 1, 3, 4⟩
      (by decide)).1,
    (empty_roi (Bitmap.mk ⟨0, 0, 10, 10⟩ (List.replicate 100 1) RectI.zero false) ⟨3, 1, 3, 4⟩
      (by decide)).2.2 (Or.inr (by decide))⟩

/-! ## Bulk writes, pixel by pixel -/

/-- Two buffers of the same length that read the same at every offset are equal. -/
theorem ext_of_peek (l1 l2 : List Nat) (hlen : l1.length = l2.length)
    (h : ∀ off : Int, peek l1 off = peek l2 off) : l1 = l2 := by
  apply List.ext_getElem hlen
  intro n h1 h2
  have := h (n : Int)
  unfold peek at this
  simp only [Int.natCast_nonneg, if_true, Int.toNat_ofNat] at this
  rwa [List.getD_eq_getElem _ _ h1, List.getD_eq_getElem _ _ h2] at this

/-- An offset of a pixel of the bounds that falls in the `k`-th run written for `roi`
belongs to a pixel of `roi`, on row `roi.y1 + k`. -/
theorem run_hits_roi (_bounds roi : RectI) (hc : _bounds.contains roi = true) (x y : Int)
    (hb : _bounds.hasPixel x y) (k : Nat) (hk : k < (roi.y2 - roi.y1).toNat)
    (h1 : BM_GET _bounds roi.bottom roi.left + k * _bounds.width ≤ BM_GET _bounds y x)
    (h2 : BM_GET _bounds y x < BM_GET _bounds roi.bottom roi.left + k * _bounds.width +
      roi.width) :
    roi.hasPixel x y ∧ y = roi.y1 + k := by
  simp only [RectI.contains, Bool.and_eq_true, decide_eq_true_eq] at hc
  unfold RectI.hasPixel at hb ⊢
  unfold BM_GET RectI.bottom RectI.left RectI.width at h1 h2
  obtain ⟨b1, b2, b3, b4⟩ := hb
  have hw : 0 < _bounds.x2 - _bounds.x1 := by omega
  have e : (roi.y1 - _bounds.y1) * (_bounds.x2 - _bounds.x1) + (k : Int) *
      (_bounds.x2 - _bounds.x1) - (y - _bounds.y1) * (_bounds.x2 - _bounds.x1) =
      (roi.y1 + k - y) * (_bounds.x2 - _bounds.x1) := by ring
  have hd : roi.y1 + k - y = 0 := by
    rcases lt_trichotomy (roi.y1 + k - y) 0 with hlt | heq | hgt
    · exfalso
      have : (roi.y1 + k - y) * (_bounds.x2 - _bounds.x1) ≤
          (-1) * (_bounds.x2 - _bounds.x1) :=
        mul_le_mul_of_nonneg_right (by omega) (le_of_lt hw)
      omega
    · exact heq
    · exfalso
      have : 1 * (_bounds.x2 - _bounds.x1) ≤
          (roi.y1 + k - y) * (_bounds.x2 - _bounds.x1) :=
        mul_le_mul_of_nonneg_right (by omega) (le_of_lt hw)
      omega
  rw [hd] at e
  refine ⟨⟨by omega, by omega, by omega, by omega⟩, by omega⟩

/-- The offset of a pixel of `roi` falls in the run written for its row. -/
theorem roi_in_run (_bounds roi : RectI) (x y : Int) (hroi : roi.hasPixel x y) :
    ∃ k : Nat, k < (roi.y2 - roi.y1).toNat ∧
      BM_GET _bounds roi.bottom roi.left + k * _bounds.width ≤ BM_GET _bounds y x ∧
      BM_GET _bounds y x < BM_GET _bounds roi.bottom roi.left + k * _bounds.width +
        roi.width := by
  unfold RectI.hasPixel at hroi
  refine ⟨(y - roi.y1).toNat, by omega, ?_⟩
  have e : (((y - roi.y1).toNat : Nat) : Int) = y - roi.y1 := by omega
  rw [e]
  have e2 : BM_GET _bounds roi.bottom roi.left + (y - roi.y1) * _bounds.width =
      BM_GET _bounds y x - (x - roi.x1) := by
    unfold BM_GET RectI.bottom RectI.left; ring
  rw [e2]
  unfold RectI.width
  omega

/-- After a bulk write on `roi` contained in the bounds, a pixel of the bounds outside `roi`
reads as before. -/
theorem Bitmap.fill_outside (bm : Bitmap) (roi : RectI) (v : Nat)
    (hc : bm._bounds.contains roi = true) (x y : Int) (hb : bm._bounds.hasPixel x y)
    (hout : ¬ roi.hasPixel x y) :
    pixelAt (bm.fill roi v)._bounds (bm.fill roi v)._map x y = pixelAt bm._bounds bm._map x y := by
  unfold Bitmap.fill pixelAt
  simp only
  rw [peek_fillRows, if_neg]
  rintro ⟨-, -, k, hk, h1, h2⟩
  exact hout (run_hits_roi _ _ hc x y hb k hk h1 h2).1

theorem memsetFrom_nonpos (buf : Int) (v : Nat) (n : Int) (hn : n ≤ 0) :
    ∀ (l : List Nat) (k : Int), memsetFrom buf v n k l = l := by
  intro l
  induction l with
  | nil => intro k; rfl
  | cons b bs ih =>
    intro k
    rw [memsetFrom, ih, if_neg (by omega)]

theorem fillRows_nonpos (v : Nat) (w roiw : Int) (hn : roiw ≤ 0) :
    ∀ (rows : Nat) (buf : Int) (mapStart : List Nat),
    fillRows v w roiw rows buf mapStart = mapStart := by
  intro rows
  induction rows with
  | zero => intro buf mapStart; rfl
  | succ rows ih =>
    intro buf mapStart
    rw [fillRows, ih]
    exact memsetFrom_nonpos buf v roiw hn mapStart 0

/-- A bulk write on an empty rectangle leaves the bitmap as it is. -/
theorem Bitmap.fill_null (bm : Bitmap) (roi : RectI) (v : Nat) (h : roi.isNull = true) :
    bm.fill roi v = bm := by
  rw [RectI.isNull_true_iff] at h
  unfold Bitmap.fill
  have : fillRows v bm._bounds.width roi.width (roi.y2 - roi.y1).toNat
      (BM_GET bm._bounds roi.bottom roi.left) bm._map = bm._map := by
    rcases h with h | h
    · exact fillRows_nonpos v _ _ (by unfold RectI.width; omega) _ _ _
    · have : (roi.y2 - roi.y1).toNat = 0 := by omega
      rw [this]; rfl
  rw [this]

/-- C15. Bulk write: on a map whose buffer has width × height bytes, for every `rect`
contained in the bounds, after `markForRendered(rect)`, `markForRendering(rect)` and
`clear(rect)` every pixel of `rect` reads 1, 2 and 0 respectively, every pixel of the
bounds outside `rect` reads as before, and an empty `rect` leaves the map unchanged. -/
theorem bulk_write (bm : Bitmap) (rect : RectI) (hs : bm.sized)
    (hc : bm._bounds.contains rect = true) :
    (∀ x y, rect.hasPixel x y →
      pixelAt (bm.markForRendered rect)._bounds (bm.markForRendered rect)._map x y = 1 ∧
      pixelAt (bm.markForRendering rect)._bounds (bm.markForRendering rect)._map x y = 2 ∧
      pixelAt (bm.clear rect)._bounds (bm.clear rect)._map x y = 0) ∧
    (∀ x y, bm._bounds.hasPixel x y → ¬ rect.hasPixel x y →
      pixelAt (bm.markForRendered rect)._bounds (bm.markForRendered rect)._map x y =
        pixelAt bm._bounds bm._map x y ∧
      pixelAt (bm.markForRendering rect)._bounds (bm.markForRendering rect)._map x y =
        pixelAt bm._bounds bm._map x y ∧
      pixelAt (bm.clear rect)._bounds (bm.clear rect)._map x y =
        pixelAt bm._bounds bm._map x y) ∧
    (rect.isNull = true → bm.markForRendered rect = bm ∧ bm.markForRendering rect = bm ∧
      bm.clear rect = bm) := by
  refine ⟨fun x y hp => ?_, fun x y hb hout => ?_, fun hn => ?_⟩
  · have hb := RectI.hasPixel_of_contains _ _ hc x y hp
    exact ⟨Bitmap.fill_inside bm rect 1 hs x y hp hb,
      Bitmap.fill_inside bm rect PIXEL_UNAVAILABLE hs x y hp hb,
      Bitmap.fill_inside bm rect 0 hs x y hp hb⟩
  · exact ⟨Bitmap.fill_outside bm rect 1 hc x y hb hout,
      Bitmap.fill_outside bm rect PIXEL_UNAVAILABLE hc x y hb hout,
      Bitmap.fill_outside bm rect 0 hc x y hb hout⟩
  · exact ⟨Bitmap.fill_null bm rect 1 hn, Bitmap.fill_null bm rect PIXEL_UNAVAILABLE hn,
      Bitmap.fill_null bm rect 0 hn⟩

/-- C15, at a concrete input: the all-zero 3×2 map and `rect = [1,3) × [0,1)`. -/
theorem bulk_write_witness :
    (Bitmap.mk ⟨0, 0, 3, 2⟩ [0, 0, 0, 0, 0, 0] RectI.zero false).sized ∧
    (RectI.mk 0 0 3 2).contains ⟨1, 0, 3, 1⟩ = true ∧
    ((Bitmap.mk ⟨0, 0, 3, 2⟩ [0, 0, 0, 0, 0, 0] RectI.zero false).markForRendered
      ⟨1, 0, 3, 1⟩)._map = [0, 1, 1, 0, 0, 0] ∧
    (∀ x y, (RectI.mk 1 0 3 1).hasPixel x y →
      pixelAt ((Bitmap.mk ⟨0, 0, 3, 2⟩ [0, 0, 0, 0, 0, 0] RectI.zero false).markForRendered
          ⟨1, 0, 3, 1⟩)._bounds
        ((Bitmap.mk ⟨0, 0, 3, 2⟩ [0, 0, 0, 0, 0, 0] RectI.zero false).markForRendered
          ⟨1, 0, 3, 1⟩)._map x y = 1) :=
  ⟨by decide, by decide, by decide, fun x y hp =>
    ((bulk_write (Bitmap.mk ⟨0, 0, 3, 2⟩ [0, 0, 0, 0, 0, 0] RectI.zero false) ⟨1, 0, 3, 1⟩
      (by decide) (by decide)).1 x y hp).1⟩

/-- A second bulk write on the same rectangle overrides the first. -/
theorem Bitmap.fill_fill (bm : Bitmap) (roi : RectI) (v1 v2 : Nat) :
    (bm.fill roi v1).fill roi v2 = bm.fill roi v2 := by
  unfold Bitmap.fill
  simp only [Bitmap.mk.injEq, true_and, and_true]
  apply ext_of_peek
  · simp only [fillRows_length]
  · intro off
    simp only [peek_fillRows, fillRows_length]
    split <;> rfl

/-- Writing zeros over pixels that are zero changes nothing. -/
theorem Bitmap.fill_zero_of_zero (bm : Bitmap) (roi : RectI)
    (hz : ∀ x y, roi.hasPixel x y → pixelAt bm._bounds bm._map x y = 0) :
    bm.fill roi 0 = bm := by
  unfold Bitmap.fill
  have : fillRows 0 bm._bounds.width roi.width (roi.y2 - roi.y1).toNat
      (BM_GET bm._bounds roi.bottom roi.left) bm._map = bm._map := by
    apply ext_of_peek
    · simp only [fillRows_length]
    · intro off
      rw [peek_fillRows]
      split
      · rename_i h
        obtain ⟨-, -, k, hk, h1, h2⟩ := h
        have hp : roi.hasPixel (roi.x1 + (off - (BM_GET bm._bounds roi.bottom roi.left +
            k * bm._bounds.width))) (roi.y1 + k) := by
          unfold RectI.hasPixel
          have hw : roi.width = roi.x2 - roi.x1 := rfl
          rw [hw] at h2
          omega
        have := hz _ _ hp
        unfold pixelAt at this
        rw [← this]
        congr 1
        unfold BM_GET RectI.bottom RectI.left
        ring
      · rfl
  rw [this]

/-- C16. Last write wins: for every `rect` contained in the bounds and any two of
`markForRendered`, `markForRendering`, `clear`, the first applied to `rect` and then
the second to `rect` gives the bitmap that the second alone gives. In particular
`markForRendered` twice is `markForRendered` once, and `markForRendering` followed by
`clear` on a rectangle whose pixels were all 0 gives back the original bitmap. -/
theorem last_write_wins (bm : Bitmap) (rect : RectI)
    (_hc : bm._bounds.contains rect = true) :
    (∀ op1 op2 : Bitmap → RectI → Bitmap,
      op1 ∈ [Bitmap.markForRendered, Bitmap.markForRendering, Bitmap.clear] →
      op2 ∈ [Bitmap.markForRendered, Bitmap.markForRendering, Bitmap.clear] →
      op2 (op1 bm rect) rect = op2 bm rect) ∧
    (bm.markForRendered rect).markForRendered rect = bm.markForRendered rect ∧
    ((∀ x y, rect.hasPixel x y → pixelAt bm._bounds bm._map x y = 0) →
      (bm.markForRendering rect).clear rect = bm) := by
  refine ⟨fun op1 op2 h1 h2 => ?_, Bitmap.fill_fill bm rect 1 1, fun hz => ?_⟩
  · simp only [List.mem_cons, List.mem_singleton, List.not_mem_nil, or_false] at h1 h2
    rcases h1 with rfl | rfl | rfl <;> rcases h2 with rfl | rfl | rfl <;>
      exact Bitmap.fill_fill bm rect _ _
  · unfold Bitmap.markForRendering Bitmap.clear
    rw [Bitmap.fill_fill]
    exact Bitmap.fill_zero_of_zero bm rect hz

/-- C16, at a concrete input: the 3×2 map `0 0 1 / 1 1 1` and `rect = [0,2) × [0,1)`, whose
pixels are 0. -/
theorem last_write_wins_witness :
    (RectI.mk 0 0 3 2).contains ⟨0, 0, 2, 1⟩ = true ∧
    ((Bitmap.mk ⟨0, 0, 3, 2⟩ [0, 0, 1, 1, 1, 1] RectI.zero false).markForRendering
      ⟨0, 0, 2, 1⟩)._map = [2, 2, 1, 1, 1, 1] ∧
    ((Bitmap.mk ⟨0, 0, 3, 2⟩ [0, 0, 1, 1, 1, 1] RectI.zero false).markForRendering
      ⟨0, 0, 2, 1⟩).clear ⟨0, 0, 2, 1⟩ =
      Bitmap.mk ⟨0, 0, 3, 2⟩ [0, 0, 1, 1, 1, 1] RectI.zero false :=
  ⟨by decide, by decide,
    (last_write_wins (Bitmap.mk ⟨0, 0, 3, 2⟩ [0, 0, 1, 1, 1, 1] RectI.zero false) ⟨0, 0, 2, 1⟩
      (by decide)).2.2 (by
        rintro x y ⟨h1, h2, h3, h4⟩
        simp only at h1 h2 h3 h4
        obtain rfl : y = 0 := by omega
        interval_cases x <;> decide)⟩

/-! ## Point reads, region copies and `swap`, characterised -/

/-- C17. Point read: `Bitmap::getBitmapAt(x, y)` returns NULL exactly when `(x, y)` is outside
the bounds (`x < x1`, `x ≥ x2`, `y < y1` or `y ≥ y2`); otherwise it addresses the byte at
the row-major offset `(y − y1) · width + (x − x1)`, which lies in `[0, width · height)`. -/
theorem getBitmapAt_spec (bm : Bitmap) (x y : Int) :
    (bm.getBitmapAt x y = none ↔
      (x < bm._bounds.x1 ∨ x ≥ bm._bounds.x2 ∨ y < bm._bounds.y1 ∨ y ≥ bm._bounds.y2)) ∧
    (¬ (x < bm._bounds.x1 ∨ x ≥ bm._bounds.x2 ∨ y < bm._bounds.y1 ∨ y ≥ bm._bounds.y2) →
      bm.getBitmapAt x y =
        some ((y - bm._bounds.y1) * bm._bounds.width + (x - bm._bounds.x1)) ∧
      0 ≤ (y - bm._bounds.y1) * bm._bounds.width + (x - bm._bounds.x1) ∧
      (y - bm._bounds.y1) * bm._bounds.width + (x - bm._bounds.x1) <
        bm._bounds.width * bm._bounds.height) := by
  unfold Bitmap.getBitmapAt RectI.left RectI.right RectI.bottom RectI.top
  constructor
  · split
    · rename_i h
      simp only [reduceCtorEq, false_iff]
      omega
    · rename_i h
      simp only [true_iff]
      omega
  · intro hin
    have hp : bm._bounds.hasPixel x y := by
      unfold RectI.hasPixel; omega
    have hbuf := BM_GET_in_buffer bm._bounds x y hp
    unfold BM_GET RectI.bottom RectI.left at hbuf
    refine ⟨?_, hbuf.1, hbuf.2⟩
    rw [if_pos (by omega)]
    rfl

theorem poke_length (mapStart : List Nat) (off : Int) (v : Nat) :
    (poke mapStart off v).length = mapStart.length :=
  memset_length mapStart off v 1

theorem peek_poke (mapStart : List Nat) (off : Int) (v : Nat) (o : Int) :
    peek (poke mapStart off v) o =
      if 0 ≤ o ∧ o < mapStart.length ∧ o = off then v else peek mapStart o := by
  unfold poke
  rw [peek_memset]
  by_cases h : 0 ≤ o ∧ o < (mapStart.length : Int) ∧ o = off
  · rw [if_pos h, if_pos ⟨h.1, h.2.1, by omega, by omega⟩]
  · rw [if_neg h, if_neg]
    rintro ⟨h1, h2, h3, h4⟩
    exact h ⟨h1, h2, by omega⟩

theorem copyBytes_length (srcMap : List Nat) :
    ∀ (n : Nat) (srcCur dstCur : Int) (dstMap : List Nat),
    (copyBytes srcMap n srcCur dstCur dstMap).length = dstMap.length := by
  intro n
  induction n with
  | zero => intro s d dst; rfl
  | succ n ih => intro s d dst; rw [copyBytes, ih, poke_length]

/-- After the byte loop, a byte of the destination buffer in the written run holds the
source byte at the same distance from the start; any other byte is as before. -/
theorem peek_copyBytes (srcMap : List Nat) :
    ∀ (n : Nat) (srcCur dstCur : Int) (dstMap : List Nat) (off : Int),
    peek (copyBytes srcMap n srcCur dstCur dstMap) off =
      if 0 ≤ off ∧ off < dstMap.length ∧ dstCur ≤ off ∧ off < dstCur + n then
        peek srcMap (srcCur + (off - dstCur))
      else peek dstMap off := by
  intro n
  induction n with
  | zero =>
    intro s d dst off
    rw [copyBytes, if_neg]
    rintro ⟨-, -, h1, h2⟩
    simp only [Nat.cast_zero, add_zero] at h2
    omega
  | succ n ih =>
    intro s d dst off
    rw [copyBytes, ih, poke_length, peek_poke]
    by_cases hb : 0 ≤ off ∧ off < (dst.length : Int)
    · by_cases h0 : off = d
      · subst h0
        rw [if_neg (by omega), if_pos ⟨hb.1, hb.2, rfl⟩,
          if_pos ⟨hb.1, hb.2, le_refl _, by push_cast; omega⟩]
        simp
      · by_cases hr : d + 1 ≤ off ∧ off < d + 1 + (n : Int)
        · rw [if_pos ⟨hb.1, hb.2, hr.1, hr.2⟩,
            if_pos ⟨hb.1, hb.2, by omega, by push_cast; omega⟩]
          congr 1
          ring
        · rw [if_neg (fun h => hr ⟨h.2.2.1, h.2.2.2⟩), if_neg (fun h => h0 h.2.2), if_neg]
          rintro ⟨-, -, h1, h2⟩
          push_cast at h2
          exact hr ⟨by omega, by omega⟩
    · rw [if_neg (fun h => hb ⟨h.1, h.2.1⟩), if_neg (fun h => hb ⟨h.1, h.2.1⟩),
        if_neg (fun h => hb ⟨h.1, h.2.1⟩)]

theorem copyRows_length (srcMap : List Nat) (sw dw roiw : Int) :
    ∀ (rows : Nat) (s d : Int) (dstMap : List Nat),
    (copyRows srcMap sw dw roiw rows s d dstMap).length = dstMap.length := by
  intro rows
  induction rows with
  | zero => intro s d dst; rfl
  | succ rows ih => intro s d dst; rw [copyRows, ih, copyBytes_length]

/-- A byte of the destination buffer that is in none of the runs is as before. -/
theorem peek_copyRows_outside (srcMap : List Nat) (sw dw roiw : Int) :
    ∀ (rows : Nat) (s d : Int) (dstMap : List Nat) (off : Int),
    (∀ k : Nat, k < rows → ¬ (d + k * dw ≤ off ∧ off < d + k * dw + roiw)) →
    peek (copyRows srcMap sw dw roiw rows s d dstMap) off = peek dstMap off := by
  intro rows
  induction rows with
  | zero => intro s d dst off _; rfl
  | succ rows ih =>
    intro s d dst off h
    rw [copyRows, ih, peek_copyBytes, if_neg]
    · rintro ⟨-, -, h1, h2⟩
      refine h 0 (Nat.succ_pos rows) ⟨by simpa using h1, ?_⟩
      simp only [Nat.cast_zero, zero_mul, add_zero]
      omega
    · intro k hk hc
      refine h (k + 1) (by omega) ?_
      have e : d + ((k + 1 : Nat) : Int) * dw = d + dw + k * dw := by push_cast; ring
      rw [e]
      exact hc

/-- A byte of the destination buffer in the `k`-th run holds the source byte of the `k`-th
source run at the same distance from its start, when the runs do not overlap
(`roiw ≤ dstRowSize`). -/
theorem peek_copyRows_inside (srcMap : List Nat) (sw dw roiw : Int) (hw : roiw ≤ dw) :
    ∀ (rows : Nat) (s d : Int) (dstMap : List Nat) (off : Int) (k : Nat),
    k < rows → 0 ≤ off → off < dstMap.length →
    d + k * dw ≤ off → off < d + k * dw + roiw →
    peek (copyRows srcMap sw dw roiw rows s d dstMap) off =
      peek srcMap (s + k * sw + (off - (d + k * dw))) := by
  intro rows
  induction rows with
  | zero => intro s d dst off k hk; omega
  | succ rows ih =>
    intro s d dst off k hk h0 hlen h1 h2
    rw [copyRows]
    cases k with
    | zero =>
      simp only [Nat.cast_zero, zero_mul, add_zero] at h1 h2 ⊢
      have hpos : 0 < dw := by omega
      rw [peek_copyRows_outside, peek_copyBytes,
        if_pos ⟨h0, hlen, h1, by omega⟩]
      intro j _ hc
      have : 0 ≤ (j : Int) * dw := mul_nonneg (Int.natCast_nonneg j) (le_of_lt hpos)
      omega
    | succ k =>
      have e : d + ((k + 1 : Nat) : Int) * dw = d + dw + k * dw := by push_cast; ring
      have e2 : s + ((k + 1 : Nat) : Int) * sw = s + sw + k * sw := by push_cast; ring
      rw [e] at h1 h2 ⊢
      rw [e2]
      exact ih (s + sw) (d + dw) _ off k (by omega) h0
        (by rw [copyBytes_length]; exact hlen) h1 h2

theorem Bitmap.getBitmapAt_some (bm : Bitmap) (x y : Int) (p : Int)
    (h : bm.getBitmapAt x y = some p) : p = BM_GET bm._bounds y x := by
  unfold Bitmap.getBitmapAt at h
  split at h
  · cases h; rfl
  · cases h

theorem Bitmap.getBitmapAt_of_hasPixel (bm : Bitmap) (x y : Int)
    (h : bm._bounds.hasPixel x y) : bm.getBitmapAt x y = some (BM_GET bm._bounds y x) := by
  unfold Bitmap.getBitmapAt RectI.left RectI.right RectI.bottom RectI.top
  unfold RectI.hasPixel at h
  rw [if_pos (by omega)]

/-- What the row loop of `copyBitmapPortion` does to the pixels, for `roi` contained in the
bounds of both bitmaps and a destination buffer of width × height bytes. -/
theorem copyRows_pixels (self other : Bitmap) (roi : RectI) (hs : self.sized)
    (hc1 : self._bounds.contains roi = true) :
    (∀ x y, roi.hasPixel x y →
      peek (copyRows other._map other._bounds.width self._bounds.width roi.width
        (roi.y2 - roi.y1).toNat (BM_GET other._bounds roi.y1 roi.x1)
        (BM_GET self._bounds roi.y1 roi.x1) self._map) (BM_GET self._bounds y x) =
        pixelAt other._bounds other._map x y) ∧
    (∀ x y, self._bounds.hasPixel x y → ¬ roi.hasPixel x y →
      peek (copyRows other._map other._bounds.width self._bounds.width roi.width
        (roi.y2 - roi.y1).toNat (BM_GET other._bounds roi.y1 roi.x1)
        (BM_GET self._bounds roi.y1 roi.x1) self._map) (BM_GET self._bounds y x) =
        pixelAt self._bounds self._map x y) := by
  constructor
  · intro x y hp
    have hb := RectI.hasPixel_of_contains _ _ hc1 x y hp
    obtain ⟨k, hk, h1, h2⟩ := roi_in_run self._bounds roi x y hp
    obtain ⟨-, hy⟩ := run_hits_roi _ _ hc1 x y hb k hk h1 h2
    obtain ⟨o1, o2⟩ := BM_GET_in_buffer _ x y hb
    have hw : roi.width ≤ self._bounds.width := by
      simp only [RectI.contains, Bool.and_eq_true, decide_eq_true_eq] at hc1
      unfold RectI.width; omega
    have hr1 : roi.bottom = roi.y1 := rfl
    have hr2 : roi.left = roi.x1 := rfl
    rw [hr1, hr2] at h1 h2
    rw [peek_copyRows_inside other._map _ _ _ hw _ _ _ _ _ k hk o1
      (by rw [hs.2.2]; exact o2) h1 h2]
    unfold pixelAt
    congr 1
    subst hy
    unfold BM_GET RectI.bottom RectI.left
    ring
  · intro x y hb hout
    rw [peek_copyRows_outside]
    · rfl
    · intro k hk hc
      exact hout (run_hits_roi _ _ hc1 x y hb k hk hc.1 hc.2).1

/-- C18. Region copy: for a destination whose buffer has width × height bytes and `roi`
contained in the bounds of both bitmaps, `self.copyBitmapPortion(roi, other)` completes
(no NULL pointer is dereferenced); afterwards every pixel of `roi` reads in `self` what
it reads in `other` (any byte, 2 included), every pixel of the bounds of `self` outside
`roi` reads as before, and the bounds and the dirty zone of `self` are as before.
`other` is a `const` argument: the method has no way to change it. -/
theorem region_copy (self other : Bitmap) (roi : RectI) (hs : self.sized)
    (hc1 : self._bounds.contains roi = true) (hc2 : other._bounds.contains roi = true) :
    ∃ result : Bitmap, self.copyBitmapPortion roi other = some result ∧
      result._bounds = self._bounds ∧ result._dirtyZone = self._dirtyZone ∧
      result._dirtyZoneSet = self._dirtyZoneSet ∧
      (∀ x y, roi.hasPixel x y →
        pixelAt result._bounds result._map x y = pixelAt other._bounds other._map x y) ∧
      (∀ x y, self._bounds.hasPixel x y → ¬ roi.hasPixel x y →
        pixelAt result._bounds result._map x y = pixelAt self._bounds self._map x y) := by
  have hpix := copyRows_pixels self other roi hs hc1
  cases hn : roi.isNull
  · obtain ⟨hx, hy⟩ := (RectI.isNull_false_iff _).mp hn
    have hcorner : roi.hasPixel roi.x1 roi.y1 := ⟨le_refl _, hx, le_refl _, hy⟩
    have g1 := Bitmap.getBitmapAt_of_hasPixel other _ _
      (RectI.hasPixel_of_contains _ _ hc2 _ _ hcorner)
    have g2 := Bitmap.getBitmapAt_of_hasPixel self _ _
      (RectI.hasPixel_of_contains _ _ hc1 _ _ hcorner)
    refine ⟨⟨self._bounds,
      copyRows other._map other._bounds.width self._bounds.width roi.width
        (roi.y2 - roi.y1).toNat (BM_GET other._bounds roi.y1 roi.x1)
        (BM_GET self._bounds roi.y1 roi.x1) self._map,
      self._dirtyZone, self._dirtyZoneSet⟩,
      by unfold Bitmap.copyBitmapPortion; rw [g1, g2], rfl, rfl, rfl, ?_, ?_⟩
    · intro x y hp
      exact hpix.1 x y hp
    · intro x y hb hout
      exact hpix.2 x y hb hout
  · have hnone : ∀ x y, ¬ roi.hasPixel x y := (RectI.isNull_iff_no_pixel _).mp hn
    unfold Bitmap.copyBitmapPortion
    cases g1 : other.getBitmapAt roi.x1 roi.y1 with
    | none =>
      refine ⟨self, by simp [hn], rfl, rfl, rfl, fun x y hp => absurd hp (hnone x y),
        fun _ _ _ _ => rfl⟩
    | some s =>
      cases g2 : self.getBitmapAt roi.x1 roi.y1 with
      | none =>
        refine ⟨self, by simp [hn], rfl, rfl, rfl, fun x y hp => absurd hp (hnone x y),
          fun _ _ _ _ => rfl⟩
      | some d =>
        have e1 := Bitmap.getBitmapAt_some _ _ _ _ g1
        have e2 := Bitmap.getBitmapAt_some _ _ _ _ g2
        subst e1
        subst e2
        refine ⟨⟨self._bounds,
          copyRows other._map other._bounds.width self._bounds.width roi.width
            (roi.y2 - roi.y1).toNat (BM_GET other._bounds roi.y1 roi.x1)
            (BM_GET self._bounds roi.y1 roi.x1) self._map,
          self._dirtyZone, self._dirtyZoneSet⟩, rfl, rfl, rfl, rfl,
          fun x y hp => absurd hp (hnone x y), ?_⟩
        intro x y hb hout
        exact hpix.2 x y hb hout

/-- C18, at a concrete input: the all-zero 3×2 map on `[0,3) × [0,2)` receives
`roi = [1,3) × [0,2)` from a 5×4 map on `[-1,4) × [-1,3)` whose bytes are 0, 1, 2 in
turn. -/
theorem region_copy_witness :
    (Bitmap.mk ⟨0, 0, 3, 2⟩ [0, 0, 0, 0, 0, 0] RectI.zero false).sized ∧
    (RectI.mk 0 0 3 2).contains ⟨1, 0, 3, 2⟩ = true ∧
    (RectI.mk (-1) (-1) 4 3).contains ⟨1, 0, 3, 2⟩ = true ∧
    (Bitmap.mk ⟨0, 0, 3, 2⟩ [0, 0, 0, 0, 0, 0] RectI.zero false).copyBitmapPortion ⟨1, 0, 3, 2⟩
      (Bitmap.mk ⟨-1, -1, 4, 3⟩ [0, 1, 2, 0, 1, 2, 0, 1, 2, 0, 1, 2, 0, 1, 2, 0, 1, 2, 0, 1]
        RectI.zero false) =
      some (Bitmap.mk ⟨0, 0, 3, 2⟩ [0, 1, 2, 0, 0, 1] RectI.zero false) ∧
    ∃ result : Bitmap,
      (Bitmap.mk ⟨0, 0, 3, 2⟩ [0, 0, 0, 0, 0, 0] RectI.zero false).copyBitmapPortion
        ⟨1, 0, 3, 2⟩
        (Bitmap.mk ⟨-1, -1, 4, 3⟩ [0, 1, 2, 0, 1, 2, 0, 1, 2, 0, 1, 2, 0, 1, 2, 0, 1, 2, 0, 1]
          RectI.zero false) = some result ∧
      result._bounds = ⟨0, 0, 3, 2⟩ :=
  ⟨by decide, by decide, by decide, by decide,
    match region_copy (Bitmap.mk ⟨0, 0, 3, 2⟩ [0, 0, 0, 0, 0, 0] RectI.zero false)
      (Bitmap.mk ⟨-1, -1, 4, 3⟩ [0, 1, 2, 0, 1, 2, 0, 1, 2, 0, 1, 2, 0, 1, 2, 0, 1, 2, 0, 1]
        RectI.zero false) ⟨1, 0, 3, 2⟩ (by decide) (by decide) (by decide) with
    | ⟨result, h, hb, _⟩ => ⟨result, h, hb⟩⟩

/-- C19, as stated, fails: `Bitmap::swap` exchanges the buffers, but it copies the bounds one
way only and clears the dirty zone of `this` only. With `a` on `[0,2) × [0,1)` and `b`
on `[0,1) × [0,1)` with a dirty zone set, after `a.swap(b)` the bitmap `b` holds the
former buffer of `a` with its own former bounds, and its dirty zone is still set. -/
theorem swap_is_one_sided :
    ((Bitmap.mk ⟨0, 0, 2, 1⟩ [1, 1] RectI.zero false).swap
      (Bitmap.mk ⟨0, 0, 1, 1⟩ [0] ⟨0, 0, 1, 1⟩ true)).2 =
      Bitmap.mk ⟨0, 0, 1, 1⟩ [1, 1] ⟨0, 0, 1, 1⟩ true ∧
    ((Bitmap.mk ⟨0, 0, 2, 1⟩ [1, 1] RectI.zero false).swap
      (Bitmap.mk ⟨0, 0, 1, 1⟩ [0] ⟨0, 0, 1, 1⟩ true)).2._bounds ≠
      (Bitmap.mk ⟨0, 0, 2, 1⟩ [1, 1] RectI.zero false)._bounds ∧
    ((Bitmap.mk ⟨0, 0, 2, 1⟩ [1, 1] RectI.zero false).swap
      (Bitmap.mk ⟨0, 0, 1, 1⟩ [0] ⟨0, 0, 1, 1⟩ true)).2._dirtyZoneSet = true := by
  decide

/-- C19, amended. After `a.swap(b)`, `a` holds the former buffer and the former bounds of
`b` and has no dirty zone set; `b` holds the former buffer of `a`, and keeps its own
bounds and its own dirty zone. -/
theorem swap_spec (a b : Bitmap) :
    (a.swap b).1._map = b._map ∧ (a.swap b).1._bounds = b._bounds ∧
    (a.swap b).1._dirtyZoneSet = false ∧ (a.swap b).1._dirtyZone = RectI.zero ∧
    (a.swap b).2._map = a._map ∧ (a.swap b).2._bounds = b._bounds ∧
    (a.swap b).2._dirtyZone = b._dirtyZone ∧
    (a.swap b).2._dirtyZoneSet = b._dirtyZoneSet :=
  ⟨rfl, rfl, rfl, rfl, rfl, rfl, rfl, rfl⟩

/-! ## The dirty zone -/

theorem RectI.intersect_of_common_pixel (r o : RectI) (x y : Int) (hr : r.hasPixel x y)
    (ho : o.hasPixel x y) :
    r.intersect o =
      some ⟨max r.x1 o.x1, max r.y1 o.y1, min r.x2 o.x2, min r.y2 o.y2⟩ := by
  cases h : r.intersect o with
  | none => exact absurd ho (RectI.intersect_none r o h x y hr)
  | some i =>
    unfold RectI.intersect at h
    split at h
    · exact h.symm
    · cases h

theorem RectI.intersect_of_no_common_pixel (r o : RectI)
    (h : ∀ x y, ¬ (r.hasPixel x y ∧ o.hasPixel x y)) : r.intersect o = none := by
  cases hi : r.intersect o with
  | none => rfl
  | some i =>
    exfalso
    obtain ⟨hx, hy⟩ := (RectI.isNull_false_iff _).mp (RectI.intersect_some_notNull r o i hi)
    exact h i.x1 i.y1
      ((RectI.intersect_some_iff r o i hi i.x1 i.y1).mp ⟨le_refl _, hx, le_refl _, hy⟩)

/-- C20. Restriction rectangle: with a dirty zone `Z` set, when `roi` and `Z` share a pixel
each of the four public queries on `roi` returns what the same query returns on the
rectangle `roi ∩ Z` from the same bitmap with no dirty zone set; when `roi ∩ Z` is empty
the bounding-box queries return an empty rectangle, the rectangle-list queries return
the list as it was given, and the trimap variants report
`isBeingRenderedElsewhere = false`. -/
theorem dirty_zone_restricts (bm : Bitmap) (roi : RectI) (ret : List RectI) (flag : Bool)
    (hs : bm._dirtyZoneSet = true) :
    ((∃ x y, roi.hasPixel x y ∧ bm._dirtyZone.hasPixel x y) →
      bm.minimalNonMarkedBbox roi =
        (Bitmap.mk bm._bounds bm._map bm._dirtyZone false).minimalNonMarkedBbox
          ⟨max roi.x1 bm._dirtyZone.x1, max roi.y1 bm._dirtyZone.y1,
            min roi.x2 bm._dirtyZone.x2, min roi.y2 bm._dirtyZone.y2⟩ ∧
      bm.minimalNonMarkedRects roi ret =
        (Bitmap.mk bm._bounds bm._map bm._dirtyZone false).minimalNonMarkedRects
          ⟨max roi.x1 bm._dirtyZone.x1, max roi.y1 bm._dirtyZone.y1,
            min roi.x2 bm._dirtyZone.x2, min roi.y2 bm._dirtyZone.y2⟩ ret ∧
      bm.minimalNonMarkedBbox_trimap roi flag =
        (Bitmap.mk bm._bounds bm._map bm._dirtyZone false).minimalNonMarkedBbox_trimap
          ⟨max roi.x1 bm._dirtyZone.x1, max roi.y1 bm._dirtyZone.y1,
            min roi.x2 bm._dirtyZone.x2, min roi.y2 bm._dirtyZone.y2⟩ flag ∧
      bm.minimalNonMarkedRects_trimap roi ret flag =
        (Bitmap.mk bm._bounds bm._map bm._dirtyZone false).minimalNonMarkedRects_trimap
          ⟨max roi.x1 bm._dirtyZone.x1, max roi.y1 bm._dirtyZone.y1,
            min roi.x2 bm._dirtyZone.x2, min roi.y2 bm._dirtyZone.y2⟩ ret flag) ∧
    ((∀ x y, ¬ (roi.hasPixel x y ∧ bm._dirtyZone.hasPixel x y)) →
      (bm.minimalNonMarkedBbox roi).isNull = true ∧
      bm.minimalNonMarkedRects roi ret = ret ∧
      (bm.minimalNonMarkedBbox_trimap roi flag).1.isNull = true ∧
      (bm.minimalNonMarkedBbox_trimap roi flag).2 = false ∧
      (bm.minimalNonMarkedRects_trimap roi ret flag).1 = ret ∧
      (bm.minimalNonMarkedRects_trimap roi ret flag).2 = false) := by
  constructor
  · rintro ⟨x, y, hr, hz⟩
    have hi := RectI.intersect_of_common_pixel roi bm._dirtyZone x y hr hz
    unfold Bitmap.minimalNonMarkedBbox Bitmap.minimalNonMarkedRects
      Bitmap.minimalNonMarkedBbox_trimap Bitmap.minimalNonMarkedRects_trimap
    simp only [hs, if_true, hi, Bool.false_eq_true, if_false, and_self]
  · intro h
    have hi := RectI.intersect_of_no_common_pixel roi bm._dirtyZone h
    unfold Bitmap.minimalNonMarkedBbox Bitmap.minimalNonMarkedRects
      Bitmap.minimalNonMarkedBbox_trimap Bitmap.minimalNonMarkedRects_trimap
    simp only [hs, if_true, hi, and_self, and_true]
    decide

/-- C20, at a concrete input: the 3×1 map `0 1 0` with the dirty zone `[1,3) × [0,1)`,
queried on `[0,2) × [0,1)` (which meets the dirty zone on the available pixel `(1, 0)`)
and on `[0,1) × [0,1)` (which does not meet it). -/
theorem dirty_zone_restricts_witness :
    (Bitmap.mk ⟨0, 0, 3, 1⟩ [0, 1, 0] ⟨1, 0, 3, 1⟩ true)._dirtyZoneSet = true ∧
    (Bitmap.mk ⟨0, 0, 3, 1⟩ [0, 1, 0] ⟨1, 0, 3, 1⟩ true).minimalNonMarkedRects
      ⟨0, 0, 2, 1⟩ [] = [] ∧
    (Bitmap.mk ⟨0, 0, 3, 1⟩ [0, 1, 0] ⟨1, 0, 3, 1⟩ false).minimalNonMarkedRects
      ⟨0, 0, 2, 1⟩ [] = [⟨0, 0, 1, 1⟩] ∧
    (Bitmap.mk ⟨0, 0, 3, 1⟩ [0, 1, 0] ⟨1, 0, 3, 1⟩ true).minimalNonMarkedRects
      ⟨0, 0, 1, 1⟩ [] = [] ∧
    ((Bitmap.mk ⟨0, 0, 3, 1⟩ [0, 1, 0] ⟨1, 0, 3, 1⟩ true).minimalNonMarkedBbox_trimap
      ⟨0, 0, 1, 1⟩ true).2 = false :=
  ⟨rfl, by decide, by decide,
    ((dirty_zone_restricts (Bitmap.mk ⟨0, 0, 3, 1⟩ [0, 1, 0] ⟨1, 0, 3, 1⟩ true) ⟨0, 0, 1, 1⟩ []
      true rfl).2 (by
        rintro x y ⟨⟨h1, h2, h3, h4⟩, ⟨h5, h6, h7, h8⟩⟩
        simp only at h1 h2 h3 h4 h5 h6 h7 h8
        omega)).2.1,
    ((dirty_zone_restricts (Bitmap.mk ⟨0, 0, 3, 1⟩ [0, 1, 0] ⟨1, 0, 3, 1⟩ true) ⟨0, 0, 1, 1⟩ []
      true rfl).2 (by
        rintro x y ⟨⟨h1, h2, h3, h4⟩, ⟨h5, h6, h7, h8⟩⟩
        simp only at h1 h2 h3 h4 h5 h6 h7 h8
        omega)).2.2.2.1⟩

/-! ## The border strips -/

theorem peel_blank (trimap : Bool) (_bounds : RectI) (mapStart : List Nat) (M : RectI)
    (flag : Bool) (hM : M.isNull = false) (x y : Int)
    (h : (peel trimap _bounds mapStart M flag).bboxA.hasPixel x y ∨
      (peel trimap _bounds mapStart M flag).bboxB.hasPixel x y ∨
      (peel trimap _bounds mapStart M flag).bboxC.hasPixel x y ∨
      (peel trimap _bounds mapStart M flag).bboxD.hasPixel x y) :
    blank trimap (pixelAt _bounds mapStart x y) := by
  obtain ⟨hMx, hMy⟩ := (RectI.isNull_false_iff _).mp hM
  obtain ⟨ya, yb, xa, xb, f, hp, -, -, -, ⟨b1, b2, b3, b4⟩, -⟩ :=
    peel_spec trimap _bounds mapStart M flag (le_of_lt hMx) (le_of_lt hMy)
  rw [hp] at h
  simp only [RectI.hasPixel] at h
  rcases h with h | h | h | h
  · exact b1 y h.2.2.1 h.2.2.2 x h.1 h.2.1
  · exact b2 y h.2.2.1 h.2.2.2 x h.1 h.2.1
  · exact b3 x h.1 h.2.1 y h.2.2.1 h.2.2.2
  · exact b4 x h.1 h.2.1 y h.2.2.1 h.2.2.2

theorem peel_maximal (trimap : Bool) (_bounds : RectI) (mapStart : List Nat) (M : RectI)
    (flag : Bool) (hM : M.isNull = false)
    (hX : (peel trimap _bounds mapStart M flag).bboxX.isNull = false) :
    (∃ x, (peel trimap _bounds mapStart M flag).bboxX.x1 ≤ x ∧
      x < (peel trimap _bounds mapStart M flag).bboxX.x2 ∧
      ¬ blank trimap (pixelAt _bounds mapStart x
        (peel trimap _bounds mapStart M flag).bboxX.y1)) ∧
    (∃ x, (peel trimap _bounds mapStart M flag).bboxX.x1 ≤ x ∧
      x < (peel trimap _bounds mapStart M flag).bboxX.x2 ∧
      ¬ blank trimap (pixelAt _bounds mapStart x
        ((peel trimap _bounds mapStart M flag).bboxX.y2 - 1))) ∧
    (∃ y, (peel trimap _bounds mapStart M flag).bboxX.y1 ≤ y ∧
      y < (peel trimap _bounds mapStart M flag).bboxX.y2 ∧
      ¬ blank trimap (pixelAt _bounds mapStart
        (peel trimap _bounds mapStart M flag).bboxX.x1 y)) ∧
    (∃ y, (peel trimap _bounds mapStart M flag).bboxX.y1 ≤ y ∧
      y < (peel trimap _bounds mapStart M flag).bboxX.y2 ∧
      ¬ blank trimap (pixelAt _bounds mapStart
        ((peel trimap _bounds mapStart M flag).bboxX.x2 - 1) y)) := by
  obtain ⟨hMx, hMy⟩ := (RectI.isNull_false_iff _).mp hM
  obtain ⟨ya, yb, xa, xb, f, hp, ⟨g1, g2, g3, g4, g5, g6⟩, -, -, ⟨-, -, b3, b4⟩,
    ⟨m1, m2, m3, m4⟩⟩ :=
    peel_spec trimap _bounds mapStart M flag (le_of_lt hMx) (le_of_lt hMy)
  rw [hp] at hX ⊢
  simp only at hX ⊢
  obtain ⟨hXx, hXy⟩ := (RectI.isNull_false_iff _).mp hX
  simp only at hXx hXy
  have inX : ∀ r, ya ≤ r → r < yb → ∀ x, M.x1 ≤ x → x < M.x2 →
      ¬ blank trimap (pixelAt _bounds mapStart x r) → xa ≤ x ∧ x < xb := by
    intro r hr1 hr2 x hx1 hx2 hnb
    constructor
    · by_contra hlt
      exact hnb (b3 x hx1 (by omega) r hr1 hr2)
    · by_contra hge
      exact hnb (b4 x (by omega) hx2 r hr1 hr2)
  refine ⟨?_, ?_, ?_, ?_⟩
  · have h := m1 (by omega)
    unfold rowBlank at h
    push_neg at h
    obtain ⟨x, hx1, hx2, hnb⟩ := h
    obtain ⟨h1, h2⟩ := inX ya (le_refl _) hXy x hx1 hx2 hnb
    exact ⟨x, h1, h2, hnb⟩
  · have h := m2 hXy
    unfold rowBlank at h
    push_neg at h
    obtain ⟨x, hx1, hx2, hnb⟩ := h
    obtain ⟨h1, h2⟩ := inX (yb - 1) (by omega) (by omega) x hx1 hx2 hnb
    exact ⟨x, h1, h2, hnb⟩
  · have h := m3 hXy (by omega)
    unfold colBlank at h
    push_neg at h
    exact h
  · have h := m4 hXy hXx
    unfold colBlank at h
    push_neg at h
    exact h

theorem peel_edges (trimap : Bool) (_bounds : RectI) (mapStart : List Nat) (M : RectI)
    (flag : Bool) (hM : M.isNull = false) :
    ∃ (ya yb xa xb : Int),
      (peel trimap _bounds mapStart M flag).bboxA = ⟨M.x1, M.y1, M.x2, ya⟩ ∧
      (peel trimap _bounds mapStart M flag).bboxB = ⟨M.x1, yb, M.x2, M.y2⟩ ∧
      (peel trimap _bounds mapStart M flag).bboxC = ⟨M.x1, ya, xa, yb⟩ ∧
      (peel trimap _bounds mapStart M flag).bboxD = ⟨xb, ya, M.x2, yb⟩ ∧
      (peel trimap _bounds mapStart M flag).bboxX = ⟨xa, ya, xb, yb⟩ ∧
      M.y1 ≤ ya ∧ ya ≤ yb ∧ yb ≤ M.y2 ∧ M.x1 ≤ xa ∧ xa ≤ xb ∧ xb ≤ M.x2 := by
  obtain ⟨hMx, hMy⟩ := (RectI.isNull_false_iff _).mp hM
  obtain ⟨ya, yb, xa, xb, f, hp, hg, -⟩ :=
    peel_spec trimap _bounds mapStart M flag (le_of_lt hMx) (le_of_lt hMy)
  exact ⟨ya, yb, xa, xb, by rw [hp], by rw [hp], by rw [hp], by rw [hp], by rw [hp], hg⟩

/-- C21. For every `roi` with a non-empty `bboxM` (the roi contained in the bounds or
not), after the peeling of lines 280-428 the sixteen equalities asserted at lines 430-448
hold, with `bboxX` the interior before its final shrink; and every pixel of `bboxM` lies
in exactly one of A, B, C, D, X: among the five rectangles exactly one has it. -/
theorem strip_edges (trimap : Bool) (roi _bounds : RectI) (mapStart : List Nat) (flag : Bool)
    (hM : (minimalNonMarkedBbox_internal trimap roi _bounds mapStart flag).1.isNull = false) :
    ∃ (bboxM : RectI) (p : Peeled),
      bboxM = (minimalNonMarkedBbox_internal trimap roi _bounds mapStart flag).1 ∧
      p = peel trimap _bounds mapStart bboxM
        (minimalNonMarkedBbox_internal trimap roi _bounds mapStart flag).2 ∧
      (p.bboxA.bottom = bboxM.bottom ∧ p.bboxA.left = bboxM.left ∧
        p.bboxA.right = bboxM.right ∧ p.bboxA.top = p.bboxX.bottom) ∧
      (p.bboxB.top = bboxM.top ∧ p.bboxB.left = bboxM.left ∧
        p.bboxB.right = bboxM.right ∧ p.bboxB.bottom = p.bboxX.top) ∧
      (p.bboxC.top = p.bboxX.top ∧ p.bboxC.left = bboxM.left ∧
        p.bboxC.right = p.bboxX.left ∧ p.bboxC.bottom = p.bboxX.bottom) ∧
      (p.bboxD.top = p.bboxX.top ∧ p.bboxD.left = p.bboxX.right ∧
        p.bboxD.right = bboxM.right ∧ p.bboxD.bottom = p.bboxX.bottom) ∧
      (∀ x y, bboxM.hasPixel x y →
        ([p.bboxA, p.bboxB, p.bboxC, p.bboxD, p.bboxX].countP
          (fun r => decide (r.hasPixel x y))) = 1) ∧
      (∀ x y, (p.bboxA.hasPixel x y ∨ p.bboxB.hasPixel x y ∨ p.bboxC.hasPixel x y ∨
        p.bboxD.hasPixel x y ∨ p.bboxX.hasPixel x y) → bboxM.hasPixel x y) := by
  refine ⟨_, _, rfl, rfl, ?_⟩
  obtain ⟨ya, yb, xa, xb, hA, hB, hC, hD, hX, g1, g2, g3, g4, g5, g6⟩ :=
    peel_edges trimap _bounds mapStart _ 
      (minimalNonMarkedBbox_internal trimap roi _bounds mapStart flag).2 hM
  rw [hA, hB, hC, hD, hX]
  obtain ⟨hMx, hMy⟩ := (RectI.isNull_false_iff _).mp hM
  refine ⟨⟨rfl, rfl, rfl, rfl⟩, ⟨rfl, rfl, rfl, rfl⟩, ⟨rfl, rfl, rfl, rfl⟩,
    ⟨rfl, rfl, rfl, rfl⟩, ?_, ?_⟩
  · intro x y hxy
    simp only [RectI.hasPixel] at hxy
    simp only [List.countP_cons, List.countP_nil, RectI.hasPixel, decide_eq_true_eq]
    split_ifs <;> omega
  · intro x y h
    simp only [RectI.hasPixel] at h ⊢
    omega

/-- C21 at a concrete input: the 4×4 map whose centre 2×2 is rendered, queried on its
bounds. -/
theorem strip_edges_witness :
    (minimalNonMarkedBbox_internal false ⟨0, 0, 4, 4⟩ ⟨0, 0, 4, 4⟩
      [0, 0, 0, 0, 0, 1, 1, 0, 0, 1, 1, 0, 0, 0, 0, 0] false).1.isNull = false ∧
    ∃ (bboxM : RectI) (p : Peeled),
      bboxM = ⟨0, 0, 4, 4⟩ ∧
      p = ⟨⟨0, 0, 4, 1⟩, ⟨0, 3, 4, 4⟩, ⟨0, 1, 1, 3⟩, ⟨3, 1, 4, 3⟩, ⟨1, 1, 3, 3⟩, false⟩ ∧
      (∀ x y, bboxM.hasPixel x y →
        ([p.bboxA, p.bboxB, p.bboxC, p.bboxD, p.bboxX].countP
          (fun r => decide (r.hasPixel x y))) = 1) :=
  ⟨by decide,
    match strip_edges false ⟨0, 0, 4, 4⟩ ⟨0, 0, 4, 4⟩
      [0, 0, 0, 0, 0, 1, 1, 0, 0, 1, 1, 0, 0, 0, 0, 0] false (by decide) with
    | ⟨M, p, hM, hp, _, _, _, _, h1, _⟩ =>
      ⟨M, p, by rw [hM]; decide, by rw [hp, hM]; decide, h1⟩⟩

theorem not_blank_iff (trimap : Bool) (v : Nat) :
    ¬ blank trimap v ↔ v = 1 ∨ (trimap = true ∧ v = PIXEL_UNAVAILABLE) := by
  unfold blank
  constructor
  · intro h
    by_contra hc
    push_neg at hc
    exact h ⟨hc.1, hc.2⟩
  · rintro (h | ⟨ht, hv⟩) hb
    · exact hb.1 h
    · exact hb.2 ht hv

/-- C22, as stated, fails: the strips hold pixels that are not rendered, not covered ones.
On the 4×4 map whose centre 2×2 is rendered, queried on its bounds, the strips A, B, C, D
are the border of the map and are the list returned, and the pixels `(0, 0)` of A,
`(0, 3)` of B, `(0, 1)` of C and `(3, 1)` of D have the value 0. -/
theorem strips_not_covered :
    peel false ⟨0, 0, 4, 4⟩ [0, 0, 0, 0, 0, 1, 1, 0, 0, 1, 1, 0, 0, 0, 0, 0]
      (minimalNonMarkedBbox_internal false ⟨0, 0, 4, 4⟩ ⟨0, 0, 4, 4⟩
        [0, 0, 0, 0, 0, 1, 1, 0, 0, 1, 1, 0, 0, 0, 0, 0] false).1 false =
      ⟨⟨0, 0, 4, 1⟩, ⟨0, 3, 4, 4⟩, ⟨0, 1, 1, 3⟩, ⟨3, 1, 4, 3⟩, ⟨1, 1, 3, 3⟩, false⟩ ∧
    (minimalNonMarkedRects_internal false ⟨0, 0, 4, 4⟩ ⟨0, 0, 4, 4⟩
      [0, 0, 0, 0, 0, 1, 1, 0, 0, 1, 1, 0, 0, 0, 0, 0] [] false).1 =
      [⟨0, 0, 4, 1⟩, ⟨0, 3, 4, 4⟩, ⟨0, 1, 1, 3⟩, ⟨3, 1, 4, 3⟩] ∧
    (RectI.mk 0 0 4 1).hasPixel 0 0 ∧
    pixelAt ⟨0, 0, 4, 4⟩ [0, 0, 0, 0, 0, 1, 1, 0, 0, 1, 1, 0, 0, 0, 0, 0] 0 0 = 0 ∧
    (RectI.mk 0 3 4 4).hasPixel 0 3 ∧
    pixelAt ⟨0, 0, 4, 4⟩ [0, 0, 0, 0, 0, 1, 1, 0, 0, 1, 1, 0, 0, 0, 0, 0] 0 3 = 0 ∧
    (RectI.mk 0 1 1 3).hasPixel 0 1 ∧
    pixelAt ⟨0, 0, 4, 4⟩ [0, 0, 0, 0, 0, 1, 1, 0, 0, 1, 1, 0, 0, 0, 0, 0] 0 1 = 0 ∧
    (RectI.mk 3 1 4 3).hasPixel 3 1 ∧
    pixelAt ⟨0, 0, 4, 4⟩ [0, 0, 0, 0, 0, 1, 1, 0, 0, 1, 1, 0, 0, 0, 0, 0] 3 1 = 0 := by
  decide

/-- C22, amended. The strips A, B, C, D are the maximal border strips of `bboxM` that hold
no rendered pixel: for every map and every `roi` with a non-empty `bboxM`, no pixel inside
A, B, C or D has the value 1, nor in trimap mode the value `PIXEL_UNAVAILABLE`; and when
the interior X left by the peeling is not empty, its bottom row, its top row, its left
column and its right column each hold a pixel with the value 1 or, in trimap mode, with
the value `PIXEL_UNAVAILABLE`. -/
theorem strips_hold_no_rendered_pixel (trimap : Bool) (roi _bounds : RectI)
    (mapStart : List Nat) (flag : Bool)
    (hM : (minimalNonMarkedBbox_internal trimap roi _bounds mapStart flag).1.isNull = false) :
    ∃ (bboxM : RectI) (p : Peeled),
      bboxM = (minimalNonMarkedBbox_internal trimap roi _bounds mapStart flag).1 ∧
      p = peel trimap _bounds mapStart bboxM
        (minimalNonMarkedBbox_internal trimap roi _bounds mapStart flag).2 ∧
      (∀ x y, (p.bboxA.hasPixel x y ∨ p.bboxB.hasPixel x y ∨ p.bboxC.hasPixel x y ∨
          p.bboxD.hasPixel x y) →
        pixelAt _bounds mapStart x y ≠ 1 ∧
        (trimap = true → pixelAt _bounds mapStart x y ≠ PIXEL_UNAVAILABLE)) ∧
      (p.bboxX.isNull = false →
        (∃ x, p.bboxX.x1 ≤ x ∧ x < p.bboxX.x2 ∧
          (pixelAt _bounds mapStart x p.bboxX.y1 = 1 ∨
            (trimap = true ∧ pixelAt _bounds mapStart x p.bboxX.y1 = PIXEL_UNAVAILABLE))) ∧
        (∃ x, p.bboxX.x1 ≤ x ∧ x < p.bboxX.x2 ∧
          (pixelAt _bounds mapStart x (p.bboxX.y2 - 1) = 1 ∨
            (trimap = true ∧
              pixelAt _bounds mapStart x (p.bboxX.y2 - 1) = PIXEL_UNAVAILABLE))) ∧
        (∃ y, p.bboxX.y1 ≤ y ∧ y < p.bboxX.y2 ∧
          (pixelAt _bounds mapStart p.bboxX.x1 y = 1 ∨
            (trimap = true ∧ pixelAt _bounds mapStart p.bboxX.x1 y = PIXEL_UNAVAILABLE))) ∧
        (∃ y, p.bboxX.y1 ≤ y ∧ y < p.bboxX.y2 ∧
          (pixelAt _bounds mapStart (p.bboxX.x2 - 1) y = 1 ∨
            (trimap = true ∧
              pixelAt _bounds mapStart (p.bboxX.x2 - 1) y = PIXEL_UNAVAILABLE)))) := by
  refine ⟨_, _, rfl, rfl, ?_, ?_⟩
  · intro x y h
    exact peel_blank trimap _bounds mapStart _ _ hM x y h
  · intro hX
    obtain ⟨⟨x1, a1, b1, c1⟩, ⟨x2, a2, b2, c2⟩, ⟨y3, a3, b3, c3⟩, ⟨y4, a4, b4, c4⟩⟩ :=
      peel_maximal trimap _bounds mapStart _ _ hM hX
    exact ⟨⟨x1, a1, b1, (not_blank_iff _ _).mp c1⟩, ⟨x2, a2, b2, (not_blank_iff _ _).mp c2⟩,
      ⟨y3, a3, b3, (not_blank_iff _ _).mp c3⟩, ⟨y4, a4, b4, (not_blank_iff _ _).mp c4⟩⟩

/-- C22 amended, at a concrete input: the 4×4 map whose centre 2×2 is rendered, queried on
its bounds; the pixel `(0, 0)` of the strip A is not 1. -/
theorem strips_hold_no_rendered_pixel_witness :
    (minimalNonMarkedBbox_internal false ⟨0, 0, 4, 4⟩ ⟨0, 0, 4, 4⟩
      [0, 0, 0, 0, 0, 1, 1, 0, 0, 1, 1, 0, 0, 0, 0, 0] false).1.isNull = false ∧
    pixelAt ⟨0, 0, 4, 4⟩ [0, 0, 0, 0, 0, 1, 1, 0, 0, 1, 1, 0, 0, 0, 0, 0] 0 0 ≠ 1 :=
  ⟨by decide,
    match strips_hold_no_rendered_pixel false ⟨0, 0, 4, 4⟩ ⟨0, 0, 4, 4⟩
      [0, 0, 0, 0, 0, 1, 1, 0, 0, 1, 1, 0, 0, 0, 0, 0] false (by decide) with
    | ⟨_, p, hM, hp, h1, _⟩ =>
      (h1 0 0 (Or.inl (by rw [hp, hM]; decide))).1⟩

theorem pixelAt_mem_or_zero (_bounds : RectI) (mapStart : List Nat) (x y : Int) :
    pixelAt _bounds mapStart x y ∈ mapStart ∨ pixelAt _bounds mapStart x y = 0 :=
  peek_mem_or_zero mapStart _

theorem blank_zero (trimap : Bool) (v : Nat)
    (hv : v = 0 ∨ v = 1 ∨ (trimap = true ∧ v = PIXEL_UNAVAILABLE)) (hb : blank trimap v) :
    v = 0 := by
  rcases hv with h | h | ⟨ht, h⟩
  · exact h
  · exact absurd h hb.1
  · exact absurd h (hb.2 ht)

theorem not_blank_ne_zero (trimap : Bool) (v : Nat) (h : ¬ blank trimap v) : v ≠ 0 := by
  intro h0
  apply h
  rw [h0]
  exact ⟨by decide, fun _ => by decide⟩

/-- C23. On a map whose bytes are 0 or 1, or in trimap mode 0, 1 or `PIXEL_UNAVAILABLE`,
for every `roi` with a non-empty `bboxM`: every pixel inside the strips A, B, C, D has the
value 0, and the strips are maximal: unless the interior X left by the peeling is empty,
its bottom row (next to A), its top row (next to B), its left column (next to C) and its
right column (next to D) each hold a non-zero pixel. -/
theorem strips_are_zeroes (trimap : Bool) (roi _bounds : RectI) (mapStart : List Nat)
    (flag : Bool)
    (hbytes : ∀ v ∈ mapStart, v = 0 ∨ v = 1 ∨ (trimap = true ∧ v = PIXEL_UNAVAILABLE))
    (hM : (minimalNonMarkedBbox_internal trimap roi _bounds mapStart flag).1.isNull = false) :
    ∃ (bboxM : RectI) (p : Peeled),
      bboxM = (minimalNonMarkedBbox_internal trimap roi _bounds mapStart flag).1 ∧
      p = peel trimap _bounds mapStart bboxM
        (minimalNonMarkedBbox_internal trimap roi _bounds mapStart flag).2 ∧
      (∀ x y, (p.bboxA.hasPixel x y ∨ p.bboxB.hasPixel x y ∨ p.bboxC.hasPixel x y ∨
          p.bboxD.hasPixel x y) → pixelAt _bounds mapStart x y = 0) ∧
      (p.bboxX.isNull = false →
        (∃ x, p.bboxX.x1 ≤ x ∧ x < p.bboxX.x2 ∧ pixelAt _bounds mapStart x p.bboxX.y1 ≠ 0) ∧
        (∃ x, p.bboxX.x1 ≤ x ∧ x < p.bboxX.x2 ∧
          pixelAt _bounds mapStart x (p.bboxX.y2 - 1) ≠ 0) ∧
        (∃ y, p.bboxX.y1 ≤ y ∧ y < p.bboxX.y2 ∧ pixelAt _bounds mapStart p.bboxX.x1 y ≠ 0) ∧
        (∃ y, p.bboxX.y1 ≤ y ∧ y < p.bboxX.y2 ∧
          pixelAt _bounds mapStart (p.bboxX.x2 - 1) y ≠ 0)) := by
  refine ⟨_, _, rfl, rfl, ?_, ?_⟩
  · intro x y h
    apply blank_zero trimap _ _ (peel_blank trimap _bounds mapStart _ _ hM x y h)
    rcases pixelAt_mem_or_zero _bounds mapStart x y with hm | h0
    · exact hbytes _ hm
    · exact Or.inl h0
  · intro hX
    obtain ⟨⟨x1, a1, b1, c1⟩, ⟨x2, a2, b2, c2⟩, ⟨y3, a3, b3, c3⟩, ⟨y4, a4, b4, c4⟩⟩ :=
      peel_maximal trimap _bounds mapStart _ _ hM hX
    exact ⟨⟨x1, a1, b1, not_blank_ne_zero _ _ c1⟩, ⟨x2, a2, b2, not_blank_ne_zero _ _ c2⟩,
      ⟨y3, a3, b3, not_blank_ne_zero _ _ c3⟩, ⟨y4, a4, b4, not_blank_ne_zero _ _ c4⟩⟩

/-- C23 at a concrete input, in trimap mode: the 4×4 map whose row 1 is `0 1 2 0` and whose
row 2 is `0 1 1 0`, queried on its bounds. The strips are the border of the map, the
interior X is `[1,3) × [1,3)`. -/
theorem strips_are_zeroes_witness :
    (∀ v ∈ [0, 0, 0, 0, 0, 1, 2, 0, 0, 1, 1, 0, 0, 0, 0, 0],
      v = 0 ∨ v = 1 ∨ (true = true ∧ v = PIXEL_UNAVAILABLE)) ∧
    (minimalNonMarkedBbox_internal true ⟨0, 0, 4, 4⟩ ⟨0, 0, 4, 4⟩
      [0, 0, 0, 0, 0, 1, 2, 0, 0, 1, 1, 0, 0, 0, 0, 0] false).1.isNull = false ∧
    ∃ p : Peeled,
      p = ⟨⟨0, 0, 4, 1⟩, ⟨0, 3, 4, 4⟩, ⟨0, 1, 1, 3⟩, ⟨3, 1, 4, 3⟩, ⟨1, 1, 3, 3⟩, true⟩ ∧
      (∀ x y, (p.bboxA.hasPixel x y ∨ p.bboxB.hasPixel x y ∨ p.bboxC.hasPixel x y ∨
          p.bboxD.hasPixel x y) →
        pixelAt ⟨0, 0, 4, 4⟩ [0, 0, 0, 0, 0, 1, 2, 0, 0, 1, 1, 0, 0, 0, 0, 0] x y = 0) :=
  ⟨by decide, by decide,
    match strips_are_zeroes true ⟨0, 0, 4, 4⟩ ⟨0, 0, 4, 4⟩
      [0, 0, 0, 0, 0, 1, 2, 0, 0, 1, 1, 0, 0, 0, 0, 0] false (by decide) (by decide) with
    | ⟨_, p, hM, hp, h1, _⟩ => ⟨p, by rw [hp, hM]; decide, h1⟩⟩

/-! ## Two-state maps -/

theorem peek_two_state (mapStart : List Nat) (hbytes : ∀ v ∈ mapStart, v = 0 ∨ v = 1)
    (off : Int) : peek mapStart off = 0 ∨ peek mapStart off = 1 := by
  rcases peek_mem_or_zero mapStart off with h | h
  · exact hbytes _ h
  · exact Or.inl h

theorem rowScanTrimap_two_state (mapStart : List Nat)
    (h01 : ∀ off, peek mapStart off = 0 ∨ peek mapStart off = 1) :
    ∀ (n : Nat) (buf : Int) (met : Bool),
    rowScanTrimap mapStart n buf met = (rowScanPlain mapStart n buf, met) := by
  intro n
  induction n with
  | zero => intro buf met; rfl
  | succ n ih =>
    intro buf met
    rw [rowScanTrimap, rowScanPlain]
    rcases h01 buf with h | h
    · simp [h]
    · simp [h, PIXEL_UNAVAILABLE, ih]

theorem rowScan_two_state (_bounds : RectI) (mapStart : List Nat)
    (h01 : ∀ off, peek mapStart off = 0 ∨ peek mapStart off = 1) (bbox : RectI) (i : Int) :
    rowScan true _bounds mapStart bbox i = rowScan false _bounds mapStart bbox i := by
  unfold rowScan
  simp only [if_true, Bool.false_eq_true, if_false]
  exact rowScanTrimap_two_state mapStart h01 _ _ _

theorem colScan_two_state (mapStart : List Nat)
    (h01 : ∀ off, peek mapStart off = 0 ∨ peek mapStart off = 1) (stride : Int) :
    ∀ (n : Nat) (pix : Int) (met : Bool),
    colScan true mapStart stride n pix met = colScan false mapStart stride n pix met := by
  intro n
  induction n with
  | zero => intro pix met; rfl
  | succ n ih =>
    intro pix met
    rw [colScan, colScan]
    rcases h01 pix with h | h
    · simp [h]
    · simp [h, PIXEL_UNAVAILABLE, ih]

theorem colScan_plain_snd (mapStart : List Nat) (stride : Int) :
    ∀ (n : Nat) (pix : Int) (met : Bool),
    (colScan false mapStart stride n pix met).2 = met := by
  intro n
  induction n with
  | zero => intro pix met; rfl
  | succ n ih =>
    intro pix met
    rw [colScan]
    simp only [Bool.false_eq_true, if_false]
    split_ifs
    · rfl
    · rfl
    · exact ih _ _

theorem colTest_two_state (_bounds : RectI) (mapStart : List Nat)
    (h01 : ∀ off, peek mapStart off = 0 ∨ peek mapStart off = 1) (bbox : RectI) (j : Int) :
    colTest true _bounds mapStart bbox j = colTest false _bounds mapStart bbox j :=
  colScan_two_state mapStart h01 _ _ _ _

theorem rowScan_plain_snd (_bounds : RectI) (mapStart : List Nat) (bbox : RectI) (i : Int) :
    (rowScan false _bounds mapStart bbox i).2 = false := rfl

theorem colTest_plain_snd (_bounds : RectI) (mapStart : List Nat) (bbox : RectI) (j : Int) :
    (colTest false _bounds mapStart bbox j).2 = false :=
  colScan_plain_snd mapStart _ _ _ _

theorem findBottom_two_state (_bounds : RectI) (mapStart : List Nat)
    (h01 : ∀ off, peek mapStart off = 0 ∨ peek mapStart off = 1) :
    ∀ (fuel : Nat) (i : Int) (bbox : RectI) (flag : Bool),
    findBottom true _bounds mapStart fuel i bbox flag =
      findBottom false _bounds mapStart fuel i bbox flag := by
  intro fuel
  induction fuel with
  | zero => intro i bbox flag; rfl
  | succ fuel ih =>
    intro i bbox flag
    rw [findBottom, findBottom, rowScan_two_state _bounds mapStart h01]
    have hs := rowScan_plain_snd _bounds mapStart bbox i
    generalize rowScan false _bounds mapStart bbox i = res at hs
    obtain ⟨ok, met⟩ := res
    simp only at hs
    subst hs
    cases ok
    · rfl
    · simp only [ih]; rfl

theorem findTop_two_state (_bounds : RectI) (mapStart : List Nat)
    (h01 : ∀ off, peek mapStart off = 0 ∨ peek mapStart off = 1) :
    ∀ (fuel : Nat) (i : Int) (bbox : RectI) (flag : Bool),
    findTop true _bounds mapStart fuel i bbox flag =
      findTop false _bounds mapStart fuel i bbox flag := by
  intro fuel
  induction fuel with
  | zero => intro i bbox flag; rfl
  | succ fuel ih =>
    intro i bbox flag
    rw [findTop, findTop, rowScan_two_state _bounds mapStart h01]
    have hs := rowScan_plain_snd _bounds mapStart bbox i
    generalize rowScan false _bounds mapStart bbox i = res at hs
    obtain ⟨ok, met⟩ := res
    simp only at hs
    subst hs
    cases ok
    · rfl
    · simp only [ih]; rfl

theorem findLeft_two_state (_bounds : RectI) (mapStart : List Nat)
    (h01 : ∀ off, peek mapStart off = 0 ∨ peek mapStart off = 1) :
    ∀ (fuel : Nat) (j : Int) (bbox : RectI) (flag : Bool),
    findLeft true _bounds mapStart fuel j bbox flag =
      findLeft false _bounds mapStart fuel j bbox flag := by
  intro fuel
  induction fuel with
  | zero => intro j bbox flag; rfl
  | succ fuel ih =>
    intro j bbox flag
    rw [findLeft, findLeft, colTest_two_state _bounds mapStart h01]
    have hs := colTest_plain_snd _bounds mapStart bbox j
    generalize colTest false _bounds mapStart bbox j = res at hs
    obtain ⟨ok, met⟩ := res
    simp only at hs
    subst hs
    cases ok
    · rfl
    · simp only [ih]; rfl

theorem findRight_two_state (_bounds : RectI) (mapStart : List Nat)
    (h01 : ∀ off, peek mapStart off = 0 ∨ peek mapStart off = 1) :
    ∀ (fuel : Nat) (j : Int) (bbox : RectI) (flag : Bool),
    findRight true _bounds mapStart fuel j bbox flag =
      findRight false _bounds mapStart fuel j bbox flag := by
  intro fuel
  induction fuel with
  | zero => intro j bbox flag; rfl
  | succ fuel ih =>
    intro j bbox flag
    rw [findRight, findRight, colTest_two_state _bounds mapStart h01]
    have hs := colTest_plain_snd _bounds mapStart bbox j
    generalize colTest false _bounds mapStart bbox j = res at hs
    obtain ⟨ok, met⟩ := res
    simp only at hs
    subst hs
    cases ok
    · rfl
    · simp only [ih]; rfl

theorem bbox_two_state (roi _bounds : RectI) (mapStart : List Nat)
    (h01 : ∀ off, peek mapStart off = 0 ∨ peek mapStart off = 1) (flag : Bool) :
    minimalNonMarkedBbox_internal true roi _bounds mapStart flag =
      minimalNonMarkedBbox_internal false roi _bounds mapStart flag := by
  unfold minimalNonMarkedBbox_internal
  simp only [findBottom_two_state _bounds mapStart h01, findTop_two_state _bounds mapStart h01,
    findLeft_two_state _bounds mapStart h01, findRight_two_state _bounds mapStart h01]

theorem stripRowTrimap_two_state (mapStart : List Nat)
    (h01 : ∀ off, peek mapStart off = 0 ∨ peek mapStart off = 1) :
    ∀ (n : Nat) (buf : Int),
    stripRowTrimap mapStart n buf = ((memchr mapStart 1 n buf).isNone, false) := by
  intro n
  induction n with
  | zero => intro buf; rfl
  | succ n ih =>
    intro buf
    rw [stripRowTrimap, memchr]
    rcases h01 buf with h | h
    · simp [h, PIXEL_UNAVAILABLE, ih]
    · simp [h]

theorem stripRow_two_state (_bounds : RectI) (mapStart : List Nat)
    (h01 : ∀ off, peek mapStart off = 0 ∨ peek mapStart off = 1) (bboxX : RectI) (i : Int) :
    stripRow true _bounds mapStart bboxX i = stripRow false _bounds mapStart bboxX i := by
  unfold stripRow
  simp only [if_true, Bool.false_eq_true, if_false]
  exact stripRowTrimap_two_state mapStart h01 _ _

theorem stripColScan_two_state (mapStart : List Nat)
    (h01 : ∀ off, peek mapStart off = 0 ∨ peek mapStart off = 1) (stride : Int) :
    ∀ (n : Nat) (pix : Int),
    stripColScan true mapStart stride n pix = stripColScan false mapStart stride n pix := by
  intro n
  induction n with
  | zero => intro pix; rfl
  | succ n ih =>
    intro pix
    rw [stripColScan, stripColScan]
    rcases h01 pix with h | h
    · simp [h, PIXEL_UNAVAILABLE, ih]
    · simp [h]

theorem stripCol_two_state (_bounds : RectI) (mapStart : List Nat)
    (h01 : ∀ off, peek mapStart off = 0 ∨ peek mapStart off = 1) (bboxX : RectI) (j : Int) :
    stripCol true _bounds mapStart bboxX j = stripCol false _bounds mapStart bboxX j :=
  stripColScan_two_state mapStart h01 _ _ _

theorem findA_two_state (_bounds : RectI) (mapStart : List Nat)
    (h01 : ∀ off, peek mapStart off = 0 ∨ peek mapStart off = 1) :
    ∀ (fuel : Nat) (i : Int) (bboxX bboxA : RectI) (flag : Bool),
    findA true _bounds mapStart fuel i bboxX bboxA flag =
      findA false _bounds mapStart fuel i bboxX bboxA flag := by
  intro fuel
  induction fuel with
  | zero => intro i bboxX bboxA flag; rfl
  | succ fuel ih =>
    intro i bboxX bboxA flag
    rw [findA, findA, stripRow_two_state _bounds mapStart h01]
    simp only [ih]

theorem findB_two_state (_bounds : RectI) (mapStart : List Nat)
    (h01 : ∀ off, peek mapStart off = 0 ∨ peek mapStart off = 1) :
    ∀ (fuel : Nat) (i : Int) (bboxX bboxB : RectI) (flag : Bool),
    findB true _bounds mapStart fuel i bboxX bboxB flag =
      findB false _bounds mapStart fuel i bboxX bboxB flag := by
  intro fuel
  induction fuel with
  | zero => intro i bboxX bboxB flag; rfl
  | succ fuel ih =>
    intro i bboxX bboxB flag
    rw [findB, findB, stripRow_two_state _bounds mapStart h01]
    simp only [ih]

theorem findC_two_state (_bounds : RectI) (mapStart : List Nat)
    (h01 : ∀ off, peek mapStart off = 0 ∨ peek mapStart off = 1) :
    ∀ (fuel : Nat) (j : Int) (bboxX bboxC : RectI) (flag : Bool),
    findC true _bounds mapStart fuel j bboxX bboxC flag =
      findC false _bounds mapStart fuel j bboxX bboxC flag := by
  intro fuel
  induction fuel with
  | zero => intro j bboxX bboxC flag; rfl
  | succ fuel ih =>
    intro j bboxX bboxC flag
    rw [findC, findC, stripCol_two_state _bounds mapStart h01]
    simp only [ih]

theorem findD_two_state (_bounds : RectI) (mapStart : List Nat)
    (h01 : ∀ off, peek mapStart off = 0 ∨ peek mapStart off = 1) :
    ∀ (fuel : Nat) (j : Int) (bboxX bboxD : RectI) (flag : Bool),
    findD true _bounds mapStart fuel j bboxX bboxD flag =
      findD false _bounds mapStart fuel j bboxX bboxD flag := by
  intro fuel
  induction fuel with
  | zero => intro j bboxX bboxD flag; rfl
  | succ fuel ih =>
    intro j bboxX bboxD flag
    rw [findD, findD, stripCol_two_state _bounds mapStart h01]
    simp only [ih]

theorem peel_two_state (_bounds : RectI) (mapStart : List Nat)
    (h01 : ∀ off, peek mapStart off = 0 ∨ peek mapStart off = 1) (bboxM : RectI)
    (flag : Bool) :
    peel true _bounds mapStart bboxM flag = peel false _bounds mapStart bboxM flag := by
  unfold peel
  simp only [findA_two_state _bounds mapStart h01, findB_two_state _bounds mapStart h01,
    findC_two_state _bounds mapStart h01, findD_two_state _bounds mapStart h01]

theorem pushInBounds_two_state (_bounds : RectI) (mapStart : List Nat)
    (h01 : ∀ off, peek mapStart off = 0 ∨ peek mapStart off = 1) (bboxM : RectI)
    (ret : List RectI) (flag : Bool) :
    pushInBounds true _bounds mapStart bboxM ret flag =
      pushInBounds false _bounds mapStart bboxM ret flag := by
  unfold pushInBounds
  rw [peel_two_state _bounds mapStart h01]
  simp only
  rw [bbox_two_state _ _bounds mapStart h01]

theorem rects_two_state (roi _bounds : RectI) (mapStart : List Nat)
    (h01 : ∀ off, peek mapStart off = 0 ∨ peek mapStart off = 1) (ret : List RectI)
    (flag : Bool) :
    minimalNonMarkedRects_internal true roi _bounds mapStart ret flag =
      minimalNonMarkedRects_internal false roi _bounds mapStart ret flag := by
  rw [rects_unfold, rects_unfold]
  cases roi.intersect _bounds with
  | none => rfl
  | some i =>
    simp only
    rw [bbox_two_state i _bounds mapStart h01, pushInBounds_two_state _bounds mapStart h01]

theorem bbox_plain_flag (roi _bounds : RectI) (mapStart : List Nat) (flag : Bool) :
    (minimalNonMarkedBbox_internal false roi _bounds mapStart flag).2 = flag := by
  cases flag
  · cases h : (minimalNonMarkedBbox_internal false roi _bounds mapStart false).2
    · rfl
    · rcases bbox_flag_upper false roi _bounds mapStart false h with h1 | ⟨h1, -⟩ <;> cases h1
  · exact bbox_flag_mono false roi _bounds mapStart true rfl

theorem rects_plain_flag (roi _bounds : RectI) (mapStart : List Nat) (ret : List RectI) :
    (minimalNonMarkedRects_internal false roi _bounds mapStart ret false).2 = false := by
  cases h : (minimalNonMarkedRects_internal false roi _bounds mapStart ret false).2
  · rfl
  · rcases rects_flag_upper false roi _bounds mapStart ret false h with h1 | ⟨h1, -⟩ <;> cases h1

/-- C24. On a map whose bytes are all 0 or 1, for every `roi`: `minimalNonMarkedBbox_internal`
returns the same rectangle in trimap mode as in non-trimap mode, and
`minimalNonMarkedRects_internal` the same list, whatever the list on entry; and a flag
`*isBeingRenderedElsewhere` that was false on entry is false on return. The same holds
for the methods of `Bitmap`, with or without a dirty zone. -/
theorem trimap_agrees_on_two_state_maps (roi _bounds : RectI) (mapStart : List Nat)
    (ret : List RectI) (dirtyZone : RectI) (dirtyZoneSet : Bool)
    (hbytes : ∀ v ∈ mapStart, v = 0 ∨ v = 1) :
    (minimalNonMarkedBbox_internal true roi _bounds mapStart false).1 =
      (minimalNonMarkedBbox_internal false roi _bounds mapStart false).1 ∧
    (minimalNonMarkedBbox_internal true roi _bounds mapStart false).2 = false ∧
    (minimalNonMarkedRects_internal true roi _bounds mapStart ret false).1 =
      (minimalNonMarkedRects_internal false roi _bounds mapStart ret false).1 ∧
    (minimalNonMarkedRects_internal true roi _bounds mapStart ret false).2 = false ∧
    (Bitmap.mk _bounds mapStart dirtyZone dirtyZoneSet).minimalNonMarkedBbox_trimap roi false =
      ((Bitmap.mk _bounds mapStart dirtyZone dirtyZoneSet).minimalNonMarkedBbox roi, false) ∧
    (Bitmap.mk _bounds mapStart dirtyZone dirtyZoneSet).minimalNonMarkedRects_trimap roi ret
        false =
      ((Bitmap.mk _bounds mapStart dirtyZone dirtyZoneSet).minimalNonMarkedRects roi ret,
        false) := by
  have h01 := peek_two_state mapStart hbytes
  have hb : ∀ r, minimalNonMarkedBbox_internal true r _bounds mapStart false =
      ((minimalNonMarkedBbox_internal false r _bounds mapStart false).1, false) := by
    intro r
    rw [bbox_two_state r _bounds mapStart h01 false]
    exact Prod.ext rfl (bbox_plain_flag r _bounds mapStart false)
  have hr : ∀ r, minimalNonMarkedRects_internal true r _bounds mapStart ret false =
      ((minimalNonMarkedRects_internal false r _bounds mapStart ret false).1, false) := by
    intro r
    rw [rects_two_state r _bounds mapStart h01 ret false]
    exact Prod.ext rfl (rects_plain_flag r _bounds mapStart ret)
  refine ⟨by rw [hb], by rw [hb], by rw [hr], by rw [hr], ?_, ?_⟩
  · unfold Bitmap.minimalNonMarkedBbox_trimap Bitmap.minimalNonMarkedBbox
    simp only
    cases dirtyZoneSet
    · simp only [Bool.false_eq_true, if_false]
      exact hb roi
    · simp only [if_true]
      cases roi.intersect dirtyZone with
      | none => rfl
      | some realRoi => exact hb realRoi
  · unfold Bitmap.minimalNonMarkedRects_trimap Bitmap.minimalNonMarkedRects
    simp only
    cases dirtyZoneSet
    · simp only [Bool.false_eq_true, if_false]
      exact hr roi
    · simp only [if_true]
      cases roi.intersect dirtyZone with
      | none => rfl
      | some realRoi => exact hr realRoi

/-- C24 at a concrete input: the 4×4 map whose centre 2×2 is rendered, queried on its
bounds in both modes. -/
theorem trimap_agrees_on_two_state_maps_witness :
    (∀ v ∈ [0, 0, 0, 0, 0, 1, 1, 0, 0, 1, 1, 0, 0, 0, 0, 0], v = 0 ∨ v = 1) ∧
    (minimalNonMarkedRects_internal false ⟨0, 0, 4, 4⟩ ⟨0, 0, 4, 4⟩
      [0, 0, 0, 0, 0, 1, 1, 0, 0, 1, 1, 0, 0, 0, 0, 0] [] false).1 =
      [⟨0, 0, 4, 1⟩, ⟨0, 3, 4, 4⟩, ⟨0, 1, 1, 3⟩, ⟨3, 1, 4, 3⟩] ∧
    (minimalNonMarkedRects_internal true ⟨0, 0, 4, 4⟩ ⟨0, 0, 4, 4⟩
      [0, 0, 0, 0, 0, 1, 1, 0, 0, 1, 1, 0, 0, 0, 0, 0] [] false).1 =
      (minimalNonMarkedRects_internal false ⟨0, 0, 4, 4⟩ ⟨0, 0, 4, 4⟩
        [0, 0, 0, 0, 0, 1, 1, 0, 0, 1, 1, 0, 0, 0, 0, 0] [] false).1 :=
  ⟨by decide, by decide,
    (trimap_agrees_on_two_state_maps ⟨0, 0, 4, 4⟩ ⟨0, 0, 4, 4⟩
      [0, 0, 0, 0, 0, 1, 1, 0, 0, 1, 1, 0, 0, 0, 0, 0] [] RectI.zero false (by decide)).2.2.1⟩

/-! ## Non-empty and disjoint rectangles -/

theorem pushOutOfBounds_eq_filter (roi _bounds i : RectI) :
    pushOutOfBounds roi _bounds i [] =
      if roi ≠ i then
        [sliverLeft roi _bounds, sliverBtm roi _bounds, sliverRight roi _bounds,
          sliverTop roi _bounds].filter (fun r => !r.isNull)
      else [] := by
  unfold pushOutOfBounds
  by_cases hne : roi ≠ i
  · rw [if_pos hne, if_pos hne]
    have e1 : (sliverLeft roi _bounds).isNull = false ↔
        (_bounds.x1 > roi.x1 ∧ _bounds.y2 > _bounds.y1) := by
      rw [RectI.isNull_false_iff]; rfl
    have e2 : (sliverBtm roi _bounds).isNull = false ↔
        (roi.x2 > roi.x1 ∧ _bounds.y1 > roi.y1) := by
      rw [RectI.isNull_false_iff]; rfl
    have e3 : (sliverRight roi _bounds).isNull = false ↔
        (roi.x2 > _bounds.x2 ∧ _bounds.y2 > _bounds.y1) := by
      rw [RectI.isNull_false_iff]; rfl
    have e4 : (sliverTop roi _bounds).isNull = false ↔
        (roi.x2 > roi.x1 ∧ roi.y2 > _bounds.y2) := by
      rw [RectI.isNull_false_iff]; rfl
    simp only [← e1, ← e2, ← e3, ← e4]
    cases h1 : (sliverLeft roi _bounds).isNull <;> cases h2 : (sliverBtm roi _bounds).isNull <;>
      cases h3 : (sliverRight roi _bounds).isNull <;>
      cases h4 : (sliverTop roi _bounds).isNull <;>
      simp [List.filter, h1, h2, h3, h4, sliverLeft, sliverBtm, sliverRight, sliverTop] <;>
      simp_all [sliverLeft, sliverBtm, sliverRight, sliverTop]
  · rw [if_neg hne, if_neg hne]

theorem slivers_disjoint (roi _bounds : RectI)
    (hb : _bounds.x1 ≤ _bounds.x2 ∧ _bounds.y1 ≤ _bounds.y2) :
    List.Pairwise RectI.disjoint [sliverLeft roi _bounds, sliverBtm roi _bounds,
      sliverRight roi _bounds, sliverTop roi _bounds] := by
  simp only [List.pairwise_cons, List.mem_cons, List.mem_singleton, List.not_mem_nil,
    or_false, forall_eq_or_imp, forall_eq, List.Pairwise.nil, and_true, RectI.disjoint,
    RectI.hasPixel, IsEmpty.forall_iff, implies_true, sliverLeft, sliverBtm, sliverRight,
    sliverTop]
  refine ⟨⟨?_, ?_, ?_⟩, ⟨?_, ?_⟩, ?_⟩ <;> intro x y <;> omega

theorem inBounds_disjoint (trimap : Bool) (_bounds : RectI) (mapStart : List Nat) (M : RectI)
    (flag : Bool) (hM : M.isNull = false) :
    List.Pairwise RectI.disjoint
      [(peel trimap _bounds mapStart M flag).bboxA, (peel trimap _bounds mapStart M flag).bboxB,
        (peel trimap _bounds mapStart M flag).bboxC, (peel trimap _bounds mapStart M flag).bboxD,
        (minimalNonMarkedBbox_internal trimap (peel trimap _bounds mapStart M flag).bboxX
          _bounds mapStart (peel trimap _bounds mapStart M flag).flag).1] := by
  obtain ⟨ya, yb, xa, xb, hA, hB, hC, hD, hX, g1, g2, g3, g4, g5, g6⟩ :=
    peel_edges trimap _bounds mapStart M flag hM
  have hXc := bbox_contained trimap (peel trimap _bounds mapStart M flag).bboxX _bounds mapStart
    (peel trimap _bounds mapStart M flag).flag
  generalize (minimalNonMarkedBbox_internal trimap (peel trimap _bounds mapStart M flag).bboxX
    _bounds mapStart (peel trimap _bounds mapStart M flag).flag).1 = X at hXc ⊢
  rw [hX] at hXc
  rw [hA, hB, hC, hD]
  simp only [RectI.contains, Bool.and_eq_true, decide_eq_true_eq] at hXc
  simp only [List.pairwise_cons, List.mem_cons, List.mem_singleton, List.not_mem_nil,
    or_false, forall_eq_or_imp, forall_eq, List.Pairwise.nil, and_true, RectI.disjoint,
    RectI.hasPixel, IsEmpty.forall_iff, implies_true]
  refine ⟨⟨?_, ?_, ?_, ?_⟩, ⟨?_, ?_, ?_⟩, ⟨?_, ?_⟩, ?_⟩ <;> intro x y <;> omega

theorem rects_nonempty_disjoint (trimap : Bool) (roi _bounds : RectI) (mapStart : List Nat)
    (flag : Bool) (hb : _bounds.x1 ≤ _bounds.x2 ∧ _bounds.y1 ≤ _bounds.y2) :
    (∀ r ∈ (minimalNonMarkedRects_internal trimap roi _bounds mapStart [] flag).1,
      r.isNull = false) ∧
    List.Pairwise RectI.disjoint
      (minimalNonMarkedRects_internal trimap roi _bounds mapStart [] flag).1 := by
  have hsl : ∀ i, (∀ r ∈ pushOutOfBounds roi _bounds i [], r.isNull = false) ∧
      List.Pairwise RectI.disjoint (pushOutOfBounds roi _bounds i []) ∧
      (∀ r ∈ pushOutOfBounds roi _bounds i [], ∀ x y, r.hasPixel x y →
        ¬ _bounds.hasPixel x y) := by
    intro i
    refine ⟨?_, ?_, ?_⟩
    · intro r hr
      rw [pushOutOfBounds_eq_filter] at hr
      split_ifs at hr
      · simpa using (List.mem_filter.mp hr).2
      · cases hr
    · rw [pushOutOfBounds_eq_filter]
      split_ifs
      · exact (slivers_disjoint roi _bounds hb).filter _
      · exact List.Pairwise.nil
    · intro r hr
      rw [pushOutOfBounds_mem] at hr
      rcases hr with hr | ⟨-, hr⟩
      · cases hr
      · exact (sliver_props roi _bounds r hr).2.1
  rw [rects_unfold]
  cases hi : roi.intersect _bounds with
  | none => exact ⟨(hsl _).1, (hsl _).2.1⟩
  | some i =>
    simp only
    obtain ⟨s1, s2, s3⟩ := hsl i
    rw [pushInBounds_eq]
    have hib := (RectI.contains_of_intersect roi _bounds i hi).2
    have hMi := bbox_contained trimap i _bounds mapStart flag
    cases hM : (minimalNonMarkedBbox_internal trimap i _bounds mapStart flag).1.isNull
    · simp only [Bool.false_eq_true, if_false]
      refine ⟨?_, ?_⟩
      · intro r hr
        rcases List.mem_append.mp hr with hr | hr
        · exact s1 r hr
        · simpa using (List.mem_filter.mp hr).2
      · rw [List.pairwise_append]
        refine ⟨s2, (inBounds_disjoint trimap _bounds mapStart _ _ hM).filter _, ?_⟩
        intro a ha c hc x y ⟨hax, hcx⟩
        apply s3 a ha x y hax
        apply RectI.hasPixel_of_contains _ _ hib
        apply RectI.hasPixel_of_contains _ _ hMi
        obtain ⟨hc1, hc2⟩ := List.mem_filter.mp hc
        have hcn : c.isNull = false := by simpa using hc2
        simp only [List.mem_cons, List.mem_singleton, List.not_mem_nil, or_false] at hc1
        refine inBounds_within trimap _bounds mapStart _
          (minimalNonMarkedBbox_internal trimap i _bounds mapStart flag).2 c hM ?_ x y hcx
        rcases hc1 with h | h | h | h | h
        · exact Or.inl ⟨h ▸ hcn, h⟩
        · exact Or.inr (Or.inl ⟨h ▸ hcn, h⟩)
        · exact Or.inr (Or.inr (Or.inl ⟨h ▸ hcn, h⟩))
        · exact Or.inr (Or.inr (Or.inr (Or.inl ⟨h ▸ hcn, h⟩)))
        · exact Or.inr (Or.inr (Or.inr (Or.inr ⟨h ▸ hcn, h⟩)))
    · simp only [if_true, List.append_nil]
      exact ⟨s1, s2⟩

/-- C25. For a bitmap whose bounds are not inverted, every `roi`, every map, in both modes
and with or without a dirty zone: every rectangle of the list built by
`minimalNonMarkedRects` from the empty list is non-empty (positive width and height), and
the rectangles of the list are pairwise disjoint, the out-of-bounds rectangles left, btm,
right, top included. -/
theorem rects_nonempty_and_disjoint (bm : Bitmap) (roi : RectI) (flag : Bool)
    (hb : bm._bounds.x1 ≤ bm._bounds.x2 ∧ bm._bounds.y1 ≤ bm._bounds.y2) :
    ((∀ r ∈ bm.minimalNonMarkedRects roi [], 0 < r.width ∧ 0 < r.height) ∧
      List.Pairwise RectI.disjoint (bm.minimalNonMarkedRects roi [])) ∧
    ((∀ r ∈ (bm.minimalNonMarkedRects_trimap roi [] flag).1, 0 < r.width ∧ 0 < r.height) ∧
      List.Pairwise RectI.disjoint (bm.minimalNonMarkedRects_trimap roi [] flag).1) ∧
    (∀ trimap : Bool,
      (∀ r ∈ (minimalNonMarkedRects_internal trimap roi bm._bounds bm._map [] flag).1,
        0 < r.width ∧ 0 < r.height) ∧
      List.Pairwise RectI.disjoint
        (minimalNonMarkedRects_internal trimap roi bm._bounds bm._map [] flag).1) := by
  have key : ∀ (trimap : Bool) (q : RectI) (f : Bool),
      (∀ r ∈ (minimalNonMarkedRects_internal trimap q bm._bounds bm._map [] f).1,
        0 < r.width ∧ 0 < r.height) ∧
      List.Pairwise RectI.disjoint
        (minimalNonMarkedRects_internal trimap q bm._bounds bm._map [] f).1 := by
    intro trimap q f
    obtain ⟨h1, h2⟩ := rects_nonempty_disjoint trimap q bm._bounds bm._map f hb
    refine ⟨?_, h2⟩
    intro r hr
    have := (RectI.isNull_false_iff r).mp (h1 r hr)
    unfold RectI.width RectI.height
    omega
  refine ⟨?_, ?_, fun trimap => key trimap roi flag⟩
  · unfold Bitmap.minimalNonMarkedRects
    cases bm._dirtyZoneSet
    · simp only [Bool.false_eq_true, if_false]
      exact key false roi false
    · simp only [if_true]
      cases roi.intersect bm._dirtyZone with
      | none => exact ⟨fun r hr => (by cases hr), List.Pairwise.nil⟩
      | some realRoi => exact key false realRoi false
  · unfold Bitmap.minimalNonMarkedRects_trimap
    cases bm._dirtyZoneSet
    · simp only [Bool.false_eq_true, if_false]
      exact key true roi flag
    · simp only [if_true]
      cases roi.intersect bm._dirtyZone with
      | none => exact ⟨fun r hr => (by cases hr), List.Pairwise.nil⟩
      | some realRoi => exact key true realRoi flag

/-- C25 at a concrete input: the 2×2 map `0 1 / 1 1` queried on a region that extends one
pixel beyond its bounds on every side. The list holds the four out-of-bounds rectangles
and the pixel `(0, 0)`. -/
theorem rects_nonempty_and_disjoint_witness :
    ((0 : Int) ≤ 2 ∧ (0 : Int) ≤ 2) ∧
    (Bitmap.mk ⟨0, 0, 2, 2⟩ [0, 1, 1, 1] RectI.zero false).minimalNonMarkedRects
      ⟨-1, -1, 3, 3⟩ [] =
      [⟨-1, 0, 0, 2⟩, ⟨-1, -1, 3, 0⟩, ⟨2, 0, 3, 2⟩, ⟨-1, 2, 3, 3⟩, ⟨0, 0, 1, 1⟩] ∧
    List.Pairwise RectI.disjoint
      ((Bitmap.mk ⟨0, 0, 2, 2⟩ [0, 1, 1, 1] RectI.zero false).minimalNonMarkedRects
        ⟨-1, -1, 3, 3⟩ []) :=
  ⟨by decide, by decide,
    (rects_nonempty_and_disjoint (Bitmap.mk ⟨0, 0, 2, 2⟩ [0, 1, 1, 1] RectI.zero false)
      ⟨-1, -1, 3, 3⟩ false (by decide)).1.2⟩

/-! ## Every in-bounds rectangle has work to do -/

theorem blank_unavailable (trimap : Bool) (v : Nat) (hv : v = 0 ∨ v = 1 ∨ v = PIXEL_UNAVAILABLE)
    (hb : blank trimap v) : unavailable trimap v := by
  unfold unavailable
  rcases hv with h | h | h
  · exact Or.inl h
  · exact absurd h hb.1
  · cases trimap
    · exact Or.inr ⟨rfl, h⟩
    · exact absurd h (hb.2 rfl)

theorem inBounds_has_unavailable (trimap : Bool) (_bounds : RectI) (mapStart : List Nat)
    (M : RectI) (flag : Bool) (hM : M.isNull = false)
    (hbytes : ∀ v ∈ mapStart, v = 0 ∨ v = 1 ∨ v = PIXEL_UNAVAILABLE) (r : RectI)
    (hr : r ∈ [(peel trimap _bounds mapStart M flag).bboxA,
        (peel trimap _bounds mapStart M flag).bboxB,
        (peel trimap _bounds mapStart M flag).bboxC,
        (peel trimap _bounds mapStart M flag).bboxD,
        (minimalNonMarkedBbox_internal trimap (peel trimap _bounds mapStart M flag).bboxX
          _bounds mapStart (peel trimap _bounds mapStart M flag).flag).1].filter
          (fun r => !r.isNull)) :
    ∃ x y, r.hasPixel x y ∧ M.hasPixel x y ∧
      unavailable trimap (pixelAt _bounds mapStart x y) := by
  obtain ⟨hr1, hr2⟩ := List.mem_filter.mp hr
  have hrn : r.isNull = false := by simpa using hr2
  obtain ⟨hx, hy⟩ := (RectI.isNull_false_iff r).mp hrn
  have hv : ∀ x y, pixelAt _bounds mapStart x y = 0 ∨ pixelAt _bounds mapStart x y = 1 ∨
      pixelAt _bounds mapStart x y = PIXEL_UNAVAILABLE := by
    intro x y
    rcases pixelAt_mem_or_zero _bounds mapStart x y with h | h
    · exact hbytes _ h
    · exact Or.inl h
  have hcorner : r.hasPixel r.x1 r.y1 := ⟨le_refl _, hx, le_refl _, hy⟩
  simp only [List.mem_cons, List.mem_singleton, List.not_mem_nil, or_false] at hr1
  have strip : (r = (peel trimap _bounds mapStart M flag).bboxA ∨
      r = (peel trimap _bounds mapStart M flag).bboxB ∨
      r = (peel trimap _bounds mapStart M flag).bboxC ∨
      r = (peel trimap _bounds mapStart M flag).bboxD) →
      ∃ x y, r.hasPixel x y ∧ M.hasPixel x y ∧
        unavailable trimap (pixelAt _bounds mapStart x y) := by
    intro h
    refine ⟨r.x1, r.y1, hcorner, ?_, ?_⟩
    · refine inBounds_within trimap _bounds mapStart M flag r hM ?_ _ _ hcorner
      rcases h with h | h | h | h
      · exact Or.inl ⟨h ▸ hrn, h⟩
      · exact Or.inr (Or.inl ⟨h ▸ hrn, h⟩)
      · exact Or.inr (Or.inr (Or.inl ⟨h ▸ hrn, h⟩))
      · exact Or.inr (Or.inr (Or.inr (Or.inl ⟨h ▸ hrn, h⟩)))
    · apply blank_unavailable trimap _ (hv _ _)
      apply peel_blank trimap _bounds mapStart M flag hM
      rcases h with h | h | h | h
      · exact Or.inl (h ▸ hcorner)
      · exact Or.inr (Or.inl (h ▸ hcorner))
      · exact Or.inr (Or.inr (Or.inl (h ▸ hcorner)))
      · exact Or.inr (Or.inr (Or.inr (h ▸ hcorner)))
  rcases hr1 with h | h | h | h | h
  · exact strip (Or.inl h)
  · exact strip (Or.inr (Or.inl h))
  · exact strip (Or.inr (Or.inr (Or.inl h)))
  · exact strip (Or.inr (Or.inr (Or.inr h)))
  · obtain ⟨X, f, hX, -, -, -, htight, -⟩ :=
      bbox_spec trimap (peel trimap _bounds mapStart M flag).bboxX _bounds mapStart
        (peel trimap _bounds mapStart M flag).flag
    have hrX : r = X := by rw [h, hX]
    obtain ⟨⟨x, hx1, hx2, hun⟩, -⟩ := htight (hrX ▸ hrn)
    rw [← hrX] at hx1 hx2 hun
    have hp : r.hasPixel x r.y1 := ⟨hx1, hx2, le_refl _, hy⟩
    refine ⟨x, r.y1, hp, ?_, hun⟩
    exact inBounds_within trimap _bounds mapStart M flag r hM
      (Or.inr (Or.inr (Or.inr (Or.inr ⟨h ▸ hrn, h⟩)))) _ _ hp

/-- C26. On a map whose bytes are 0, 1 or `PIXEL_UNAVAILABLE`, for every `roi` and in both
modes, the list returned by `minimalNonMarkedRects_internal` is the out-of-bounds
rectangles followed by the in-bounds rectangles, and every in-bounds rectangle contains a
pixel of `roi`, inside the bounds, that is not available: its value is 0 in trimap mode, 0
or `PIXEL_UNAVAILABLE` in non-trimap mode. -/
theorem no_wasted_rectangle (trimap : Bool) (roi _bounds : RectI) (mapStart : List Nat)
    (flag : Bool) (hbytes : ∀ v ∈ mapStart, v = 0 ∨ v = 1 ∨ v = PIXEL_UNAVAILABLE) :
    ∃ inBounds : List RectI,
      (minimalNonMarkedRects_internal trimap roi _bounds mapStart [] flag).1 =
        pushOutOfBounds roi _bounds ((roi.intersect _bounds).getD RectI.zero) [] ++ inBounds ∧
      ∀ r ∈ inBounds, ∃ x y, r.hasPixel x y ∧ roi.hasPixel x y ∧ _bounds.hasPixel x y ∧
        (pixelAt _bounds mapStart x y = 0 ∨
          (trimap = false ∧ pixelAt _bounds mapStart x y = PIXEL_UNAVAILABLE)) := by
  rw [rects_unfold]
  cases hi : roi.intersect _bounds with
  | none => exact ⟨[], by simp, fun r hr => (by cases hr)⟩
  | some i =>
    simp only [Option.getD_some]
    rw [pushInBounds_eq]
    refine ⟨_, rfl, ?_⟩
    intro r hr
    cases hM : (minimalNonMarkedBbox_internal trimap i _bounds mapStart flag).1.isNull
    · rw [hM] at hr
      simp only [Bool.false_eq_true, if_false] at hr
      obtain ⟨x, y, h1, h2, h3⟩ :=
        inBounds_has_unavailable trimap _bounds mapStart _ _ hM hbytes r hr
      have hiM := RectI.hasPixel_of_contains _ _
        (bbox_contained trimap i _bounds mapStart flag) x y h2
      obtain ⟨hroi, hbd⟩ := (RectI.intersect_some_iff roi _bounds i hi x y).mp hiM
      exact ⟨x, y, h1, hroi, hbd, h3⟩
    · rw [hM] at hr
      simp only [if_true] at hr
      cases hr

/-- C26 at a concrete input, in non-trimap mode: the 3×3 map `2 2 2 / 1 1 1 / 0 1 1` queried
on its bounds gives the strip A (row 0, reserved pixels) and the pixel `(0, 2)`. -/
theorem no_wasted_rectangle_witness :
    (∀ v ∈ [2, 2, 2, 1, 1, 1, 0, 1, 1], v = 0 ∨ v = 1 ∨ v = PIXEL_UNAVAILABLE) ∧
    (minimalNonMarkedRects_internal false ⟨0, 0, 3, 3⟩ ⟨0, 0, 3, 3⟩ [2, 2, 2, 1, 1, 1, 0, 1, 1]
      [] false).1 = [⟨0, 0, 3, 1⟩, ⟨0, 2, 1, 3⟩] ∧
    ∃ inBounds : List RectI,
      (minimalNonMarkedRects_internal false ⟨0, 0, 3, 3⟩ ⟨0, 0, 3, 3⟩
        [2, 2, 2, 1, 1, 1, 0, 1, 1] [] false).1 =
        pushOutOfBounds ⟨0, 0, 3, 3⟩ ⟨0, 0, 3, 3⟩
          (((RectI.mk 0 0 3 3).intersect ⟨0, 0, 3, 3⟩).getD RectI.zero) [] ++ inBounds ∧
      ∀ r ∈ inBounds, ∃ x y, r.hasPixel x y ∧ (RectI.mk 0 0 3 3).hasPixel x y ∧
        (RectI.mk 0 0 3 3).hasPixel x y ∧
        (pixelAt ⟨0, 0, 3, 3⟩ [2, 2, 2, 1, 1, 1, 0, 1, 1] x y = 0 ∨
          (false = false ∧
            pixelAt ⟨0, 0, 3, 3⟩ [2, 2, 2, 1, 1, 1, 0, 1, 1] x y = PIXEL_UNAVAILABLE)) :=
  ⟨by decide, by decide,
    no_wasted_rectangle false ⟨0, 0, 3, 3⟩ ⟨0, 0, 3, 3⟩ [2, 2, 2, 1, 1, 1, 0, 1, 1] false
      (by decide)⟩

/-! ## The byte values of a map -/

theorem memsetFrom_all (P : Nat → Prop) (buf : Int) (v : Nat) (n : Int) (hv : P v) :
    ∀ (l : List Nat) (k : Int), (∀ u ∈ l, P u) → ∀ u ∈ memsetFrom buf v n k l, P u := by
  intro l
  induction l with
  | nil => intro k _ u hu; cases hu
  | cons b bs ih =>
    intro k hl u hu
    rw [memsetFrom] at hu
    rcases List.mem_cons.mp hu with h | h
    · rw [h]
      split_ifs
      · exact hv
      · exact hl b (List.mem_cons_self _ _)
    · exact ih (k + 1) (fun w hw => hl w (List.mem_cons_of_mem _ hw)) u h

theorem fillRows_all (P : Nat → Prop) (v : Nat) (w roiw : Int) (hv : P v) :
    ∀ (rows : Nat) (buf : Int) (mapStart : List Nat), (∀ u ∈ mapStart, P u) →
    ∀ u ∈ fillRows v w roiw rows buf mapStart, P u := by
  intro rows
  induction rows with
  | zero => intro buf mapStart h; exact h
  | succ rows ih =>
    intro buf mapStart h
    rw [fillRows]
    exact ih _ _ (memsetFrom_all P buf v roiw hv mapStart 0 h)

theorem copyBytes_all (P : Nat → Prop) (srcMap : List Nat) (hsrc : ∀ o, P (peek srcMap o)) :
    ∀ (n : Nat) (srcCur dstCur : Int) (dstMap : List Nat), (∀ u ∈ dstMap, P u) →
    ∀ u ∈ copyBytes srcMap n srcCur dstCur dstMap, P u := by
  intro n
  induction n with
  | zero => intro srcCur dstCur dstMap h; exact h
  | succ n ih =>
    intro srcCur dstCur dstMap h
    rw [copyBytes]
    exact ih _ _ _ (memsetFrom_all P dstCur _ 1 (hsrc srcCur) dstMap 0 h)

theorem copyRows_all (P : Nat → Prop) (srcMap : List Nat) (hsrc : ∀ o, P (peek srcMap o))
    (sw dw roiw : Int) :
    ∀ (rows : Nat) (s d : Int) (dstMap : List Nat), (∀ u ∈ dstMap, P u) →
    ∀ u ∈ copyRows srcMap sw dw roiw rows s d dstMap, P u := by
  intro rows
  induction rows with
  | zero => intro s d dstMap h; exact h
  | succ rows ih =>
    intro s d dstMap h
    rw [copyRows]
    exact ih _ _ _ (copyBytes_all P srcMap hsrc _ _ _ _ h)

theorem peek_all (P : Nat → Prop) (mapStart : List Nat) (h0 : P 0) (h : ∀ u ∈ mapStart, P u)
    (o : Int) : P (peek mapStart o) := by
  rcases peek_mem_or_zero mapStart o with hm | hz
  · exact h _ hm
  · rw [hz]; exact h0

theorem Bitmap.copyBitmapPortion_all (P : Nat → Prop) (self other : Bitmap) (roi : RectI)
    (h0 : P 0) (hself : ∀ u ∈ self._map, P u) (hother : ∀ u ∈ other._map, P u)
    (result : Bitmap) (h : self.copyBitmapPortion roi other = some result) :
    ∀ u ∈ result._map, P u := by
  unfold Bitmap.copyBitmapPortion at h
  cases g1 : other.getBitmapAt roi.x1 roi.y1 with
  | none =>
    rw [g1] at h
    simp only at h
    split_ifs at h
    cases h
    exact hself
  | some s =>
    cases g2 : self.getBitmapAt roi.x1 roi.y1 with
    | none =>
      rw [g1, g2] at h
      simp only at h
      split_ifs at h
      cases h
      exact hself
    | some d =>
      rw [g1, g2] at h
      simp only [Option.some.injEq] at h
      rw [← h]
      exact copyRows_all P other._map (peek_all P other._map h0 hother) _ _ _ _ _ _ _ hself

theorem Bitmap.copyRowPortion_all (P : Nat → Prop) (self other : Bitmap) (x1 x2 y : Int)
    (h0 : P 0) (hself : ∀ u ∈ self._map, P u) (hother : ∀ u ∈ other._map, P u)
    (result : Bitmap) (h : self.copyRowPortion x1 x2 y other = some result) :
    ∀ u ∈ result._map, P u := by
  unfold Bitmap.copyRowPortion at h
  cases g1 : other.getBitmapAt x1 y with
  | none =>
    rw [g1] at h
    simp only at h
    split_ifs at h
    cases h
    exact hself
  | some s =>
    cases g2 : self.getBitmapAt x1 y with
    | none =>
      rw [g1, g2] at h
      simp only at h
      split_ifs at h
      cases h
      exact hself
    | some d =>
      rw [g1, g2] at h
      simp only [Option.some.injEq] at h
      rw [← h]
      exact copyBytes_all P other._map (peek_all P other._map h0 hother) _ _ _ _ hself

theorem Bitmap.copyBitmapPortion_isSome (self other : Bitmap) (roi : RectI)
    (hc1 : self._bounds.contains roi = true) (hc2 : other._bounds.contains roi = true) :
    ∃ result, self.copyBitmapPortion roi other = some result := by
  unfold Bitmap.copyBitmapPortion
  cases hn : roi.isNull
  · obtain ⟨hx, hy⟩ := (RectI.isNull_false_iff _).mp hn
    have hcorner : roi.hasPixel roi.x1 roi.y1 := ⟨le_refl _, hx, le_refl _, hy⟩
    rw [Bitmap.getBitmapAt_of_hasPixel other _ _
      (RectI.hasPixel_of_contains _ _ hc2 _ _ hcorner),
      Bitmap.getBitmapAt_of_hasPixel self _ _
      (RectI.hasPixel_of_contains _ _ hc1 _ _ hcorner)]
    exact ⟨_, rfl⟩
  · cases other.getBitmapAt roi.x1 roi.y1 with
    | none => exact ⟨self, by simp⟩
    | some s =>
      cases self.getBitmapAt roi.x1 roi.y1 with
      | none => exact ⟨self, by simp⟩
      | some d => exact ⟨_, rfl⟩

theorem Bitmap.copyRowPortion_isSome (self other : Bitmap) (x1 x2 y : Int)
    (hrow : ∀ x, x1 ≤ x → x < x2 → self._bounds.hasPixel x y ∧ other._bounds.hasPixel x y) :
    ∃ result, self.copyRowPortion x1 x2 y other = some result := by
  unfold Bitmap.copyRowPortion
  by_cases hlt : x1 < x2
  · obtain ⟨h1, h2⟩ := hrow x1 (le_refl _) hlt
    rw [Bitmap.getBitmapAt_of_hasPixel other _ _ h2, Bitmap.getBitmapAt_of_hasPixel self _ _ h1]
    exact ⟨_, rfl⟩
  · have hle : x2 - x1 ≤ 0 := by omega
    cases other.getBitmapAt x1 y with
    | none => exact ⟨self, by simp [hle]⟩
    | some s =>
      cases self.getBitmapAt x1 y with
      | none => exact ⟨self, by simp [hle]⟩
      | some d => exact ⟨_, rfl⟩

/-- C28. If every byte of the map of `self` is 0, 1 or `PIXEL_UNAVAILABLE`, it is still so
after `markForRendered`, `markForRendering` and `clear` on a rectangle contained in the
bounds; and if the same holds of the map of `other`, then `copyBitmapPortion` on a
rectangle contained in the bounds of both, and `copyRowPortion` on a row portion inside
the bounds of both, complete and leave every byte of the map of `self` in that set. -/
theorem byte_values_preserved (self other : Bitmap) (roi : RectI) (x1 x2 y : Int)
    (hself : ∀ v ∈ self._map, v = 0 ∨ v = 1 ∨ v = PIXEL_UNAVAILABLE)
    (hother : ∀ v ∈ other._map, v = 0 ∨ v = 1 ∨ v = PIXEL_UNAVAILABLE)
    (hc1 : self._bounds.contains roi = true) (hc2 : other._bounds.contains roi = true)
    (hrow : ∀ x, x1 ≤ x → x < x2 → self._bounds.hasPixel x y ∧ other._bounds.hasPixel x y) :
    (∀ v ∈ (self.markForRendered roi)._map, v = 0 ∨ v = 1 ∨ v = PIXEL_UNAVAILABLE) ∧
    (∀ v ∈ (self.markForRendering roi)._map, v = 0 ∨ v = 1 ∨ v = PIXEL_UNAVAILABLE) ∧
    (∀ v ∈ (self.clear roi)._map, v = 0 ∨ v = 1 ∨ v = PIXEL_UNAVAILABLE) ∧
    (∃ result, self.copyBitmapPortion roi other = some result ∧
      ∀ v ∈ result._map, v = 0 ∨ v = 1 ∨ v = PIXEL_UNAVAILABLE) ∧
    (∃ result, self.copyRowPortion x1 x2 y other = some result ∧
      ∀ v ∈ result._map, v = 0 ∨ v = 1 ∨ v = PIXEL_UNAVAILABLE) := by
  refine ⟨?_, ?_, ?_, ?_, ?_⟩
  · exact fillRows_all _ 1 _ _ (Or.inr (Or.inl rfl)) _ _ _ hself
  · exact fillRows_all _ PIXEL_UNAVAILABLE _ _ (Or.inr (Or.inr rfl)) _ _ _ hself
  · exact fillRows_all _ 0 _ _ (Or.inl rfl) _ _ _ hself
  · obtain ⟨result, hres⟩ := Bitmap.copyBitmapPortion_isSome self other roi hc1 hc2
    exact ⟨result, hres, Bitmap.copyBitmapPortion_all _ self other roi (Or.inl rfl) hself
      hother result hres⟩
  · obtain ⟨result, hres⟩ := Bitmap.copyRowPortion_isSome self other x1 x2 y hrow
    exact ⟨result, hres, Bitmap.copyRowPortion_all _ self other x1 x2 y (Or.inl rfl) hself
      hother result hres⟩

/-- C28 at a concrete input: a 3×2 map with the bytes 0, 1, 2, and a 3×2 source of bytes 2, 1,
0; the rectangle is `[1,3) × [0,2)`, the row portion `[0,2)` of row 1. -/
theorem byte_values_preserved_witness :
    (∀ v ∈ [0, 1, 2, 0, 1, 2], v = 0 ∨ v = 1 ∨ v = PIXEL_UNAVAILABLE) ∧
    (∀ v ∈ [2, 1, 0, 2, 1, 0], v = 0 ∨ v = 1 ∨ v = PIXEL_UNAVAILABLE) ∧
    (RectI.mk 0 0 3 2).contains ⟨1, 0, 3, 2⟩ = true ∧
    ((Bitmap.mk ⟨0, 0, 3, 2⟩ [0, 1, 2, 0, 1, 2] RectI.zero false).markForRendering
      ⟨1, 0, 3, 2⟩)._map = [0, 2, 2, 0, 2, 2] ∧
    (Bitmap.mk ⟨0, 0, 3, 2⟩ [0, 1, 2, 0, 1, 2] RectI.zero false).copyBitmapPortion ⟨1, 0, 3, 2⟩
      (Bitmap.mk ⟨0, 0, 3, 2⟩ [2, 1, 0, 2, 1, 0] RectI.zero false) =
      some (Bitmap.mk ⟨0, 0, 3, 2⟩ [0, 1, 0, 0, 1, 0] RectI.zero false) ∧
    (Bitmap.mk ⟨0, 0, 3, 2⟩ [0, 1, 2, 0, 1, 2] RectI.zero false).copyRowPortion 0 2 1
      (Bitmap.mk ⟨0, 0, 3, 2⟩ [2, 1, 0, 2, 1, 0] RectI.zero false) =
      some (Bitmap.mk ⟨0, 0, 3, 2⟩ [0, 1, 2, 2, 1, 2] RectI.zero false) ∧
    ∀ v ∈ ((Bitmap.mk ⟨0, 0, 3, 2⟩ [0, 1, 2, 0, 1, 2] RectI.zero false).markForRendering
      ⟨1, 0, 3, 2⟩)._map, v = 0 ∨ v = 1 ∨ v = PIXEL_UNAVAILABLE :=
  ⟨by decide, by decide, by decide, by decide, by decide, by decide,
    (byte_values_preserved (Bitmap.mk ⟨0, 0, 3, 2⟩ [0, 1, 2, 0, 1, 2] RectI.zero false)
      (Bitmap.mk ⟨0, 0, 3, 2⟩ [2, 1, 0, 2, 1, 0] RectI.zero false) ⟨1, 0, 3, 2⟩ 0 2 1
      (by decide) (by decide) (by decide) (by decide)
      (by intro x h1 h2; simp only [RectI.hasPixel]; omega)).2.1⟩

/-! ## The reads of the queries stay inside the region -/

theorem rowScanTrimapReads_mem (mapStart : List Nat) :
    ∀ (n : Nat) (buf o : Int), o ∈ rowScanTrimapReads mapStart n buf →
      ∃ k : Nat, k < n ∧ o = buf + k := by
  intro n
  induction n with
  | zero => intro buf o h; cases h
  | succ n ih =>
    intro buf o h
    rw [rowScanTrimapReads] at h
    rcases List.mem_cons.mp h with h | h
    · exact ⟨0, Nat.succ_pos n, by simp [h]⟩
    · split_ifs at h
      · cases h
      · obtain ⟨k, hk, e⟩ := ih _ _ h
        exact ⟨k + 1, by omega, by push_cast; omega⟩

theorem rowScanPlainReads_mem (mapStart : List Nat) :
    ∀ (n : Nat) (buf o : Int), o ∈ rowScanPlainReads mapStart n buf →
      ∃ k : Nat, k < n ∧ o = buf + k := by
  intro n
  induction n with
  | zero => intro buf o h; cases h
  | succ n ih =>
    intro buf o h
    rw [rowScanPlainReads] at h
    rcases List.mem_cons.mp h with h | h
    · exact ⟨0, Nat.succ_pos n, by simp [h]⟩
    · split_ifs at h
      · cases h
      · obtain ⟨k, hk, e⟩ := ih _ _ h
        exact ⟨k + 1, by omega, by push_cast; omega⟩

theorem stripRowTrimapReads_mem (mapStart : List Nat) :
    ∀ (n : Nat) (buf o : Int), o ∈ stripRowTrimapReads mapStart n buf →
      ∃ k : Nat, k < n ∧ o = buf + k := by
  intro n
  induction n with
  | zero => intro buf o h; cases h
  | succ n ih =>
    intro buf o h
    rw [stripRowTrimapReads] at h
    rcases List.mem_cons.mp h with h | h
    · exact ⟨0, Nat.succ_pos n, by simp [h]⟩
    · split_ifs at h
      · cases h
      · cases h
      · obtain ⟨k, hk, e⟩ := ih _ _ h
        exact ⟨k + 1, by omega, by push_cast; omega⟩

theorem memchrReads_mem (mapStart : List Nat) (c : Nat) :
    ∀ (n : Nat) (buf o : Int), o ∈ memchrReads mapStart c n buf →
      ∃ k : Nat, k < n ∧ o = buf + k := by
  intro n
  induction n with
  | zero => intro buf o h; cases h
  | succ n ih =>
    intro buf o h
    rw [memchrReads] at h
    rcases List.mem_cons.mp h with h | h
    · exact ⟨0, Nat.succ_pos n, by simp [h]⟩
    · split_ifs at h
      · cases h
      · obtain ⟨k, hk, e⟩ := ih _ _ h
        exact ⟨k + 1, by omega, by push_cast; omega⟩

theorem colScanReads_mem (trimap : Bool) (mapStart : List Nat) (stride : Int) :
    ∀ (n : Nat) (pix o : Int), o ∈ colScanReads trimap mapStart stride n pix →
      ∃ k : Nat, k < n ∧ o = pix + k * stride := by
  intro n
  induction n with
  | zero => intro pix o h; cases h
  | succ n ih =>
    intro pix o h
    rw [colScanReads] at h
    have step : o ∈ colScanReads trimap mapStart stride n (pix + stride) →
        ∃ k : Nat, k < n + 1 ∧ o = pix + k * stride := by
      intro h
      obtain ⟨k, hk, e⟩ := ih _ _ h
      exact ⟨k + 1, by omega, by rw [e]; push_cast; ring⟩
    rcases List.mem_cons.mp h with h | h
    · exact ⟨0, Nat.succ_pos n, by simp [h]⟩
    · split_ifs at h
      · cases h
      · exact step h
      · cases h
      · exact step h

theorem stripColScanReads_mem (trimap : Bool) (mapStart : List Nat) (stride : Int) :
    ∀ (n : Nat) (pix o : Int), o ∈ stripColScanReads trimap mapStart stride n pix →
      ∃ k : Nat, k < n ∧ o = pix + k * stride := by
  intro n
  induction n with
  | zero => intro pix o h; cases h
  | succ n ih =>
    intro pix o h
    rw [stripColScanReads] at h
    rcases List.mem_cons.mp h with h | h
    · exact ⟨0, Nat.succ_pos n, by simp [h]⟩
    · split_ifs at h
      · cases h
      · cases h
      · obtain ⟨k, hk, e⟩ := ih _ _ h
        exact ⟨k + 1, by omega, by rw [e]; push_cast; ring⟩

theorem rowScanReads_mem (trimap : Bool) (_bounds : RectI) (mapStart : List Nat) (bbox : RectI)
    (i o : Int) (h : o ∈ rowScanReads trimap _bounds mapStart bbox i) :
    ∃ x, bbox.x1 ≤ x ∧ x < bbox.x2 ∧ o = BM_GET _bounds i x := by
  unfold rowScanReads RectI.width RectI.left at h
  have key : (∃ k : Nat, k < (bbox.x2 - bbox.x1).toNat ∧ o = BM_GET _bounds i bbox.x1 + k) →
      ∃ x, bbox.x1 ≤ x ∧ x < bbox.x2 ∧ o = BM_GET _bounds i x := by
    rintro ⟨k, hk, e⟩
    exact ⟨bbox.x1 + k, by omega, by omega, by rw [e, BM_GET_add_col]⟩
  cases trimap
  · exact key (rowScanPlainReads_mem mapStart _ _ _ (by simpa using h))
  · exact key (rowScanTrimapReads_mem mapStart _ _ _ (by simpa using h))

theorem stripRowReads_mem (trimap : Bool) (_bounds : RectI) (mapStart : List Nat)
    (bboxX : RectI) (i o : Int) (h : o ∈ stripRowReads trimap _bounds mapStart bboxX i) :
    ∃ x, bboxX.x1 ≤ x ∧ x < bboxX.x2 ∧ o = BM_GET _bounds i x := by
  unfold stripRowReads RectI.width RectI.left at h
  have key : (∃ k : Nat, k < (bboxX.x2 - bboxX.x1).toNat ∧ o = BM_GET _bounds i bboxX.x1 + k) →
      ∃ x, bboxX.x1 ≤ x ∧ x < bboxX.x2 ∧ o = BM_GET _bounds i x := by
    rintro ⟨k, hk, e⟩
    exact ⟨bboxX.x1 + k, by omega, by omega, by rw [e, BM_GET_add_col]⟩
  cases trimap
  · exact key (memchrReads_mem mapStart 1 _ _ _ (by simpa using h))
  · exact key (stripRowTrimapReads_mem mapStart _ _ _ (by simpa using h))

theorem colTestReads_mem (trimap : Bool) (_bounds : RectI) (mapStart : List Nat) (bbox : RectI)
    (j o : Int) (h : o ∈ colTestReads trimap _bounds mapStart bbox j) :
    ∃ y, bbox.y1 ≤ y ∧ y < bbox.y2 ∧ o = BM_GET _bounds y j := by
  unfold colTestReads RectI.top RectI.bottom at h
  obtain ⟨k, hk, e⟩ := colScanReads_mem trimap mapStart _ _ _ _ h
  exact ⟨bbox.y1 + k, by omega, by omega, by rw [e, BM_GET_add_row]⟩

theorem stripColReads_mem (trimap : Bool) (_bounds : RectI) (mapStart : List Nat)
    (bboxX : RectI) (j o : Int) (h : o ∈ stripColReads trimap _bounds mapStart bboxX j) :
    ∃ y, bboxX.y1 ≤ y ∧ y < bboxX.y2 ∧ o = BM_GET _bounds y j := by
  unfold stripColReads RectI.top RectI.bottom at h
  obtain ⟨k, hk, e⟩ := stripColScanReads_mem trimap mapStart _ _ _ _ h
  exact ⟨bboxX.y1 + k, by omega, by omega, by rw [e, BM_GET_add_row]⟩

theorem findBottomReads_mem (trimap : Bool) (_bounds : RectI) (mapStart : List Nat) :
    ∀ (fuel : Nat) (i : Int) (bbox : RectI) (o : Int),
    o ∈ findBottomReads trimap _bounds mapStart fuel i bbox →
      ∃ x y, bbox.x1 ≤ x ∧ x < bbox.x2 ∧ i ≤ y ∧ y < bbox.y2 ∧ o = BM_GET _bounds y x := by
  intro fuel
  induction fuel with
  | zero => intro i bbox o h; cases h
  | succ fuel ih =>
    intro i bbox o h
    rw [findBottomReads] at h
    split_ifs at h with hlt
    · rcases List.mem_append.mp h with h | h
      · obtain ⟨x, h1, h2, e⟩ := rowScanReads_mem trimap _bounds mapStart bbox i o h
        exact ⟨x, i, h1, h2, le_refl _, hlt, e⟩
      · rcases hres : rowScan trimap _bounds mapStart bbox i with ⟨ok, met⟩
        rw [hres] at h
        cases ok
        · cases h
        · obtain ⟨x, y, h1, h2, h3, h4, e⟩ := ih _ _ _ h
          exact ⟨x, y, h1, h2, by omega, h4, e⟩
    · cases h

theorem findTopReads_mem (trimap : Bool) (_bounds : RectI) (mapStart : List Nat) :
    ∀ (fuel : Nat) (i : Int) (bbox : RectI) (o : Int),
    o ∈ findTopReads trimap _bounds mapStart fuel i bbox →
      ∃ x y, bbox.x1 ≤ x ∧ x < bbox.x2 ∧ bbox.y1 ≤ y ∧ y ≤ i ∧ o = BM_GET _bounds y x := by
  intro fuel
  induction fuel with
  | zero => intro i bbox o h; cases h
  | succ fuel ih =>
    intro i bbox o h
    rw [findTopReads] at h
    split_ifs at h with hge
    · rcases List.mem_append.mp h with h | h
      · obtain ⟨x, h1, h2, e⟩ := rowScanReads_mem trimap _bounds mapStart bbox i o h
        exact ⟨x, i, h1, h2, hge, le_refl _, e⟩
      · rcases hres : rowScan trimap _bounds mapStart bbox i with ⟨ok, met⟩
        rw [hres] at h
        cases ok
        · cases h
        · obtain ⟨x, y, h1, h2, h3, h4, e⟩ := ih _ _ _ h
          exact ⟨x, y, h1, h2, h3, by omega, e⟩
    · cases h

theorem findLeftReads_mem (trimap : Bool) (_bounds : RectI) (mapStart : List Nat) :
    ∀ (fuel : Nat) (j : Int) (bbox : RectI) (o : Int),
    o ∈ findLeftReads trimap _bounds mapStart fuel j bbox →
      ∃ x y, j ≤ x ∧ x < bbox.x2 ∧ bbox.y1 ≤ y ∧ y < bbox.y2 ∧ o = BM_GET _bounds y x := by
  intro fuel
  induction fuel with
  | zero => intro j bbox o h; cases h
  | succ fuel ih =>
    intro j bbox o h
    rw [findLeftReads] at h
    split_ifs at h with hlt
    · rcases List.mem_append.mp h with h | h
      · obtain ⟨y, h1, h2, e⟩ := colTestReads_mem trimap _bounds mapStart bbox j o h
        exact ⟨j, y, le_refl _, hlt, h1, h2, e⟩
      · rcases hres : colTest trimap _bounds mapStart bbox j with ⟨ok, met⟩
        rw [hres] at h
        cases ok
        · cases h
        · obtain ⟨x, y, h1, h2, h3, h4, e⟩ := ih _ _ _ h
          exact ⟨x, y, by omega, h2, h3, h4, e⟩
    · cases h

theorem findRightReads_mem (trimap : Bool) (_bounds : RectI) (mapStart : List Nat) :
    ∀ (fuel : Nat) (j : Int) (bbox : RectI) (o : Int),
    o ∈ findRightReads trimap _bounds mapStart fuel j bbox →
      ∃ x y, bbox.x1 ≤ x ∧ x ≤ j ∧ bbox.y1 ≤ y ∧ y < bbox.y2 ∧ o = BM_GET _bounds y x := by
  intro fuel
  induction fuel with
  | zero => intro j bbox o h; cases h
  | succ fuel ih =>
    intro j bbox o h
    rw [findRightReads] at h
    split_ifs at h with hge
    · rcases List.mem_append.mp h with h | h
      · obtain ⟨y, h1, h2, e⟩ := colTestReads_mem trimap _bounds mapStart bbox j o h
        exact ⟨j, y, hge, le_refl _, h1, h2, e⟩
      · rcases hres : colTest trimap _bounds mapStart bbox j with ⟨ok, met⟩
        rw [hres] at h
        cases ok
        · cases h
        · obtain ⟨x, y, h1, h2, h3, h4, e⟩ := ih _ _ _ h
          exact ⟨x, y, h1, by omega, h3, h4, e⟩
    · cases h

theorem findAReads_mem (trimap : Bool) (_bounds : RectI) (mapStart : List Nat) :
    ∀ (fuel : Nat) (i : Int) (bboxX : RectI) (o : Int),
    o ∈ findAReads trimap _bounds mapStart fuel i bboxX →
      ∃ x y, bboxX.x1 ≤ x ∧ x < bboxX.x2 ∧ i ≤ y ∧ y < bboxX.y2 ∧ o = BM_GET _bounds y x := by
  intro fuel
  induction fuel with
  | zero => intro i bboxX o h; cases h
  | succ fuel ih =>
    intro i bboxX o h
    rw [findAReads] at h
    split_ifs at h with hlt
    · rcases List.mem_append.mp h with h | h
      · obtain ⟨x, h1, h2, e⟩ := stripRowReads_mem trimap _bounds mapStart bboxX i o h
        exact ⟨x, i, h1, h2, le_refl _, hlt, e⟩
      · rcases hres : stripRow trimap _bounds mapStart bboxX i with ⟨ok, met⟩
        rw [hres] at h
        cases ok
        · cases h
        · obtain ⟨x, y, h1, h2, h3, h4, e⟩ := ih _ _ _ h
          exact ⟨x, y, h1, h2, by omega, h4, e⟩
    · cases h

theorem findBReads_mem (trimap : Bool) (_bounds : RectI) (mapStart : List Nat) :
    ∀ (fuel : Nat) (i : Int) (bboxX : RectI) (o : Int),
    o ∈ findBReads trimap _bounds mapStart fuel i bboxX →
      ∃ x y, bboxX.x1 ≤ x ∧ x < bboxX.x2 ∧ bboxX.y1 ≤ y ∧ y ≤ i ∧ o = BM_GET _bounds y x := by
  intro fuel
  induction fuel with
  | zero => intro i bboxX o h; cases h
  | succ fuel ih =>
    intro i bboxX o h
    rw [findBReads] at h
    split_ifs at h with hge
    · rcases List.mem_append.mp h with h | h
      · obtain ⟨x, h1, h2, e⟩ := stripRowReads_mem trimap _bounds mapStart bboxX i o h
        exact ⟨x, i, h1, h2, hge, le_refl _, e⟩
      · rcases hres : stripRow trimap _bounds mapStart bboxX i with ⟨ok, met⟩
        rw [hres] at h
        cases ok
        · cases h
        · obtain ⟨x, y, h1, h2, h3, h4, e⟩ := ih _ _ _ h
          exact ⟨x, y, h1, h2, h3, by omega, e⟩
    · cases h

theorem findCReads_mem (trimap : Bool) (_bounds : RectI) (mapStart : List Nat) :
    ∀ (fuel : Nat) (j : Int) (bboxX : RectI) (o : Int),
    o ∈ findCReads trimap _bounds mapStart fuel j bboxX →
      ∃ x y, j ≤ x ∧ x < bboxX.x2 ∧ bboxX.y1 ≤ y ∧ y < bboxX.y2 ∧ o = BM_GET _bounds y x := by
  intro fuel
  induction fuel with
  | zero => intro j bboxX o h; cases h
  | succ fuel ih =>
    intro j bboxX o h
    rw [findCReads] at h
    split_ifs at h with hlt
    · rcases List.mem_append.mp h with h | h
      · obtain ⟨y, h1, h2, e⟩ := stripColReads_mem trimap _bounds mapStart bboxX j o h
        exact ⟨j, y, le_refl _, hlt, h1, h2, e⟩
      · rcases hres : stripCol trimap _bounds mapStart bboxX j with ⟨ok, met⟩
        rw [hres] at h
        cases ok
        · cases h
        · obtain ⟨x, y, h1, h2, h3, h4, e⟩ := ih _ _ _ h
          exact ⟨x, y, by omega, h2, h3, h4, e⟩
    · cases h

theorem findDReads_mem (trimap : Bool) (_bounds : RectI) (mapStart : List Nat) :
    ∀ (fuel : Nat) (j : Int) (bboxX : RectI) (o : Int),
    o ∈ findDReads trimap _bounds mapStart fuel j bboxX →
      ∃ x y, bboxX.x1 ≤ x ∧ x ≤ j ∧ bboxX.y1 ≤ y ∧ y < bboxX.y2 ∧ o = BM_GET _bounds y x := by
  intro fuel
  induction fuel with
  | zero => intro j bboxX o h; cases h
  | succ fuel ih =>
    intro j bboxX o h
    rw [findDReads] at h
    split_ifs at h with hge
    · rcases List.mem_append.mp h with h | h
      · obtain ⟨y, h1, h2, e⟩ := stripColReads_mem trimap _bounds mapStart bboxX j o h
        exact ⟨j, y, hge, le_refl _, h1, h2, e⟩
      · rcases hres : stripCol trimap _bounds mapStart bboxX j with ⟨ok, met⟩
        rw [hres] at h
        cases ok
        · cases h
        · obtain ⟨x, y, h1, h2, h3, h4, e⟩ := ih _ _ _ h
          exact ⟨x, y, h1, by omega, h3, h4, e⟩
    · cases h

theorem bbox_reads_mem (trimap : Bool) (roi _bounds : RectI) (mapStart : List Nat)
    (flag : Bool) (o : Int)
    (h : o ∈ minimalNonMarkedBbox_reads trimap roi _bounds mapStart flag) :
    ∃ x y, roi.hasPixel x y ∧ o = BM_GET _bounds y x := by
  obtain ⟨ya, f1, e1, a1, b1, -⟩ :=
    findBottom_spec trimap _bounds mapStart (roi.y2 - roi.y1).toNat roi.y1 roi flag rfl
      (le_refl _)
  obtain ⟨yb, f2, e2, a2, b2, -⟩ :=
    findTop_spec trimap _bounds mapStart (roi.y2 - ya).toNat (roi.y2 - 1)
      ⟨roi.x1, ya, roi.x2, roi.y2⟩ f1 rfl (le_refl _)
  simp only at e2 a2 b2
  obtain ⟨xa, f3, e3, a3, b3, -⟩ :=
    findLeft_spec trimap _bounds mapStart (roi.x2 - roi.x1).toNat roi.x1
      ⟨roi.x1, ya, roi.x2, yb⟩ f2 rfl (le_refl _)
  simp only at e3 a3 b3
  have r1 := findBottomReads_mem trimap _bounds mapStart (roi.y2 - roi.y1).toNat roi.y1 roi o
  have r2 := findTopReads_mem trimap _bounds mapStart (roi.y2 - ya).toNat (roi.y2 - 1)
    ⟨roi.x1, ya, roi.x2, roi.y2⟩ o
  have r3 := findLeftReads_mem trimap _bounds mapStart (roi.x2 - roi.x1).toNat roi.x1
    ⟨roi.x1, ya, roi.x2, yb⟩ o
  have r4 := findRightReads_mem trimap _bounds mapStart (roi.x2 - xa).toNat (roi.x2 - 1)
    ⟨xa, ya, roi.x2, yb⟩ o
  simp only at r2 r3 r4
  have c1 : o ∈ findBottomReads trimap _bounds mapStart (roi.y2 - roi.y1).toNat roi.y1 roi →
      ∃ x y, roi.hasPixel x y ∧ o = BM_GET _bounds y x := by
    intro h
    obtain ⟨x, y, h1, h2, h3, h4, e⟩ := r1 h
    exact ⟨x, y, ⟨h1, h2, h3, h4⟩, e⟩
  have c2 : o ∈ findTopReads trimap _bounds mapStart (roi.y2 - ya).toNat (roi.y2 - 1)
      ⟨roi.x1, ya, roi.x2, roi.y2⟩ → ∃ x y, roi.hasPixel x y ∧ o = BM_GET _bounds y x := by
    intro h
    obtain ⟨x, y, h1, h2, h3, h4, e⟩ := r2 h
    exact ⟨x, y, ⟨h1, h2, by omega, by omega⟩, e⟩
  have c3 : (RectI.mk roi.x1 ya roi.x2 yb).isNull = false →
      o ∈ findLeftReads trimap _bounds mapStart (roi.x2 - roi.x1).toNat roi.x1
        ⟨roi.x1, ya, roi.x2, yb⟩ → ∃ x y, roi.hasPixel x y ∧ o = BM_GET _bounds y x := by
    intro hn h
    obtain ⟨x, y, h1, h2, h3, h4, e⟩ := r3 h
    exact ⟨x, y, ⟨h1, h2, by omega, by omega⟩, e⟩
  have c4 : (RectI.mk roi.x1 ya roi.x2 yb).isNull = false →
      o ∈ findRightReads trimap _bounds mapStart (roi.x2 - xa).toNat (roi.x2 - 1)
        ⟨xa, ya, roi.x2, yb⟩ → ∃ x y, roi.hasPixel x y ∧ o = BM_GET _bounds y x := by
    intro hn h
    obtain ⟨x, y, h1, h2, h3, h4, e⟩ := r4 h
    exact ⟨x, y, ⟨by omega, by omega, by omega, by omega⟩, e⟩
  simp only [minimalNonMarkedBbox_reads, RectI.top, RectI.bottom, RectI.left, RectI.right, e1,
    e2, e3] at h
  split_ifs at h with hnull
  · rcases List.mem_append.mp h with h | h
    · exact c1 h
    · exact c2 h
  · have hn : (RectI.mk roi.x1 ya roi.x2 yb).isNull = false := by simpa using hnull
    rcases List.mem_append.mp h with h | h
    · rcases List.mem_append.mp h with h | h
      · rcases List.mem_append.mp h with h | h
        · exact c1 h
        · exact c2 h
      · exact c3 hn h
    · exact c4 hn h

theorem peel_reads_mem (trimap : Bool) (_bounds : RectI) (mapStart : List Nat) (M : RectI)
    (flag : Bool) (hM : M.isNull = false) (o : Int)
    (h : o ∈ peelReads trimap _bounds mapStart M flag) :
    ∃ x y, M.hasPixel x y ∧ o = BM_GET _bounds y x := by
  obtain ⟨hMx, hMy⟩ := (RectI.isNull_false_iff _).mp hM
  obtain ⟨ya, f1, e1, a1, b1, -⟩ :=
    findA_spec trimap _bounds mapStart (M.y2 - M.y1).toNat M.y1 M ⟨M.x1, M.y1, M.x2, M.y1⟩
      flag rfl rfl (le_refl _)
  simp only at e1
  obtain ⟨yb, f2, e2, a2, b2, -⟩ :=
    findB_spec trimap _bounds mapStart (M.y2 - ya).toNat (M.y2 - 1) ⟨M.x1, ya, M.x2, M.y2⟩
      ⟨M.x1, M.y2, M.x2, M.y2⟩ f1 rfl rfl (le_refl _)
  simp only at e2 a2 b2
  obtain ⟨xa, f3, e3, a3, b3, -⟩ :=
    findC_spec trimap _bounds mapStart (M.x2 - M.x1).toNat M.x1 ⟨M.x1, ya, M.x2, yb⟩
      ⟨M.x1, ya, M.x1, yb⟩ f2 rfl rfl (le_refl _)
  simp only at e3 a3 b3
  have r1 := findAReads_mem trimap _bounds mapStart (M.y2 - M.y1).toNat M.y1 M o
  have r2 := findBReads_mem trimap _bounds mapStart (M.y2 - ya).toNat (M.y2 - 1)
    ⟨M.x1, ya, M.x2, M.y2⟩ o
  have r3 := findCReads_mem trimap _bounds mapStart (M.x2 - M.x1).toNat M.x1
    ⟨M.x1, ya, M.x2, yb⟩ o
  have r4 := findDReads_mem trimap _bounds mapStart (M.x2 - xa).toNat (M.x2 - 1)
    ⟨xa, ya, M.x2, yb⟩ o
  simp only at r2 r3 r4
  simp only [peelReads, RectI.top, RectI.bottom, RectI.left, RectI.right, RectI.set_top,
    RectI.set_bottom, RectI.set_right, RectI.set_left, e1, e2] at h
  by_cases hrows : ya < yb
  · simp only [hrows, if_true, e3] at h
    rcases List.mem_append.mp h with h | h
    · rcases List.mem_append.mp h with h | h
      · rcases List.mem_append.mp h with h | h
        · obtain ⟨x, y, h1, h2, h3, h4, e⟩ := r1 h
          exact ⟨x, y, ⟨h1, h2, h3, h4⟩, e⟩
        · obtain ⟨x, y, h1, h2, h3, h4, e⟩ := r2 h
          exact ⟨x, y, ⟨h1, h2, by omega, by omega⟩, e⟩
      · obtain ⟨x, y, h1, h2, h3, h4, e⟩ := r3 h
        exact ⟨x, y, ⟨h1, h2, by omega, by omega⟩, e⟩
    · obtain ⟨x, y, h1, h2, h3, h4, e⟩ := r4 h
      exact ⟨x, y, ⟨by omega, by omega, by omega, by omega⟩, e⟩
  · simp only [hrows, if_false, List.append_nil] at h
    rcases List.mem_append.mp h with h | h
    · obtain ⟨x, y, h1, h2, h3, h4, e⟩ := r1 h
      exact ⟨x, y, ⟨h1, h2, h3, h4⟩, e⟩
    · obtain ⟨x, y, h1, h2, h3, h4, e⟩ := r2 h
      exact ⟨x, y, ⟨h1, h2, by omega, by omega⟩, e⟩

theorem rects_reads_mem (trimap : Bool) (roi _bounds : RectI) (mapStart : List Nat)
    (flag : Bool) (o : Int)
    (h : o ∈ minimalNonMarkedRects_reads trimap roi _bounds mapStart flag) :
    ∃ x y, roi.hasPixel x y ∧ _bounds.hasPixel x y ∧ o = BM_GET _bounds y x := by
  unfold minimalNonMarkedRects_reads at h
  cases hi : roi.intersect _bounds with
  | none =>
    rw [hi] at h
    simp only [Option.getD_none] at h
    rw [if_pos (by decide)] at h
    cases h
  | some i =>
    rw [hi] at h
    simp only [Option.getD_some] at h
    have hin : ∀ x y, i.hasPixel x y → roi.hasPixel x y ∧ _bounds.hasPixel x y :=
      fun x y => (RectI.intersect_some_iff roi _bounds i hi x y).mp
    have hMi := bbox_contained trimap i _bounds mapStart flag
    have c1 : o ∈ minimalNonMarkedBbox_reads trimap i _bounds mapStart flag →
        ∃ x y, roi.hasPixel x y ∧ _bounds.hasPixel x y ∧ o = BM_GET _bounds y x := by
      intro h
      obtain ⟨x, y, hp, e⟩ := bbox_reads_mem trimap i _bounds mapStart flag o h
      exact ⟨x, y, (hin x y hp).1, (hin x y hp).2, e⟩
    split_ifs at h with hnull hMnull
    · cases h
    · exact c1 h
    · have hM : (minimalNonMarkedBbox_internal trimap i _bounds mapStart flag).1.isNull =
          false := by simpa using hMnull
      have hinM : ∀ x y,
          (minimalNonMarkedBbox_internal trimap i _bounds mapStart flag).1.hasPixel x y →
          roi.hasPixel x y ∧ _bounds.hasPixel x y :=
        fun x y hp => hin x y (RectI.hasPixel_of_contains _ _ hMi x y hp)
      rcases List.mem_append.mp h with h | h
      · rcases List.mem_append.mp h with h | h
        · exact c1 h
        · obtain ⟨x, y, hp, e⟩ := peel_reads_mem trimap _bounds mapStart _ _ hM o h
          exact ⟨x, y, (hinM x y hp).1, (hinM x y hp).2, e⟩
      · obtain ⟨x, y, hp, e⟩ := bbox_reads_mem trimap _ _bounds mapStart _ o h
        obtain ⟨ya, yb, xa, xb, hA, hB, hC, hD, hX, g1, g2, g3, g4, g5, g6⟩ :=
          peel_edges trimap _bounds mapStart _
            (minimalNonMarkedBbox_internal trimap i _bounds mapStart flag).2 hM
        rw [hX] at hp
        have hpM : (minimalNonMarkedBbox_internal trimap i _bounds mapStart flag).1.hasPixel
            x y := by
          simp only [RectI.hasPixel] at hp ⊢
          omega
        exact ⟨x, y, (hinM x y hpM).1, (hinM x y hpM).2, e⟩

theorem peek_in_range (mapStart : List Nat) (o : Int) (h0 : 0 ≤ o)
    (h1 : o < (mapStart.length : Int)) : mapStart.get? o.toNat = some (peek mapStart o) := by
  have hlt : o.toNat < mapStart.length := by omega
  unfold peek
  rw [if_pos h0, List.getD_eq_getElem?_getD, List.get?_eq_getElem?,
    List.getElem?_eq_getElem hlt]
  rfl

/-- C27. For every `roi` contained in the bounds of a map that has one byte per pixel of its
bounds, in both modes: every offset dereferenced by `minimalNonMarkedBbox_internal` and by
`minimalNonMarkedRects_internal` is `(y - bounds.y1) * width + (x - bounds.x1)` for a pixel
`(x, y)` of `roi`; it lies in `[0, width * height)`, and the read is a read of the buffer:
`peek` does not take its out-of-range branch. -/
theorem reads_stay_inside_roi (trimap : Bool) (roi _bounds : RectI) (mapStart : List Nat)
    (flag : Bool) (hroi : _bounds.contains roi = true)
    (hlen : (mapStart.length : Int) = _bounds.width * _bounds.height) :
    (∀ o ∈ minimalNonMarkedBbox_reads trimap roi _bounds mapStart flag,
      (∃ x y, roi.hasPixel x y ∧
        o = (y - _bounds.y1) * _bounds.width + (x - _bounds.x1)) ∧
      0 ≤ o ∧ o < _bounds.width * _bounds.height ∧
      mapStart.get? o.toNat = some (peek mapStart o)) ∧
    (∀ o ∈ minimalNonMarkedRects_reads trimap roi _bounds mapStart flag,
      (∃ x y, roi.hasPixel x y ∧
        o = (y - _bounds.y1) * _bounds.width + (x - _bounds.x1)) ∧
      0 ≤ o ∧ o < _bounds.width * _bounds.height ∧
      mapStart.get? o.toNat = some (peek mapStart o)) := by
  have key : ∀ o : Int, (∃ x y, roi.hasPixel x y ∧ o = BM_GET _bounds y x) →
      (∃ x y, roi.hasPixel x y ∧
        o = (y - _bounds.y1) * _bounds.width + (x - _bounds.x1)) ∧
      0 ≤ o ∧ o < _bounds.width * _bounds.height ∧
      mapStart.get? o.toNat = some (peek mapStart o) := by
    rintro o ⟨x, y, hp, e⟩
    obtain ⟨h0, h1⟩ := BM_GET_in_buffer _bounds x y (RectI.hasPixel_of_contains _ _ hroi x y hp)
    rw [← e] at h0 h1
    exact ⟨⟨x, y, hp, e⟩, h0, h1, peek_in_range mapStart o h0 (by rw [hlen]; exact h1)⟩
  refine ⟨?_, ?_⟩
  · intro o ho
    exact key o (bbox_reads_mem trimap roi _bounds mapStart flag o ho)
  · intro o ho
    obtain ⟨x, y, h1, -, e⟩ := rects_reads_mem trimap roi _bounds mapStart flag o ho
    exact key o ⟨x, y, h1, e⟩

/-- C27 at a concrete input: the 3×3 map `0 0 0 / 1 1 1 / 0 1 1` queried on its bounds in
non-trimap mode; the offsets read, in order, by `minimalNonMarkedRects_internal`. -/
theorem reads_stay_inside_roi_witness :
    (RectI.mk 0 0 3 3).contains ⟨0, 0, 3, 3⟩ = true ∧
    (([0, 0, 0, 1, 1, 1, 0, 1, 1] : List Nat).length : Int) =
      (RectI.mk 0 0 3 3).width * (RectI.mk 0 0 3 3).height ∧
    minimalNonMarkedRects_reads false ⟨0, 0, 3, 3⟩ ⟨0, 0, 3, 3⟩ [0, 0, 0, 1, 1, 1, 0, 1, 1]
      false = [0, 6, 0, 2, 0, 1, 2, 3, 6, 7, 3, 5, 3, 4, 5, 6, 6, 6, 8, 7, 6] ∧
    ∀ o ∈ minimalNonMarkedRects_reads false ⟨0, 0, 3, 3⟩ ⟨0, 0, 3, 3⟩
        [0, 0, 0, 1, 1, 1, 0, 1, 1] false,
      (∃ x y, (RectI.mk 0 0 3 3).hasPixel x y ∧
        o = (y - (RectI.mk 0 0 3 3).y1) * (RectI.mk 0 0 3 3).width +
          (x - (RectI.mk 0 0 3 3).x1)) ∧
      0 ≤ o ∧ o < (RectI.mk 0 0 3 3).width * (RectI.mk 0 0 3 3).height ∧
      ([0, 0, 0, 1, 1, 1, 0, 1, 1] : List Nat).get? o.toNat =
        some (peek [0, 0, 0, 1, 1, 1, 0, 1, 1] o) :=
  ⟨by decide, by decide, by decide,
    (reads_stay_inside_roi false ⟨0, 0, 3, 3⟩ ⟨0, 0, 3, 3⟩ [0, 0, 0, 1, 1, 1, 0, 1, 1] false
      (by decide) (by decide)).2⟩

/-! ## Halving the bitmap -/

theorem halve_arith (tc nc tr nr : Bool) (p00 p10 p01 p11 : Nat)
    (h00 : p00 = 0 ∨ p00 = 1 ∨ p00 = 2) (h10 : p10 = 0 ∨ p10 = 1 ∨ p10 = 2)
    (h01 : p01 = 0 ∨ p01 = 1 ∨ p01 = 2) (h11 : p11 = 0 ∨ p11 = 1 ∨ p11 = 2)
    (hw : tc = true ∨ nc = true) (hh : tr = true ∨ nr = true) :
    (if ((if tc then 1 else 0) + (if nc then 1 else 0)) *
        ((if nr then 1 else 0) + (if tr then 1 else 0)) = 0 then 0
      else
        ((if (if tc && tr then p00 else 0) = 2 then 0 else (if tc && tr then p00 else 0)) +
          (if (if nc && tr then p10 else 0) = 2 then 0 else (if nc && tr then p10 else 0)) +
          (if (if tc && nr then p01 else 0) = 2 then 0 else (if tc && nr then p01 else 0)) +
          (if (if nc && nr then p11 else 0) = 2 then 0 else (if nc && nr then p11 else 0))) /
          (((if tc then 1 else 0) + (if nc then 1 else 0)) *
            ((if nr then 1 else 0) + (if tr then 1 else 0))) % 256) =
      if ((tc = true ∧ tr = true → p00 = 1) ∧ (nc = true ∧ tr = true → p10 = 1) ∧
        (tc = true ∧ nr = true → p01 = 1) ∧ (nc = true ∧ nr = true → p11 = 1)) then 1 else 0 := by
  rcases h00 with rfl | rfl | rfl <;> rcases h10 with rfl | rfl | rfl <;>
    rcases h01 with rfl | rfl | rfl <;> rcases h11 with rfl | rfl | rfl <;>
    revert tc nc tr nr <;> decide

theorem halveBitmapByte_spec (srcBounds : RectI) (srcBmMap : List Nat) (x y : Int)
    (hbytes : ∀ v ∈ srcBmMap, v = 0 ∨ v = 1 ∨ v = PIXEL_UNAVAILABLE)
    (hw : srcBounds.x1 ≤ 2 * x + 1 ∧ 2 * x < srcBounds.x2 ∧ srcBounds.x1 < srcBounds.x2)
    (hh : srcBounds.y1 ≤ 2 * y + 1 ∧ 2 * y < srcBounds.y2 ∧ srcBounds.y1 < srcBounds.y2) :
    (sourcesRendered srcBounds srcBmMap x y →
      halveBitmapByte srcBounds srcBmMap srcBounds.width (BM_GET srcBounds (y * 2) (x * 2))
        x y = 1) ∧
    (¬ sourcesRendered srcBounds srcBmMap x y →
      halveBitmapByte srcBounds srcBmMap srcBounds.width (BM_GET srcBounds (y * 2) (x * 2))
        x y = 0) := by
  have hv : ∀ o, peek srcBmMap o = 0 ∨ peek srcBmMap o = 1 ∨ peek srcBmMap o = 2 := by
    intro o
    rcases peek_mem_or_zero srcBmMap o with h | h
    · exact hbytes _ h
    · exact Or.inl h
  have e2 : BM_GET srcBounds (y * 2) (x * 2) + 1 = BM_GET srcBounds (2 * y) (2 * x + 1) := by
    unfold BM_GET; ring
  have e3 : BM_GET srcBounds (y * 2) (x * 2) + srcBounds.width =
      BM_GET srcBounds (2 * y + 1) (2 * x) := by
    unfold BM_GET; ring
  have e4 : BM_GET srcBounds (y * 2) (x * 2) + srcBounds.width + 1 =
      BM_GET srcBounds (2 * y + 1) (2 * x + 1) := by
    unfold BM_GET; ring
  have e1 : BM_GET srcBounds (y * 2) (x * 2) = BM_GET srcBounds (2 * y) (2 * x) := by
    unfold BM_GET; ring
  have key := halve_arith
    (decide (srcBounds.x1 ≤ x * 2 + 0) && decide (x * 2 + 0 < srcBounds.x2))
    (decide (srcBounds.x1 ≤ x * 2 + 1) && decide (x * 2 + 1 < srcBounds.x2))
    (decide (srcBounds.y1 ≤ y * 2 + 0) && decide (y * 2 + 0 < srcBounds.y2))
    (decide (srcBounds.y1 ≤ y * 2 + 1) && decide (y * 2 + 1 < srcBounds.y2))
    (peek srcBmMap (BM_GET srcBounds (y * 2) (x * 2)))
    (peek srcBmMap (BM_GET srcBounds (y * 2) (x * 2) + 1))
    (peek srcBmMap (BM_GET srcBounds (y * 2) (x * 2) + srcBounds.width))
    (peek srcBmMap (BM_GET srcBounds (y * 2) (x * 2) + srcBounds.width + 1))
    (hv _) (hv _) (hv _) (hv _)
    (by simp only [Bool.and_eq_true, decide_eq_true_eq]; omega)
    (by simp only [Bool.and_eq_true, decide_eq_true_eq]; omega)
  have hbyte : halveBitmapByte srcBounds srcBmMap srcBounds.width
      (BM_GET srcBounds (y * 2) (x * 2)) x y = _ := key
  rw [hbyte, e4, e3, e2, e1]
  simp only [Bool.and_eq_true, decide_eq_true_eq, add_zero]
  have hiff : sourcesRendered srcBounds srcBmMap x y ↔
      (((srcBounds.x1 ≤ x * 2 ∧ x * 2 < srcBounds.x2) ∧
          srcBounds.y1 ≤ y * 2 ∧ y * 2 < srcBounds.y2 →
        peek srcBmMap (BM_GET srcBounds (2 * y) (2 * x)) = 1) ∧
      ((srcBounds.x1 ≤ x * 2 + 1 ∧ x * 2 + 1 < srcBounds.x2) ∧
          srcBounds.y1 ≤ y * 2 ∧ y * 2 < srcBounds.y2 →
        peek srcBmMap (BM_GET srcBounds (2 * y) (2 * x + 1)) = 1) ∧
      ((srcBounds.x1 ≤ x * 2 ∧ x * 2 < srcBounds.x2) ∧
          srcBounds.y1 ≤ y * 2 + 1 ∧ y * 2 + 1 < srcBounds.y2 →
        peek srcBmMap (BM_GET srcBounds (2 * y + 1) (2 * x)) = 1) ∧
      ((srcBounds.x1 ≤ x * 2 + 1 ∧ x * 2 + 1 < srcBounds.x2) ∧
          srcBounds.y1 ≤ y * 2 + 1 ∧ y * 2 + 1 < srcBounds.y2 →
        peek srcBmMap (BM_GET srcBounds (2 * y + 1) (2 * x + 1)) = 1)) := by
    unfold sourcesRendered
    constructor
    · intro h
      refine ⟨fun c => h _ _ (Or.inl rfl) (Or.inl rfl) ⟨by omega, by omega, by omega, by omega⟩,
        fun c => h _ _ (Or.inr rfl) (Or.inl rfl) ⟨by omega, by omega, by omega, by omega⟩,
        fun c => h _ _ (Or.inl rfl) (Or.inr rfl) ⟨by omega, by omega, by omega, by omega⟩,
        fun c => h _ _ (Or.inr rfl) (Or.inr rfl) ⟨by omega, by omega, by omega, by omega⟩⟩
    · rintro ⟨h1, h2, h3, h4⟩ sx sy hsx hsy ⟨p1, p2, p3, p4⟩
      rcases hsx with rfl | rfl <;> rcases hsy with rfl | rfl
      · exact h1 ⟨⟨by omega, by omega⟩, by omega, by omega⟩
      · exact h3 ⟨⟨by omega, by omega⟩, by omega, by omega⟩
      · exact h2 ⟨⟨by omega, by omega⟩, by omega, by omega⟩
      · exact h4 ⟨⟨by omega, by omega⟩, by omega, by omega⟩
  constructor
  · intro h
    rw [if_pos (hiff.mp h)]
  · intro h
    rw [if_neg (fun c => h (hiff.mpr c))]

theorem halveColumns_length (srcBounds : RectI) (srcBmMap : List Nat) (srcBmRowSize : Int)
    (srcBmLineStart dstBmLineStart y : Int) (dstRoI : RectI) :
    ∀ (fuel : Nat) (x : Int) (dstBmMap : List Nat),
    (halveColumns srcBounds srcBmMap srcBmRowSize srcBmLineStart dstBmLineStart y dstRoI fuel x
      dstBmMap).length = dstBmMap.length := by
  intro fuel
  induction fuel with
  | zero => intro x dst; rfl
  | succ fuel ih =>
    intro x dst
    rw [halveColumns]
    split_ifs
    · simp only [ih, poke_length]
    · rfl

theorem peek_halveColumns (srcBounds : RectI) (srcBmMap : List Nat) (srcBmRowSize : Int)
    (srcBmLineStart dstBmLineStart y : Int) (dstRoI : RectI) :
    ∀ (fuel : Nat) (x : Int) (dstBmMap : List Nat) (off : Int),
    peek (halveColumns srcBounds srcBmMap srcBmRowSize srcBmLineStart dstBmLineStart y dstRoI
      fuel x dstBmMap) off =
      if 0 ≤ off ∧ off < dstBmMap.length ∧ dstBmLineStart + x ≤ off ∧
          off < dstBmLineStart + dstRoI.x2 ∧ off < dstBmLineStart + x + fuel then
        halveBitmapByte srcBounds srcBmMap srcBmRowSize
          (srcBmLineStart + (off - dstBmLineStart) * 2) (off - dstBmLineStart) y
      else peek dstBmMap off := by
  intro fuel
  induction fuel with
  | zero =>
    intro x dst off
    rw [halveColumns, if_neg]
    rintro ⟨-, -, h1, -, h2⟩
    simp only [Nat.cast_zero, add_zero] at h2
    omega
  | succ fuel ih =>
    intro x dst off
    rw [halveColumns]
    by_cases hx : x < dstRoI.x2
    · rw [if_pos hx]
      simp only
      rw [ih, poke_length, peek_poke]
      by_cases hb : 0 ≤ off ∧ off < (dst.length : Int)
      · by_cases h0 : off = dstBmLineStart + x
        · subst h0
          rw [if_neg (by omega), if_pos ⟨hb.1, hb.2, rfl⟩,
            if_pos ⟨hb.1, hb.2, le_refl _, by omega, by push_cast; omega⟩]
          congr 1
          · ring
          · ring
        · by_cases hr : dstBmLineStart + (x + 1) ≤ off ∧ off < dstBmLineStart + dstRoI.x2 ∧
              off < dstBmLineStart + (x + 1) + (fuel : Int)
          · rw [if_pos ⟨hb.1, hb.2, hr.1, hr.2.1, hr.2.2⟩,
              if_pos ⟨hb.1, hb.2, by omega, hr.2.1, by push_cast; omega⟩]
          · rw [if_neg (fun h => hr ⟨h.2.2.1, h.2.2.2.1, h.2.2.2.2⟩),
              if_neg (fun h => h0 h.2.2), if_neg]
            rintro ⟨-, -, h1, h2, h3⟩
            push_cast at h3
            exact hr ⟨by omega, h2, by omega⟩
      · rw [if_neg (fun h => hb ⟨h.1, h.2.1⟩), if_neg (fun h => hb ⟨h.1, h.2.1⟩),
          if_neg (fun h => hb ⟨h.1, h.2.1⟩)]
    · rw [if_neg hx, if_neg]
      rintro ⟨-, -, h1, h2, -⟩
      omega

theorem halveRows_length (srcBounds : RectI) (srcBmMap : List Nat)
    (srcBmRowSize dstBmRowSize srcBmData dstBmData : Int) (dstRoI : RectI) :
    ∀ (fuel : Nat) (y : Int) (dstBmMap : List Nat),
    (halveRows srcBounds srcBmMap srcBmRowSize dstBmRowSize srcBmData dstBmData dstRoI fuel y
      dstBmMap).length = dstBmMap.length := by
  intro fuel
  induction fuel with
  | zero => intro y dst; rfl
  | succ fuel ih =>
    intro y dst
    rw [halveRows]
    split_ifs
    · simp only [ih, halveColumns_length]
    · rfl

theorem peek_halveRows_outside (srcBounds : RectI) (srcBmMap : List Nat)
    (srcBmRowSize dstBmRowSize srcBmData dstBmData : Int) (dstRoI : RectI) :
    ∀ (fuel : Nat) (y : Int) (dstBmMap : List Nat) (off : Int),
    (∀ r, y ≤ r → r < dstRoI.y2 →
      ¬ (dstBmData + r * dstBmRowSize + dstRoI.x1 ≤ off ∧
        off < dstBmData + r * dstBmRowSize + dstRoI.x2)) →
    peek (halveRows srcBounds srcBmMap srcBmRowSize dstBmRowSize srcBmData dstBmData dstRoI fuel
      y dstBmMap) off = peek dstBmMap off := by
  intro fuel
  induction fuel with
  | zero => intro y dst off _; rfl
  | succ fuel ih =>
    intro y dst off h
    rw [halveRows]
    by_cases hy : y < dstRoI.y2
    · rw [if_pos hy]
      simp only
      rw [ih, peek_halveColumns, if_neg]
      · rintro ⟨-, -, h1, h2, -⟩
        exact h y (le_refl _) hy ⟨h1, h2⟩
      · intro r hr1 hr2
        exact h r (by omega) hr2
    · rw [if_neg hy]

theorem peek_halveRows_inside (srcBounds : RectI) (srcBmMap : List Nat)
    (srcBmRowSize dstBmRowSize srcBmData dstBmData : Int) (dstRoI : RectI) :
    ∀ (fuel : Nat) (y : Int) (dstBmMap : List Nat) (off r : Int),
    y ≤ r → r < dstRoI.y2 → r < y + fuel → 0 ≤ off → off < dstBmMap.length →
    dstBmData + r * dstBmRowSize + dstRoI.x1 ≤ off →
    off < dstBmData + r * dstBmRowSize + dstRoI.x2 →
    (∀ s, s ≠ r → ¬ (dstBmData + s * dstBmRowSize + dstRoI.x1 ≤ off ∧
      off < dstBmData + s * dstBmRowSize + dstRoI.x2)) →
    peek (halveRows srcBounds srcBmMap srcBmRowSize dstBmRowSize srcBmData dstBmData dstRoI fuel
      y dstBmMap) off =
      halveBitmapByte srcBounds srcBmMap srcBmRowSize
        (srcBmData + r * 2 * srcBmRowSize + (off - (dstBmData + r * dstBmRowSize)) * 2)
        (off - (dstBmData + r * dstBmRowSize)) r := by
  intro fuel
  induction fuel with
  | zero => intro y dst off r h1 h2 h3; simp only [Nat.cast_zero, add_zero] at h3; omega
  | succ fuel ih =>
    intro y dst off r h1 h2 h3 h0 hlen hlo hhi hother
    have hy : y < dstRoI.y2 := by omega
    rw [halveRows, if_pos hy]
    simp only
    by_cases hr : r = y
    · subst hr
      rw [peek_halveRows_outside, peek_halveColumns,
        if_pos ⟨h0, hlen, hlo, hhi, by omega⟩]
      intro s hs1 hs2
      exact hother s (by omega)
    · push_cast at h3
      exact ih (y + 1) _ off r (by omega) h2 (by omega) h0
        (by rw [halveColumns_length]; exact hlen) hlo hhi hother

theorem row_range_inj (D W a b lo hi x s y : Int) (hW : W = hi - lo) (ha : lo ≤ a)
    (hb : b ≤ hi) (hx1 : lo ≤ x) (hx2 : x < hi)
    (h1 : D + s * W + a ≤ D + y * W + x) (h2 : D + y * W + x < D + s * W + b) :
    s = y ∧ a ≤ x ∧ x < b := by
  have hpos : 0 < W := by omega
  have hs : s = y := by
    rcases lt_trichotomy s y with hlt | heq | hgt
    · exfalso
      have h := mul_le_mul_of_nonneg_right (show s + 1 ≤ y by omega) (le_of_lt hpos)
      have e : (s + 1) * W = s * W + W := by ring
      rw [e] at h
      omega
    · exact heq
    · exfalso
      have h := mul_le_mul_of_nonneg_right (show y + 1 ≤ s by omega) (le_of_lt hpos)
      have e : (y + 1) * W = y * W + W := by ring
      rw [e] at h
      omega
  subst hs
  exact ⟨rfl, by omega, by omega⟩

theorem halvedRoI_of_intersect (roi srcBounds srcRoI : RectI)
    (h : roi.intersect srcBounds = some srcRoI) :
    halvedRoI roi srcBounds =
      ⟨srcRoI.x1 / 2, srcRoI.y1 / 2, -(-srcRoI.x2 / 2), -(-srcRoI.y2 / 2)⟩ := by
  unfold halvedRoI
  rw [h]
  rfl

/-- C29. In `halveRoIForDepth` with `copyBitMap` set, for a source bitmap on the bounds of the
source image whose bytes are 0, 1 or `PIXEL_UNAVAILABLE`, a `roi` that is neither one
pixel wide nor one pixel high and shares a pixel with the source bounds, and a
destination bitmap that has one byte per pixel of its bounds and contains `dstRoI`: the
call completes; for every pixel `(x, y)` of `dstRoI`, one of the four source pixels
`(2x, 2y)`, `(2x+1, 2y)`, `(2x, 2y+1)`, `(2x+1, 2y+1)` lies inside the source bounds, the
byte written is 1 if every one of the four that lies inside the source bounds has the
value 1 and 0 otherwise (a source byte `PIXEL_UNAVAILABLE` gives 0), so it is 0 or 1; and
the pixels of the destination outside `dstRoI` read as before. -/
theorem halved_bitmap_is_conservative (srcBm dstBm : Bitmap) (roi srcRoI : RectI)
    (hbytes : ∀ v ∈ srcBm._map, v = 0 ∨ v = 1 ∨ v = PIXEL_UNAVAILABLE)
    (hroi : roi.intersect srcBm._bounds = some srcRoI)
    (h1D : roi.width ≠ 1 ∧ roi.height ≠ 1)
    (hdst : dstBm.sized)
    (hin : dstBm._bounds.contains (halvedRoI roi srcBm._bounds) = true) :
    ∃ result : Bitmap,
      halveRoIForDepth srcBm._bounds srcBm roi true dstBm = some result ∧
      result._bounds = dstBm._bounds ∧
      (∀ x y, (halvedRoI roi srcBm._bounds).hasPixel x y →
        sourceInside srcBm._bounds x y ∧
        (sourcesRendered srcBm._bounds srcBm._map x y →
          pixelAt result._bounds result._map x y = 1) ∧
        (¬ sourcesRendered srcBm._bounds srcBm._map x y →
          pixelAt result._bounds result._map x y = 0) ∧
        (pixelAt result._bounds result._map x y = 0 ∨
          pixelAt result._bounds result._map x y = 1)) ∧
      (∀ x y, dstBm._bounds.hasPixel x y → ¬ (halvedRoI roi srcBm._bounds).hasPixel x y →
        pixelAt result._bounds result._map x y = pixelAt dstBm._bounds dstBm._map x y) := by
  have hR := halvedRoI_of_intersect roi srcBm._bounds srcRoI hroi
  have hsn := RectI.intersect_some_notNull roi srcBm._bounds srcRoI hroi
  obtain ⟨hsx, hsy⟩ := (RectI.isNull_false_iff _).mp hsn
  have hsc := (RectI.contains_of_intersect roi srcBm._bounds srcRoI hroi).2
  simp only [RectI.contains, Bool.and_eq_true, decide_eq_true_eq] at hsc
  obtain ⟨⟨⟨c1, c2⟩, c3⟩, c4⟩ := hsc
  rw [hR] at hin ⊢
  have hin' := hin
  simp only [RectI.contains, Bool.and_eq_true, decide_eq_true_eq] at hin'
  obtain ⟨⟨⟨d1, d2⟩, d3⟩, d4⟩ := hin'
  obtain ⟨s1, s2, slen⟩ := hdst
  -- the two base pointers
  have gs : srcBm.getBitmapAt srcBm._bounds.x1 srcBm._bounds.y1 =
      some (BM_GET srcBm._bounds srcBm._bounds.y1 srcBm._bounds.x1) :=
    Bitmap.getBitmapAt_of_hasPixel srcBm _ _ ⟨le_refl _, by omega, le_refl _, by omega⟩
  have gd : dstBm.getBitmapAt dstBm._bounds.x1 dstBm._bounds.y1 =
      some (BM_GET dstBm._bounds dstBm._bounds.y1 dstBm._bounds.x1) :=
    Bitmap.getBitmapAt_of_hasPixel dstBm _ _ ⟨le_refl _, by omega, le_refl _, by omega⟩
  refine ⟨⟨dstBm._bounds,
    halveRows srcBm._bounds srcBm._map srcBm._bounds.width dstBm._bounds.width
      (BM_GET srcBm._bounds srcBm._bounds.y1 srcBm._bounds.x1 -
        (srcBm._bounds.x1 + srcBm._bounds.width * srcBm._bounds.y1))
      (BM_GET dstBm._bounds dstBm._bounds.y1 dstBm._bounds.x1 -
        (dstBm._bounds.x1 + dstBm._bounds.width * dstBm._bounds.y1))
      ⟨srcRoI.x1 / 2, srcRoI.y1 / 2, -(-srcRoI.x2 / 2), -(-srcRoI.y2 / 2)⟩
      (-(-srcRoI.y2 / 2) - srcRoI.y1 / 2).toNat (srcRoI.y1 / 2) dstBm._map,
    dstBm._dirtyZone, dstBm._dirtyZoneSet⟩, ?_, rfl, ?_, ?_⟩
  · unfold halveRoIForDepth
    rw [if_neg (by omega), hR]
    simp only [if_true]
    rw [gs, gd]
  · intro x y hp
    simp only [RectI.hasPixel] at hp
    obtain ⟨p1, p2, p3, p4⟩ := hp
    have hw : srcBm._bounds.x1 ≤ 2 * x + 1 ∧ 2 * x < srcBm._bounds.x2 ∧
        srcBm._bounds.x1 < srcBm._bounds.x2 := by omega
    have hh : srcBm._bounds.y1 ≤ 2 * y + 1 ∧ 2 * y < srcBm._bounds.y2 ∧
        srcBm._bounds.y1 < srcBm._bounds.y2 := by omega
    have hb : dstBm._bounds.hasPixel x y := ⟨by omega, by omega, by omega, by omega⟩
    obtain ⟨o0, o1⟩ := BM_GET_in_buffer dstBm._bounds x y hb
    have hoff : BM_GET dstBm._bounds y x =
        BM_GET dstBm._bounds dstBm._bounds.y1 dstBm._bounds.x1 -
          (dstBm._bounds.x1 + dstBm._bounds.width * dstBm._bounds.y1) +
          y * dstBm._bounds.width + x := by
      unfold BM_GET RectI.bottom RectI.left; ring
    have hval : pixelAt dstBm._bounds
        (halveRows srcBm._bounds srcBm._map srcBm._bounds.width dstBm._bounds.width
          (BM_GET srcBm._bounds srcBm._bounds.y1 srcBm._bounds.x1 -
            (srcBm._bounds.x1 + srcBm._bounds.width * srcBm._bounds.y1))
          (BM_GET dstBm._bounds dstBm._bounds.y1 dstBm._bounds.x1 -
            (dstBm._bounds.x1 + dstBm._bounds.width * dstBm._bounds.y1))
          ⟨srcRoI.x1 / 2, srcRoI.y1 / 2, -(-srcRoI.x2 / 2), -(-srcRoI.y2 / 2)⟩
          (-(-srcRoI.y2 / 2) - srcRoI.y1 / 2).toNat (srcRoI.y1 / 2) dstBm._map) x y =
        halveBitmapByte srcBm._bounds srcBm._map srcBm._bounds.width
          (BM_GET srcBm._bounds (y * 2) (x * 2)) x y := by
      unfold pixelAt
      rw [peek_halveRows_inside _ _ _ _ _ _ _ _ _ _ _ y p3 p4 (by omega) o0
        (by rw [slen]; exact o1) (by rw [hoff]; simp only; omega)
        (by rw [hoff]; simp only; omega)]
      · have ex : BM_GET dstBm._bounds y x -
            (BM_GET dstBm._bounds dstBm._bounds.y1 dstBm._bounds.x1 -
              (dstBm._bounds.x1 + dstBm._bounds.width * dstBm._bounds.y1) +
              y * dstBm._bounds.width) = x := by
          rw [hoff]; ring
        rw [ex]
        congr 1
        unfold BM_GET RectI.bottom RectI.left; ring
      · intro s hs hc
        rw [hoff] at hc
        simp only at hc
        exact hs (row_range_inj _ _ _ _ dstBm._bounds.x1 dstBm._bounds.x2 x s y rfl d1 d3
          hb.1 hb.2.1 hc.1 hc.2).1
    simp only at hval ⊢
    rw [hval]
    obtain ⟨v1, v0⟩ := halveBitmapByte_spec srcBm._bounds srcBm._map x y hbytes hw hh
    refine ⟨?_, v1, v0, ?_⟩
    · refine ⟨if srcBm._bounds.x1 ≤ 2 * x then 2 * x else 2 * x + 1,
        if srcBm._bounds.y1 ≤ 2 * y then 2 * y else 2 * y + 1, ?_, ?_, ?_⟩
      · split_ifs
        · exact Or.inl rfl
        · exact Or.inr rfl
      · split_ifs
        · exact Or.inl rfl
        · exact Or.inr rfl
      · unfold RectI.hasPixel
        split_ifs <;> omega
    · by_cases hall : sourcesRendered srcBm._bounds srcBm._map x y
      · exact Or.inr (v1 hall)
      · exact Or.inl (v0 hall)
  · intro x y hb hout
    simp only
    unfold pixelAt
    rw [peek_halveRows_outside]
    intro r hr1 hr2 hc
    have hoff : BM_GET dstBm._bounds y x =
        BM_GET dstBm._bounds dstBm._bounds.y1 dstBm._bounds.x1 -
          (dstBm._bounds.x1 + dstBm._bounds.width * dstBm._bounds.y1) +
          y * dstBm._bounds.width + x := by
      unfold BM_GET RectI.bottom RectI.left; ring
    rw [hoff] at hc
    simp only at hc hr1 hr2
    obtain ⟨e1, e2, e3⟩ := row_range_inj _ _ _ _ dstBm._bounds.x1 dstBm._bounds.x2 x r y rfl
      d1 d3 hb.1 hb.2.1 hc.1 hc.2
    subst e1
    exact hout ⟨e2, e3, hr1, hr2⟩

/-- C29 at a concrete input: the 3×3 source bitmap on `[1,4) × [1,4)` whose bytes are 1 except
for a `PIXEL_UNAVAILABLE` at `(3, 3)`, halved into a 2×2 bitmap on `[0,2) × [0,2)`. The
destination pixel `(0, 0)` has the single source pixel `(1, 1)` inside the source bounds
and gets 1; `(1, 1)` has four, one of them reserved, and gets 0. -/
theorem halved_bitmap_is_conservative_witness :
    (∀ v ∈ [1, 1, 1, 1, 1, 1, 1, 1, 2], v = 0 ∨ v = 1 ∨ v = PIXEL_UNAVAILABLE) ∧
    (RectI.mk 1 1 4 4).intersect ⟨1, 1, 4, 4⟩ = some ⟨1, 1, 4, 4⟩ ∧
    halvedRoI ⟨1, 1, 4, 4⟩ ⟨1, 1, 4, 4⟩ = ⟨0, 0, 2, 2⟩ ∧
    halveRoIForDepth ⟨1, 1, 4, 4⟩
      (Bitmap.mk ⟨1, 1, 4, 4⟩ [1, 1, 1, 1, 1, 1, 1, 1, 2] RectI.zero false) ⟨1, 1, 4, 4⟩ true
      (Bitmap.mk ⟨0, 0, 2, 2⟩ [7, 7, 7, 7] RectI.zero false) =
      some (Bitmap.mk ⟨0, 0, 2, 2⟩ [1, 1, 1, 0] RectI.zero false) ∧
    ∃ result : Bitmap,
      halveRoIForDepth ⟨1, 1, 4, 4⟩
        (Bitmap.mk ⟨1, 1, 4, 4⟩ [1, 1, 1, 1, 1, 1, 1, 1, 2] RectI.zero false) ⟨1, 1, 4, 4⟩ true
        (Bitmap.mk ⟨0, 0, 2, 2⟩ [7, 7, 7, 7] RectI.zero false) = some result ∧
      ∀ x y, (halvedRoI ⟨1, 1, 4, 4⟩ ⟨1, 1, 4, 4⟩).hasPixel x y →
        sourceInside ⟨1, 1, 4, 4⟩ x y ∧
        (pixelAt result._bounds result._map x y = 0 ∨
          pixelAt result._bounds result._map x y = 1) :=
  ⟨by decide, by decide, by decide, by decide,
    match halved_bitmap_is_conservative
      (Bitmap.mk ⟨1, 1, 4, 4⟩ [1, 1, 1, 1, 1, 1, 1, 1, 2] RectI.zero false)
      (Bitmap.mk ⟨0, 0, 2, 2⟩ [7, 7, 7, 7] RectI.zero false) ⟨1, 1, 4, 4⟩ ⟨1, 1, 4, 4⟩
      (by decide) (by decide) (by decide) (by decide) (by decide) with
    | ⟨result, h1, _, h3, _⟩ => ⟨result, h1, fun x y hp => ⟨(h3 x y hp).1, (h3 x y hp).2.2.2⟩⟩⟩

/-! ## Halving a one-pixel-wide region -/

/-- C30 fails on the code. A one-column image of one component with the rows 10 and 20 is
halved to the byte 10, not to the average 15: line 1987 adds `rowSize` to the value `*src`
where it should read the pixel one row up, `*(src + rowSize)`, so the byte written is
`(2 * 10 + 1) / 2`. With two components and four rows `(10, 100)`, `(20, 200)`,
`(30, 50)`, `(40, 60)` the bytes written are 11, 101, 31, 51. The one-row case on the
same values gives the averages: 15, and 15, 150, 35, 55. In an image two pixels wide with
the rows `(1, 2)`, `(3, 4)`, `(5, 6)`, `(7, 8)`, the column `x = 0` is halved to 2 and 5:
after the first output row `src` has moved one row up and one pixel to the right (lines
1988 and 1990), and the second byte is computed from the 4 of the other column. -/
theorem halve1D_one_column_does_not_average :
    (Image.mk ⟨0, 0, 1, 2⟩ 1 [10, 20]).halve1DImageForDepth ⟨0, 0, 1, 2⟩
      (Image.mk ⟨0, 0, 1, 1⟩ 1 [0]) = some (Image.mk ⟨0, 0, 1, 1⟩ 1 [10]) ∧
    halfToPIX (10 + 20) = 15 ∧
    (Image.mk ⟨0, 0, 1, 4⟩ 2 [10, 100, 20, 200, 30, 50, 40, 60]).halve1DImageForDepth
      ⟨0, 0, 1, 4⟩ (Image.mk ⟨0, 0, 1, 2⟩ 2 [0, 0, 0, 0]) =
      some (Image.mk ⟨0, 0, 1, 2⟩ 2 [11, 101, 31, 51]) ∧
    (Image.mk ⟨0, 0, 2, 1⟩ 1 [10, 20]).halve1DImageForDepth ⟨0, 0, 2, 1⟩
      (Image.mk ⟨0, 0, 1, 1⟩ 1 [0]) = some (Image.mk ⟨0, 0, 1, 1⟩ 1 [15]) ∧
    (Image.mk ⟨0, 0, 4, 1⟩ 2 [10, 100, 20, 200, 30, 50, 40, 60]).halve1DImageForDepth
      ⟨0, 0, 4, 1⟩ (Image.mk ⟨0, 0, 2, 1⟩ 2 [0, 0, 0, 0]) =
      some (Image.mk ⟨0, 0, 2, 1⟩ 2 [15, 150, 35, 55]) ∧
    (Image.mk ⟨0, 0, 2, 4⟩ 1 [1, 2, 3, 4, 5, 6, 7, 8]).halve1DImageForDepth ⟨0, 0, 1, 4⟩
      (Image.mk ⟨0, 0, 1, 2⟩ 1 [0, 0]) = some (Image.mk ⟨0, 0, 1, 2⟩ 1 [2, 5]) ∧
    halfToPIX (1 + 3) = 2 ∧ halfToPIX (5 + 7) = 6 := by
  decide

end Natron
